import Mathlib

/-! # The vital configuration-file parser (config_parser.cxx)

A shallow embedding of `kwiver::vital::config_parser::priv` : the line reader
`get_line`, the tokenizer `get_token`, and the driver `process_file`.

Conventions of the embedding.

* `std::string` is a list of characters. `s[i]` is `char_at s i`, which is the
  null character at `i = s.size()` as in C++11. `s.substr(pos)` and
  `s.substr(pos, n)` are fallible: they raise `std::out_of_range` when
  `pos > s.size()`.
* `std::isspace` and `std::isalnum` are those of the "C" locale.
* An input stream is the list of the physical lines that remain to be read;
  `getline` fails exactly when that list is empty.
* The members of `priv` are the fields of the structure `priv`. The driver
  `process_file` is recursive through `include`; it is rendered as a step
  function on a machine that carries the suspended callers explicitly. One
  step is one iteration of the `while ( true )` loop.
* The token expander, the file system and the `boost::filesystem` path
  operations are not part of this translation unit; they are parameters,
  collected in `environment`.
* `LOG_ERROR` appends to `m_logger`; `LOG_DEBUG` output is not recorded.
* `set_value` on the configuration block and `add_entry` on the symbol table
  are recorded as appended writes.
* The class `camera_intrinsics_<T>` of camera_intrinsics.cxx is rendered over a
  field `T`, whose exact arithmetic stands for that of `float` and `double`.
-/

namespace kwiver.vital

/-! ## Strings -/

abbrev std_string := List Char

/-- The null character, the value of `s[s.size()]`. -/
def nul : Char := Char.ofNat 0

/-- Element access `s[i]` of `std::string`, for `i ≤ s.size()`. -/
def char_at (s : std_string) (i : Nat) : Char := s.getD i nul

/-- The function `std::isspace` in the "C" locale: space, `\t`, `\n`, `\v`, `\f`, `\r`. -/
def isspace (c : Char) : Bool :=
  c.toNat = 32 || (9 ≤ c.toNat && c.toNat ≤ 13)

/-- The function `std::isalnum` in the "C" locale. -/
def isalnum (c : Char) : Bool :=
  (48 ≤ c.toNat && c.toNat ≤ 57) || (65 ≤ c.toNat && c.toNat ≤ 90) ||
    (97 ≤ c.toNat && c.toNat ≤ 122)

/-- The function `ltrim` (source lines 63-69): erase the leading white space. -/
def ltrim (s : std_string) : std_string := s.dropWhile isspace

/-- The function `rtrim` (source lines 73-79): erase the trailing white space. -/
def rtrim (s : std_string) : std_string := (s.reverse.dropWhile isspace).reverse

/-- The function `trim` (source lines 83-87): `ltrim( rtrim( s ) )`. -/
def trim (s : std_string) : std_string := ltrim (rtrim s)

/-- The call `s.find_first_of( chars )`: the index of the first character of `s`
that occurs in `chars`; `none` is `npos`. -/
def find_first_of (s : std_string) (chars : List Char) : Option Nat :=
  match s with
  | [] => none
  | c :: rest =>
    if c ∈ chars then some 0
    else match find_first_of rest chars with
      | none => none
      | some i => some (i + 1)

/-- The reason carried by a `config_file_not_parsed_exception`: the fixed text
"Errors in config file" (source line 209), or the text built for an `endblock`
without a block (source lines 287-291), which names the file and the line. -/
inductive not_parsed_reason where
  | errors_in_config_file
  | endblock_without_block (file_path : std_string) (line_number : Int)
  deriving DecidableEq, Repr

/-- Exceptions that can leave `process_file`. -/
inductive exception where
  | config_file_not_found (file_path : std_string)
  | config_file_not_parsed (file_path : std_string) (reason : not_parsed_reason)
  | out_of_range
  deriving DecidableEq, Repr

instance instDecidableEqExcept {ε α : Type} [DecidableEq ε] [DecidableEq α] :
    DecidableEq (Except ε α) := fun x y =>
  match x, y with
  | .ok a, .ok b =>
    if h : a = b then isTrue (congrArg Except.ok h)
    else isFalse fun h2 => h (Except.ok.inj h2)
  | .error a, .error b =>
    if h : a = b then isTrue (congrArg Except.error h)
    else isFalse fun h2 => h (Except.error.inj h2)
  | .ok _, .error _ => isFalse fun h => Except.noConfusion h
  | .error _, .ok _ => isFalse fun h => Except.noConfusion h

/-- The call `s.substr( pos )`; raises `std::out_of_range` if `pos > s.size()`. -/
def substr (s : std_string) (pos : Nat) : Except exception std_string :=
  if pos > s.length then .error .out_of_range else .ok (s.drop pos)

/-- The call `s.substr( pos, n )`; raises `std::out_of_range` if `pos > s.size()`. -/
def substr_n (s : std_string) (pos n : Nat) : Except exception std_string :=
  if pos > s.length then .error .out_of_range else .ok ((s.drop pos).take n)

/-! ## Tokens, block contexts and the parser state -/

/-- The enumeration `token_t::type` (source lines 93-99). -/
inductive token_type where
  | TK_LHS
  | TK_RHS
  | TK_ASSIGN
  | TK_EOL
  | TK_EOF
  deriving DecidableEq, Repr

/-- The structure `token_t` (source lines 91-103). -/
structure token_t where
  type : token_type
  value : std_string
  deriving DecidableEq, Repr

/-- The structure `block_context_t` (source lines 114-121). -/
structure block_context_t where
  m_block_name : std_string
  m_file_name : std_string
  m_start_line : Int
  m_previous_context : std_string
  deriving DecidableEq, Repr

/-- What `LOG_ERROR` is given: the "Invalid syntax in line" message of a
malformed statement (last raw line, file, line number), or the "Unclosed blocks
left at end of file" message with one entry (block name, file, start line) for
each frame, in the order in which the entries are written. -/
inductive log_entry where
  | invalid_line (last_line : std_string) (file_path : std_string) (line_number : Int)
  | unclosed_blocks (entries : List (std_string × std_string × Int))
  deriving DecidableEq, Repr

/-- The member data of `config_parser::priv` (source lines 587-617).
`m_block_stack` is in vector order: `push_back` appends at the end and `back()`
is the last element. `m_config_block` is the sequence of `set_value( key, val )`
calls and `m_symtab` the sequence of `add_entry( name, val )` calls, oldest
first. `m_logger` is the sequence of `LOG_ERROR` messages. -/
structure priv where
  m_block_stack : List block_context_t
  m_current_context : std_string
  m_last_line : std_string
  m_line_number : Int
  m_file_count : Int
  m_parse_error : Bool
  m_symtab : List (std_string × std_string)
  m_config_block : List (std_string × std_string)
  m_logger : List log_entry
  m_token_state : Nat
  m_token_line : std_string
  deriving DecidableEq, Repr

/-- The constructor `priv()` (source lines 128-141). -/
def priv_new : priv where
  m_block_stack := []
  m_current_context := []
  m_last_line := []
  m_line_number := 0
  m_file_count := 0
  m_parse_error := false
  m_symtab := []
  m_config_block := []
  m_logger := []
  m_token_state := 0
  m_token_line := []

/-- Modelled from the spec: the constant `config_block::block_sep` is declared in
config_block.h, which is not among the sources; the separator is ':' (also
stated by the comment on `m_current_context`, source line 590). -/
def block_sep : std_string := [':']

/-- An input stream in good state: the physical lines not yet read. The empty
list is a stream at the end of its file on which no read has failed yet. -/
abbrev istream := List std_string

/-! ## The line reader -/

/-- The method `get_line` (source lines 403-445). The result is the returned
flag, the parser state (whose `m_token_line` is the `line` argument of the only
call site) and the stream. When `getline` fails the line is left empty: this is
what `std::getline` does on a stream in good state, where it erases the string
before it extracts. On a stream whose `eofbit` is set already, as after a last
line without a final newline, `std::getline` fails without touching the string,
so that `m_token_line` keeps what the tokenizer left in it; a list of lines does
not tell the two streams apart. Only `m_token_line` after a failed read that
consumed no line is concerned: the flag, the stream, the counter and the last
line are the same, a line that is read overwrites the string, and a line that
is skipped leaves it empty. -/
def get_line (p : priv) (str : istream) : Bool × priv × istream :=
  match str with
  | [] => (false, { p with m_token_line := [] }, [])
  | raw :: rest =>
    let p1 := { p with m_line_number := p.m_line_number + 1, m_last_line := raw }
    let line := trim raw
    if line.length = 0 then get_line p1 rest
    else
      match find_first_of line ['#'] with
      | some idx =>
        let line2 := trim (line.take idx)
        if line2.length = 0 then get_line p1 rest
        else (true, { p1 with m_token_line := line2 }, rest)
      | none => (true, { p1 with m_token_line := line }, rest)

/-! ## The tokenizer -/

/-- The method `flush_line` (source lines 577-580). -/
def flush_line (p : priv) : priv := { p with m_token_state := 0 }

/-- What a call of `get_token` yields: the token with the new parser state and
stream, or an exception with the parser state at the point of the throw. -/
abbrev token_result := Except (exception × priv) (token_t × priv × istream)

/-- The index computed on source lines 487-497: the position of the first
space, tab or '=' (the size of the line if there is none), moved back by one
when the character there is '=' and the one before it is ':'. -/
def lhs_boundary (line : std_string) : Nat :=
  let idx := match find_first_of line [' ', '\t', '='] with
    | none => line.length
    | some i => i
  if idx > 1 ∧ char_at line (idx - 1) = ':' ∧ char_at line idx = '=' then idx - 1 else idx

/-- The body of `case 1` of `get_token` (source lines 479-515), also reached
from `case 0` by fall through. -/
def get_token_lhs (p : priv) (str : istream) : token_result :=
  let idx := lhs_boundary p.m_token_line
  match substr_n p.m_token_line 0 idx with
  | .error e => .error (e, p)
  | .ok value =>
    match substr p.m_token_line idx with
    | .error e => .error (e, p)
    | .ok rest =>
      let line := ltrim rest
      let state := if ¬ isalnum (char_at line 0) then 2 else 1
      .ok (⟨.TK_LHS, value⟩, { p with m_token_line := line, m_token_state := state }, str)

/-- The two statements that end `case 2` of `get_token` (source lines 547-550):
remove the token from the input, trim, go to the RHS state. -/
def get_token_op_finish (p : priv) (str : istream) (token : token_t) (idx : Nat) : token_result :=
  match substr p.m_token_line idx with
  | .error e => .error (e, p)
  | .ok rest => .ok (token, { p with m_token_line := ltrim rest, m_token_state := 3 }, str)

/-- The body of `case 2` of `get_token` (source lines 517-552). In the last
branch the inner `idx` shadows the outer one, which stays 0. -/
def get_token_op (p : priv) (str : istream) : token_result :=
  if char_at p.m_token_line 0 = ':' then
    get_token_op_finish p str ⟨.TK_ASSIGN, [':', '=']⟩ 2
  else if char_at p.m_token_line 0 = '=' then
    get_token_op_finish p str ⟨.TK_ASSIGN, ['=']⟩ 1
  else
    let idx := match find_first_of p.m_token_line [' ', '\t'] with
      | none => p.m_token_line.length
      | some i => i
    match substr_n p.m_token_line 0 idx with
    | .error e => .error (e, p)
    | .ok value =>
      let p1 := { p with m_token_line := ltrim p.m_token_line }
      match substr p1.m_token_line idx with
      | .error e => .error (e, p1)
      | .ok rest => get_token_op_finish { p1 with m_token_line := rest } str ⟨.TK_LHS, value⟩ 0

/-- The method `get_token` (source lines 456-569). `m_token_state` is only ever
assigned 0, 1, 2 or 3; for another value the `switch` has no case and the
caller's token would be left as it was, which is rendered as an empty EOL
token here. -/
def get_token (p : priv) (str : istream) : token_result :=
  if p.m_token_line.length = 0 ∧ p.m_token_state ≠ 0 then
    .ok (⟨.TK_EOL, []⟩, { p with m_token_state := 0 }, str)
  else
    match p.m_token_state with
    | 0 =>
      match get_line p str with
      | (false, p1, str1) => .ok (⟨.TK_EOF, []⟩, { p1 with m_token_state := 0 }, str1)
      | (true, p1, str1) => get_token_lhs p1 str1
    | 1 => get_token_lhs p str
    | 2 => get_token_op p str
    | 3 => .ok (⟨.TK_RHS, p.m_token_line⟩, { p with m_token_line := [], m_token_state := 0 }, str)
    | _ => .ok (⟨.TK_EOL, []⟩, p, str)

/-! ## The driver -/

/-- What `process_file` takes from outside this translation unit: the files
that can be opened, with their physical lines (`std::ifstream`); the token
expander, which reads the configuration block and the symbol table as they are
when it is called (`token_expander::expand_token`); and the path operations of
`boost::filesystem` (`parent_path`, `is_absolute`, `operator/`). -/
structure environment where
  ifstream : std_string → Option istream
  expand_token : List (std_string × std_string) → List (std_string × std_string) →
    std_string → std_string
  parent_path : std_string → std_string
  is_absolute : std_string → Bool
  path_append : std_string → std_string → std_string

/-- The locals of one activation of `process_file`: its argument, the directory
computed on source line 173, and its input stream. -/
structure activation where
  file_path : std_string
  config_file_dir : std_string
  in_stream : istream
  deriving DecidableEq, Repr

/-- A running parse: the member data, the activation of `process_file` that is
executing, and the activations suspended at an `include` (innermost first),
each with the `current_line` it saved on source line 221. -/
structure machine where
  members : priv
  current : activation
  callers : List (activation × Int)
  deriving DecidableEq, Repr

/-- Where a parse stands: inside the loop of some activation, returned from the
outermost `process_file`, or left by an exception. -/
inductive status where
  | running (m : machine)
  | returned (p : priv)
  | thrown (e : exception) (p : priv)
  deriving DecidableEq, Repr

/-- The directive words compared with `token.value` on source lines 216, 241,
278 and 301. -/
def kw_include : std_string := "include".toList
def kw_block : std_string := "block".toList
def kw_endblock : std_string := "endblock".toList
def kw_relativepath : std_string := "relativepath".toList

/-- The operator texts compared with `op` on source lines 353 and 363. -/
def op_define : std_string := [':', '=']
def op_assign : std_string := ['=']

/-- Entry of `process_file` (source lines 154-173): reset the tokenizer and the
line number, open the file, count it, and start the loop. -/
def process_file_enter (env : environment) (p : priv) (file_path : std_string)
    (callers : List (activation × Int)) : status :=
  let p1 := { p with m_token_state := 0, m_token_line := [], m_line_number := 0 }
  match env.ifstream file_path with
  | none => .thrown (.config_file_not_found file_path) p1
  | some in_stream =>
    .running ⟨{ p1 with m_file_count := p1.m_file_count + 1 },
      ⟨file_path, env.parent_path file_path, in_stream⟩, callers⟩

/-- The statement `return` of `process_file` (source line 212): the outermost
activation returns to the caller of `parse_config`; an included file returns
into the `include` branch of its caller, which restores the line number and
continues its loop (source lines 236-237). -/
def process_file_return (p : priv) (callers : List (activation × Int)) : status :=
  match callers with
  | [] => .returned p
  | (caller, current_line) :: rest => .running ⟨{ p with m_line_number := current_line }, caller, rest⟩

/-- The entries written by the loop of source lines 193-201: the frames from
`back()` downwards. -/
def unclosed_entries (stack : List block_context_t) : List (std_string × std_string × Int) :=
  stack.reverse.map fun b => (b.m_block_name, b.m_file_name, b.m_start_line)

/-- The EOF branch of the loop (source lines 181-213). -/
def process_eof (p : priv) (file_path : std_string) (callers : List (activation × Int)) : status :=
  let p1 := { p with m_file_count := p.m_file_count - 1 }
  if 0 = p1.m_file_count then
    let p2 := if 0 ≠ p1.m_block_stack.length then
        { p1 with
          m_logger := p1.m_logger ++ [.unclosed_blocks (unclosed_entries p1.m_block_stack)],
          m_block_stack := [],
          m_parse_error := true }
      else p1
    if p2.m_parse_error then
      .thrown (.config_file_not_parsed file_path .errors_in_config_file) p2
    else process_file_return p2 callers
  else process_file_return p1 callers

/-- The three identical error branches (source lines 247-256, 312-321, 327-336,
342-351): log the last line with file and line number, latch the error, flush
the line, continue. -/
def invalid_statement (p : priv) (file_path : std_string) : priv :=
  flush_line { p with
    m_logger := p.m_logger ++ [.invalid_line p.m_last_line file_path p.m_line_number],
    m_parse_error := true }

/-- Source lines 353-384: the statement is complete, with left-hand side `lhs`,
operator `op` and right-hand side `rhs`. -/
def process_entry (env : environment) (p : priv) (config_file_dir : std_string)
    (rel_path : Bool) (lhs op rhs : std_string) : priv :=
  if op = op_define then
    let val := env.expand_token p.m_config_block p.m_symtab rhs
    { p with m_symtab := p.m_symtab ++ [(lhs, val)] }
  else if op = op_assign then
    let key := p.m_current_context ++ lhs
    let val := env.expand_token p.m_config_block p.m_symtab rhs
    let val := if rel_path then env.path_append config_file_dir val else val
    { p with m_config_block := p.m_config_block ++ [(key, val)] }
  else p

/-- Source lines 311-384: `token` is the token that is supposed to be the LHS,
already read with state `p` and stream `str`. -/
def process_assignment (env : environment) (a : activation) (callers : List (activation × Int))
    (rel_path : Bool) (token : token_t) (p : priv) (str : istream) : status :=
  if token.type ≠ .TK_LHS then
    .running ⟨invalid_statement p a.file_path, { a with in_stream := str }, callers⟩
  else
    let lhs := token.value
    match get_token p str with
    | .error (e, p1) => .thrown e p1
    | .ok (token, p, str) =>
      if token.type ≠ .TK_ASSIGN then
        .running ⟨invalid_statement p a.file_path, { a with in_stream := str }, callers⟩
      else
        let op := token.value
        match get_token p str with
        | .error (e, p1) => .thrown e p1
        | .ok (token, p, str) =>
          if token.type ≠ .TK_RHS then
            .running ⟨invalid_statement p a.file_path, { a with in_stream := str }, callers⟩
          else
            .running ⟨process_entry env p a.config_file_dir rel_path lhs op token.value,
              { a with in_stream := str }, callers⟩

/-- One iteration of the loop of `process_file` (source lines 175-386). -/
def process_statement (env : environment) (m : machine) : status :=
  let a := m.current
  match get_token m.members a.in_stream with
  | .error (e, p1) => .thrown e p1
  | .ok (token, p, str) =>
    if token.type = .TK_EOF then
      process_eof p a.file_path m.callers
    else if token.value = kw_include then
      let current_line := p.m_line_number
      let filename := p.m_token_line
      let p := flush_line p
      let filename := if ¬ env.is_absolute filename then env.path_append a.config_file_dir filename
        else filename
      process_file_enter env p filename (({ a with in_stream := str }, current_line) :: m.callers)
    else if token.value = kw_block then
      match get_token p str with
      | .error (e, p1) => .thrown e p1
      | .ok (token, p, str) =>
        if token.type ≠ .TK_LHS then
          .running ⟨invalid_statement p a.file_path, { a with in_stream := str }, m.callers⟩
        else
          let block_ctxt : block_context_t :=
            { m_block_name := token.value
              m_file_name := a.file_path
              m_start_line := p.m_line_number
              m_previous_context := p.m_current_context }
          let p := { p with m_current_context := p.m_current_context ++ (token.value ++ block_sep) }
          let p := { p with m_block_stack := p.m_block_stack ++ [block_ctxt] }
          .running ⟨flush_line p, { a with in_stream := str }, m.callers⟩
    else if token.value = kw_endblock then
      let p := flush_line p
      match p.m_block_stack.getLast? with
      | none =>
        .thrown (.config_file_not_parsed a.file_path
          (.endblock_without_block a.file_path p.m_line_number)) p
      | some back =>
        .running ⟨{ p with m_current_context := back.m_previous_context,
                            m_block_stack := p.m_block_stack.dropLast },
          { a with in_stream := str }, m.callers⟩
    else if token.value = kw_relativepath then
      match get_token p str with
      | .error (e, p1) => .thrown e p1
      | .ok (token, p, str) => process_assignment env a m.callers true token p str
    else process_assignment env a m.callers false token p str

/-- How a parse ended, if it has. -/
inductive outcome_t where
  | unfinished
  | normal
  | raised (e : exception)
  deriving DecidableEq, Repr

/-- The outcome of a parse. -/
def status.outcome (s : status) : outcome_t :=
  match s with
  | .running _ => .unfinished
  | .returned _ => .normal
  | .thrown e _ => .raised e

/-- The member data of the parser at a point of a parse. -/
def status.state (s : status) : priv :=
  match s with
  | .running m => m.members
  | .returned p => p
  | .thrown _ p => p

/-- The machine of a running parse (for a parse that has ended: its final
member data with an empty activation). -/
def status.machine (s : status) : machine :=
  match s with
  | .running m => m
  | .returned p => ⟨p, ⟨[], [], []⟩, []⟩
  | .thrown _ p => ⟨p, ⟨[], [], []⟩, []⟩

/-- Advance a parse by one loop iteration; a parse that has returned or thrown
stays as it is. -/
def step (env : environment) (s : status) : status :=
  match s with
  | .running m => process_statement env m
  | s => s

/-- Advance a parse by at most `n` loop iterations. -/
def run (env : environment) (n : Nat) (s : status) : status :=
  match n with
  | 0 => s
  | n + 1 => run env n (step env s)

/-- The method `process_file` called from outside (not from an `include`), run
for at most `fuel` loop iterations over all files. -/
def process_file (env : environment) (fuel : Nat) (p : priv) (file_path : std_string) : status :=
  run env fuel (process_file_enter env p file_path [])

/-- The method `config_parser::parse_config` (source lines 637-642) on a parser
that was just constructed. -/
def parse_config (env : environment) (fuel : Nat) (m_config_file : std_string) : status :=
  process_file env fuel priv_new m_config_file

/-- Call `get_token` up to `n` times in a row: the tokens obtained, and the
parser state and stream after the last call. An exception ends the sequence. -/
def read_tokens (n : Nat) (p : priv) (str : istream) : List token_t × priv × istream :=
  match n with
  | 0 => ([], p, str)
  | n + 1 =>
    match get_token p str with
    | .error (_, p1) => ([], p1, str)
    | .ok (t, p1, str1) =>
      let r := read_tokens n p1 str1
      (t :: r.1, r.2.1, r.2.2)

/-- What `get_line` makes of one physical line: trim, cut at the first '#', trim
again. A line for which this is empty is skipped. -/
def norm_line (raw : std_string) : std_string :=
  match find_first_of (trim raw) ['#'] with
  | some idx => trim ((trim raw).take idx)
  | none => trim raw

/-- The state of the tokenizer alone: `q` has the same `m_token_state` and
`m_token_line` as `p`. -/
def same_tokenizer (p q : priv) : Prop :=
  q.m_token_state = p.m_token_state ∧ q.m_token_line = p.m_token_line

/-- The line `raw`, read by a tokenizer in its initial state, is a `block`
statement for the block `name`: its first two tokens are the word `block` and
the LHS token `name`. -/
def is_block_statement (raw name : std_string) : Prop :=
  (read_tokens 2 priv_new [raw]).1 = [⟨.TK_LHS, kw_block⟩, ⟨.TK_LHS, name⟩]

instance (raw name : std_string) : Decidable (is_block_statement raw name) := by
  unfold is_block_statement; infer_instance

/-! ## Fixtures for evaluating the model -/

/-- A stand-in for `boost::filesystem::path::parent_path` on plain paths:
the text before the last '/'. -/
def fixture_parent_path (f : std_string) : std_string :=
  ((f.reverse.dropWhile fun c => c ≠ '/').drop 1).reverse

/-- A stand-in for `boost::filesystem::path::is_absolute` on POSIX paths. -/
def fixture_is_absolute (f : std_string) : Bool := f.head? = some '/'

/-- A stand-in for `operator/` of `boost::filesystem::path` on plain paths. -/
def fixture_path_append (d f : std_string) : std_string :=
  if d = [] then f else d ++ ['/'] ++ f

/-- An environment with a single file, whatever the path; the expander is the
identity. -/
def env_one_file (lines : List String) : environment where
  ifstream := fun _ => some (lines.map String.toList)
  expand_token := fun _ _ v => v
  parent_path := fixture_parent_path
  is_absolute := fixture_is_absolute
  path_append := fixture_path_append

/-- The machine at the first loop iteration of the outermost file `a.cfg` of a
new parser, for the given physical lines. -/
def machine_at_start (lines : List String) : machine :=
  (parse_config (env_one_file lines) 0 "a.cfg".toList).machine

/-- A malformed statement. -/
def line_foo : std_string := "foo".toList

/-- An `include` statement. -/
def line_include : std_string := "include a.cfg".toList

/-- The two lines of a file that includes itself after a malformed statement. -/
def self_include_lines : istream := [line_foo, line_include]

/-- An environment in which every path opens the self-including file. -/
def env_self_include : environment where
  ifstream := fun _ => some self_include_lines
  expand_token := fun _ _ v => v
  parent_path := fixture_parent_path
  is_absolute := fixture_is_absolute
  path_append := fixture_path_append

/-- An environment with the given files, each a path with its physical lines;
the expander is the identity. -/
def env_files (files : List (String × List String)) : environment where
  ifstream := fun f => (files.find? fun e => e.1.toList = f).map fun e => e.2.map String.toList
  expand_token := fun _ _ v => v
  parent_path := fixture_parent_path
  is_absolute := fixture_is_absolute
  path_append := fixture_path_append

/-! ## Camera intrinsics (camera_intrinsics.cxx) -/

/-- The member data of `camera_intrinsics_<T>`, which the constructors of
camera_intrinsics.cxx initialise. `T` is a field that stands for `float` or
`double`; a 2-vector is a pair `(x, y)`, the distortion vector a list. -/
structure camera_intrinsics_ (T : Type) where
  focal_length_ : T
  principal_point_ : T × T
  aspect_ratio_ : T
  skew_ : T
  dist_coeffs_ : List T

/-- The constructor `camera_intrinsics_( K, d )` from a calibration matrix
(source lines 179-190); the name of the class cannot be used again for it. A
3x3 matrix is a function of the row and the column. -/
def camera_intrinsics_.of_K_d {T : Type} [Field T] (K : Fin 3 → Fin 3 → T)
    (d : List T) : camera_intrinsics_ T where
  focal_length_ := K 0 0
  principal_point_ := (K 0 2, K 1 2)
  aspect_ratio_ := K 0 0 / K 1 1
  skew_ := K 0 1
  dist_coeffs_ := d

/-- The conversion `operator Eigen::Matrix< T, 3, 3 >()` to a calibration
matrix (source lines 193-203). -/
def camera_intrinsics_.operator_Matrix_3_3 {T : Type} [Field T] (k : camera_intrinsics_ T) :
    Fin 3 → Fin 3 → T :=
  ![![k.focal_length_, k.skew_, k.principal_point_.1],
    ![0, k.focal_length_ / k.aspect_ratio_, k.principal_point_.2],
    ![0, 0, 1]]

/-- The function `radial_distortion_scale` (source lines 55-81). `d[i]` is
`d.getD i 0`; every access is guarded by the test on `d.rows()` before it. -/
def radial_distortion_scale {T : Type} [Field T] (r2 : T) (d : List T) : T :=
  let scale : T := 1
  if d.length > 0 then
    let scale := scale + r2 * d.getD 0 0
    if d.length > 1 then
      let r4 := r2 * r2
      let scale := scale + r4 * d.getD 1 0
      if d.length > 4 then
        let r6 := r2 * r4
        let scale := scale + r6 * d.getD 4 0
        if d.length > 7 then
          scale / (1 + r2 * d.getD 5 0 + r4 * d.getD 6 0 + r6 * d.getD 7 0)
        else scale
      else scale
    else scale
  else scale

/-- The function `distortion_scale_offset` (source lines 92-109): the scale and
the offset that it writes to its last two arguments. -/
def distortion_scale_offset {T : Type} [Field T] (pt : T × T) (d : List T) : T × (T × T) :=
  let x2 := pt.1 * pt.1
  let y2 := pt.2 * pt.2
  let r2 := x2 + y2
  let scale := radial_distortion_scale r2 d
  if d.length > 3 then
    let two_xy := 2 * pt.1 * pt.2
    (scale, (d.getD 2 0 * two_xy + d.getD 3 0 * (r2 + 2 * x2),
      d.getD 3 0 * two_xy + d.getD 2 0 * (r2 + 2 * y2)))
  else (scale, (0, 0))

/-- The function `radial_distortion_deriv` (source lines 113-142). -/
def radial_distortion_deriv {T : Type} [Field T] (r2 : T) (d : List T) : T :=
  let deriv : T := 0
  if d.length > 0 then
    let deriv := deriv + d.getD 0 0
    if d.length > 1 then
      let deriv := deriv + 2 * d.getD 1 0 * r2
      if d.length > 4 then
        let r4 := r2 * r2
        let deriv := deriv + 3 * d.getD 4 0 * r4
        if d.length > 7 then
          let r6 := r4 * r2
          let a1 := 1 / (d.getD 5 0 * r2 + d.getD 6 0 * r4 + d.getD 7 0 * r6 + 1)
          let a2 := d.getD 5 0 + 2 * d.getD 6 0 * r2 + 3 * d.getD 7 0 * r4
          let deriv := deriv - a2 * a1 * (d.getD 0 0 * r2 + d.getD 1 0 * r4 + d.getD 4 0 * r6 + 1)
          deriv * a1
        else deriv
      else deriv
    else deriv
  else deriv

/-- The function `distortion_jacobian` (source lines 146-173). A 2x2 matrix is a
function of the row and the column; the four `+=` of the tangential part are
applied in the order of the source, the first and the last of them to
`J( 0, 0 )`. -/
def distortion_jacobian {T : Type} [Field T] (pt : T × T) (d : List T) : Fin 2 → Fin 2 → T :=
  let x2 := pt.1 * pt.1
  let y2 := pt.2 * pt.2
  let xy := pt.1 * pt.2
  let r2 := x2 + y2
  let d_scale := 2 * radial_distortion_deriv r2 d
  let scale := radial_distortion_scale r2 d
  let J00 := d_scale * x2 + scale
  let J01 := d_scale * xy
  let J10 := d_scale * xy
  let J11 := d_scale * y2 + scale
  if d.length > 3 then
    let axy := 2 * (d.getD 2 0 * pt.1 + d.getD 3 0 * pt.2)
    let ay := 2 * d.getD 2 0 * pt.2
    let ax := 2 * d.getD 3 0 * pt.1
    let J00 := J00 + (ay + 3 * ax)
    let J01 := J01 + axy
    let J10 := J10 + axy
    let J00 := J00 + (3 * ay + ax)
    ![![J00, J01], ![J10, J11]]
  else ![![J00, J01], ![J10, J11]]

/-- The method `distort` (source lines 246-257): `scale * norm_pt + offset`. -/
def camera_intrinsics_.distort {T : Type} [Field T] (k : camera_intrinsics_ T)
    (norm_pt : T × T) : T × T :=
  let so := distortion_scale_offset norm_pt k.dist_coeffs_
  (so.1 * norm_pt.1 + so.2.1, so.1 * norm_pt.2 + so.2.2)

/-- The method `map` for a 2D point (source lines 206-218). -/
def camera_intrinsics_.map {T : Type} [Field T] (k : camera_intrinsics_ T) (point : T × T) :
    T × T :=
  let pt := k.distort point
  let pp := k.principal_point_
  (pt.1 * k.focal_length_ + pt.2 * k.skew_ + pp.1,
    pt.2 * k.focal_length_ / k.aspect_ratio_ + pp.2)

/-- The loop of `undistort` (source lines 271-286), with `n` iterations left.
The call `J.ldlt().solve( residual )` of the Eigen library is the parameter
`ldlt_solve`; the constant `1e-12` is the rational number 1 / 10^12. -/
def undistort_loop {T : Type} [LinearOrderedField T]
    (ldlt_solve : (Fin 2 → Fin 2 → T) → T × T → T × T) (d : List T) (dist_pt : T × T)
    (n : Nat) (norm_pt : T × T) : T × T :=
  match n with
  | 0 => norm_pt
  | n + 1 =>
    let so := distortion_scale_offset norm_pt d
    let J := distortion_jacobian norm_pt d
    let residual : T × T :=
      (norm_pt.1 * so.1 + so.2.1 - dist_pt.1, norm_pt.2 * so.1 + so.2.2 - dist_pt.2)
    if max |residual.1| |residual.2| < 1 / 1000000000000 then norm_pt
    else
      let step := ldlt_solve J residual
      undistort_loop ldlt_solve d dist_pt n (norm_pt.1 - step.1, norm_pt.2 - step.2)

/-- The method `undistort` (source lines 260-288): at most 5 Gauss-Newton
updates, starting from the distorted point. -/
def camera_intrinsics_.undistort {T : Type} [LinearOrderedField T]
    (ldlt_solve : (Fin 2 → Fin 2 → T) → T × T → T × T) (k : camera_intrinsics_ T)
    (dist_pt : T × T) : T × T :=
  undistort_loop ldlt_solve k.dist_coeffs_ dist_pt 5 dist_pt

/-- The method `unmap` (source lines 232-243). -/
def camera_intrinsics_.unmap {T : Type} [LinearOrderedField T]
    (ldlt_solve : (Fin 2 → Fin 2 → T) → T × T → T × T) (k : camera_intrinsics_ T)
    (pt : T × T) : T × T :=
  let p0 : T × T := (pt.1 - k.principal_point_.1, pt.2 - k.principal_point_.2)
  let y := p0.2 * k.aspect_ratio_ / k.focal_length_
  let x := (p0.1 - y * k.skew_) / k.focal_length_
  k.undistort ldlt_solve (x, y)

/-- A calibration matrix over the rationals. -/
def fixture_K : Fin 3 → Fin 3 → ℚ :=
  ![![2, 1, 3], ![0, 4, 5], ![0, 0, 1]]

/-! ## Predicates used in the statements -/

/-- The members that the tokenizer and the line reader never write: `q` has
the same block stack, context, file count, error latch, symbol table,
configuration block and log as `p`. -/
def same_session (p q : priv) : Prop :=
  q.m_block_stack = p.m_block_stack ∧ q.m_current_context = p.m_current_context ∧
  q.m_file_count = p.m_file_count ∧ q.m_parse_error = p.m_parse_error ∧
  q.m_symtab = p.m_symtab ∧ q.m_config_block = p.m_config_block ∧ q.m_logger = p.m_logger

/-- The word is one of the four that the driver treats as a directive. -/
def is_directive (w : std_string) : Prop :=
  w = kw_include ∨ w = kw_block ∨ w = kw_endblock ∨ w = kw_relativepath

instance (w : std_string) : Decidable (is_directive w) := by
  unfold is_directive; infer_instance

/-- The concatenation, from the bottom of the stack to its top, of each
frame's block name followed by the separator. -/
def context_of (stack : List block_context_t) : std_string :=
  match stack with
  | [] => []
  | b :: rest => (b.m_block_name ++ block_sep) ++ context_of rest

/-- Every frame's `m_previous_context` is the concatenation taken over the
frames below it. -/
def frames_linked (stack : List block_context_t) : Prop :=
  ∀ below b above, stack = below ++ b :: above → b.m_previous_context = context_of below

/-- The relation between `m_current_context` and `m_block_stack`. -/
def context_inv (p : priv) : Prop :=
  p.m_current_context = context_of p.m_block_stack ∧ frames_linked p.m_block_stack

/-- The error latch is set exactly when something was logged, and what was
logged so far are malformed statements. -/
def latch_inv (p : priv) : Prop :=
  (p.m_parse_error = true ↔ p.m_logger ≠ []) ∧
  ∀ e ∈ p.m_logger, ∃ l f n, e = .invalid_line l f n

/-- The file of the outermost activation of a running parse. -/
def outermost_file (m : machine) : std_string :=
  (m.callers.map fun c => c.1.file_path).getLast?.getD m.current.file_path

/-- What holds at the head of every loop iteration of a parse of the file
`path` by a new parser. -/
def machine_inv (path : std_string) (m : machine) : Prop :=
  context_inv m.members ∧ latch_inv m.members ∧
  m.members.m_file_count = m.callers.length + 1 ∧
  m.members.m_token_state = 0 ∧ outermost_file m = path

/-- A malformed statement or a non-empty list of unclosed blocks was logged. -/
def error_reported (p : priv) : Prop :=
  (∃ l f n, log_entry.invalid_line l f n ∈ p.m_logger) ∨
  (∃ es, es ≠ [] ∧ log_entry.unclosed_blocks es ∈ p.m_logger)

/-- What holds of every status of a parse of the file `path` by a new parser. -/
def status_inv (path : std_string) (s : status) : Prop :=
  match s with
  | .running m => machine_inv path m
  | .returned p =>
    context_inv p ∧ p.m_logger = [] ∧ p.m_parse_error = false ∧ p.m_block_stack = [] ∧
      p.m_file_count = 0
  | .thrown e p =>
    (∀ f, e = .config_file_not_parsed f .errors_in_config_file →
      f = path ∧ error_reported p ∧ p.m_parse_error = true ∧ p.m_block_stack = [] ∧
        p.m_file_count = 0) ∧
    ((∀ f, e ≠ .config_file_not_parsed f .errors_in_config_file) → context_inv p)

/-- How one loop iteration can change the block stack and the context: not at
all, by pushing a frame that saves the context, or by popping the top frame and
restoring the context it saved. -/
def stack_step (p q : priv) : Prop :=
  (q.m_block_stack = p.m_block_stack ∧ q.m_current_context = p.m_current_context) ∨
  (∃ f, q.m_block_stack = p.m_block_stack ++ [f] ∧ f.m_previous_context = p.m_current_context) ∨
  (∃ back, p.m_block_stack = q.m_block_stack ++ [back] ∧
    q.m_current_context = back.m_previous_context)

/-- A character that can be part of an identifier: a letter, a digit or '_'. -/
def identifier_char (c : Char) : Prop := isalnum c = true ∨ c = '_'

instance (c : Char) : Decidable (identifier_char c) := by
  unfold identifier_char; infer_instance

/-- Reading the statement took the lines `c` off the stream of the running
activation, leaving `str`, and counted them in `m_line_number`. -/
def consumed_by (m : machine) (p : priv) (str : istream) : Prop :=
  ∃ c, m.current.in_stream = c ++ str ∧ p.m_line_number = m.members.m_line_number + c.length

/-- What one loop iteration can do, read off the branches of `process_file`.
In every case `p` is the parser state after the tokens of the statement were
read, and `str` the stream at that point. -/
inductive statement_effect (env : environment) (m : machine) : status → Prop where
  | tokenizer_failure (p : priv) (hs : same_session m.members p) :
      statement_effect env m (.thrown .out_of_range p)
  | eof (p : priv) (hs : same_session m.members p) (h0 : p.m_token_state = 0)
      (hread : get_token m.members m.current.in_stream = .ok (⟨.TK_EOF, []⟩, p, [])) :
      statement_effect env m (process_eof p m.current.file_path m.callers)
  | include_file (p : priv) (str : istream) (filename : std_string) (hs : same_session m.members p)
      (hr : consumed_by m p str) :
      statement_effect env m (process_file_enter env (flush_line p) filename
        (({ m.current with in_stream := str }, p.m_line_number) :: m.callers))
  | invalid (p : priv) (str : istream) (hs : same_session m.members p)
      (hr : consumed_by m p str) :
      statement_effect env m (.running ⟨invalid_statement p m.current.file_path,
        { m.current with in_stream := str }, m.callers⟩)
  | block (p : priv) (str : istream) (name : std_string) (hs : same_session m.members p)
      (hr : consumed_by m p str)
      (hloc : m.members.m_token_state = 0 → ∃ skipped raw,
        m.current.in_stream = skipped ++ raw :: str ∧
        p.m_line_number = m.members.m_line_number + skipped.length + 1 ∧
        is_block_statement raw name) :
      statement_effect env m (.running ⟨flush_line { p with
          m_current_context := p.m_current_context ++ (name ++ block_sep),
          m_block_stack := p.m_block_stack ++
            [⟨name, m.current.file_path, p.m_line_number, p.m_current_context⟩] },
        { m.current with in_stream := str }, m.callers⟩)
  | endblock_unmatched (p : priv) (hs : same_session m.members p) (he : p.m_block_stack = []) :
      statement_effect env m (.thrown (.config_file_not_parsed m.current.file_path
        (.endblock_without_block m.current.file_path p.m_line_number)) (flush_line p))
  | endblock (p : priv) (str : istream) (below : List block_context_t) (back : block_context_t)
      (hs : same_session m.members p) (he : p.m_block_stack = below ++ [back])
      (hr : consumed_by m p str) :
      statement_effect env m (.running ⟨{ flush_line p with
          m_current_context := back.m_previous_context, m_block_stack := below },
        { m.current with in_stream := str }, m.callers⟩)
  | entry (p : priv) (str : istream) (rel_path : Bool) (lhs op rhs : std_string)
      (hs : same_session m.members p) (h0 : p.m_token_state = 0)
      (hr : consumed_by m p str) :
      statement_effect env m (.running ⟨process_entry env p m.current.config_file_dir rel_path lhs op rhs,
        { m.current with in_stream := str }, m.callers⟩)

/-- The stream of an activation is what is left of its file after the lines
consumed so far, `n` of them. -/
def activation_ok (env : environment) (a : activation) (n : Int) : Prop :=
  ∃ consumed, env.ifstream a.file_path = some (consumed ++ a.in_stream) ∧
    (consumed.length : Int) = n

/-- The frame names a file that can be opened and a line of it, counted from 1,
which is a `block` statement for the frame's block name. -/
def frame_located (env : environment) (b : block_context_t) : Prop :=
  ∃ lines raw, env.ifstream b.m_file_name = some lines ∧ 1 ≤ b.m_start_line ∧
    lines[(b.m_start_line - 1).toNat]? = some raw ∧ is_block_statement raw b.m_block_name

/-- The line counter and the start lines of the open blocks, at the head of a
loop iteration: `m_line_number` is the number of lines consumed from the file
of the running activation, every suspended caller saved the number of lines it
had consumed, and every frame is located. -/
def lines_inv (env : environment) (m : machine) : Prop :=
  activation_ok env m.current m.members.m_line_number ∧
  (∀ c ∈ m.callers, activation_ok env c.1 c.2) ∧
  (∀ b ∈ m.members.m_block_stack, frame_located env b)

/-- The invariant `lines_inv` while the parse is running. -/
def status_lines_inv (env : environment) (s : status) : Prop :=
  match s with
  | .running m => lines_inv env m
  | .returned _ => True
  | .thrown _ _ => True

/-- The statement began on the physical line `raw`: reading it took the blank
and comment-only lines `skipped` and then the line `raw` off the stream of the
running activation, leaving `str`, and `p` counts these lines and holds `raw`
as its last line. -/
def statement_line (m : machine) (p : priv) (str skipped : istream) (raw : std_string) : Prop :=
  m.current.in_stream = skipped ++ raw :: str ∧ (∀ l ∈ skipped, norm_line l = []) ∧
  norm_line raw ≠ [] ∧ p.m_line_number = m.members.m_line_number + skipped.length + 1 ∧
  p.m_last_line = raw

/-- The tokens of a statement, up to the one at which `process_file` takes one
of its syntax-error branches: `block` not followed by an LHS token (source line
247); a token that is no LHS after `relativepath` (source line 312); an LHS not
followed by ASSIGN (source line 327); an ASSIGN not followed by RHS (source line
342). The last two are listed with and without the `relativepath` modifier. -/
def syntax_error_tokens (ts : List token_t) : Prop :=
  match ts with
  | [t1, t2] =>
    (t1.value = kw_block ∧ t2.type ≠ .TK_LHS) ∨
    (t1.value = kw_relativepath ∧ t2.type ≠ .TK_LHS) ∨
    (¬ is_directive t1.value ∧ t1.type = .TK_LHS ∧ t2.type ≠ .TK_ASSIGN)
  | [t1, t2, t3] =>
    (t1.value = kw_relativepath ∧ t2.type = .TK_LHS ∧ t3.type ≠ .TK_ASSIGN) ∨
    (¬ is_directive t1.value ∧ t1.type = .TK_LHS ∧ t2.type = .TK_ASSIGN ∧ t3.type ≠ .TK_RHS)
  | [t1, t2, t3, t4] =>
    t1.value = kw_relativepath ∧ t2.type = .TK_LHS ∧ t3.type = .TK_ASSIGN ∧ t4.type ≠ .TK_RHS
  | _ => False

instance (ts : List token_t) : Decidable (syntax_error_tokens ts) := by
  unfold syntax_error_tokens; split <;> infer_instance

/-- The physical line consists only of white space and/or a comment: after its
leading white space it is empty or starts with '#'. -/
def blank_or_comment (raw : std_string) : Prop :=
  ltrim raw = [] ∨ (ltrim raw).head? = some '#'

instance (raw : std_string) : Decidable (blank_or_comment raw) := by
  unfold blank_or_comment; infer_instance

/-- Modelled from the spec: the class `token_type_symtab` (its `add_entry` and
the look-up that the expander makes) is not among the sources. The symbol
table is a map in which a later definition of a name overwrites the earlier
one: on the sequence of `add_entry` calls, oldest first, the value of a name is
the value of the last entry with that name. -/
def symtab_lookup (table : List (std_string × std_string)) (name : std_string) :
    Option std_string :=
  match table with
  | [] => none
  | (n, val) :: rest =>
    match symtab_lookup rest name with
    | some later => some later
    | none => if n = name then some val else none

/-- Every activation of a parse holds the directory of its own file, as
computed on source line 173. -/
def dirs_inv (env : environment) (m : machine) : Prop :=
  m.current.config_file_dir = env.parent_path m.current.file_path ∧
  ∀ c ∈ m.callers, c.1.config_file_dir = env.parent_path c.1.file_path

/-- The invariant `dirs_inv` while the parse is running. -/
def status_dirs_inv (env : environment) (s : status) : Prop :=
  match s with
  | .running m => dirs_inv env m
  | .returned _ => True
  | .thrown _ _ => True

/-- How one loop iteration can change the suspended callers: not at all, by
suspending one more activation (an `include`), or by resuming the innermost
suspended activation with the line number it saved (a return). -/
def callers_step (m m1 : machine) : Prop :=
  m1.callers = m.callers ∨ (∃ f, m1.callers = f :: m.callers) ∨
  (∃ f, m.callers = f :: m1.callers ∧ m1.current = f.1 ∧ m1.members.m_line_number = f.2)

/-- What one loop iteration can do to the log: nothing; append the message on
unclosed blocks (at the end of the outermost file); or, continuing the loop,
append the message on a malformed statement, which then names the running
file, the physical line `raw` on which the statement began and the number of
that line, these being also the last line and the line number that the parser
holds at that moment. -/
def log_step (m : machine) (s : status) : Prop :=
  s.state.m_logger = m.members.m_logger ∨
  (∃ es, s.state.m_logger = m.members.m_logger ++ [.unclosed_blocks es]) ∨
  (∃ m1 skipped raw, s = .running m1 ∧
    m.current.in_stream = skipped ++ raw :: m1.current.in_stream ∧
    (∀ l ∈ skipped, norm_line l = []) ∧ norm_line raw ≠ [] ∧
    m1.members.m_logger = m.members.m_logger ++
      [.invalid_line raw m.current.file_path (m.members.m_line_number + skipped.length + 1)] ∧
    m1.members.m_parse_error = true ∧
    m1.members.m_line_number = m.members.m_line_number + skipped.length + 1 ∧
    m1.members.m_last_line = raw)

/-- Every message on a malformed statement names a file that can be opened and
a line of it, counted from 1, with the raw text of that line. -/
def log_located (env : environment) (p : priv) : Prop :=
  ∀ l f n, log_entry.invalid_line l f n ∈ p.m_logger →
    ∃ lines, env.ifstream f = some lines ∧ 1 ≤ n ∧ lines[(n - 1).toNat]? = some l

/-- The method `config_parser::parse_config` (source lines 637-642) called on a
parser whose member data is `p`, for instance as an earlier invocation left
it. -/
def parse_config_again (env : environment) (fuel : Nat) (p : priv) (m_config_file : std_string) :
    status :=
  process_file env fuel p m_config_file

/-- The error latch is set and the file count is the number of activations; a
parse in this condition has not returned. -/
def status_latched (s : status) : Prop :=
  match s with
  | .running m => m.members.m_file_count = m.callers.length + 1 ∧ m.members.m_parse_error = true
  | .returned _ => False
  | .thrown _ p => p.m_parse_error = true

/-- Reference for the line reader, following the words of its description: the
line with the surrounding white space trimmed, then cut at its first '#', then
trimmed again. -/
def norm_reference (l : std_string) : std_string :=
  trim ((trim l).takeWhile (fun c => c != '#'))

/-- Reference for the line reader, following the words of its description:
consume the physical lines up to and including the first one whose
`norm_reference` is not empty and return that text with the lines that remain;
`none` (the flag `false`) if there is no such line. -/
def get_line_reference (str : istream) : Option (std_string × istream) :=
  match str.dropWhile (fun l => (norm_reference l).isEmpty) with
  | [] => none
  | l :: rest => some (norm_reference l, rest)

/-- The text of the first token of the physical line `raw`, when the tokenizer
reads the line in its initial state: what `get_line` leaves of the line, up to
the boundary of the LHS state. -/
def first_word (raw : std_string) : std_string :=
  (norm_line raw).take (lhs_boundary (norm_line raw))

/-- What follows a word on its line: nothing, or a space or a tab and then any
text. -/
def word_end (tail : std_string) : Prop :=
  tail = [] ∨ ∃ d extra, tail = d :: extra ∧ (d = ' ' ∨ d = '\t')

/-- The place of a tokenizer state in the order in which a statement passes
through the states: LHS (1), OPERATOR (2), RHS (3) and then INIT (0), which
ends the statement and so counts as the last. -/
def state_rank (s : Nat) : Nat := if s = 0 then 4 else s

/-- What holds of the tokenizer between any two calls of `get_token`: the
state is one of the four, and in the LHS state the buffer starts with an
alphanumeric character (source lines 505-513). -/
def tokenizer_ok (p : priv) : Prop :=
  p.m_token_state ≤ 3 ∧ (p.m_token_state = 1 → isalnum (char_at p.m_token_line 0) = true)

/-! ## The tokenizer leaves the session alone -/

theorem same_session_refl (p : priv) : same_session p p := by
  simp [same_session]

theorem same_session_trans {p q r : priv} (h1 : same_session p q) (h2 : same_session q r) :
    same_session p r := by
  obtain ⟨a1, a2, a3, a4, a5, a6, a7⟩ := h1
  obtain ⟨b1, b2, b3, b4, b5, b6, b7⟩ := h2
  exact ⟨b1.trans a1, b2.trans a2, b3.trans a3, b4.trans a4, b5.trans a5, b6.trans a6, b7.trans a7⟩

theorem get_line_session (str : istream) (p : priv) : same_session p (get_line p str).2.1 := by
  induction str generalizing p with
  | nil => simp [get_line, same_session]
  | cons raw rest ih =>
    unfold get_line
    simp only []
    split
    · exact same_session_trans (by simp [same_session]) (ih _)
    · split
      · split
        · exact same_session_trans (by simp [same_session]) (ih _)
        · simp [same_session]
      · simp [same_session]

theorem get_token_lhs_session {p : priv} {str : istream} {t : token_t} {q : priv} {str1 : istream}
    (h : get_token_lhs p str = .ok (t, q, str1)) : same_session p q ∧ t.type = .TK_LHS ∧ str1 = str := by
  unfold get_token_lhs at h
  simp only [] at h
  split at h
  · cases h
  · split at h
    · cases h
    · simp only [Except.ok.injEq, Prod.mk.injEq] at h
      obtain ⟨rfl, rfl, rfl⟩ := h
      simp [same_session]

theorem get_token_op_session {p : priv} {str : istream} {t : token_t} {q : priv} {str1 : istream}
    (h : get_token_op p str = .ok (t, q, str1)) : same_session p q ∧ str1 = str := by
  unfold get_token_op at h
  simp only [get_token_op_finish] at h
  split at h
  · split at h
    · cases h
    · simp only [Except.ok.injEq, Prod.mk.injEq] at h
      obtain ⟨rfl, rfl, rfl⟩ := h
      simp [same_session]
  · split at h
    · split at h
      · cases h
      · simp only [Except.ok.injEq, Prod.mk.injEq] at h
        obtain ⟨rfl, rfl, rfl⟩ := h
        simp [same_session]
    · split at h
      · cases h
      · split at h
        · cases h
        · split at h
          · cases h
          · simp only [Except.ok.injEq, Prod.mk.injEq] at h
            obtain ⟨rfl, rfl, rfl⟩ := h
            simp [same_session]

theorem get_token_session {p : priv} {str : istream} {t : token_t} {q : priv} {str1 : istream}
    (h : get_token p str = .ok (t, q, str1)) : same_session p q := by
  unfold get_token at h
  split at h
  · simp only [Except.ok.injEq, Prod.mk.injEq] at h
    obtain ⟨rfl, rfl, rfl⟩ := h
    simp [same_session]
  · split at h
    · have hl := get_line_session str p
      split at h
      · rename_i p1 str1 heq
        simp only [Except.ok.injEq, Prod.mk.injEq] at h
        obtain ⟨rfl, rfl, rfl⟩ := h
        rw [heq] at hl
        exact same_session_trans hl (by simp [same_session])
      · rename_i p1 str1 heq
        rw [heq] at hl
        exact same_session_trans hl (get_token_lhs_session h).1
    · exact (get_token_lhs_session h).1
    · exact (get_token_op_session h).1
    · simp only [Except.ok.injEq, Prod.mk.injEq] at h
      obtain ⟨rfl, rfl, rfl⟩ := h
      simp [same_session]
    · simp only [Except.ok.injEq, Prod.mk.injEq] at h
      obtain ⟨rfl, rfl, rfl⟩ := h
      simp [same_session]

theorem substr_error {s : std_string} {i : Nat} {e : exception} (h : substr s i = .error e) :
    e = .out_of_range := by
  unfold substr at h
  split at h
  · simp only [Except.error.injEq] at h; exact h.symm
  · cases h

theorem substr_n_error {s : std_string} {i n : Nat} {e : exception}
    (h : substr_n s i n = .error e) : e = .out_of_range := by
  unfold substr_n at h
  split at h
  · simp only [Except.error.injEq] at h; exact h.symm
  · cases h

theorem get_token_lhs_error {p : priv} {str : istream} {e : exception} {q : priv}
    (h : get_token_lhs p str = .error (e, q)) : e = .out_of_range ∧ q = p := by
  unfold get_token_lhs at h
  simp only [] at h
  split at h
  · rename_i e1 he
    simp only [Except.error.injEq, Prod.mk.injEq] at h
    obtain ⟨rfl, rfl⟩ := h
    exact ⟨substr_n_error he, rfl⟩
  · split at h
    · rename_i e1 he
      simp only [Except.error.injEq, Prod.mk.injEq] at h
      obtain ⟨rfl, rfl⟩ := h
      exact ⟨substr_error he, rfl⟩
    · cases h

theorem get_token_op_finish_error {p : priv} {str : istream} {t : token_t} {i : Nat}
    {e : exception} {q : priv}
    (h : get_token_op_finish p str t i = .error (e, q)) : e = .out_of_range ∧ q = p := by
  unfold get_token_op_finish at h
  split at h
  · rename_i e1 he
    simp only [Except.error.injEq, Prod.mk.injEq] at h
    obtain ⟨rfl, rfl⟩ := h
    exact ⟨substr_error he, rfl⟩
  · cases h

theorem get_token_op_error {p : priv} {str : istream} {e : exception} {q : priv}
    (h : get_token_op p str = .error (e, q)) : e = .out_of_range ∧ same_session p q := by
  unfold get_token_op at h
  split at h
  · obtain ⟨h1, h2⟩ := get_token_op_finish_error h
    exact ⟨h1, h2 ▸ same_session_refl p⟩
  · split at h
    · obtain ⟨h1, h2⟩ := get_token_op_finish_error h
      exact ⟨h1, h2 ▸ same_session_refl p⟩
    · simp only [] at h
      split at h
      · rename_i e1 he
        simp only [Except.error.injEq, Prod.mk.injEq] at h
        obtain ⟨rfl, rfl⟩ := h
        exact ⟨substr_n_error he, same_session_refl p⟩
      · split at h
        · rename_i e1 he
          simp only [Except.error.injEq, Prod.mk.injEq] at h
          obtain ⟨rfl, rfl⟩ := h
          exact ⟨substr_error he, by simp [same_session]⟩
        · obtain ⟨h1, h2⟩ := get_token_op_finish_error h
          exact ⟨h1, h2 ▸ by simp [same_session]⟩

theorem get_token_error {p : priv} {str : istream} {e : exception} {q : priv}
    (h : get_token p str = .error (e, q)) : e = .out_of_range ∧ same_session p q := by
  unfold get_token at h
  split at h
  · cases h
  · split at h
    · have hl := get_line_session str p
      split at h
      · cases h
      · rename_i p1 str1 heq
        rw [heq] at hl
        obtain ⟨h1, h2⟩ := get_token_lhs_error h
        exact ⟨h1, h2 ▸ hl⟩
    · obtain ⟨h1, h2⟩ := get_token_lhs_error h
      exact ⟨h1, h2 ▸ same_session_refl p⟩
    · exact get_token_op_error h
    · cases h
    · cases h

theorem get_token_op_finish_ok {p : priv} {str : istream} {t0 : token_t} {i : Nat}
    {t : token_t} {q : priv} {str1 : istream}
    (h : get_token_op_finish p str t0 i = .ok (t, q, str1)) :
    t = t0 ∧ q.m_token_state = 3 ∧ str1 = str := by
  unfold get_token_op_finish at h
  split at h
  · cases h
  · simp only [Except.ok.injEq, Prod.mk.injEq] at h
    obtain ⟨rfl, rfl, rfl⟩ := h
    exact ⟨rfl, rfl, rfl⟩

/-- The operator state yields an ASSIGN or an LHS token, never an RHS. -/
theorem get_token_op_type {p : priv} {str : istream} {t : token_t} {q : priv} {str1 : istream}
    (h : get_token_op p str = .ok (t, q, str1)) : t.type = .TK_ASSIGN ∨ t.type = .TK_LHS := by
  unfold get_token_op at h
  split at h
  · rw [(get_token_op_finish_ok h).1]; exact Or.inl rfl
  · split at h
    · rw [(get_token_op_finish_ok h).1]; exact Or.inl rfl
    · simp only [] at h
      split at h
      · cases h
      · split at h
        · cases h
        · rw [(get_token_op_finish_ok h).1]; exact Or.inr rfl

/-- A token of type RHS leaves the tokenizer in its initial state. -/
theorem get_token_rhs_state {p : priv} {str : istream} {t : token_t} {q : priv} {str1 : istream}
    (h : get_token p str = .ok (t, q, str1)) (ht : t.type = .TK_RHS) : q.m_token_state = 0 := by
  unfold get_token at h
  split at h
  · simp only [Except.ok.injEq, Prod.mk.injEq] at h
    obtain ⟨rfl, rfl, rfl⟩ := h
    rfl
  · split at h
    · split at h
      · simp only [Except.ok.injEq, Prod.mk.injEq] at h
        obtain ⟨rfl, rfl, rfl⟩ := h
        rfl
      · have := (get_token_lhs_session h).2.1
        rw [this] at ht; cases ht
    · have := (get_token_lhs_session h).2.1
      rw [this] at ht; cases ht
    · rcases get_token_op_type h with h1 | h1 <;> rw [h1] at ht <;> cases ht
    · simp only [Except.ok.injEq, Prod.mk.injEq] at h
      obtain ⟨rfl, rfl, rfl⟩ := h
      rfl
    · simp only [Except.ok.injEq, Prod.mk.injEq] at h
      obtain ⟨rfl, rfl, rfl⟩ := h
      simp at ht

/-- A token of type EOF leaves the tokenizer in its initial state. -/
theorem get_token_eof_state {p : priv} {str : istream} {t : token_t} {q : priv} {str1 : istream}
    (h : get_token p str = .ok (t, q, str1)) (ht : t.type = .TK_EOF) : q.m_token_state = 0 := by
  unfold get_token at h
  split at h
  · simp only [Except.ok.injEq, Prod.mk.injEq] at h
    obtain ⟨rfl, rfl, rfl⟩ := h
    rfl
  · split at h
    · split at h
      · simp only [Except.ok.injEq, Prod.mk.injEq] at h
        obtain ⟨rfl, rfl, rfl⟩ := h
        rfl
      · have := (get_token_lhs_session h).2.1
        rw [this] at ht; cases ht
    · have := (get_token_lhs_session h).2.1
      rw [this] at ht; cases ht
    · rcases get_token_op_type h with h1 | h1 <;> rw [h1] at ht <;> cases ht
    · simp only [Except.ok.injEq, Prod.mk.injEq] at h
      obtain ⟨rfl, rfl, rfl⟩ := h
      simp at ht
    · simp only [Except.ok.injEq, Prod.mk.injEq] at h
      obtain ⟨rfl, rfl, rfl⟩ := h
      simp at ht

theorem get_line_false (str : istream) (p : priv) :
    (get_line p str).1 = false → (get_line p str).2.2 = [] := by
  induction str generalizing p with
  | nil => intro _; rfl
  | cons raw rest ih =>
    unfold get_line
    simp only []
    split
    · exact ih _
    · split
      · split
        · exact ih _
        · intro h; cases h
      · intro h; cases h

/-- An EOF token has empty text and is only given when the stream is used up. -/
theorem get_token_eof {p : priv} {str : istream} {t : token_t} {q : priv} {str1 : istream}
    (h : get_token p str = .ok (t, q, str1)) (ht : t.type = .TK_EOF) :
    t = ⟨.TK_EOF, []⟩ ∧ str1 = [] := by
  unfold get_token at h
  split at h
  · simp only [Except.ok.injEq, Prod.mk.injEq] at h
    obtain ⟨rfl, rfl, rfl⟩ := h
    simp at ht
  · split at h
    · split at h
      · rename_i p1 s1 heq
        simp only [Except.ok.injEq, Prod.mk.injEq] at h
        obtain ⟨rfl, rfl, rfl⟩ := h
        have := get_line_false str p (by rw [heq])
        rw [heq] at this
        exact ⟨rfl, this⟩
      · have := (get_token_lhs_session h).2.1
        rw [this] at ht; cases ht
    · have := (get_token_lhs_session h).2.1
      rw [this] at ht; cases ht
    · rcases get_token_op_type h with h1 | h1 <;> rw [h1] at ht <;> cases ht
    · simp only [Except.ok.injEq, Prod.mk.injEq] at h
      obtain ⟨rfl, rfl, rfl⟩ := h
      simp at ht
    · simp only [Except.ok.injEq, Prod.mk.injEq] at h
      obtain ⟨rfl, rfl, rfl⟩ := h
      simp at ht

/-! ## The tokenizer and the stream -/

theorem find_first_of_lt {s : std_string} {cs : List Char} {i : Nat}
    (h : find_first_of s cs = some i) : i < s.length := by
  induction s generalizing i with
  | nil => simp [find_first_of] at h
  | cons c rest ih =>
    unfold find_first_of at h
    split at h
    · simp only [Option.some.injEq] at h
      subst h
      simp
    · split at h
      · cases h
      · rename_i j hj
        simp only [Option.some.injEq] at h
        subst h
        have := ih hj
        simp only [List.length_cons]
        omega

theorem lhs_boundary_le (line : std_string) : lhs_boundary line ≤ line.length := by
  unfold lhs_boundary
  simp only []
  have hb : (match find_first_of line [' ', '\t', '='] with
      | none => line.length
      | some i => i) ≤ line.length := by
    split
    · exact Nat.le_refl _
    · rename_i i hi
      exact Nat.le_of_lt (find_first_of_lt hi)
  split <;> omega

/-- The LHS state never fails: its token is the text before the boundary, and
what follows, without leading white space, stays in the buffer. -/
theorem get_token_lhs_eq (p : priv) (str : istream) :
    get_token_lhs p str = .ok (⟨.TK_LHS, p.m_token_line.take (lhs_boundary p.m_token_line)⟩,
      { p with
        m_token_line := ltrim (p.m_token_line.drop (lhs_boundary p.m_token_line))
        m_token_state :=
          if ¬ isalnum (char_at (ltrim (p.m_token_line.drop (lhs_boundary p.m_token_line))) 0)
          then 2 else 1 }, str) := by
  have hle := lhs_boundary_le p.m_token_line
  have h1 : ¬ lhs_boundary p.m_token_line > p.m_token_line.length := by omega
  simp [get_token_lhs, substr, substr_n, h1]

theorem get_token_lhs_stream {p : priv} {str : istream} {t : token_t} {q : priv} {str1 : istream}
    (h : get_token_lhs p str = .ok (t, q, str1)) (str2 : istream) :
    get_token_lhs p str2 = .ok (t, q, str2) := by
  rw [get_token_lhs_eq] at h ⊢
  simp only [Except.ok.injEq, Prod.mk.injEq] at h ⊢
  exact ⟨h.1, h.2.1, trivial⟩

theorem get_token_lhs_lines {p : priv} {str : istream} {t : token_t} {q : priv} {str1 : istream}
    (h : get_token_lhs p str = .ok (t, q, str1)) :
    q.m_line_number = p.m_line_number ∧ q.m_last_line = p.m_last_line := by
  rw [get_token_lhs_eq] at h
  simp only [Except.ok.injEq, Prod.mk.injEq] at h
  obtain ⟨_, rfl, _⟩ := h
  exact ⟨rfl, rfl⟩

/-- A token of type ASSIGN leaves the tokenizer in the RHS state. -/
theorem get_token_assign_state {p : priv} {str : istream} {t : token_t} {q : priv} {str1 : istream}
    (h : get_token p str = .ok (t, q, str1)) (ht : t.type = .TK_ASSIGN) : q.m_token_state = 3 := by
  unfold get_token at h
  split at h
  · simp only [Except.ok.injEq, Prod.mk.injEq] at h
    obtain ⟨rfl, rfl, rfl⟩ := h
    simp at ht
  · split at h
    · split at h
      · simp only [Except.ok.injEq, Prod.mk.injEq] at h
        obtain ⟨rfl, rfl, rfl⟩ := h
        simp at ht
      · have := (get_token_lhs_session h).2.1
        rw [this] at ht; cases ht
    · have := (get_token_lhs_session h).2.1
      rw [this] at ht; cases ht
    · unfold get_token_op at h
      split at h
      · exact (get_token_op_finish_ok h).2.1
      · split at h
        · exact (get_token_op_finish_ok h).2.1
        · simp only [] at h
          split at h
          · cases h
          · split at h
            · cases h
            · exact (get_token_op_finish_ok h).2.1
    · simp only [Except.ok.injEq, Prod.mk.injEq] at h
      obtain ⟨rfl, rfl, rfl⟩ := h
      simp at ht
    · simp only [Except.ok.injEq, Prod.mk.injEq] at h
      obtain ⟨rfl, rfl, rfl⟩ := h
      simp at ht

theorem get_token_op_finish_lines {p : priv} {str : istream} {t0 : token_t} {i : Nat}
    {t : token_t} {q : priv} {str1 : istream}
    (h : get_token_op_finish p str t0 i = .ok (t, q, str1)) :
    q.m_line_number = p.m_line_number ∧ q.m_last_line = p.m_last_line := by
  unfold get_token_op_finish at h
  split at h
  · cases h
  · simp only [Except.ok.injEq, Prod.mk.injEq] at h
    obtain ⟨_, rfl, _⟩ := h
    exact ⟨rfl, rfl⟩

theorem get_token_op_lines {p : priv} {str : istream} {t : token_t} {q : priv} {str1 : istream}
    (h : get_token_op p str = .ok (t, q, str1)) :
    q.m_line_number = p.m_line_number ∧ q.m_last_line = p.m_last_line := by
  unfold get_token_op at h
  split at h
  · exact get_token_op_finish_lines h
  · split at h
    · exact get_token_op_finish_lines h
    · simp only [] at h
      split at h
      · cases h
      · split at h
        · cases h
        · have := get_token_op_finish_lines h
          exact this

/-- In its initial state the tokenizer reads a line and goes on in the LHS state. -/
theorem get_token_init {p : priv} (h0 : p.m_token_state = 0) (str : istream) :
    get_token p str =
      match get_line p str with
      | (false, p1, str1) => .ok (⟨.TK_EOF, []⟩, { p1 with m_token_state := 0 }, str1)
      | (true, p1, str1) => get_token_lhs p1 str1 := by
  unfold get_token
  have hc : ¬ (p.m_token_line.length = 0 ∧ p.m_token_state ≠ 0) := fun hc => hc.2 h0
  rw [if_neg hc, h0]

/-- Outside its initial state the tokenizer reads no line. -/
theorem get_token_no_read {p : priv} {str : istream} {t : token_t} {q : priv} {str1 : istream}
    (h : get_token p str = .ok (t, q, str1)) (h0 : p.m_token_state ≠ 0) :
    str1 = str ∧ q.m_line_number = p.m_line_number ∧ q.m_last_line = p.m_last_line := by
  unfold get_token at h
  split at h
  · simp only [Except.ok.injEq, Prod.mk.injEq] at h
    obtain ⟨_, rfl, rfl⟩ := h
    exact ⟨rfl, rfl, rfl⟩
  · split at h
    · rename_i hz
      exact absurd hz h0
    · exact ⟨(get_token_lhs_session h).2.2, (get_token_lhs_lines h).1, (get_token_lhs_lines h).2⟩
    · exact ⟨(get_token_op_session h).2, get_token_op_lines h⟩
    · simp only [Except.ok.injEq, Prod.mk.injEq] at h
      obtain ⟨_, rfl, rfl⟩ := h
      exact ⟨rfl, rfl, rfl⟩
    · simp only [Except.ok.injEq, Prod.mk.injEq] at h
      obtain ⟨_, rfl, rfl⟩ := h
      exact ⟨rfl, rfl, rfl⟩

/-- A line that `get_line` returns from a one-line stream is returned in the
same way whatever lines follow it. -/
theorem get_line_one_line {p : priv} {raw : std_string} {q : priv} {str1 : istream}
    (h : get_line p [raw] = (true, q, str1)) (rest : istream) :
    str1 = [] ∧ get_line p (raw :: rest) = (true, q, rest) ∧
      q.m_line_number = p.m_line_number + 1 ∧ q.m_last_line = raw := by
  unfold get_line at h ⊢
  simp only [] at h ⊢
  split at h
  · simp [get_line] at h
  · rename_i hb
    rw [if_neg hb]
    split at h
    · rename_i idx hidx
      split at h
      · simp [get_line] at h
      · rename_i hb2
        rw [if_neg hb2]
        simp only [Prod.mk.injEq, true_and] at h
        obtain ⟨rfl, rfl⟩ := h
        exact ⟨rfl, rfl, rfl, rfl⟩
    · simp only [Prod.mk.injEq, true_and] at h
      obtain ⟨rfl, rfl⟩ := h
      exact ⟨rfl, rfl, rfl, rfl⟩

/-- A token other than EOF that used up a one-line stream is read in the same
way whatever lines follow that line. -/
theorem get_token_one_line {p : priv} {raw : std_string} {t : token_t} {q : priv}
    (h : get_token p [raw] = .ok (t, q, [])) (ht : t.type ≠ .TK_EOF) (rest : istream) :
    get_token p (raw :: rest) = .ok (t, q, rest) ∧ q.m_line_number = p.m_line_number + 1 ∧
      q.m_last_line = raw := by
  by_cases h0 : p.m_token_state = 0
  · rw [get_token_init h0] at h ⊢
    cases hl : get_line p [raw] with
    | mk found r =>
      obtain ⟨p1, s1⟩ := r
      rw [hl] at h
      cases found with
      | false =>
        simp only [Except.ok.injEq, Prod.mk.injEq] at h
        obtain ⟨rfl, _, _⟩ := h
        simp at ht
      | true =>
        obtain ⟨rfl, h2, h3, h4⟩ := get_line_one_line hl rest
        rw [h2]
        simp only [] at h ⊢
        refine ⟨get_token_lhs_stream h rest, ?_, ?_⟩
        · rw [(get_token_lhs_lines h).1, h3]
        · rw [(get_token_lhs_lines h).2, h4]
  · have := (get_token_no_read h h0).1
    simp at this

/-! ## Reading a statement token by token -/

theorem read_tokens_one {p : priv} {str : istream} {n : Nat} {t : token_t} {ts : List token_t}
    (h : (read_tokens (n + 1) p str).1 = t :: ts) :
    ∃ p1 str1, get_token p str = .ok (t, p1, str1) ∧ (read_tokens n p1 str1).1 = ts ∧
      (read_tokens (n + 1) p str).2 = (read_tokens n p1 str1).2 := by
  cases hg : get_token p str with
  | error e => simp [read_tokens, hg] at h
  | ok r =>
    obtain ⟨t1, p1, str1⟩ := r
    simp only [read_tokens, hg, List.cons.injEq] at h ⊢
    obtain ⟨rfl, h⟩ := h
    exact ⟨p1, str1, rfl, h, rfl⟩

theorem read_tokens_three {p : priv} {str : istream} {t1 t2 t3 : token_t}
    (h : (read_tokens 3 p str).1 = [t1, t2, t3]) :
    ∃ p1 s1 p2 s2 p3 s3, get_token p str = .ok (t1, p1, s1) ∧ get_token p1 s1 = .ok (t2, p2, s2) ∧
      get_token p2 s2 = .ok (t3, p3, s3) ∧ (read_tokens 3 p str).2 = (p3, s3) := by
  obtain ⟨p1, s1, h1, r1, e1⟩ := read_tokens_one h
  obtain ⟨p2, s2, h2, r2, e2⟩ := read_tokens_one r1
  obtain ⟨p3, s3, h3, _, e3⟩ := read_tokens_one r2
  exact ⟨p1, s1, p2, s2, p3, s3, h1, h2, h3, by rw [e1, e2, e3]; rfl⟩

theorem not_directive {k : std_string} (hk : ¬ is_directive k) :
    k ≠ kw_include ∧ k ≠ kw_block ∧ k ≠ kw_endblock ∧ k ≠ kw_relativepath := by
  simp only [is_directive, not_or] at hk
  exact hk

/-- The driver on a complete statement without modifier: the three tokens are
an LHS that is no directive, an ASSIGN and an RHS. -/
theorem process_statement_entry (env : environment) (m : machine) (k op v : std_string)
    (p1 p2 p3 : priv) (s1 s2 s3 : istream)
    (h1 : get_token m.members m.current.in_stream = .ok (⟨.TK_LHS, k⟩, p1, s1))
    (h2 : get_token p1 s1 = .ok (⟨.TK_ASSIGN, op⟩, p2, s2))
    (h3 : get_token p2 s2 = .ok (⟨.TK_RHS, v⟩, p3, s3))
    (hk : ¬ is_directive k) :
    process_statement env m =
      .running ⟨process_entry env p3 m.current.config_file_dir false k op v,
        { m.current with in_stream := s3 }, m.callers⟩ := by
  obtain ⟨k1, k2, k3, k4⟩ := not_directive hk
  simp [process_statement, process_assignment, h1, h2, h3, k1, k2, k3, k4]

/-! ## Running a parse -/

theorem run_thrown (env : environment) (n : Nat) (e : exception) (p : priv) :
    run env n (.thrown e p) = .thrown e p := by
  induction n with
  | zero => rfl
  | succ n ih => simpa [run, step] using ih

theorem run_returned (env : environment) (n : Nat) (p : priv) :
    run env n (.returned p) = .returned p := by
  induction n with
  | zero => rfl
  | succ n ih => simpa [run, step] using ih

theorem run_add (env : environment) (n k : Nat) (s : status) :
    run env (n + k) s = run env k (run env n s) := by
  induction n generalizing s with
  | zero => simp [run]
  | succ n ih =>
    rw [Nat.add_right_comm]
    exact ih (step env s)

/-- A parse that has ended stays as it is, whatever fuel is added. -/
theorem run_finished (env : environment) (n k : Nat) (s : status)
    (h : (run env n s).outcome ≠ .unfinished) : run env (n + k) s = run env n s := by
  rw [run_add]
  cases hs : run env n s with
  | running m => rw [hs] at h; exact absurd rfl h
  | returned p => exact run_returned env k p
  | thrown e p => exact run_thrown env k e p

theorem read_tokens_two {p : priv} {str : istream} {t1 t2 : token_t}
    (h : (read_tokens 2 p str).1 = [t1, t2]) :
    ∃ p1 s1 p2 s2, get_token p str = .ok (t1, p1, s1) ∧ get_token p1 s1 = .ok (t2, p2, s2) ∧
      (read_tokens 2 p str).2 = (p2, s2) := by
  obtain ⟨p1, s1, h1, r1, e1⟩ := read_tokens_one h
  obtain ⟨p2, s2, h2, _, e2⟩ := read_tokens_one r1
  exact ⟨p1, s1, p2, s2, h1, h2, by rw [e1, e2]; rfl⟩

/-! ## Lines and line numbers -/

/-- One round of the loop of `get_line`. -/
theorem get_line_cons (p : priv) (raw : std_string) (rest : istream) :
    get_line p (raw :: rest) =
      if norm_line raw = [] then
        get_line { p with m_line_number := p.m_line_number + 1, m_last_line := raw } rest
      else
        (true, { p with m_line_number := p.m_line_number + 1, m_last_line := raw,
                        m_token_line := norm_line raw }, rest) := by
  rw [get_line]
  simp only [norm_line]
  by_cases h1 : (trim raw).length = 0
  · have h2 : trim raw = [] := List.length_eq_zero.mp h1
    simp [h2, find_first_of]
  · have h2 : trim raw ≠ [] := fun h => h1 (by rw [h]; rfl)
    rw [if_neg h1]
    cases hf : find_first_of (trim raw) ['#'] with
    | none => simp [h2]
    | some idx =>
      simp only []
      by_cases h3 : (trim (List.take idx (trim raw))).length = 0
      · have h4 : trim (List.take idx (trim raw)) = [] := List.length_eq_zero.mp h3
        simp [h4]
      · have h4 : trim (List.take idx (trim raw)) ≠ [] := fun h => h3 (by rw [h]; rfl)
        simp [h3, h4]

/-- A line returned by `get_line`: the lines skipped before it are blank, the
counter advanced by one for each line consumed, and the buffer holds the
normalised line. -/
theorem get_line_true {str : istream} {p q : priv} {str1 : istream}
    (h : get_line p str = (true, q, str1)) :
    ∃ skipped raw, str = skipped ++ raw :: str1 ∧ (∀ l ∈ skipped, norm_line l = []) ∧
      norm_line raw ≠ [] ∧
      q = { p with m_line_number := p.m_line_number + skipped.length + 1, m_last_line := raw,
                   m_token_line := norm_line raw } := by
  induction str generalizing p with
  | nil => simp [get_line] at h
  | cons raw rest ih =>
    rw [get_line_cons] at h
    split at h
    · rename_i hb
      obtain ⟨skipped, raw1, h1, h2, h3, h4⟩ := ih h
      refine ⟨raw :: skipped, raw1, by rw [h1]; rfl, ?_, h3, ?_⟩
      · intro l hl
        rcases List.mem_cons.mp hl with rfl | hl
        · exact hb
        · exact h2 l hl
      · rw [h4]
        simp only [List.length_cons, Nat.cast_add, Nat.cast_one, priv.mk.injEq, and_true, true_and]
        omega
    · rename_i hb
      simp only [Prod.mk.injEq, true_and] at h
      obtain ⟨rfl, rfl⟩ := h
      exact ⟨[], raw, rfl, by simp, hb, by simp⟩

/-- What the tokenizer consumes: the lines `c` taken from the stream are counted. -/
theorem get_token_consumes {p : priv} {str : istream} {t : token_t} {q : priv} {str1 : istream}
    (h : get_token p str = .ok (t, q, str1)) (ht : t.type ≠ .TK_EOF) :
    ∃ c, str = c ++ str1 ∧ q.m_line_number = p.m_line_number + c.length := by
  by_cases h0 : p.m_token_state = 0
  · rw [get_token_init h0] at h
    cases hl : get_line p str with
    | mk found r =>
      obtain ⟨p1, s1⟩ := r
      rw [hl] at h
      cases found with
      | false =>
        simp only [Except.ok.injEq, Prod.mk.injEq] at h
        obtain ⟨rfl, _, _⟩ := h
        simp at ht
      | true =>
        simp only [] at h
        obtain ⟨skipped, raw, h1, _, _, h4⟩ := get_line_true hl
        have h5 := (get_token_lhs_session h).2.2
        have h6 := (get_token_lhs_lines h).1
        subst h5
        refine ⟨skipped ++ [raw], by rw [h1]; simp, ?_⟩
        rw [h6, h4]
        simp only [List.length_append, List.length_singleton, Nat.cast_add, Nat.cast_one]
        omega
  · obtain ⟨h1, h2, _⟩ := get_token_no_read h h0
    exact ⟨[], by rw [h1]; rfl, by rw [h2]; simp⟩

/-! ## The tokens depend on the tokenizer state only -/

theorem get_line_same_tokenizer (str : istream) (p q : priv) :
    (get_line q str).1 = (get_line p str).1 ∧ (get_line q str).2.2 = (get_line p str).2.2 ∧
    (get_line q str).2.1.m_token_line = (get_line p str).2.1.m_token_line ∧
    (get_line p str).2.1.m_token_state = p.m_token_state := by
  induction str generalizing p q with
  | nil => exact ⟨rfl, rfl, rfl, rfl⟩
  | cons raw rest ih =>
    rw [get_line_cons, get_line_cons]
    split
    · exact ih _ _
    · exact ⟨rfl, rfl, rfl, rfl⟩

theorem get_token_op_finish_same_tokenizer {p q : priv} (hq : same_tokenizer p q)
    {str : istream} {t0 t : token_t} {i : Nat} {p1 : priv} {str1 : istream}
    (h : get_token_op_finish p str t0 i = .ok (t, p1, str1)) :
    ∃ q1, get_token_op_finish q str t0 i = .ok (t, q1, str1) ∧ same_tokenizer p1 q1 := by
  unfold get_token_op_finish at h ⊢
  rw [hq.2]
  split at h
  · cases h
  · simp only [Except.ok.injEq, Prod.mk.injEq] at h
    obtain ⟨rfl, rfl, rfl⟩ := h
    exact ⟨_, rfl, rfl, rfl⟩

theorem get_token_op_same_tokenizer {p q : priv} (hq : same_tokenizer p q)
    {str : istream} {t : token_t} {p1 : priv} {str1 : istream}
    (h : get_token_op p str = .ok (t, p1, str1)) :
    ∃ q1, get_token_op q str = .ok (t, q1, str1) ∧ same_tokenizer p1 q1 := by
  unfold get_token_op at h ⊢
  rw [hq.2]
  split at h
  · rename_i hc
    rw [if_pos hc]
    exact get_token_op_finish_same_tokenizer hq h
  · rename_i hc
    rw [if_neg hc]
    split at h
    · rename_i hc2
      rw [if_pos hc2]
      exact get_token_op_finish_same_tokenizer hq h
    · rename_i hc2
      rw [if_neg hc2]
      simp only [] at h ⊢
      split at h
      · cases h
      · rename_i v hv
        split at h
        · cases h
        · rename_i r hr
          have hq2 : same_tokenizer
              { { p with m_token_line := ltrim p.m_token_line } with m_token_line := r }
              { { q with m_token_line := ltrim p.m_token_line } with m_token_line := r } :=
            ⟨hq.1, rfl⟩
          exact get_token_op_finish_same_tokenizer hq2 h

/-- Two parser states with the same tokenizer state give the same token and
are left with the same tokenizer state. -/
theorem get_token_same_tokenizer {p q : priv} (hq : same_tokenizer p q)
    {str : istream} {t : token_t} {p1 : priv} {str1 : istream}
    (h : get_token p str = .ok (t, p1, str1)) :
    ∃ q1, get_token q str = .ok (t, q1, str1) ∧ same_tokenizer p1 q1 := by
  by_cases hc : p.m_token_line.length = 0 ∧ p.m_token_state ≠ 0
  · have hcq : q.m_token_line.length = 0 ∧ q.m_token_state ≠ 0 := by rw [hq.1, hq.2]; exact hc
    unfold get_token at h ⊢
    rw [if_pos hc] at h
    rw [if_pos hcq]
    simp only [Except.ok.injEq, Prod.mk.injEq] at h
    obtain ⟨rfl, rfl, rfl⟩ := h
    exact ⟨_, rfl, rfl, hq.2⟩
  · have hcq : ¬ (q.m_token_line.length = 0 ∧ q.m_token_state ≠ 0) := by rw [hq.1, hq.2]; exact hc
    by_cases h0 : p.m_token_state = 0
    · have h0q : q.m_token_state = 0 := by rw [hq.1]; exact h0
      rw [get_token_init h0] at h
      rw [get_token_init h0q]
      obtain ⟨g1, g2, g3, _⟩ := get_line_same_tokenizer str p q
      cases hp : get_line p str with
      | mk fp rp =>
        obtain ⟨pp, sp⟩ := rp
        cases hq1 : get_line q str with
        | mk fq rq =>
          obtain ⟨pq, sq⟩ := rq
          rw [hp, hq1] at g1 g2 g3
          simp only at g1 g2 g3
          subst g1 g2
          rw [hp] at h
          cases fq with
          | false =>
            simp only [Except.ok.injEq, Prod.mk.injEq] at h ⊢
            obtain ⟨rfl, rfl, rfl⟩ := h
            exact ⟨_, ⟨rfl, rfl, rfl⟩, rfl, g3⟩
          | true =>
            simp only [] at h ⊢
            rw [get_token_lhs_eq] at h ⊢
            simp only [Except.ok.injEq, Prod.mk.injEq] at h ⊢
            obtain ⟨rfl, rfl, rfl⟩ := h
            rw [g3]
            exact ⟨_, ⟨rfl, rfl, rfl⟩, rfl, rfl⟩
    · unfold get_token at h ⊢
      rw [if_neg hc] at h
      rw [if_neg hcq, hq.1]
      split at h
      · rename_i hz; exact absurd hz h0
      · rw [get_token_lhs_eq] at h ⊢
        simp only [Except.ok.injEq, Prod.mk.injEq] at h ⊢
        obtain ⟨rfl, rfl, rfl⟩ := h
        rw [hq.2]
        exact ⟨_, ⟨rfl, rfl, rfl⟩, rfl, rfl⟩
      · exact get_token_op_same_tokenizer hq h
      · simp only [Except.ok.injEq, Prod.mk.injEq] at h ⊢
        obtain ⟨rfl, rfl, rfl⟩ := h
        exact ⟨_, ⟨by rw [hq.2], rfl, rfl⟩, rfl, rfl⟩
      · simp only [Except.ok.injEq, Prod.mk.injEq] at h ⊢
        obtain ⟨rfl, rfl, rfl⟩ := h
        exact ⟨q, ⟨rfl, rfl, rfl⟩, hq⟩

theorem get_line_false_count {str : istream} {p q : priv} {str1 : istream}
    (h : get_line p str = (false, q, str1)) :
    str1 = [] ∧ q.m_line_number = p.m_line_number + str.length := by
  induction str generalizing p with
  | nil =>
    simp only [get_line, Prod.mk.injEq, true_and] at h
    obtain ⟨rfl, rfl⟩ := h
    exact ⟨rfl, by simp⟩
  | cons raw rest ih =>
    rw [get_line_cons] at h
    split at h
    · obtain ⟨h1, h2⟩ := ih h
      refine ⟨h1, ?_⟩
      rw [h2]
      simp only [List.length_cons, Nat.cast_add, Nat.cast_one]
      omega
    · cases h

/-- What any call of `get_token` consumes: the lines `c` taken from the stream
are counted in `m_line_number`. -/
theorem get_token_counts {p : priv} {str : istream} {t : token_t} {q : priv} {str1 : istream}
    (h : get_token p str = .ok (t, q, str1)) :
    ∃ c, str = c ++ str1 ∧ q.m_line_number = p.m_line_number + c.length := by
  by_cases ht : t.type = .TK_EOF
  · by_cases h0 : p.m_token_state = 0
    · rw [get_token_init h0] at h
      cases hl : get_line p str with
      | mk found r =>
        obtain ⟨p1, s1⟩ := r
        rw [hl] at h
        cases found with
        | false =>
          simp only [Except.ok.injEq, Prod.mk.injEq] at h
          obtain ⟨_, rfl, rfl⟩ := h
          obtain ⟨h1, h2⟩ := get_line_false_count hl
          subst h1
          exact ⟨str, by simp, h2⟩
        | true =>
          simp only [] at h
          have := (get_token_lhs_session h).2.1
          rw [this] at ht
          cases ht
    · obtain ⟨h1, h2, _⟩ := get_token_no_read h h0
      exact ⟨[], by rw [h1]; rfl, by rw [h2]; simp⟩
  · exact get_token_consumes h ht

theorem get_line_skip (p : priv) (skipped : istream) (raw : std_string) (r : istream)
    (hsk : ∀ l ∈ skipped, norm_line l = []) (hraw : norm_line raw ≠ []) :
    get_line p (skipped ++ raw :: r) =
      (true, { p with m_line_number := p.m_line_number + skipped.length + 1, m_last_line := raw,
                      m_token_line := norm_line raw }, r) := by
  induction skipped generalizing p with
  | nil =>
    rw [List.nil_append, get_line_cons, if_neg hraw]
    simp
  | cons l rest ih =>
    rw [List.cons_append, get_line_cons, if_pos (hsk l (by simp)),
      ih _ (fun x hx => hsk x (by simp [hx]))]
    simp only [List.length_cons, Nat.cast_add, Nat.cast_one, Prod.mk.injEq, priv.mk.injEq,
      and_true, true_and]
    omega

theorem get_token_op_finish_stream {p : priv} {str : istream} {t0 : token_t} {i : Nat}
    {t : token_t} {q : priv} {str1 : istream}
    (h : get_token_op_finish p str t0 i = .ok (t, q, str1)) (str2 : istream) :
    get_token_op_finish p str2 t0 i = .ok (t, q, str2) := by
  unfold get_token_op_finish at h ⊢
  cases hsub : substr p.m_token_line i with
  | error e => rw [hsub] at h; cases h
  | ok r =>
    rw [hsub] at h
    simp only [Except.ok.injEq, Prod.mk.injEq] at h ⊢
    exact ⟨h.1, h.2.1, trivial⟩

theorem get_token_op_stream {p : priv} {str : istream} {t : token_t} {q : priv} {str1 : istream}
    (h : get_token_op p str = .ok (t, q, str1)) (str2 : istream) :
    get_token_op p str2 = .ok (t, q, str2) := by
  unfold get_token_op at h
  split at h
  · rename_i hc
    unfold get_token_op
    rw [if_pos hc]
    exact get_token_op_finish_stream h str2
  · rename_i hc
    split at h
    · rename_i hc2
      unfold get_token_op
      rw [if_neg hc, if_pos hc2]
      exact get_token_op_finish_stream h str2
    · rename_i hc2
      simp only [] at h
      split at h
      · cases h
      · rename_i v hv
        split at h
        · cases h
        · rename_i r hr
          unfold get_token_op
          rw [if_neg hc, if_neg hc2]
          simp only [hv, hr]
          exact get_token_op_finish_stream h str2

/-- Outside its initial state the tokenizer does not depend on the stream. -/
theorem get_token_stream {p : priv} {str : istream} {t : token_t} {q : priv} {str1 : istream}
    (h : get_token p str = .ok (t, q, str1)) (h0 : p.m_token_state ≠ 0) (str2 : istream) :
    get_token p str2 = .ok (t, q, str2) := by
  unfold get_token at h ⊢
  by_cases hc : p.m_token_line.length = 0 ∧ p.m_token_state ≠ 0
  · rw [if_pos hc] at h ⊢
    simp only [Except.ok.injEq, Prod.mk.injEq] at h ⊢
    exact ⟨h.1, h.2.1, trivial⟩
  · rw [if_neg hc] at h ⊢
    match hst : p.m_token_state with
    | 0 => exact absurd hst h0
    | 1 =>
      rw [hst] at h
      exact get_token_lhs_stream h str2
    | 2 =>
      rw [hst] at h
      exact get_token_op_stream h str2
    | 3 =>
      rw [hst] at h
      simp only [Except.ok.injEq, Prod.mk.injEq] at h ⊢
      exact ⟨h.1, h.2.1, trivial⟩
    | n + 4 =>
      rw [hst] at h
      simp only [Except.ok.injEq, Prod.mk.injEq] at h ⊢
      exact ⟨h.1, h.2.1, trivial⟩

/-- A token other than EOF is read in the same way whatever follows the lines
`c` that reading it consumed. -/
theorem get_token_rest {p : priv} {str : istream} {t : token_t} {q : priv} {str1 : istream}
    (h : get_token p str = .ok (t, q, str1)) (ht : t.type ≠ .TK_EOF) :
    ∃ c, str = c ++ str1 ∧ q.m_line_number = p.m_line_number + c.length ∧
      ∀ r, get_token p (c ++ r) = .ok (t, q, r) := by
  by_cases h0 : p.m_token_state = 0
  · have h1 := h
    rw [get_token_init h0] at h1
    cases hl : get_line p str with
    | mk found rr =>
      obtain ⟨pl, sl⟩ := rr
      rw [hl] at h1
      cases found with
      | false =>
        simp only [Except.ok.injEq, Prod.mk.injEq] at h1
        obtain ⟨rfl, _, _⟩ := h1
        simp at ht
      | true =>
        simp only [] at h1
        obtain ⟨skipped, raw, e1, e2, e3, e4⟩ := get_line_true hl
        have hs1 : str1 = sl := (get_token_lhs_session h1).2.2
        subst hs1
        refine ⟨skipped ++ [raw], by rw [e1]; simp, ?_, ?_⟩
        · rw [(get_token_lhs_lines h1).1, e4]
          simp only [List.length_append, List.length_singleton, Nat.cast_add, Nat.cast_one]
          omega
        · intro r
          rw [get_token_init h0]
          have : skipped ++ [raw] ++ r = skipped ++ raw :: r := by simp
          rw [this, get_line_skip p skipped raw r e2 e3, ← e4]
          exact get_token_lhs_stream h1 r
  · obtain ⟨h1, h2, _⟩ := get_token_no_read h h0
    subst h1
    exact ⟨[], rfl, by rw [h2]; simp, fun r => get_token_stream h h0 r⟩

/-- The line on which a `block` statement was read: when the word `block` and
then an LHS token `name` are read from the initial state, the first call
consumed blank lines and then one line `raw`, which by itself is a `block`
statement for `name`; the second call read no line. -/
theorem block_statement_line {p p1 p2 : priv} {str s1 s2 : istream} {ty : token_type}
    {name : std_string} (h0 : p.m_token_state = 0)
    (h1 : get_token p str = .ok (⟨ty, kw_block⟩, p1, s1))
    (h2 : get_token p1 s1 = .ok (⟨.TK_LHS, name⟩, p2, s2)) :
    ∃ skipped raw, str = skipped ++ raw :: s2 ∧
      p2.m_line_number = p.m_line_number + skipped.length + 1 ∧
      is_block_statement raw name := by
  rw [get_token_init h0] at h1
  cases hl : get_line p str with
  | mk found r =>
    obtain ⟨pl, sl⟩ := r
    rw [hl] at h1
    cases found with
    | false =>
      simp only [Except.ok.injEq, Prod.mk.injEq, token_t.mk.injEq] at h1
      exact absurd h1.1.2 (by decide)
    | true =>
      simp only [] at h1
      obtain ⟨skipped, raw, e1, _, e3, e4⟩ := get_line_true hl
      have hs1 : s1 = sl := (get_token_lhs_session h1).2.2
      subst hs1
      have hty : ty = .TK_LHS := (get_token_lhs_session h1).2.1
      subst hty
      have hlhs := h1
      rw [get_token_lhs_eq] at hlhs
      simp only [Except.ok.injEq, Prod.mk.injEq, token_t.mk.injEq, true_and, and_true] at hlhs
      obtain ⟨hv, hp1⟩ := hlhs
      have hst1 : p1.m_token_state ≠ 0 := by
        rw [← hp1]
        simp only []
        split <;> decide
      obtain ⟨f1, f2, _⟩ := get_token_no_read h2 hst1
      subst f1
      refine ⟨skipped, raw, e1, ?_, ?_⟩
      · rw [f2, (get_token_lhs_lines h1).1, e4]
      · -- the same two tokens are read from `raw` alone by a new parser
        have g1 : get_token priv_new [raw] = get_token_lhs
            { priv_new with m_line_number := priv_new.m_line_number + 1, m_last_line := raw,
                            m_token_line := norm_line raw } [] := by
          rw [get_token_init rfl, get_line_cons, if_neg e3]
        rw [get_token_lhs_eq] at g1
        have hpl : pl.m_token_line = norm_line raw := by rw [e4]
        rw [hpl] at hv hp1
        simp only [] at g1
        rw [hv] at g1
        obtain ⟨Q, hQ, hsame⟩ : ∃ Q, get_token priv_new [raw] =
            .ok (⟨.TK_LHS, kw_block⟩, Q, []) ∧ same_tokenizer p1 Q :=
          ⟨_, g1, by rw [← hp1]; exact ⟨rfl, rfl⟩⟩
        obtain ⟨q2, g2, _⟩ := get_token_same_tokenizer hsame (get_token_stream h2 hst1 [])
        simp [is_block_statement, read_tokens, hQ, g2]

/-! ## What one loop iteration does -/

theorem consumed_by_next {m : machine} {p : priv} {str : istream} (hr : consumed_by m p str)
    {t : token_t} {q : priv} {str1 : istream} (h : get_token p str = .ok (t, q, str1)) :
    consumed_by m q str1 := by
  obtain ⟨c, h1, h2⟩ := hr
  obtain ⟨c1, h3, h4⟩ := get_token_counts h
  refine ⟨c ++ c1, by rw [h1, h3]; simp, ?_⟩
  rw [h4, h2]
  simp only [List.length_append, Nat.cast_add]
  omega

theorem process_assignment_effect (env : environment) (m : machine) (rel_path : Bool)
    (t : token_t) (p : priv) (str : istream) (hs : same_session m.members p)
    (hr : consumed_by m p str) :
    statement_effect env m (process_assignment env m.current m.callers rel_path t p str) := by
  unfold process_assignment
  split
  · exact .invalid p str hs hr
  · cases h2 : get_token p str with
    | error r =>
      obtain ⟨e, q⟩ := r
      obtain ⟨rfl, hq⟩ := get_token_error h2
      exact .tokenizer_failure q (same_session_trans hs hq)
    | ok r =>
      obtain ⟨t2, p2, s2⟩ := r
      have hs2 := same_session_trans hs (get_token_session h2)
      have hr2 := consumed_by_next hr h2
      simp only []
      split
      · exact .invalid p2 s2 hs2 hr2
      · cases h3 : get_token p2 s2 with
        | error r =>
          obtain ⟨e, q⟩ := r
          obtain ⟨rfl, hq⟩ := get_token_error h3
          exact .tokenizer_failure q (same_session_trans hs2 hq)
        | ok r =>
          obtain ⟨t3, p3, s3⟩ := r
          have hs3 := same_session_trans hs2 (get_token_session h3)
          have hr3 := consumed_by_next hr2 h3
          simp only []
          split
          · exact .invalid p3 s3 hs3 hr3
          · rename_i ht
            exact .entry p3 s3 rel_path _ _ _ hs3 (get_token_rhs_state h3 (by simpa using ht)) hr3

theorem process_statement_effect (env : environment) (m : machine) :
    statement_effect env m (process_statement env m) := by
  unfold process_statement
  simp only []
  cases h1 : get_token m.members m.current.in_stream with
  | error r =>
    obtain ⟨e, q⟩ := r
    obtain ⟨rfl, hq⟩ := get_token_error h1
    exact .tokenizer_failure q hq
  | ok r =>
    obtain ⟨t1, p1, s1⟩ := r
    have hs1 := get_token_session h1
    have hr1 : consumed_by m p1 s1 := get_token_counts h1
    simp only []
    split
    · rename_i ht
      obtain ⟨rfl, rfl⟩ := get_token_eof h1 ht
      exact .eof p1 hs1 (get_token_eof_state h1 ht) h1
    · split
      · exact .include_file p1 s1 _ hs1 hr1
      · split
        · rename_i hblock
          cases h2 : get_token p1 s1 with
          | error r =>
            obtain ⟨e, q⟩ := r
            obtain ⟨rfl, hq⟩ := get_token_error h2
            exact .tokenizer_failure q (same_session_trans hs1 hq)
          | ok r =>
            obtain ⟨t2, p2, s2⟩ := r
            have hs2 := same_session_trans hs1 (get_token_session h2)
            have hr2 := consumed_by_next hr1 h2
            simp only []
            split
            · exact .invalid p2 s2 hs2 hr2
            · rename_i hlhs
              refine .block p2 s2 t2.value hs2 hr2 ?_
              intro h0
              obtain ⟨ty, v⟩ := t1
              obtain ⟨ty2, v2⟩ := t2
              simp only at hblock hlhs
              have hty2 : ty2 = .TK_LHS := by simpa using hlhs
              subst hblock hty2
              exact block_statement_line h0 h1 h2
        · split
          · cases hb : (flush_line p1).m_block_stack.getLast? with
            | none =>
              simp only []
              exact .endblock_unmatched p1 hs1 (by simpa [flush_line] using hb)
            | some back =>
              simp only []
              have hd := List.dropLast_append_getLast? back (by simpa using hb)
              exact .endblock p1 s1 _ back hs1 (by simpa [flush_line] using hd.symm) hr1
          · split
            · cases h2 : get_token p1 s1 with
              | error r =>
                obtain ⟨e, q⟩ := r
                obtain ⟨rfl, hq⟩ := get_token_error h2
                exact .tokenizer_failure q (same_session_trans hs1 hq)
              | ok r =>
                obtain ⟨t2, p2, s2⟩ := r
                exact process_assignment_effect env m true t2 p2 s2
                  (same_session_trans hs1 (get_token_session h2)) (consumed_by_next hr1 h2)
            · exact process_assignment_effect env m false t1 p1 s1 hs1 hr1

/-! ## Invariants of a parse -/

theorem context_of_append (st : List block_context_t) (b : block_context_t) :
    context_of (st ++ [b]) = context_of st ++ (b.m_block_name ++ block_sep) := by
  induction st with
  | nil => simp [context_of]
  | cons a rest ih => simp [context_of, ih]

theorem frames_linked_push {st : List block_context_t} {b : block_context_t}
    (h : frames_linked st) (hb : b.m_previous_context = context_of st) :
    frames_linked (st ++ [b]) := by
  intro below c above heq
  rcases List.eq_nil_or_concat above with rfl | ⟨above1, last, rfl⟩
  · have h2 : st ++ [b] = below ++ [c] := heq
    obtain ⟨h3, h4⟩ := List.append_inj' h2 rfl
    simp only [List.cons.injEq, and_true] at h4
    rw [← h3, ← h4]; exact hb
  · have h2 : st ++ [b] = (below ++ c :: above1) ++ [last] := by
      rw [heq]; simp
    obtain ⟨h3, _⟩ := List.append_inj' h2 rfl
    exact h below c above1 h3

theorem frames_linked_pop {st : List block_context_t} {b : block_context_t}
    (h : frames_linked (st ++ [b])) : frames_linked st ∧ b.m_previous_context = context_of st := by
  refine ⟨?_, h st b [] rfl⟩
  intro below c above heq
  exact h below c (above ++ [b]) (by rw [heq]; simp)

theorem context_inv_session {p q : priv} (hs : same_session p q) (h : context_inv p) :
    context_inv q := by
  obtain ⟨a1, a2, _⟩ := hs
  unfold context_inv at h ⊢
  rw [a1, a2]; exact h

theorem latch_inv_session {p q : priv} (hs : same_session p q) (h : latch_inv p) :
    latch_inv q := by
  obtain ⟨_, _, _, a4, _, _, a7⟩ := hs
  unfold latch_inv at h ⊢
  rw [a4, a7]; exact h

theorem latch_inv_not_reported {p : priv} (h : latch_inv p) (he : p.m_parse_error = false) :
    p.m_logger = [] := by
  by_contra hne
  have := h.1.2 hne
  rw [he] at this
  cases this

theorem latch_inv_reported {p : priv} (h : latch_inv p) (he : p.m_parse_error = true) :
    error_reported p := by
  have hne := h.1.1 he
  obtain ⟨e, rest, hl⟩ := List.exists_cons_of_ne_nil hne
  obtain ⟨l, f, n, rfl⟩ := h.2 e (by rw [hl]; simp)
  exact Or.inl ⟨l, f, n, by rw [hl]; simp⟩

theorem process_eof_nested (p : priv) (f : std_string) (callers : List (activation × Int))
    (h : p.m_file_count ≠ 1) :
    process_eof p f callers =
      process_file_return { p with m_file_count := p.m_file_count - 1 } callers := by
  have hz : ¬ (0 : Int) = p.m_file_count - 1 := by omega
  simp [process_eof, hz]

theorem process_eof_unclosed (p : priv) (f : std_string) (callers : List (activation × Int))
    (h : p.m_file_count = 1) (hst : p.m_block_stack ≠ []) :
    process_eof p f callers =
      .thrown (.config_file_not_parsed f .errors_in_config_file)
        { p with
          m_file_count := p.m_file_count - 1
          m_logger := p.m_logger ++ [.unclosed_blocks (unclosed_entries p.m_block_stack)]
          m_block_stack := []
          m_parse_error := true } := by
  have hz : (0 : Int) = p.m_file_count - 1 := by omega
  have hl : ¬ p.m_block_stack.length = 0 := fun hl => hst (List.length_eq_zero.mp hl)
  have hl2 : ¬ 0 = p.m_block_stack.length := fun hl3 => hl hl3.symm
  simp [process_eof, hz, hl2]

theorem process_eof_latched (p : priv) (f : std_string) (callers : List (activation × Int))
    (h : p.m_file_count = 1) (hst : p.m_block_stack = []) (he : p.m_parse_error = true) :
    process_eof p f callers =
      .thrown (.config_file_not_parsed f .errors_in_config_file)
        { p with m_file_count := p.m_file_count - 1 } := by
  have hz : (0 : Int) = p.m_file_count - 1 := by omega
  simp [process_eof, hz, hst, he]

theorem process_eof_clean (p : priv) (f : std_string) (callers : List (activation × Int))
    (h : p.m_file_count = 1) (hst : p.m_block_stack = []) (he : p.m_parse_error = false) :
    process_eof p f callers =
      process_file_return { p with m_file_count := p.m_file_count - 1 } callers := by
  have hz : (0 : Int) = p.m_file_count - 1 := by omega
  simp [process_eof, hz, hst, he]

theorem status_inv_eof (path : std_string) (m : machine) (p : priv)
    (hm : machine_inv path m) (hs : same_session m.members p) (h0 : p.m_token_state = 0) :
    status_inv path (process_eof p m.current.file_path m.callers) := by
  obtain ⟨hctx, hlatch, hcount, _, hout⟩ := hm
  have hctx1 := context_inv_session hs hctx
  have hlatch1 := latch_inv_session hs hlatch
  have hcount1 : p.m_file_count = m.callers.length + 1 := by rw [hs.2.2.1]; exact hcount
  cases hc : m.callers with
  | nil =>
    rw [hc] at hcount1
    have hout1 : m.current.file_path = path := by
      simpa [outermost_file, hc] using hout
    have h1 : p.m_file_count = 1 := by simpa using hcount1
    by_cases hst : p.m_block_stack = []
    · cases hpe : p.m_parse_error with
      | false =>
        rw [process_eof_clean p _ _ h1 hst hpe]
        simp only [process_file_return, status_inv]
        exact ⟨hctx1, latch_inv_not_reported hlatch1 hpe, hpe, hst, by omega⟩
      | true =>
        rw [process_eof_latched p _ _ h1 hst hpe]
        simp only [status_inv]
        refine ⟨?_, fun hne => absurd rfl (hne m.current.file_path)⟩
        intro f hf
        simp only [exception.config_file_not_parsed.injEq, and_true] at hf
        exact ⟨hf ▸ hout1, latch_inv_reported hlatch1 hpe, hpe, hst, by omega⟩
    · rw [process_eof_unclosed p _ _ h1 hst]
      simp only [status_inv]
      refine ⟨?_, fun hne => absurd rfl (hne m.current.file_path)⟩
      intro f hf
      simp only [exception.config_file_not_parsed.injEq, and_true] at hf
      refine ⟨hf ▸ hout1, ?_, trivial, trivial, by omega⟩
      refine Or.inr ⟨unclosed_entries p.m_block_stack, ?_, by simp⟩
      intro hnil
      apply hst
      simpa [unclosed_entries] using hnil
  | cons c rest =>
    rw [hc] at hcount1
    have hz : p.m_file_count ≠ 1 := by
      rw [hcount1]; simp only [List.length_cons]; omega
    rw [process_eof_nested p _ _ hz]
    simp only [process_file_return, status_inv, machine_inv]
    refine ⟨hctx1, hlatch1, ?_, h0, ?_⟩
    · simp only [hcount1, List.length_cons]; omega
    · rw [← hout]
      simp only [outermost_file, hc, List.map_cons]
      cases hr : rest.map (fun c => c.1.file_path) with
      | nil => simp
      | cons d ds =>
        rw [List.getLast?_cons_cons, List.getLast?_eq_getLast _ (List.cons_ne_nil d ds)]
        rfl

theorem thrown_other_inv (path : std_string) (e : exception) (p : priv)
    (he : ∀ f, e ≠ .config_file_not_parsed f .errors_in_config_file) (hp : context_inv p) :
    status_inv path (.thrown e p) := by
  simp only [status_inv]
  exact ⟨fun f hf => absurd hf (he f), fun _ => hp⟩

theorem status_inv_enter (env : environment) (path : std_string) (p : priv)
    (filename : std_string) (callers : List (activation × Int))
    (hctx : context_inv p) (hlatch : latch_inv p) (hcount : p.m_file_count = callers.length)
    (hout : (callers.map fun c => c.1.file_path).getLast?.getD filename = path) :
    status_inv path (process_file_enter env p filename callers) := by
  unfold process_file_enter
  simp only []
  cases env.ifstream filename with
  | none =>
    exact thrown_other_inv path _ _ (fun f hf => by cases hf) hctx
  | some lines =>
    simp only [status_inv, machine_inv]
    refine ⟨hctx, hlatch, by rw [hcount], trivial, ?_⟩
    rw [← hout]
    rfl

theorem status_inv_effect (env : environment) (path : std_string) (m : machine) (s : status)
    (hm : machine_inv path m) (heff : statement_effect env m s) : status_inv path s := by
  have hm0 := hm
  obtain ⟨hctx, hlatch, hcount, hstate, hout⟩ := hm
  cases heff with
  | tokenizer_failure p hs =>
    exact thrown_other_inv path _ _ (fun f hf => by cases hf) (context_inv_session hs hctx)
  | eof p hs h0 _ => exact status_inv_eof path m p hm0 hs h0
  | include_file p str filename hs _ =>
    apply status_inv_enter
    · exact context_inv_session hs hctx
    · exact latch_inv_session hs hlatch
    · have : p.m_file_count = m.members.m_file_count := hs.2.2.1
      simp only [flush_line, this, hcount, List.length_cons]
      push_cast; ring
    · rw [← hout]
      simp only [outermost_file, List.map_cons]
      cases hr : m.callers.map (fun c => c.1.file_path) with
      | nil => simp
      | cons d ds =>
        rw [List.getLast?_cons_cons, List.getLast?_eq_getLast _ (List.cons_ne_nil d ds)]
        rfl
  | invalid p str hs _ =>
    have hl := latch_inv_session hs hlatch
    have hc := context_inv_session hs hctx
    simp only [status_inv, machine_inv]
    refine ⟨hc, ?_, ?_, rfl, hout⟩
    · refine ⟨by simp [invalid_statement, flush_line], ?_⟩
      intro e he
      simp only [invalid_statement, flush_line, List.mem_append, List.mem_singleton] at he
      rcases he with he | he
      · exact hl.2 e he
      · exact ⟨_, _, _, he⟩
    · have : p.m_file_count = m.members.m_file_count := hs.2.2.1
      simp only [invalid_statement, flush_line, this, hcount]
  | block p str name hs _ _ =>
    have hc := context_inv_session hs hctx
    have hl := latch_inv_session hs hlatch
    simp only [status_inv, machine_inv]
    refine ⟨?_, hl, ?_, rfl, hout⟩
    · refine ⟨?_, ?_⟩
      · simp only [flush_line, context_of_append, hc.1]
      · exact frames_linked_push hc.2 hc.1
    · have : p.m_file_count = m.members.m_file_count := hs.2.2.1
      simp only [flush_line, this, hcount]
  | endblock_unmatched p hs he =>
    exact thrown_other_inv path _ _ (fun f hf => by cases hf) (context_inv_session hs hctx)
  | endblock p str below back hs he _ =>
    have hc := context_inv_session hs hctx
    have hp := frames_linked_pop (he ▸ hc.2)
    have hl := latch_inv_session hs hlatch
    simp only [status_inv, machine_inv]
    refine ⟨⟨hp.2, hp.1⟩, hl, ?_, rfl, hout⟩
    have : p.m_file_count = m.members.m_file_count := hs.2.2.1
    simp only [flush_line, this, hcount]
  | entry p str rel_path lhs op rhs hs h0 _ =>
    have hc := context_inv_session hs hctx
    have hl := latch_inv_session hs hlatch
    have hcnt : p.m_file_count = m.callers.length + 1 := by rw [hs.2.2.1]; exact hcount
    simp only [status_inv, machine_inv]
    unfold process_entry
    split
    · exact ⟨hc, hl, hcnt, h0, hout⟩
    · split
      · exact ⟨hc, hl, hcnt, h0, hout⟩
      · exact ⟨hc, hl, hcnt, h0, hout⟩

theorem status_inv_step (env : environment) (path : std_string) (s : status)
    (h : status_inv path s) : status_inv path (step env s) := by
  cases s with
  | running m => exact status_inv_effect env path m _ h (process_statement_effect env m)
  | returned p => exact h
  | thrown e p => exact h

theorem status_inv_run (env : environment) (path : std_string) (n : Nat) (s : status)
    (h : status_inv path s) : status_inv path (run env n s) := by
  induction n generalizing s with
  | zero => exact h
  | succ n ih => exact ih _ (status_inv_step env path s h)

theorem priv_new_context_inv : context_inv priv_new := by
  refine ⟨rfl, ?_⟩
  intro below b above h
  cases below <;> cases h

theorem status_inv_parse_config (env : environment) (fuel : Nat) (path : std_string) :
    status_inv path (parse_config env fuel path) := by
  apply status_inv_run
  apply status_inv_enter
  · exact priv_new_context_inv
  · exact ⟨by simp [priv_new], by simp [priv_new]⟩
  · rfl
  · rfl

/-! ## Words and white space -/

theorem isalnum_not_delim {c : Char} (h : isalnum c = true) :
    c ≠ ' ' ∧ c ≠ '\t' ∧ c ≠ '=' ∧ c ≠ ':' ∧ c ≠ '#' ∧ isspace c = false := by
  refine ⟨?_, ?_, ?_, ?_, ?_, ?_⟩
  · rintro rfl; revert h; decide
  · rintro rfl; revert h; decide
  · rintro rfl; revert h; decide
  · rintro rfl; revert h; decide
  · rintro rfl; revert h; decide
  · simp only [isalnum, isspace, Bool.or_eq_true, Bool.and_eq_true, decide_eq_true_eq,
      Bool.or_eq_false_iff, Bool.and_eq_false_iff, decide_eq_false_iff_not] at h ⊢
    omega

theorem identifier_char_not_delim {c : Char} (h : identifier_char c) :
    c ≠ ' ' ∧ c ≠ '\t' ∧ c ≠ '=' ∧ c ≠ ':' ∧ c ≠ '#' ∧ isspace c = false := by
  rcases h with h | rfl
  · exact isalnum_not_delim h
  · decide

theorem find_first_of_append {w : std_string} {cs : List Char} (d : Char) (r : std_string)
    (hw : ∀ c ∈ w, c ∉ cs) (hd : d ∈ cs) :
    find_first_of (w ++ d :: r) cs = some w.length := by
  induction w with
  | nil => simp [find_first_of, hd]
  | cons c rest ih =>
    have hc : c ∉ cs := hw c (by simp)
    have ih1 := ih (fun x hx => hw x (by simp [hx]))
    simp [find_first_of, hc, ih1]

theorem char_at_append_length (w : std_string) (d : Char) (r : std_string) :
    char_at (w ++ d :: r) w.length = d := by
  induction w with
  | nil => rfl
  | cons c rest ih =>
    simp only [char_at] at ih ⊢
    simpa using ih

theorem ltrim_spaces (sp : std_string) (c : Char) (r : std_string)
    (hsp : ∀ x ∈ sp, isspace x = true) (hc : isspace c = false) :
    ltrim (sp ++ c :: r) = c :: r := by
  induction sp with
  | nil => simp [ltrim, List.dropWhile, hc]
  | cons x rest ih =>
    have hx : isspace x = true := hsp x (by simp)
    have ih1 := ih (fun y hy => hsp y (by simp [hy]))
    simp only [ltrim] at ih1 ⊢
    simp [List.dropWhile, hx, ih1]

/-- The boundary of a buffer that starts with a word of identifier characters
followed by a space or a tab is the end of that word. -/
theorem lhs_boundary_word (w : std_string) (d : Char) (r : std_string)
    (hw : ∀ c ∈ w, identifier_char c) (hd : d = ' ' ∨ d = '\t') :
    lhs_boundary (w ++ d :: r) = w.length := by
  have hf : find_first_of (w ++ d :: r) [' ', '\t', '='] = some w.length := by
    apply find_first_of_append
    · intro c hc
      obtain ⟨h1, h2, h3, _⟩ := identifier_char_not_delim (hw c hc)
      simp [h1, h2, h3]
    · rcases hd with rfl | rfl <;> simp
  unfold lhs_boundary
  simp only [hf, char_at_append_length]
  have hne : d ≠ '=' := by rcases hd with rfl | rfl <;> decide
  simp [hne]

/-- In the operator state, a buffer that starts with a character other than
':' and '=' and white space gives an LHS token. -/
theorem get_token_op_other (p : priv) (str : istream) (c : Char) (r : std_string)
    (hl : p.m_token_line = c :: r) (h1 : c ≠ ':') (h2 : c ≠ '=') (h3 : isspace c = false) :
    ∃ v q, get_token_op p str = .ok (⟨.TK_LHS, v⟩, q, str) ∧ same_session p q ∧
      q.m_line_number = p.m_line_number ∧ q.m_last_line = p.m_last_line := by
  have hlt : ltrim (c :: r) = c :: r := by simp [ltrim, List.dropWhile, h3]
  have hidx : (match find_first_of (c :: r) [' ', '\t'] with
      | none => (c :: r).length
      | some i => i) ≤ (c :: r).length := by
    split
    · exact Nat.le_refl _
    · rename_i i hi
      exact Nat.le_of_lt (find_first_of_lt hi)
  have hidx2 : ¬ (match find_first_of (c :: r) [' ', '\t'] with
      | none => (c :: r).length
      | some i => i) > (c :: r).length := by omega
  unfold get_token_op
  simp only [hl, char_at, List.getD_cons_zero, h1, h2, if_false, substr_n, substr, hlt,
    get_token_op_finish]
  simp only [Nat.not_lt_zero, gt_iff_lt, if_false, hidx2]
  exact ⟨_, _, rfl, by simp [same_session], rfl, rfl⟩

/-! ## A statement of two words -/

/-- When a physical line is left to read, the line reader does not depend on
what the buffer holds: `getline` overwrites it. -/
theorem get_line_ignores_buffer (raw : std_string) (rest : istream) (p : priv)
    (x : std_string) :
    get_line { p with m_token_line := x } (raw :: rest) = get_line p (raw :: rest) := by
  have hall : ∀ (str : istream) (q : priv),
      get_line { q with m_token_line := x } str = get_line q str := by
    intro str
    induction str with
    | nil => intro q; rfl
    | cons a rest1 ih =>
      intro q
      unfold get_line
      simp only []
      have ih1 := ih { q with m_line_number := q.m_line_number + 1, m_last_line := a }
      split
      · exact ih1
      · split
        · split
          · exact ih1
          · rfl
        · rfl
  exact hall (raw :: rest) p

/-- In its initial state, with a physical line left to read, the tokenizer does
not look at what is left in the buffer: it reads the next physical line. -/
theorem get_token_ignores_buffer (p : priv) (h0 : p.m_token_state = 0) (raw : std_string)
    (rest : istream) :
    get_token p (raw :: rest) = get_token { p with m_token_line := [] } (raw :: rest) := by
  rw [get_token_init h0, get_token_init (p := { p with m_token_line := [] }) h0,
    get_line_ignores_buffer raw rest p []]

/-- In its initial state, on a stream at its end, the tokenizer returns EOF
whatever the buffer holds; the session, the counter and the last line stay as
they are. -/
theorem get_token_at_end (p : priv) (h0 : p.m_token_state = 0) :
    ∃ q, get_token p [] = .ok (⟨.TK_EOF, []⟩, q, []) ∧ same_session p q ∧
      q.m_token_state = 0 ∧ q.m_line_number = p.m_line_number ∧
      q.m_last_line = p.m_last_line := by
  rw [get_token_init h0]
  exact ⟨_, rfl, by simp [same_session], rfl, rfl, rfl⟩

/-- What is left in the buffer when the tokenizer is put back into its initial
state is never tokenized: if a physical line is left, the next call reads it,
exactly as with an empty buffer; if the stream is at its end, the next call
returns EOF. -/
theorem initial_state_discards_buffer (p : priv) (h0 : p.m_token_state = 0) (str : istream) :
    (∀ (l : std_string) (rest : istream), str = l :: rest →
      get_token p str = get_token { p with m_token_line := [] } str) ∧
    (str = [] → ∃ q, get_token p str = .ok (⟨.TK_EOF, []⟩, q, []) ∧ same_session p q ∧
      q.m_token_state = 0 ∧ q.m_line_number = p.m_line_number ∧
      q.m_last_line = p.m_last_line) := by
  constructor
  · intro l rest hstr
    rw [hstr]
    exact get_token_ignores_buffer p h0 l rest
  · intro hstr
    rw [hstr]
    exact get_token_at_end p h0

theorem get_token_lhs_total (p : priv) (str : istream) :
    ∃ v q, get_token_lhs p str = .ok (⟨.TK_LHS, v⟩, q, str) ∧ same_session p q ∧
      q.m_line_number = p.m_line_number ∧ q.m_last_line = p.m_last_line :=
  ⟨_, _, get_token_lhs_eq p str, by simp [same_session], rfl, rfl⟩

/-- The two tokens of a buffer that starts with two words: both are LHS tokens. -/
theorem two_words_tokens (p1 : priv) (str : istream) (w1 sp : std_string) (c2 : Char)
    (tail : std_string) (hbuf : p1.m_token_line = w1 ++ sp ++ c2 :: tail)
    (hw1 : ∀ c ∈ w1, identifier_char c)
    (hsp : sp ≠ [] ∧ ∀ c ∈ sp, c = ' ' ∨ c = '\t')
    (hc2 : identifier_char c2) :
    ∃ q v2 q2, get_token_lhs p1 str = .ok (⟨.TK_LHS, w1⟩, q, str) ∧
      get_token q str = .ok (⟨.TK_LHS, v2⟩, q2, str) ∧
      same_session p1 q2 ∧ q2.m_line_number = p1.m_line_number ∧
      q2.m_last_line = p1.m_last_line := by
  obtain ⟨hne, hsp2⟩ := hsp
  obtain ⟨d, sp1, rfl⟩ := List.exists_cons_of_ne_nil hne
  have hd : d = ' ' ∨ d = '\t' := hsp2 d (by simp)
  have hbuf1 : p1.m_token_line = w1 ++ d :: (sp1 ++ c2 :: tail) := by rw [hbuf]; simp
  have hb := lhs_boundary_word w1 d (sp1 ++ c2 :: tail) hw1 hd
  have hc2s := (identifier_char_not_delim hc2).2.2.2.2.2
  have hlt : ltrim ((d :: sp1) ++ c2 :: tail) = c2 :: tail := by
    apply ltrim_spaces _ _ _ _ hc2s
    intro x hx
    rcases hsp2 x hx with rfl | rfl <;> decide
  have h1 := get_token_lhs_eq p1 str
  rw [hbuf1, hb] at h1
  have htake : List.take w1.length (w1 ++ d :: (sp1 ++ c2 :: tail)) = w1 := by simp
  have hdrop : List.drop w1.length (w1 ++ d :: (sp1 ++ c2 :: tail)) = d :: (sp1 ++ c2 :: tail) := by
    simp
  rw [htake, hdrop] at h1
  have hlt1 : ltrim (d :: (sp1 ++ c2 :: tail)) = c2 :: tail := hlt
  rw [hlt1] at h1
  by_cases ha : isalnum c2 = true
  · have hst : (if ¬ isalnum (char_at (c2 :: tail) 0) = true then 2 else 1) = 1 := by
      simp [char_at, ha]
    rw [hst] at h1
    obtain ⟨v, q, h2, hs2, hl1, hl2⟩ := get_token_lhs_total
      { p1 with m_token_line := c2 :: tail, m_token_state := 1 } str
    refine ⟨_, v, q, h1, ?_, ?_, hl1, hl2⟩
    · unfold get_token
      rw [if_neg (by simp)]
      exact h2
    · exact same_session_trans (by simp [same_session]) hs2
  · have hst : (if ¬ isalnum (char_at (c2 :: tail) 0) = true then 2 else 1) = 2 := by
      simp [char_at, ha]
    rw [hst] at h1
    have hu : c2 = '_' := by
      rcases hc2 with h | h
      · exact absurd h ha
      · exact h
    obtain ⟨v, q, h2, hs2, hl1, hl2⟩ := get_token_op_other
      { p1 with m_token_line := c2 :: tail, m_token_state := 2 } str c2 tail rfl
      (by rw [hu]; decide) (by rw [hu]; decide) hc2s
    refine ⟨_, v, q, h1, ?_, ?_, hl1, hl2⟩
    · unfold get_token
      rw [if_neg (by simp)]
      exact h2
    · exact same_session_trans (by simp [same_session]) hs2

/-- The driver on a line of two words, the first of which is no directive: a
syntax error is latched, nothing is written, and the line is flushed. -/
theorem two_words_step (env : environment) (m : machine) (w1 sp : std_string) (c2 : Char)
    (tail : std_string) (p1 : priv) (s1 : istream)
    (h0 : m.members.m_token_state = 0)
    (hline : get_line m.members m.current.in_stream = (true, p1, s1))
    (hbuf : p1.m_token_line = w1 ++ sp ++ c2 :: tail)
    (hw1 : ∀ c ∈ w1, identifier_char c) (hdir : ¬ is_directive w1)
    (hsp : sp ≠ [] ∧ ∀ c ∈ sp, c = ' ' ∨ c = '\t')
    (hc2 : identifier_char c2) :
    ∃ q, same_session m.members q ∧
      process_statement env m =
        .running ⟨{ q with
            m_logger := q.m_logger ++ [.invalid_line p1.m_last_line m.current.file_path p1.m_line_number]
            m_parse_error := true
            m_token_state := 0 },
          { m.current with in_stream := s1 }, m.callers⟩ := by
  obtain ⟨q, v2, q2, h1, h2, hs, hl1, hl2⟩ := two_words_tokens p1 s1 w1 sp c2 tail hbuf hw1 hsp hc2
  have hg1 : get_token m.members m.current.in_stream = .ok (⟨.TK_LHS, w1⟩, q, s1) := by
    rw [get_token_init h0, hline]
    exact h1
  have hsl := get_line_session m.current.in_stream m.members
  rw [hline] at hsl
  obtain ⟨k1, k2, k3, k4⟩ := not_directive hdir
  refine ⟨q2, same_session_trans hsl hs, ?_⟩
  simp [process_statement, process_assignment, hg1, h2, k1, k2, k3, k4, invalid_statement,
    flush_line, hl1, hl2]

/-- Once the error latch is set it stays set. -/
theorem latch_stays_set {env : environment} {m : machine} {s : status}
    (heff : statement_effect env m s) (h : m.members.m_parse_error = true) :
    s.state.m_parse_error = true := by
  cases heff with
  | tokenizer_failure p hp => exact hp.2.2.2.1.trans h
  | eof p hp h0 _ =>
    have hpe : p.m_parse_error = true := hp.2.2.2.1.trans h
    by_cases hc : p.m_file_count = 1
    · by_cases hst : p.m_block_stack = []
      · rw [process_eof_latched p _ _ hc hst hpe]
        exact hpe
      · rw [process_eof_unclosed p _ _ hc hst]
        rfl
    · rw [process_eof_nested p _ _ hc]
      unfold process_file_return
      split
      · exact hpe
      · exact hpe
  | include_file p str filename hp _ =>
    have hpe : p.m_parse_error = true := hp.2.2.2.1.trans h
    unfold process_file_enter
    simp only []
    split
    · exact hpe
    · exact hpe
  | invalid p str hp _ => rfl
  | block p str name hp _ _ => exact hp.2.2.2.1.trans h
  | endblock_unmatched p hp he => exact hp.2.2.2.1.trans h
  | endblock p str below back hp he _ => exact hp.2.2.2.1.trans h
  | entry p str rel_path lhs op rhs hp h0 _ =>
    have hpe : p.m_parse_error = true := hp.2.2.2.1.trans h
    simp only [status.state]
    unfold process_entry
    split
    · exact hpe
    · split <;> exact hpe

theorem latch_stays_set_run (env : environment) (n : Nat) (s : status)
    (h : s.state.m_parse_error = true) : (run env n s).state.m_parse_error = true := by
  induction n generalizing s with
  | zero => exact h
  | succ n ih =>
    apply ih
    cases s with
    | running m => exact latch_stays_set (process_statement_effect env m) h
    | returned p => exact h
    | thrown e p => exact h

/-! ## Blocks -/

theorem process_file_return_running {p : priv} {callers : List (activation × Int)} {m1 : machine}
    (h : process_file_return p callers = .running m1) :
    m1.members.m_block_stack = p.m_block_stack ∧
      m1.members.m_current_context = p.m_current_context := by
  unfold process_file_return at h
  split at h
  · cases h
  · simp only [status.running.injEq] at h
    subst h
    exact ⟨rfl, rfl⟩

theorem process_eof_running {p : priv} {f : std_string} {callers : List (activation × Int)}
    {m1 : machine} (h : process_eof p f callers = .running m1) :
    m1.members.m_block_stack = p.m_block_stack ∧
      m1.members.m_current_context = p.m_current_context := by
  by_cases hc : p.m_file_count = 1
  · by_cases hst : p.m_block_stack = []
    · cases hpe : p.m_parse_error with
      | false =>
        rw [process_eof_clean p f callers hc hst hpe] at h
        have := process_file_return_running h
        exact this
      | true =>
        rw [process_eof_latched p f callers hc hst hpe] at h
        cases h
    · rw [process_eof_unclosed p f callers hc hst] at h
      cases h
  · rw [process_eof_nested p f callers hc] at h
    have := process_file_return_running h
    exact this

theorem effect_stack_step {env : environment} {m : machine} {s : status} {m1 : machine}
    (heff : statement_effect env m s) (hs : s = .running m1) :
    stack_step m.members m1.members := by
  cases heff with
  | tokenizer_failure p hp => cases hs
  | eof p hp h0 _ =>
    obtain ⟨a1, a2⟩ := process_eof_running hs
    exact Or.inl ⟨a1.trans hp.1, a2.trans hp.2.1⟩
  | include_file p str filename hp _ =>
    unfold process_file_enter at hs
    simp only [] at hs
    split at hs
    · cases hs
    · simp only [status.running.injEq] at hs
      subst hs
      exact Or.inl ⟨hp.1, hp.2.1⟩
  | invalid p str hp _ =>
    simp only [status.running.injEq] at hs
    subst hs
    exact Or.inl ⟨hp.1, hp.2.1⟩
  | block p str name hp _ _ =>
    simp only [status.running.injEq] at hs
    subst hs
    refine Or.inr (Or.inl ⟨⟨name, m.current.file_path, p.m_line_number, p.m_current_context⟩, ?_, ?_⟩)
    · simp only [flush_line, hp.1]
    · exact hp.2.1
  | endblock_unmatched p hp he => cases hs
  | endblock p str below back hp he _ =>
    simp only [status.running.injEq] at hs
    subst hs
    refine Or.inr (Or.inr ⟨back, ?_, rfl⟩)
    rw [← hp.1, he]
  | entry p str rel_path lhs op rhs hp h0 _ =>
    simp only [status.running.injEq] at hs
    subst hs
    refine Or.inl ⟨?_, ?_⟩
    · unfold process_entry
      split
      · exact hp.1
      · split <;> exact hp.1
    · unfold process_entry
      split
      · exact hp.2.1
      · split <;> exact hp.2.1

theorem process_statement_stack_step {env : environment} {m m1 : machine}
    (h : process_statement env m = .running m1) : stack_step m.members m1.members :=
  effect_stack_step (process_statement_effect env m) h

theorem outcome_unfinished {s : status} (h : s.outcome = .unfinished) : s = .running s.machine := by
  cases s with
  | running m => rfl
  | returned p => cases h
  | thrown e p => cases h

/-- While the stack stays higher than `base`, the frames of `base` and the frame
pushed on top of them stay where they are. -/
theorem run_keeps_lower_frames (env : environment) (k : Nat) (m : machine)
    (base : List block_context_t) (f : block_context_t) (above : List block_context_t)
    (hm : m.members.m_block_stack = base ++ f :: above)
    (hin : ∀ i, i ≤ k → (run env i (.running m)).outcome = .unfinished ∧
      base.length < (run env i (.running m)).state.m_block_stack.length) :
    ∃ above1, (run env k (.running m)).state.m_block_stack = base ++ f :: above1 := by
  induction k generalizing m above with
  | zero => exact ⟨above, hm⟩
  | succ k ih =>
    obtain ⟨h1, h2⟩ := hin 1 (by omega)
    have hrun1 : run env 1 (.running m) = process_statement env m := rfl
    rw [hrun1] at h1 h2
    have hs1 := outcome_unfinished h1
    have hstep := process_statement_stack_step hs1
    have hshift : ∀ i, run env (i + 1) (.running m) =
        run env i (.running (process_statement env m).machine) := by
      intro i
      show run env i (step env (.running m)) = _
      simp only [step]
      rw [← hs1]
    have hin1 : ∀ i, i ≤ k → (run env i (.running (process_statement env m).machine)).outcome
          = .unfinished ∧
        base.length < (run env i (.running (process_statement env m).machine)).state.m_block_stack.length := by
      intro i hi
      rw [← hshift i]
      exact hin (i + 1) (by omega)
    have hlen : base.length < (process_statement env m).machine.members.m_block_stack.length := by
      rw [hs1] at h2
      exact h2
    rw [hshift k]
    rcases hstep with ⟨e1, _⟩ | ⟨g, e1, _⟩ | ⟨back, e1, _⟩
    · exact ih _ above (by rw [e1, hm]) hin1
    · exact ih _ (above ++ [g]) (by rw [e1, hm]; simp) hin1
    · rcases List.eq_nil_or_concat above with rfl | ⟨above0, last, rfl⟩
      · have h3 : base ++ [f] = (process_statement env m).machine.members.m_block_stack ++ [back] := by
          rw [← e1, hm]
        have h4 := (List.append_inj' h3 rfl).1
        rw [← h4] at hlen
        omega
      · have h3 : (base ++ f :: above0) ++ [last] =
            (process_statement env m).machine.members.m_block_stack ++ [back] := by
          rw [← e1, hm]; simp
        have h4 := (List.append_inj' h3 rfl).1
        exact ih _ above0 h4.symm hin1

/-- A stretch of a parse during which the block stack stays higher than it was
at the start, and after which it has its initial height again, leaves the
block stack and the context as they were. -/
theorem balanced_run_restores (env : environment) (m0 : machine) (n : Nat)
    (hin : ∀ i, 1 ≤ i → i ≤ n → (run env i (.running m0)).outcome = .unfinished ∧
      m0.members.m_block_stack.length < (run env i (.running m0)).state.m_block_stack.length)
    (hrun : (run env (n + 1) (.running m0)).outcome = .unfinished)
    (hlen : (run env (n + 1) (.running m0)).state.m_block_stack.length =
      m0.members.m_block_stack.length) :
    (run env (n + 1) (.running m0)).state.m_block_stack = m0.members.m_block_stack ∧
    (run env (n + 1) (.running m0)).state.m_current_context = m0.members.m_current_context := by
  have hlast : run env (n + 1) (.running m0) = step env (run env n (.running m0)) := by
    rw [run_add]; rfl
  cases n with
  | zero =>
    have hrun1 : run env (0 + 1) (.running m0) = process_statement env m0 := rfl
    rw [hrun1] at hrun hlen ⊢
    have hs1 := outcome_unfinished hrun
    have hstep := process_statement_stack_step hs1
    rw [hs1] at hlen ⊢
    simp only [status.state] at hlen ⊢
    rcases hstep with ⟨e1, e2⟩ | ⟨g, e1, _⟩ | ⟨back, e1, _⟩
    · exact ⟨e1, e2⟩
    · rw [e1] at hlen; simp at hlen
    · rw [e1] at hlen; simp at hlen
  | succ n =>
    -- the first step pushes a frame
    obtain ⟨h1, h2⟩ := hin 1 (by omega) (by omega)
    have hrun1 : run env 1 (.running m0) = process_statement env m0 := rfl
    rw [hrun1] at h1 h2
    have hs1 := outcome_unfinished h1
    have hstep := process_statement_stack_step hs1
    rw [hs1] at h2
    simp only [status.state] at h2
    have hshift : ∀ i, run env (i + 1) (.running m0) =
        run env i (.running (process_statement env m0).machine) := by
      intro i
      show run env i (step env (.running m0)) = _
      simp only [step]
      rw [← hs1]
    rcases hstep with ⟨e1, _⟩ | ⟨f, e1, e2⟩ | ⟨back, e1, _⟩
    · rw [e1] at h2; omega
    · have hin1 : ∀ i, i ≤ n →
          (run env i (.running (process_statement env m0).machine)).outcome = .unfinished ∧
          m0.members.m_block_stack.length <
            (run env i (.running (process_statement env m0).machine)).state.m_block_stack.length := by
        intro i hi
        rw [← hshift i]
        exact hin (i + 1) (by omega) (by omega)
      obtain ⟨above1, hab⟩ := run_keeps_lower_frames env n _ m0.members.m_block_stack f [] e1 hin1
      rw [← hshift n] at hab
      -- the last step pops it
      have hn := (hin (n + 1) (by omega) (by omega)).1
      have hsn := outcome_unfinished hn
      rw [hlast, hsn] at hrun hlen ⊢
      simp only [step] at hrun hlen ⊢
      have hs2 := outcome_unfinished hrun
      have hstep2 := process_statement_stack_step hs2
      rw [hs2] at hlen ⊢
      simp only [status.state] at hlen ⊢
      have hab1 : (run env (n + 1) (.running m0)).machine.members.m_block_stack =
          m0.members.m_block_stack ++ f :: above1 := by
        rw [hsn] at hab
        exact hab
      rcases hstep2 with ⟨c1, _⟩ | ⟨g, c1, _⟩ | ⟨back, c1, c2⟩
      · rw [c1, hab1] at hlen; simp at hlen
      · rw [c1, hab1] at hlen; simp at hlen
      · rw [hab1] at c1
        rcases List.eq_nil_or_concat above1 with rfl | ⟨above0, last, rfl⟩
        · have h4 := List.append_inj' (c1 : m0.members.m_block_stack ++ [f] = _) rfl
          simp only [List.cons.injEq, and_true] at h4
          exact ⟨h4.1.symm, by rw [c2, ← h4.2, e2]⟩
        · have h3 : (m0.members.m_block_stack ++ f :: above0) ++ [last] =
              (process_statement env (run env (n + 1) (.running m0)).machine).machine.members.m_block_stack
                ++ [back] := by
            rw [← c1]; simp
          have h4 := (List.append_inj' h3 rfl).1
          rw [← h4] at hlen
          simp at hlen
    · rw [e1] at h2; simp at h2

/-- The driver on a `block` statement: the first token is the word `block`, the
second an LHS, the block name. -/
theorem block_step (env : environment) (m : machine) (name : std_string)
    (htok : (read_tokens 2 m.members m.current.in_stream).1 =
      [⟨.TK_LHS, kw_block⟩, ⟨.TK_LHS, name⟩]) :
    ∃ m1, process_statement env m = .running m1 ∧
      m1.members.m_current_context = m.members.m_current_context ++ (name ++ block_sep) ∧
      m1.members.m_block_stack = m.members.m_block_stack ++
        [⟨name, m.current.file_path,
          (read_tokens 2 m.members m.current.in_stream).2.1.m_line_number,
          m.members.m_current_context⟩] ∧
      m1.members.m_config_block = m.members.m_config_block ∧
      m1.members.m_symtab = m.members.m_symtab ∧
      m1.members.m_parse_error = m.members.m_parse_error ∧
      m1.members.m_logger = m.members.m_logger ∧
      m1.members.m_token_state = 0 ∧
      m1.current = { m.current with in_stream := (read_tokens 2 m.members m.current.in_stream).2.2 } ∧
      m1.callers = m.callers := by
  obtain ⟨p1, s1, p2, s2, h1, h2, he⟩ := read_tokens_two htok
  obtain ⟨c1, c2, _, c4, c5, c6, c7⟩ :=
    same_session_trans (get_token_session h1) (get_token_session h2)
  have e1 : kw_block ≠ kw_include := by decide
  refine ⟨_, by simp [process_statement, h1, h2, e1]; rfl, ?_⟩
  rw [he]
  simp [flush_line, c1, c2, c4, c5, c6, c7]

/-- The driver on an `endblock` statement with a non-empty block stack. -/
theorem endblock_step (env : environment) (m : machine)
    (below : List block_context_t) (back : block_context_t)
    (htok : (read_tokens 1 m.members m.current.in_stream).1 = [⟨.TK_LHS, kw_endblock⟩])
    (hst : m.members.m_block_stack = below ++ [back]) :
    ∃ m1, process_statement env m = .running m1 ∧
      m1.members.m_current_context = back.m_previous_context ∧
      m1.members.m_block_stack = below ∧
      m1.members.m_config_block = m.members.m_config_block ∧
      m1.members.m_symtab = m.members.m_symtab ∧
      m1.members.m_parse_error = m.members.m_parse_error ∧
      m1.members.m_logger = m.members.m_logger ∧
      m1.members.m_token_state = 0 ∧
      m1.current = { m.current with in_stream := (read_tokens 1 m.members m.current.in_stream).2.2 } ∧
      m1.callers = m.callers := by
  obtain ⟨p1, s1, h1, _, he⟩ := read_tokens_one htok
  obtain ⟨c1, c2, _, c4, c5, c6, c7⟩ := get_token_session h1
  have e1 : kw_endblock ≠ kw_include := by decide
  have e2 : kw_endblock ≠ kw_block := by decide
  have hlast : p1.m_block_stack.getLast? = some back := by rw [c1, hst]; simp
  have hdrop : p1.m_block_stack.dropLast = below := by rw [c1, hst]; simp
  refine ⟨_, by simp [process_statement, h1, e1, e2, flush_line, hlast]; rfl, ?_⟩
  rw [he]
  simp [read_tokens, hdrop, c4, c5, c6, c7]

/-- The driver on a complete `key = v` statement without modifier. -/
theorem entry_step (env : environment) (m : machine) (k v : std_string)
    (htok : (read_tokens 3 m.members m.current.in_stream).1 =
      [⟨.TK_LHS, k⟩, ⟨.TK_ASSIGN, op_assign⟩, ⟨.TK_RHS, v⟩])
    (hk : ¬ is_directive k) :
    ∃ m1, process_statement env m = .running m1 ∧
      m1.members.m_config_block = m.members.m_config_block ++
        [(m.members.m_current_context ++ k,
          env.expand_token m.members.m_config_block m.members.m_symtab v)] ∧
      m1.members.m_symtab = m.members.m_symtab ∧
      m1.members.m_current_context = m.members.m_current_context ∧
      m1.members.m_block_stack = m.members.m_block_stack := by
  obtain ⟨p1, s1, p2, s2, p3, s3, h1, h2, h3, _⟩ := read_tokens_three htok
  obtain ⟨c1, c2, _, _, c5, c6, _⟩ :=
    same_session_trans (same_session_trans (get_token_session h1) (get_token_session h2))
      (get_token_session h3)
  have hne : op_assign ≠ op_define := by decide
  refine ⟨_, process_statement_entry env m k op_assign v p1 p2 p3 s1 s2 s3 h1 h2 h3 hk, ?_⟩
  simp [process_entry, hne, c1, c2, c5, c6]

/-- Sibling blocks: `block A`, `endblock`, `block B` and then `k = v`, from a
state with context `P`, store the key `P ++ B ++ block_sep ++ k`. -/
theorem sibling_blocks (env : environment) (m0 : machine) (A B k v : std_string)
    (t0 : (read_tokens 2 m0.members m0.current.in_stream).1 =
      [⟨.TK_LHS, kw_block⟩, ⟨.TK_LHS, A⟩])
    (t1 : (read_tokens 1 (run env 1 (.running m0)).machine.members
        (run env 1 (.running m0)).machine.current.in_stream).1 = [⟨.TK_LHS, kw_endblock⟩])
    (t2 : (read_tokens 2 (run env 2 (.running m0)).machine.members
        (run env 2 (.running m0)).machine.current.in_stream).1 =
      [⟨.TK_LHS, kw_block⟩, ⟨.TK_LHS, B⟩])
    (t3 : (read_tokens 3 (run env 3 (.running m0)).machine.members
        (run env 3 (.running m0)).machine.current.in_stream).1 =
      [⟨.TK_LHS, k⟩, ⟨.TK_ASSIGN, op_assign⟩, ⟨.TK_RHS, v⟩])
    (hk : ¬ is_directive k) :
    (run env 4 (.running m0)).outcome = .unfinished ∧
    (run env 4 (.running m0)).state.m_config_block = m0.members.m_config_block ++
      [(m0.members.m_current_context ++ B ++ block_sep ++ k,
        env.expand_token m0.members.m_config_block m0.members.m_symtab v)] := by
  obtain ⟨m1, hs1, a1, a2, a3, a4, _⟩ := block_step env m0 A t0
  have r1 : run env 1 (.running m0) = .running m1 := hs1
  rw [r1] at t1
  obtain ⟨m2, hs2, b1, b2, b3, b4, _⟩ := endblock_step env m1 _ _ t1 a2
  have r2 : run env 2 (.running m0) = .running m2 := by
    show run env 1 (step env (.running m0)) = _
    simp only [step, hs1]; exact hs2
  rw [r2] at t2
  obtain ⟨m3, hs3, c1, c2, c3, c4, _⟩ := block_step env m2 B t2
  have r3 : run env 3 (.running m0) = .running m3 := by
    show run env 2 (step env (.running m0)) = _
    simp only [step, hs1]
    show run env 1 (step env (.running m1)) = _
    simp only [step, hs2]; exact hs3
  rw [r3] at t3
  obtain ⟨m4, hs4, d1, _⟩ := entry_step env m3 k v t3 hk
  have r4 : run env 4 (.running m0) = .running m4 := by
    show run env 3 (step env (.running m0)) = _
    simp only [step, hs1]
    show run env 2 (step env (.running m1)) = _
    simp only [step, hs2]
    show run env 1 (step env (.running m2)) = _
    simp only [step, hs3]; exact hs4
  rw [r4]
  refine ⟨rfl, ?_⟩
  simp only [status.state, status.machine] at *
  rw [d1, c1, c3, c4, b1, b3, b4, a3, a4]
  simp

/-! ## Line numbers and located frames -/

theorem getElem?_after_prefix (l : istream) (a : std_string) (r : istream) :
    (l ++ a :: r)[l.length]? = some a := by
  induction l with
  | nil => simp
  | cons x rest ih => simpa using ih

theorem activation_ok_advance {env : environment} {m : machine} {p : priv} {str : istream}
    (ha : activation_ok env m.current m.members.m_line_number) (hr : consumed_by m p str) :
    activation_ok env { m.current with in_stream := str } p.m_line_number := by
  obtain ⟨consumed, h1, h2⟩ := ha
  obtain ⟨c, h3, h4⟩ := hr
  refine ⟨consumed ++ c, ?_, ?_⟩
  · rw [h1, h3]; simp
  · rw [h4, ← h2]; simp

theorem lines_inv_effect (env : environment) (path : std_string) (m : machine) (s : status)
    (hm : machine_inv path m) (hl : lines_inv env m) (heff : statement_effect env m s) :
    status_lines_inv env s := by
  obtain ⟨hcur, hcallers, hframes⟩ := hl
  cases heff with
  | tokenizer_failure p hs => trivial
  | eof p hs h0 hread =>
    cases hs2 : process_eof p m.current.file_path m.callers with
    | returned q => trivial
    | thrown e q => trivial
    | running m1 =>
      simp only [status_lines_inv]
      obtain ⟨e1, _⟩ := process_eof_running hs2
      have hst : m1.members.m_block_stack = m.members.m_block_stack := e1.trans hs.1
      -- only a return into a caller keeps the parse running
      have hret : ∃ (c : activation × Int) (rest : List (activation × Int)) (q : priv),
          m.callers = c :: rest ∧ m1 = ⟨{ q with m_line_number := c.2 }, c.1, rest⟩ := by
        have hgen : ∀ q0, process_file_return q0 m.callers = .running m1 →
            ∃ (c : activation × Int) (rest : List (activation × Int)) (q : priv),
              m.callers = c :: rest ∧ m1 = ⟨{ q with m_line_number := c.2 }, c.1, rest⟩ := by
          intro q hq
          unfold process_file_return at hq
          split at hq
          · cases hq
          · rename_i c l rest hc
            simp only [status.running.injEq] at hq
            exact ⟨(c, l), rest, q, hc, hq.symm⟩
        by_cases hc : p.m_file_count = 1
        · by_cases hstk : p.m_block_stack = []
          · cases hpe : p.m_parse_error with
            | false =>
              rw [process_eof_clean p _ _ hc hstk hpe] at hs2
              exact hgen _ hs2
            | true =>
              rw [process_eof_latched p _ _ hc hstk hpe] at hs2
              cases hs2
          · rw [process_eof_unclosed p _ _ hc hstk] at hs2
            cases hs2
        · rw [process_eof_nested p _ _ hc] at hs2
          exact hgen _ hs2
      obtain ⟨c, rest, q, hc, rfl⟩ := hret
      refine ⟨?_, ?_, ?_⟩
      · exact hcallers c (by rw [hc]; simp)
      · intro d hd
        exact hcallers d (by rw [hc]; simp [hd])
      · intro b hb
        simp only at hst
        exact hframes b (by rw [← hst]; exact hb)
  | include_file p str filename hs hr =>
    unfold process_file_enter
    simp only []
    cases hopen : env.ifstream filename with
    | none => trivial
    | some lines =>
      simp only [status_lines_inv]
      refine ⟨⟨[], by simpa using hopen, rfl⟩, ?_, ?_⟩
      · intro d hd
        rcases List.mem_cons.mp hd with rfl | hd
        · exact activation_ok_advance hcur hr
        · exact hcallers d hd
      · intro b hb
        exact hframes b (by simpa [flush_line, hs.1] using hb)
  | invalid p str hs hr =>
    simp only [status_lines_inv]
    refine ⟨activation_ok_advance hcur hr, hcallers, ?_⟩
    intro b hb
    exact hframes b (by simpa [invalid_statement, flush_line, hs.1] using hb)
  | block p str name hs hr hloc =>
    simp only [status_lines_inv]
    refine ⟨activation_ok_advance hcur hr, hcallers, ?_⟩
    intro b hb
    simp only [flush_line, List.mem_append, List.mem_singleton] at hb
    rcases hb with hb | rfl
    · exact hframes b (by rw [← hs.1]; exact hb)
    · obtain ⟨skipped, raw, e1, e2, e3⟩ := hloc hm.2.2.2.1
      obtain ⟨consumed, f1, f2⟩ := hcur
      refine ⟨consumed ++ m.current.in_stream, raw, f1, ?_, ?_, e3⟩
      · simp only []
        rw [e2, ← f2]
        omega
      · simp only []
        have hidx : (p.m_line_number - 1).toNat = (consumed ++ skipped).length := by
          rw [e2, ← f2]
          simp only [List.length_append]
          omega
        rw [hidx, e1, ← List.append_assoc]
        exact getElem?_after_prefix _ _ _
  | endblock_unmatched p hs he => trivial
  | endblock p str below back hs he hr =>
    simp only [status_lines_inv]
    refine ⟨activation_ok_advance hcur hr, hcallers, ?_⟩
    intro b hb
    exact hframes b (by rw [← hs.1, he]; simp only [] at hb; simp [hb])
  | entry p str rel_path lhs op rhs hs h0 hr =>
    simp only [status_lines_inv]
    have hln : (process_entry env p m.current.config_file_dir rel_path lhs op rhs).m_line_number
        = p.m_line_number := by
      unfold process_entry
      split
      · rfl
      · split <;> rfl
    have hstk : (process_entry env p m.current.config_file_dir rel_path lhs op rhs).m_block_stack
        = m.members.m_block_stack := by
      unfold process_entry
      split
      · exact hs.1
      · split <;> exact hs.1
    refine ⟨?_, hcallers, ?_⟩
    · simp only [lines_inv]
      rw [hln]
      exact activation_ok_advance hcur hr
    · intro b hb
      simp only [] at hb
      rw [hstk] at hb
      exact hframes b hb

/-- Both invariants hold along every parse by a new parser. -/
theorem invariants_parse_config (env : environment) (fuel : Nat) (path : std_string) :
    status_inv path (parse_config env fuel path) ∧
      status_lines_inv env (parse_config env fuel path) := by
  have hstep : ∀ s, status_inv path s ∧ status_lines_inv env s →
      status_inv path (step env s) ∧ status_lines_inv env (step env s) := by
    intro s hs
    refine ⟨status_inv_step env path s hs.1, ?_⟩
    cases s with
    | running m => exact lines_inv_effect env path m _ hs.1 hs.2 (process_statement_effect env m)
    | returned p => trivial
    | thrown e p => trivial
  have hrun : ∀ n s, status_inv path s ∧ status_lines_inv env s →
      status_inv path (run env n s) ∧ status_lines_inv env (run env n s) := by
    intro n
    induction n with
    | zero => intro s hs; exact hs
    | succ n ih => intro s hs; exact ih _ (hstep s hs)
  apply hrun
  refine ⟨?_, ?_⟩
  · apply status_inv_enter
    · exact priv_new_context_inv
    · exact ⟨by simp [priv_new], by simp [priv_new]⟩
    · rfl
    · rfl
  · unfold process_file_enter
    simp only []
    cases hopen : env.ifstream path with
    | none => trivial
    | some lines =>
      simp only [status_lines_inv]
      refine ⟨⟨[], by simpa using hopen, rfl⟩, ?_, ?_⟩
      · intro c hc; cases hc
      · intro b hb; cases hb

/-! ## The end of a parse -/

theorem process_file_return_not_thrown {p : priv} {callers : List (activation × Int)}
    {e : exception} {q : priv} (h : process_file_return p callers = .thrown e q) : False := by
  unfold process_file_return at h
  split at h <;> cases h

/-- The exception "Errors in config file" leaves a loop iteration only when that
iteration read EOF in the outermost file. -/
theorem errors_raised_at_outermost_eof {env : environment} {path : std_string} {m : machine}
    {s : status} {f : std_string} {q : priv}
    (hm : machine_inv path m) (heff : statement_effect env m s)
    (hs : s = .thrown (.config_file_not_parsed f .errors_in_config_file) q) :
    m.callers = [] ∧ (read_tokens 1 m.members m.current.in_stream).1 = [⟨.TK_EOF, []⟩] ∧
      (read_tokens 1 m.members m.current.in_stream).2.2 = [] := by
  cases heff with
  | tokenizer_failure p hp => cases hs
  | eof p hp h0 hread =>
    refine ⟨?_, by simp [read_tokens, hread], by simp [read_tokens, hread]⟩
    by_contra hc
    have hcount : p.m_file_count ≠ 1 := by
      rw [hp.2.2.1, hm.2.2.1]
      have : m.callers.length ≠ 0 := fun h => hc (List.length_eq_zero.mp h)
      omega
    rw [process_eof_nested p _ _ hcount] at hs
    exact process_file_return_not_thrown hs
  | include_file p str filename hp _ =>
    unfold process_file_enter at hs
    simp only [] at hs
    split at hs <;> cases hs
  | invalid p str hp _ => cases hs
  | block p str name hp _ _ => cases hs
  | endblock_unmatched p hp he => cases hs
  | endblock p str below back hp he _ => cases hs
  | entry p str rel_path lhs op rhs hp h0 _ => cases hs

/-! ## A file that includes itself -/

/-- After an LHS token that used up the buffer, the next token is an EOL. -/
theorem get_token_eol {q : priv} (str : istream) (hl : q.m_token_line = [])
    (hst : q.m_token_state ≠ 0) :
    get_token q str = .ok (⟨.TK_EOL, []⟩, { q with m_token_state := 0 }, str) := by
  unfold get_token
  rw [if_pos ⟨by rw [hl]; rfl, hst⟩]

theorem self_include_first (p : priv) (a : activation) (callers : List (activation × Int))
    (h0 : p.m_token_state = 0) :
    ∃ m1, process_statement env_self_include
        ⟨p, { a with in_stream := self_include_lines }, callers⟩ = .running m1 ∧
      m1.members.m_token_state = 0 ∧ m1.current.in_stream = [line_include] := by
  have e1 : trim line_foo = line_foo := by decide
  have e2 : find_first_of line_foo ['#'] = none := by decide
  have e3 : lhs_boundary line_foo = 3 := by decide
  have e4 : ltrim (List.drop 3 line_foo) = [] := by decide
  have e6 : line_foo.length ≠ 0 := by decide
  have k1 : List.take 3 line_foo ≠ kw_include := by decide
  have k2 : List.take 3 line_foo ≠ kw_block := by decide
  have k3 : List.take 3 line_foo ≠ kw_endblock := by decide
  have k4 : List.take 3 line_foo ≠ kw_relativepath := by decide
  have hg : ∃ q, get_token p self_include_lines =
      .ok (⟨.TK_LHS, List.take 3 line_foo⟩, q, [line_include]) ∧
      q.m_token_line = [] ∧ q.m_token_state ≠ 0 := by
    rw [get_token_init h0]
    simp only [self_include_lines, get_line, e1, e2, e6, if_false]
    rw [get_token_lhs_eq]
    simp only [e3, e4]
    have e7 : (if ¬ isalnum (char_at [] 0) = true then 2 else 1) = 2 := by decide
    rw [e7]
    exact ⟨_, rfl, rfl, fun h => by cases h⟩
  obtain ⟨q, hg, hq1, hq2⟩ := hg
  have hg2 := get_token_eol [line_include] hq1 hq2
  refine ⟨_, by simp [process_statement, process_assignment, hg, hg2, k1, k2, k3, k4]; rfl, ?_, ?_⟩
  · rfl
  · rfl

theorem self_include_second (p : priv) (a : activation) (callers : List (activation × Int))
    (h0 : p.m_token_state = 0) :
    ∃ m1, process_statement env_self_include
        ⟨p, { a with in_stream := [line_include] }, callers⟩ = .running m1 ∧
      m1.members.m_token_state = 0 ∧ m1.current.in_stream = self_include_lines := by
  have e1 : trim line_include = line_include := by decide
  have e2 : find_first_of line_include ['#'] = none := by decide
  have e3 : lhs_boundary line_include = 7 := by decide
  have e5 : List.take 7 line_include = kw_include := by decide
  have e6 : line_include.length ≠ 0 := by decide
  have hg : ∃ q, get_token p [line_include] = .ok (⟨.TK_LHS, kw_include⟩, q, []) := by
    rw [get_token_init h0]
    simp only [get_line, e1, e2, e6, if_false]
    rw [get_token_lhs_eq]
    simp only [e3, e5]
    exact ⟨_, rfl⟩
  obtain ⟨q, hg⟩ := hg
  refine ⟨_, by simp [process_statement, hg, process_file_enter, env_self_include]; rfl, ?_, ?_⟩
  · rfl
  · rfl

/-- The parse of the self-including file never ends. -/
theorem self_include_runs_on (n : Nat) (m : machine) (h0 : m.members.m_token_state = 0)
    (hs : m.current.in_stream = self_include_lines ∨
      m.current.in_stream = [line_include]) :
    (run env_self_include n (.running m)).outcome = .unfinished := by
  induction n generalizing m with
  | zero => rfl
  | succ n ih =>
    obtain ⟨p, a, callers⟩ := m
    obtain ⟨f, d, str⟩ := a
    simp only at h0 hs
    rcases hs with rfl | rfl
    · obtain ⟨m1, h1, h2, h3⟩ := self_include_first p ⟨f, d, []⟩ callers h0
      show (run env_self_include n (step env_self_include _)).outcome = _
      simp only [step]
      rw [h1]
      exact ih m1 h2 (Or.inr h3)
    · obtain ⟨m1, h1, h2, h3⟩ := self_include_second p ⟨f, d, []⟩ callers h0
      show (run env_self_include n (step env_self_include _)).outcome = _
      simp only [step]
      rw [h1]
      exact ih m1 h2 (Or.inl h3)

/-! ## Malformed statements -/

/-- A token of type LHS leaves the tokenizer outside its initial state. -/
theorem get_token_lhs_state {p : priv} {str : istream} {t : token_t} {q : priv} {str1 : istream}
    (h : get_token p str = .ok (t, q, str1)) (ht : t.type = .TK_LHS) : q.m_token_state ≠ 0 := by
  unfold get_token at h
  split at h
  · simp only [Except.ok.injEq, Prod.mk.injEq] at h
    obtain ⟨rfl, rfl, rfl⟩ := h
    simp at ht
  · split at h
    · split at h
      · simp only [Except.ok.injEq, Prod.mk.injEq] at h
        obtain ⟨rfl, rfl, rfl⟩ := h
        simp at ht
      · rw [get_token_lhs_eq] at h
        simp only [Except.ok.injEq, Prod.mk.injEq] at h
        obtain ⟨_, rfl, _⟩ := h
        simp only []
        split <;> decide
    · rw [get_token_lhs_eq] at h
      simp only [Except.ok.injEq, Prod.mk.injEq] at h
      obtain ⟨_, rfl, _⟩ := h
      simp only []
      split <;> decide
    · unfold get_token_op at h
      split at h
      · rw [(get_token_op_finish_ok h).2.1]; decide
      · split at h
        · rw [(get_token_op_finish_ok h).2.1]; decide
        · simp only [] at h
          split at h
          · cases h
          · split at h
            · cases h
            · rw [(get_token_op_finish_ok h).2.1]; decide
    · simp only [Except.ok.injEq, Prod.mk.injEq] at h
      obtain ⟨rfl, rfl, rfl⟩ := h
      simp at ht
    · simp only [Except.ok.injEq, Prod.mk.injEq] at h
      obtain ⟨rfl, rfl, rfl⟩ := h
      simp at ht

/-- The first token of a statement, unless it is EOF, is an LHS token read
from the first line that is neither blank nor a comment. -/
theorem first_token_line {m : machine} {t : token_t} {p : priv} {str : istream}
    (h0 : m.members.m_token_state = 0)
    (h : get_token m.members m.current.in_stream = .ok (t, p, str)) (ht : t.type ≠ .TK_EOF) :
    t.type = .TK_LHS ∧ p.m_token_state ≠ 0 ∧ ∃ skipped raw, statement_line m p str skipped raw := by
  have h1 := h
  rw [get_token_init h0] at h1
  cases hl : get_line m.members m.current.in_stream with
  | mk found rr =>
    obtain ⟨pl, sl⟩ := rr
    rw [hl] at h1
    cases found with
    | false =>
      simp only [Except.ok.injEq, Prod.mk.injEq] at h1
      obtain ⟨rfl, _, _⟩ := h1
      simp at ht
    | true =>
      simp only [] at h1
      obtain ⟨skipped, raw, e1, e2, e3, e4⟩ := get_line_true hl
      obtain ⟨_, hty, hs⟩ := get_token_lhs_session h1
      subst hs
      refine ⟨hty, get_token_lhs_state h hty, skipped, raw, e1, e2, e3, ?_, ?_⟩
      · rw [(get_token_lhs_lines h1).1, e4]
      · rw [(get_token_lhs_lines h1).2, e4]

/-- A further token of the statement is read from the same line. -/
theorem next_token_line {m : machine} {p : priv} {str skipped : istream} {raw : std_string}
    (hl : statement_line m p str skipped raw) (hst : p.m_token_state ≠ 0)
    {t : token_t} {q : priv} {str1 : istream} (h : get_token p str = .ok (t, q, str1)) :
    statement_line m q str1 skipped raw := by
  obtain ⟨a1, a2, a3⟩ := get_token_no_read h hst
  obtain ⟨b1, b2, b3, b4, b5⟩ := hl
  subst a1
  exact ⟨b1, b2, b3, a2.trans b4, a3.trans b5⟩

theorem read_tokens_four {p : priv} {str : istream} {t1 t2 t3 t4 : token_t}
    (h : (read_tokens 4 p str).1 = [t1, t2, t3, t4]) :
    ∃ p1 s1 p2 s2 p3 s3 p4 s4, get_token p str = .ok (t1, p1, s1) ∧
      get_token p1 s1 = .ok (t2, p2, s2) ∧ get_token p2 s2 = .ok (t3, p3, s3) ∧
      get_token p3 s3 = .ok (t4, p4, s4) ∧ (read_tokens 4 p str).2 = (p4, s4) := by
  obtain ⟨p1, s1, h1, hr, he⟩ := read_tokens_one h
  obtain ⟨p2, s2, p3, s3, p4, s4, h2, h3, h4, he2⟩ := read_tokens_three hr
  exact ⟨p1, s1, p2, s2, p3, s3, p4, s4, h1, h2, h3, h4, he.trans he2⟩

/-- A token whose text is a directive word is not the EOF token. -/
theorem value_not_eof {p : priv} {str : istream} {t : token_t} {q : priv} {str1 : istream}
    (h : get_token p str = .ok (t, q, str1)) (hv : t.value ≠ []) : t.type ≠ .TK_EOF := by
  intro hc
  have := (get_token_eof h hc).1
  rw [this] at hv
  exact hv rfl

theorem syntax_error_step_two (env : environment) (m : machine) (t1 t2 : token_t)
    (h0 : m.members.m_token_state = 0)
    (htok : (read_tokens 2 m.members m.current.in_stream).1 = [t1, t2])
    (herr : syntax_error_tokens [t1, t2]) :
    ∃ skipped raw,
      statement_line m (read_tokens 2 m.members m.current.in_stream).2.1
        (read_tokens 2 m.members m.current.in_stream).2.2 skipped raw ∧
      same_session m.members (read_tokens 2 m.members m.current.in_stream).2.1 ∧
      process_statement env m =
        .running ⟨invalid_statement (read_tokens 2 m.members m.current.in_stream).2.1
            m.current.file_path,
          { m.current with in_stream := (read_tokens 2 m.members m.current.in_stream).2.2 },
          m.callers⟩ := by
  obtain ⟨p1, s1, p2, s2, h1, h2, he⟩ := read_tokens_two htok
  rw [he]
  simp only []
  have hs : same_session m.members p2 :=
    same_session_trans (get_token_session h1) (get_token_session h2)
  have hne : t1.type ≠ .TK_EOF := by
    rcases herr with ⟨hv, _⟩ | ⟨hv, _⟩ | ⟨_, hty, _⟩
    · exact value_not_eof h1 (by rw [hv]; decide)
    · exact value_not_eof h1 (by rw [hv]; decide)
    · rw [hty]; decide
  obtain ⟨hty1, hst1, skipped, raw, hl1⟩ := first_token_line h0 h1 hne
  refine ⟨skipped, raw, next_token_line hl1 hst1 h2, hs, ?_⟩
  rcases herr with ⟨hv, ht2⟩ | ⟨hv, ht2⟩ | ⟨hd, _, ht2⟩
  · have e1 : kw_block ≠ kw_include := by decide
    simp [process_statement, h1, h2, hne, hv, e1, ht2]
  · have e1 : kw_relativepath ≠ kw_include := by decide
    have e2 : kw_relativepath ≠ kw_block := by decide
    have e3 : kw_relativepath ≠ kw_endblock := by decide
    simp [process_statement, process_assignment, h1, h2, hne, hv, e1, e2, e3, ht2]
  · obtain ⟨k1, k2, k3, k4⟩ := not_directive hd
    simp [process_statement, process_assignment, h1, h2, hne, hty1, k1, k2, k3, k4, ht2]

theorem syntax_error_step_three (env : environment) (m : machine) (t1 t2 t3 : token_t)
    (h0 : m.members.m_token_state = 0)
    (htok : (read_tokens 3 m.members m.current.in_stream).1 = [t1, t2, t3])
    (herr : syntax_error_tokens [t1, t2, t3]) :
    ∃ skipped raw,
      statement_line m (read_tokens 3 m.members m.current.in_stream).2.1
        (read_tokens 3 m.members m.current.in_stream).2.2 skipped raw ∧
      same_session m.members (read_tokens 3 m.members m.current.in_stream).2.1 ∧
      process_statement env m =
        .running ⟨invalid_statement (read_tokens 3 m.members m.current.in_stream).2.1
            m.current.file_path,
          { m.current with in_stream := (read_tokens 3 m.members m.current.in_stream).2.2 },
          m.callers⟩ := by
  obtain ⟨p1, s1, p2, s2, p3, s3, h1, h2, h3, he⟩ := read_tokens_three htok
  rw [he]
  simp only []
  have hs : same_session m.members p3 :=
    same_session_trans (same_session_trans (get_token_session h1) (get_token_session h2))
      (get_token_session h3)
  have hne : t1.type ≠ .TK_EOF := by
    rcases herr with ⟨hv, _⟩ | ⟨_, hty, _⟩
    · exact value_not_eof h1 (by rw [hv]; decide)
    · rw [hty]; decide
  obtain ⟨hty1, hst1, skipped, raw, hl1⟩ := first_token_line h0 h1 hne
  have hst2 : p2.m_token_state ≠ 0 := by
    rcases herr with ⟨_, hty2, _⟩ | ⟨_, _, hty2, _⟩
    · exact get_token_lhs_state h2 hty2
    · rw [get_token_assign_state h2 hty2]; decide
  refine ⟨skipped, raw, next_token_line (next_token_line hl1 hst1 h2) hst2 h3, hs, ?_⟩
  rcases herr with ⟨hv, hty2, ht3⟩ | ⟨hd, _, hty2, ht3⟩
  · have e1 : kw_relativepath ≠ kw_include := by decide
    have e2 : kw_relativepath ≠ kw_block := by decide
    have e3 : kw_relativepath ≠ kw_endblock := by decide
    simp [process_statement, process_assignment, h1, h2, h3, hne, hv, e1, e2, e3, hty2, ht3]
  · obtain ⟨k1, k2, k3, k4⟩ := not_directive hd
    simp [process_statement, process_assignment, h1, h2, h3, hne, hty1, hty2, k1, k2, k3, k4, ht3]

theorem syntax_error_step_four (env : environment) (m : machine) (t1 t2 t3 t4 : token_t)
    (h0 : m.members.m_token_state = 0)
    (htok : (read_tokens 4 m.members m.current.in_stream).1 = [t1, t2, t3, t4])
    (herr : syntax_error_tokens [t1, t2, t3, t4]) :
    ∃ skipped raw,
      statement_line m (read_tokens 4 m.members m.current.in_stream).2.1
        (read_tokens 4 m.members m.current.in_stream).2.2 skipped raw ∧
      same_session m.members (read_tokens 4 m.members m.current.in_stream).2.1 ∧
      process_statement env m =
        .running ⟨invalid_statement (read_tokens 4 m.members m.current.in_stream).2.1
            m.current.file_path,
          { m.current with in_stream := (read_tokens 4 m.members m.current.in_stream).2.2 },
          m.callers⟩ := by
  obtain ⟨p1, s1, p2, s2, p3, s3, p4, s4, h1, h2, h3, h4, he⟩ := read_tokens_four htok
  rw [he]
  simp only []
  obtain ⟨hv, hty2, hty3, ht4⟩ := herr
  have hs : same_session m.members p4 :=
    same_session_trans (same_session_trans (same_session_trans (get_token_session h1)
      (get_token_session h2)) (get_token_session h3)) (get_token_session h4)
  have hne : t1.type ≠ .TK_EOF := value_not_eof h1 (by rw [hv]; decide)
  obtain ⟨hty1, hst1, skipped, raw, hl1⟩ := first_token_line h0 h1 hne
  have hst2 : p2.m_token_state ≠ 0 := get_token_lhs_state h2 hty2
  have hst3 : p3.m_token_state ≠ 0 := by rw [get_token_assign_state h3 hty3]; decide
  refine ⟨skipped, raw,
    next_token_line (next_token_line (next_token_line hl1 hst1 h2) hst2 h3) hst3 h4, hs, ?_⟩
  have e1 : kw_relativepath ≠ kw_include := by decide
  have e2 : kw_relativepath ≠ kw_block := by decide
  have e3 : kw_relativepath ≠ kw_endblock := by decide
  simp [process_statement, process_assignment, h1, h2, h3, h4, hne, hv, e1, e2, e3, hty2, hty3, ht4]

/-- A statement whose tokens lead into a syntax-error branch: the loop goes on
with the state that `invalid_statement` makes of the state after the tokens. -/
theorem syntax_error_step (env : environment) (m : machine) (n : Nat)
    (h0 : m.members.m_token_state = 0)
    (hlen : (read_tokens n m.members m.current.in_stream).1.length = n)
    (herr : syntax_error_tokens (read_tokens n m.members m.current.in_stream).1) :
    ∃ skipped raw,
      statement_line m (read_tokens n m.members m.current.in_stream).2.1
        (read_tokens n m.members m.current.in_stream).2.2 skipped raw ∧
      same_session m.members (read_tokens n m.members m.current.in_stream).2.1 ∧
      process_statement env m =
        .running ⟨invalid_statement (read_tokens n m.members m.current.in_stream).2.1
            m.current.file_path,
          { m.current with in_stream := (read_tokens n m.members m.current.in_stream).2.2 },
          m.callers⟩ := by
  match hts : (read_tokens n m.members m.current.in_stream).1 with
  | [t1, t2] =>
    rw [hts] at hlen herr
    obtain rfl : 2 = n := hlen
    exact syntax_error_step_two env m t1 t2 h0 hts herr
  | [t1, t2, t3] =>
    rw [hts] at hlen herr
    obtain rfl : 3 = n := hlen
    exact syntax_error_step_three env m t1 t2 t3 h0 hts herr
  | [t1, t2, t3, t4] =>
    rw [hts] at hlen herr
    obtain rfl : 4 = n := hlen
    exact syntax_error_step_four env m t1 t2 t3 t4 h0 hts herr
  | [] => rw [hts] at herr; exact herr.elim
  | [_] => rw [hts] at herr; exact herr.elim
  | _ :: _ :: _ :: _ :: _ :: _ => rw [hts] at herr; exact herr.elim

/-! ## Comments and blank lines -/

theorem dropWhile_append_stop (f : Char → Bool) (x : std_string) (c : Char) (y : std_string)
    (hc : f c = false) : (x ++ c :: y).dropWhile f = x.dropWhile f ++ c :: y := by
  induction x with
  | nil => simp [List.dropWhile, hc]
  | cons a x ih =>
    by_cases ha : f a = true
    · simp [List.dropWhile, ha, ih]
    · simp [List.dropWhile, ha]

theorem ltrim_append_stop (a : std_string) (c : Char) (b : std_string) (hc : isspace c = false) :
    ltrim (a ++ c :: b) = ltrim a ++ c :: b :=
  dropWhile_append_stop isspace a c b hc

theorem rtrim_append_stop (a : std_string) (c : Char) (b : std_string) (hc : isspace c = false) :
    rtrim (a ++ c :: b) = a ++ c :: rtrim b := by
  unfold rtrim
  have h1 : (a ++ c :: b).reverse = b.reverse ++ c :: a.reverse := by simp
  rw [h1, dropWhile_append_stop isspace _ c _ hc]
  simp

theorem ltrim_eq_nil {s : std_string} : ltrim s = [] ↔ ∀ c ∈ s, isspace c = true := by
  unfold ltrim
  simp [List.dropWhile_eq_nil_iff]

theorem rtrim_eq_nil {s : std_string} (h : ∀ c ∈ s, isspace c = true) : rtrim s = [] := by
  unfold rtrim
  have : s.reverse.dropWhile isspace = [] := by
    rw [List.dropWhile_eq_nil_iff]
    intro c hc
    exact h c (List.mem_reverse.mp hc)
  rw [this]
  rfl

/-- A string splits into its leading white space and the rest, which is empty
or starts with a character that is no white space. -/
theorem ltrim_split (s : std_string) :
    ∃ ws, s = ws ++ ltrim s ∧ ∀ c ∈ ws, isspace c = true := by
  refine ⟨s.takeWhile isspace, ?_, ?_⟩
  · unfold ltrim
    exact (List.takeWhile_append_dropWhile isspace s).symm
  · intro c hc
    exact List.mem_takeWhile_imp hc

theorem ltrim_head_not_space {s : std_string} {c : Char} {r : std_string}
    (h : ltrim s = c :: r) : isspace c = false := by
  unfold ltrim at h
  have := List.head_dropWhile_not isspace s (by rw [h]; simp)
  simpa [h] using this

theorem trim_of_ltrim {s ws : std_string} {c : Char} {r : std_string}
    (hs : s = ws ++ c :: r) (hws : ∀ x ∈ ws, isspace x = true) (hc : isspace c = false) :
    trim s = c :: rtrim r := by
  unfold trim
  rw [hs, rtrim_append_stop ws c r hc, ltrim_append_stop ws c _ hc, ltrim_eq_nil.mpr hws]
  rfl

theorem find_first_of_none {s : std_string} {cs : List Char} (h : ∀ c ∈ s, c ∉ cs) :
    find_first_of s cs = none := by
  induction s with
  | nil => rfl
  | cons a s ih =>
    have ha : a ∉ cs := h a (by simp)
    simp [find_first_of, ha, ih (fun c hc => h c (by simp [hc]))]

theorem mem_ltrim {s : std_string} {c : Char} (h : c ∈ ltrim s) : c ∈ s :=
  (List.dropWhile_sublist isspace).subset h

theorem mem_rtrim {s : std_string} {c : Char} (h : c ∈ rtrim s) : c ∈ s := by
  unfold rtrim at h
  exact List.mem_reverse.mp ((List.dropWhile_sublist isspace).subset (List.mem_reverse.mp h))

theorem mem_trim {s : std_string} {c : Char} (h : c ∈ trim s) : c ∈ s :=
  mem_rtrim (mem_ltrim h)

/-- Trimming after the leading white space was removed is trimming. -/
theorem trim_ltrim (s : std_string) : trim (ltrim s) = trim s := by
  obtain ⟨ws, hs, hws⟩ := ltrim_split s
  cases hl : ltrim s with
  | nil =>
    have hall := ltrim_eq_nil.mp hl
    unfold trim
    rw [rtrim_eq_nil hall]
    rfl
  | cons c r =>
    have hc := ltrim_head_not_space hl
    rw [hl] at hs
    rw [trim_of_ltrim hs hws hc]
    exact trim_of_ltrim (List.nil_append _).symm (by simp) hc

/-- A line that is blank or holds only a comment is skipped by the line reader. -/
theorem norm_line_blank {raw : std_string} (h : blank_or_comment raw) : norm_line raw = [] := by
  rcases h with h | h
  · have hall := ltrim_eq_nil.mp h
    have ht : trim raw = [] := by
      unfold trim
      rw [rtrim_eq_nil hall]
      rfl
    simp [norm_line, ht, find_first_of]
  · obtain ⟨ws, hs, hws⟩ := ltrim_split raw
    cases hl : ltrim raw with
    | nil => rw [hl] at h; cases h
    | cons c r =>
      rw [hl] at h hs
      have hc : c = '#' := by simpa using h
      subst hc
      have ht := trim_of_ltrim hs hws (by decide)
      unfold norm_line
      rw [ht]
      simp [find_first_of, trim, rtrim, ltrim]

/-- What the line reader makes of a line with a comment: the text before the
first '#', trimmed. -/
theorem norm_line_comment (body comment : std_string) (hb : '#' ∉ body) :
    norm_line (body ++ '#' :: comment) = trim body := by
  have h1 : trim (body ++ '#' :: comment) = ltrim body ++ '#' :: rtrim comment := by
    unfold trim
    rw [rtrim_append_stop body '#' comment (by decide), ltrim_append_stop body '#' _ (by decide)]
  have h2 : find_first_of (ltrim body ++ '#' :: rtrim comment) ['#'] = some (ltrim body).length :=
    find_first_of_append '#' _ (fun c hc => by
      intro hm
      have : c = '#' := by simpa using hm
      exact hb (this ▸ mem_ltrim hc)) (by simp)
  unfold norm_line
  rw [h1, h2]
  simp only [List.take_left']
  exact trim_ltrim body

/-- What the line reader makes of a line without a comment: the line, trimmed. -/
theorem norm_line_plain (body : std_string) (hb : '#' ∉ body) : norm_line body = trim body := by
  have h : find_first_of (trim body) ['#'] = none :=
    find_first_of_none (fun c hc => by
      intro hm
      have : c = '#' := by simpa using hm
      exact hb (this ▸ mem_trim hc))
  unfold norm_line
  rw [h]

/-- In its initial state the tokenizer passes over a line that the line reader
skips: the line counter and the last line record it, and it leaves the buffer
empty (source lines 417-438 trim and cut the line in place). -/
theorem get_token_blank (p : priv) (h0 : p.m_token_state = 0) (raw : std_string) (rest : istream)
    (hraw : norm_line raw = []) :
    get_token p (raw :: rest) =
      get_token { p with m_line_number := p.m_line_number + 1, m_last_line := raw,
                         m_token_line := [] } rest := by
  have hall : ∀ (str : istream) (q : priv),
      get_line { q with m_token_line := [] } str = get_line q str := by
    intro str
    induction str with
    | nil => intro q; rfl
    | cons a rest1 ih =>
      intro q
      unfold get_line
      simp only []
      have ih1 := ih { q with m_line_number := q.m_line_number + 1, m_last_line := a }
      split
      · exact ih1
      · split
        · split
          · exact ih1
          · rfl
        · rfl
  rw [get_token_init h0, get_token_init (by exact h0), get_line_cons, if_pos hraw]
  rw [← hall rest { p with m_line_number := p.m_line_number + 1, m_last_line := raw }]

theorem get_line_all_blank (str : istream) (p : priv) (h : ∀ l ∈ str, norm_line l = []) :
    (get_line p str).1 = false := by
  induction str generalizing p with
  | nil => simp [get_line]
  | cons raw rest ih =>
    rw [get_line_cons, if_pos (h raw (by simp))]
    exact ih _ (fun l hl => h l (by simp [hl]))

/-- A file in which every line is skipped: the first token is EOF. -/
theorem get_token_all_blank (str : istream) (p : priv) (h0 : p.m_token_state = 0)
    (h : ∀ l ∈ str, norm_line l = []) :
    ∃ q, get_token p str = .ok (⟨.TK_EOF, []⟩, q, []) ∧ same_session p q ∧
      q.m_token_state = 0 ∧ q.m_line_number = p.m_line_number + str.length := by
  rw [get_token_init h0]
  have h1 := get_line_all_blank str p h
  have hs := get_line_session str p
  cases hl : get_line p str with
  | mk found rr =>
    obtain ⟨pl, sl⟩ := rr
    rw [hl] at h1 hs
    simp only [] at h1 hs
    subst h1
    obtain ⟨e1, e2⟩ := get_line_false_count hl
    subst e1
    exact ⟨_, rfl, same_session_trans hs (by simp [same_session]), rfl, e2⟩

/-- The tokens of an assignment that stands alone in a stream are its tokens
for every tokenizer in its initial state, whatever lines follow it. -/
theorem assignment_tokens_of_line {raw k op v : std_string}
    (h : (read_tokens 3 priv_new [raw]).1 = [⟨.TK_LHS, k⟩, ⟨.TK_ASSIGN, op⟩, ⟨.TK_RHS, v⟩])
    (p : priv) (h0 : p.m_token_state = 0) (rest : istream) :
    (read_tokens 3 p (raw :: rest)).1 = [⟨.TK_LHS, k⟩, ⟨.TK_ASSIGN, op⟩, ⟨.TK_RHS, v⟩] ∧
    (read_tokens 3 p (raw :: rest)).2.2 = rest := by
  obtain ⟨p1, s1, p2, s2, p3, s3, h1, h2, h3, _⟩ := read_tokens_three h
  obtain ⟨c, hc, _, hrest⟩ := get_token_rest h1 (by simp)
  have hst1 : p1.m_token_state ≠ 0 := get_token_lhs_state h1 rfl
  have hst2 : p2.m_token_state ≠ 0 := by rw [get_token_assign_state h2 rfl]; decide
  have hc1 : c = [raw] := by
    cases c with
    | nil =>
      rw [get_token_init rfl] at h1
      cases hl : get_line priv_new [raw] with
      | mk found rr =>
        obtain ⟨pl, sl⟩ := rr
        rw [hl] at h1
        cases found with
        | false => simp at h1
        | true =>
          simp only [] at h1
          obtain ⟨skipped, raw1, e1, _⟩ := get_line_true hl
          have hs := (get_token_lhs_session h1).2.2
          subst hs
          simp only [List.nil_append] at hc
          rw [← hc] at e1
          have := congrArg List.length e1
          simp at this
    | cons a c1 =>
      have := congrArg List.length hc
      simp only [List.length_cons, List.length_append, List.length_nil] at this
      have hc1 : c1 = [] := List.length_eq_zero.mp (by omega)
      subst hc1
      simp only [List.cons_append, List.nil_append, List.cons.injEq] at hc
      rw [hc.1]
  subst hc1
  have g1 : get_token priv_new (raw :: rest) = .ok (⟨.TK_LHS, k⟩, p1, rest) := hrest rest
  have hq : same_tokenizer priv_new { p with m_token_line := [] } := ⟨h0, rfl⟩
  obtain ⟨q1, f1, t1⟩ := get_token_same_tokenizer hq g1
  rw [← get_token_ignores_buffer p h0 raw rest] at f1
  obtain ⟨q2, f2, t2⟩ := get_token_same_tokenizer t1 (get_token_stream h2 hst1 rest)
  obtain ⟨q3, f3, _⟩ := get_token_same_tokenizer t2 (get_token_stream h3 hst2 rest)
  simp [read_tokens, f1, f2, f3]

/-! ## The symbol table -/

theorem symtab_lookup_append (t : List (std_string × std_string)) (n val name : std_string) :
    symtab_lookup (t ++ [(n, val)]) name =
      if n = name then some val else symtab_lookup t name := by
  induction t with
  | nil =>
    simp only [List.nil_append, symtab_lookup]
  | cons e t ih =>
    obtain ⟨n1, v1⟩ := e
    have hu : symtab_lookup ((n1, v1) :: (t ++ [(n, val)])) name =
        match symtab_lookup (t ++ [(n, val)]) name with
        | some later => some later
        | none => if n1 = name then some v1 else none := rfl
    have hv : symtab_lookup ((n1, v1) :: t) name =
        match symtab_lookup t name with
        | some later => some later
        | none => if n1 = name then some v1 else none := rfl
    rw [List.cons_append, hu, hv, ih]
    by_cases h : n = name
    · simp [h]
    · simp [h]

theorem symtab_lookup_append_other (t added : List (std_string × std_string))
    (name : std_string) (h : ∀ e ∈ added, e.1 ≠ name) :
    symtab_lookup (t ++ added) name = symtab_lookup t name := by
  induction added using List.reverseRecOn with
  | nil => simp
  | append_singleton added e ih =>
    obtain ⟨n, val⟩ := e
    rw [← List.append_assoc, symtab_lookup_append]
    have hn : n ≠ name := h (n, val) (by simp)
    rw [if_neg hn]
    exact ih (fun e he => h e (by simp [he]))

theorem process_file_return_symtab (p : priv) (callers : List (activation × Int)) :
    (process_file_return p callers).state.m_symtab = p.m_symtab := by
  unfold process_file_return
  split <;> rfl

theorem process_eof_symtab (p : priv) (f : std_string) (callers : List (activation × Int)) :
    (process_eof p f callers).state.m_symtab = p.m_symtab := by
  by_cases hc : p.m_file_count = 1
  · by_cases hst : p.m_block_stack = []
    · by_cases he : p.m_parse_error = true
      · rw [process_eof_latched p _ _ hc hst he]; rfl
      · rw [process_eof_clean p _ _ hc hst (by simpa using he), process_file_return_symtab]
    · rw [process_eof_unclosed p _ _ hc hst]; rfl
  · rw [process_eof_nested p _ _ hc, process_file_return_symtab]

/-- A loop iteration leaves the symbol table as it is or appends entries to it. -/
theorem symtab_grows {env : environment} {m : machine} {s : status}
    (heff : statement_effect env m s) :
    ∃ added, s.state.m_symtab = m.members.m_symtab ++ added := by
  cases heff with
  | tokenizer_failure p hp => exact ⟨[], by simp [status.state, hp.2.2.2.2.1]⟩
  | eof p hp h0 _ => exact ⟨[], by rw [process_eof_symtab, hp.2.2.2.2.1]; simp⟩
  | include_file p str filename hp _ =>
    refine ⟨[], ?_⟩
    unfold process_file_enter
    simp only []
    split <;> simp [status.state, flush_line, hp.2.2.2.2.1]
  | invalid p str hp _ =>
    exact ⟨[], by simp [status.state, invalid_statement, flush_line, hp.2.2.2.2.1]⟩
  | block p str name hp _ _ => exact ⟨[], by simp [status.state, flush_line, hp.2.2.2.2.1]⟩
  | endblock_unmatched p hp he => exact ⟨[], by simp [status.state, flush_line, hp.2.2.2.2.1]⟩
  | endblock p str below back hp he _ =>
    exact ⟨[], by simp [status.state, flush_line, hp.2.2.2.2.1]⟩
  | entry p str rel_path lhs op rhs hp h0 _ =>
    simp only [status.state]
    unfold process_entry
    split
    · exact ⟨[(lhs, env.expand_token p.m_config_block p.m_symtab rhs)], by
        simp only [hp.2.2.2.2.1]⟩
    · split
      · exact ⟨[], by simp [hp.2.2.2.2.1]⟩
      · exact ⟨[], by simp [hp.2.2.2.2.1]⟩

theorem symtab_grows_run (env : environment) (n : Nat) (s : status) :
    ∃ added, (run env n s).state.m_symtab = s.state.m_symtab ++ added := by
  induction n generalizing s with
  | zero => exact ⟨[], by simp [run]⟩
  | succ n ih =>
    obtain ⟨a2, h2⟩ := ih (step env s)
    have h1 : ∃ a1, (step env s).state.m_symtab = s.state.m_symtab ++ a1 := by
      cases s with
      | running m => exact symtab_grows (process_statement_effect env m)
      | returned p => exact ⟨[], by simp [step]⟩
      | thrown e p => exact ⟨[], by simp [step]⟩
    obtain ⟨a1, h1⟩ := h1
    refine ⟨a1 ++ a2, ?_⟩
    show (run env n (step env s)).state.m_symtab = _
    rw [h2, h1, List.append_assoc]

/-! ## Included files -/

theorem dirs_inv_return (env : environment) (p : priv) (callers : List (activation × Int))
    (h : ∀ c ∈ callers, c.1.config_file_dir = env.parent_path c.1.file_path) :
    status_dirs_inv env (process_file_return p callers) := by
  unfold process_file_return
  split
  · trivial
  · rename_i caller line rest
    exact ⟨h (caller, line) (by simp), fun c hc => h c (by simp [hc])⟩

theorem dirs_inv_eof (env : environment) (p : priv) (f : std_string)
    (callers : List (activation × Int))
    (h : ∀ c ∈ callers, c.1.config_file_dir = env.parent_path c.1.file_path) :
    status_dirs_inv env (process_eof p f callers) := by
  by_cases hc : p.m_file_count = 1
  · by_cases hst : p.m_block_stack = []
    · by_cases he : p.m_parse_error = true
      · rw [process_eof_latched p _ _ hc hst he]; trivial
      · rw [process_eof_clean p _ _ hc hst (by simpa using he)]
        exact dirs_inv_return env _ callers h
    · rw [process_eof_unclosed p _ _ hc hst]; trivial
  · rw [process_eof_nested p _ _ hc]
    exact dirs_inv_return env _ callers h

theorem dirs_inv_effect {env : environment} {m : machine} {s : status}
    (hm : dirs_inv env m) (heff : statement_effect env m s) : status_dirs_inv env s := by
  obtain ⟨h1, h2⟩ := hm
  cases heff with
  | tokenizer_failure p hp => trivial
  | eof p hp h0 _ => exact dirs_inv_eof env p _ _ h2
  | include_file p str filename hp _ =>
    unfold process_file_enter
    simp only []
    split
    · trivial
    · refine ⟨rfl, ?_⟩
      intro c hc
      rcases List.mem_cons.mp hc with rfl | hc
      · exact h1
      · exact h2 c hc
  | invalid p str hp _ => exact ⟨h1, h2⟩
  | block p str name hp _ _ => exact ⟨h1, h2⟩
  | endblock_unmatched p hp he => trivial
  | endblock p str below back hp he _ => exact ⟨h1, h2⟩
  | entry p str rel_path lhs op rhs hp h0 _ => exact ⟨h1, h2⟩

theorem dirs_inv_run (env : environment) (n : Nat) (s : status) (h : status_dirs_inv env s) :
    status_dirs_inv env (run env n s) := by
  induction n generalizing s with
  | zero => exact h
  | succ n ih =>
    apply ih
    cases s with
    | running m => exact dirs_inv_effect h (process_statement_effect env m)
    | returned p => trivial
    | thrown e p => trivial

theorem dirs_inv_parse_config (env : environment) (fuel : Nat) (path : std_string) :
    status_dirs_inv env (parse_config env fuel path) := by
  unfold parse_config process_file
  apply dirs_inv_run
  unfold process_file_enter
  simp only []
  split
  · trivial
  · exact ⟨rfl, by simp⟩

/-- The first token of a line that starts with a word followed by a space or a
tab, read by the tokenizer in its initial state. -/
theorem first_word_token (p : priv) (h0 : p.m_token_state = 0) (skipped : istream)
    (raw : std_string) (rest : istream) (w : std_string) (d : Char) (r : std_string)
    (hskip : ∀ l ∈ skipped, norm_line l = [])
    (hraw : norm_line raw = w ++ d :: r) (hw : ∀ c ∈ w, identifier_char c)
    (hd : d = ' ' ∨ d = '\t') :
    ∃ q, get_token p (skipped ++ raw :: rest) = .ok (⟨.TK_LHS, w⟩, q, rest) ∧
      same_session p q ∧ q.m_line_number = p.m_line_number + skipped.length + 1 ∧
      q.m_last_line = raw ∧ q.m_token_line = ltrim r := by
  have hne : norm_line raw ≠ [] := by rw [hraw]; simp
  have hline := get_line_skip p skipped raw rest hskip hne
  have hb := lhs_boundary_word w d r hw hd
  have hsp : isspace d = true := by rcases hd with rfl | rfl <;> decide
  have hg := get_token_init h0 (skipped ++ raw :: rest)
  rw [hline] at hg
  simp only [] at hg
  rw [get_token_lhs_eq] at hg
  simp only [hraw, hb, List.take_left', List.drop_left'] at hg
  have hl : ltrim (d :: r) = ltrim r := by
    simp [ltrim, List.dropWhile, hsp]
  rw [hl] at hg
  exact ⟨_, hg, by simp [same_session], rfl, rfl, rfl⟩

/-- The driver on an `include` statement: it enters the file named by the rest
of the line, taken relative to the directory of the running file unless it is
absolute, and suspends the running activation with its line number. -/
theorem include_step (env : environment) (m : machine) (h0 : m.members.m_token_state = 0)
    (skipped : istream) (raw : std_string) (rest : istream) (d : Char) (r : std_string)
    (hstream : m.current.in_stream = skipped ++ raw :: rest)
    (hskip : ∀ l ∈ skipped, norm_line l = [])
    (hraw : norm_line raw = kw_include ++ d :: r) (hd : d = ' ' ∨ d = '\t') :
    ∃ q, same_session m.members q ∧
      process_statement env m =
        process_file_enter env (flush_line q)
          (if env.is_absolute (ltrim r) then ltrim r
            else env.path_append m.current.config_file_dir (ltrim r))
          (({ m.current with in_stream := rest },
            m.members.m_line_number + skipped.length + 1) :: m.callers) := by
  obtain ⟨q, hg, hs, hln, _, hbuf⟩ := first_word_token m.members h0 skipped raw rest kw_include d r
    hskip hraw (by decide) hd
  rw [← hstream] at hg
  refine ⟨q, hs, ?_⟩
  have hne : (⟨.TK_LHS, kw_include⟩ : token_t).type ≠ .TK_EOF := by decide
  simp only [process_statement, hg]
  rw [if_neg hne, if_pos trivial, hbuf, hln]
  by_cases ha : env.is_absolute (ltrim r) = true
  · simp [ha]
  · simp [ha]

theorem process_file_return_resumes {p : priv} {callers : List (activation × Int)} {m1 : machine}
    (h : process_file_return p callers = .running m1) :
    ∃ f, callers = f :: m1.callers ∧ m1.current = f.1 ∧ m1.members.m_line_number = f.2 := by
  unfold process_file_return at h
  split at h
  · cases h
  · rename_i caller line rest
    simp only [status.running.injEq] at h
    subst h
    exact ⟨(caller, line), rfl, rfl, rfl⟩

theorem process_eof_resumes {p : priv} {f : std_string} {callers : List (activation × Int)}
    {m1 : machine} (h : process_eof p f callers = .running m1) :
    ∃ g, callers = g :: m1.callers ∧ m1.current = g.1 ∧ m1.members.m_line_number = g.2 := by
  by_cases hc : p.m_file_count = 1
  · by_cases hst : p.m_block_stack = []
    · by_cases he : p.m_parse_error = true
      · rw [process_eof_latched p _ _ hc hst he] at h; cases h
      · rw [process_eof_clean p _ _ hc hst (by simpa using he)] at h
        exact process_file_return_resumes h
    · rw [process_eof_unclosed p _ _ hc hst] at h; cases h
  · rw [process_eof_nested p _ _ hc] at h
    exact process_file_return_resumes h

theorem effect_callers_step {env : environment} {m : machine} {s : status} {m1 : machine}
    (heff : statement_effect env m s) (hs : s = .running m1) : callers_step m m1 := by
  cases heff with
  | tokenizer_failure p hp => cases hs
  | eof p hp h0 _ => exact Or.inr (Or.inr (process_eof_resumes hs))
  | include_file p str filename hp _ =>
    unfold process_file_enter at hs
    simp only [] at hs
    split at hs
    · cases hs
    · simp only [status.running.injEq] at hs
      subst hs
      exact Or.inr (Or.inl ⟨_, rfl⟩)
  | invalid p str hp _ =>
    simp only [status.running.injEq] at hs
    subst hs
    exact Or.inl rfl
  | block p str name hp _ _ =>
    simp only [status.running.injEq] at hs
    subst hs
    exact Or.inl rfl
  | endblock_unmatched p hp he => cases hs
  | endblock p str below back hp he _ =>
    simp only [status.running.injEq] at hs
    subst hs
    exact Or.inl rfl
  | entry p str rel_path lhs op rhs hp h0 _ =>
    simp only [status.running.injEq] at hs
    subst hs
    exact Or.inl rfl

theorem process_statement_callers_step {env : environment} {m m1 : machine}
    (h : process_statement env m = .running m1) : callers_step m m1 :=
  effect_callers_step (process_statement_effect env m) h

theorem run_shift (env : environment) (m : machine)
    (h : (process_statement env m).outcome = .unfinished) (i : Nat) :
    run env (i + 1) (.running m) = run env i (.running (process_statement env m).machine) := by
  show run env i (step env (.running m)) = _
  simp only [step]
  rw [← outcome_unfinished h]

/-- While more activations are suspended than `base`, the activation suspended
on top of `base` stays where it is. -/
theorem run_keeps_callers (env : environment) (k : Nat) (m : machine)
    (base : List (activation × Int)) (f : activation × Int) (above : List (activation × Int))
    (hm : m.callers = above ++ f :: base)
    (hin : ∀ i, i ≤ k → (run env i (.running m)).outcome = .unfinished ∧
      base.length < (run env i (.running m)).machine.callers.length) :
    ∃ above1, (run env k (.running m)).machine.callers = above1 ++ f :: base := by
  induction k generalizing m above with
  | zero => exact ⟨above, hm⟩
  | succ k ih =>
    obtain ⟨h1, h2⟩ := hin 1 (by omega)
    have hrun1 : run env 1 (.running m) = process_statement env m := rfl
    rw [hrun1] at h1 h2
    have hstep := process_statement_callers_step (outcome_unfinished h1)
    have hin1 : ∀ i, i ≤ k →
        (run env i (.running (process_statement env m).machine)).outcome = .unfinished ∧
        base.length <
          (run env i (.running (process_statement env m).machine)).machine.callers.length := by
      intro i hi
      rw [← run_shift env m h1 i]
      exact hin (i + 1) (by omega)
    rw [run_shift env m h1 k]
    rcases hstep with e1 | ⟨g, e1⟩ | ⟨g, e1, _⟩
    · exact ih _ above (by rw [e1, hm]) hin1
    · exact ih _ (g :: above) (by rw [e1, hm]; rfl) hin1
    · cases above with
      | nil =>
        rw [hm] at e1
        simp only [List.nil_append, List.cons.injEq] at e1
        rw [← e1.2] at h2
        omega
      | cons a above0 =>
        rw [hm] at e1
        simp only [List.cons_append, List.cons.injEq] at e1
        exact ih _ above0 e1.2.symm hin1

/-- When the number of suspended activations first comes back to that of
`base`, the activation resumed is the one that was suspended on top of `base`,
with the line number it saved. -/
theorem suspended_caller_resumes (env : environment) (m1 : machine)
    (f : activation × Int) (base : List (activation × Int)) (k : Nat)
    (hm : m1.callers = f :: base)
    (hin : ∀ i, i ≤ k → (run env i (.running m1)).outcome = .unfinished ∧
      base.length < (run env i (.running m1)).machine.callers.length)
    (hrun : (run env (k + 1) (.running m1)).outcome = .unfinished)
    (hlen : (run env (k + 1) (.running m1)).machine.callers.length = base.length) :
    (run env (k + 1) (.running m1)).machine.current = f.1 ∧
    (run env (k + 1) (.running m1)).state.m_line_number = f.2 ∧
    (run env (k + 1) (.running m1)).machine.callers = base := by
  obtain ⟨above1, hab⟩ := run_keeps_callers env k m1 base f [] hm hin
  have hlast : run env (k + 1) (.running m1) = step env (run env k (.running m1)) := by
    rw [run_add]; rfl
  have hsk := outcome_unfinished (hin k (by omega)).1
  rw [hlast, hsk] at hrun hlen ⊢
  simp only [step] at hrun hlen ⊢
  have hs2 := outcome_unfinished hrun
  have hstep := process_statement_callers_step hs2
  rcases hstep with c1 | ⟨g, c1⟩ | ⟨g, c1, c2, c3⟩
  · rw [c1, hab] at hlen; simp at hlen; omega
  · rw [c1, hab] at hlen; simp at hlen; omega
  · rw [hab] at c1
    cases above1 with
    | nil =>
      simp only [List.nil_append, List.cons.injEq] at c1
      obtain ⟨rfl, c1⟩ := c1
      refine ⟨c2, ?_, c1.symm⟩
      rw [hs2]
      exact c3
    | cons a above0 =>
      simp only [List.cons_append, List.cons.injEq] at c1
      rw [← c1.2] at hlen
      simp at hlen
      omega

/-! ## The `relativepath` modifier -/

theorem process_statement_relativepath_entry (env : environment) (m : machine)
    (k op v : std_string) (p1 p2 p3 p4 : priv) (s1 s2 s3 s4 : istream)
    (h1 : get_token m.members m.current.in_stream = .ok (⟨.TK_LHS, kw_relativepath⟩, p1, s1))
    (h2 : get_token p1 s1 = .ok (⟨.TK_LHS, k⟩, p2, s2))
    (h3 : get_token p2 s2 = .ok (⟨.TK_ASSIGN, op⟩, p3, s3))
    (h4 : get_token p3 s3 = .ok (⟨.TK_RHS, v⟩, p4, s4)) :
    process_statement env m =
      .running ⟨process_entry env p4 m.current.config_file_dir true k op v,
        { m.current with in_stream := s4 }, m.callers⟩ := by
  have e1 : kw_relativepath ≠ kw_include := by decide
  have e2 : kw_relativepath ≠ kw_block := by decide
  have e3 : kw_relativepath ≠ kw_endblock := by decide
  simp [process_statement, process_assignment, h1, h2, h3, h4, e1, e2, e3]

/-! ## Where a malformed statement is reported -/

theorem log_step_invalid {m : machine} {p : priv} {str skipped : istream} {raw : std_string}
    (hs : same_session m.members p) (hl : statement_line m p str skipped raw) :
    log_step m (.running ⟨invalid_statement p m.current.file_path,
      { m.current with in_stream := str }, m.callers⟩) := by
  obtain ⟨b1, b2, b3, b4, b5⟩ := hl
  refine Or.inr (Or.inr ⟨_, skipped, raw, rfl, b1, b2, b3, ?_, rfl, b4, b5⟩)
  simp only [invalid_statement, flush_line]
  rw [hs.2.2.2.2.2.2, b4, b5]

theorem process_file_return_logger (p : priv) (callers : List (activation × Int)) :
    (process_file_return p callers).state.m_logger = p.m_logger := by
  unfold process_file_return
  split <;> rfl

theorem process_eof_logger (p : priv) (f : std_string) (callers : List (activation × Int)) :
    (process_eof p f callers).state.m_logger = p.m_logger ∨
    ∃ es, (process_eof p f callers).state.m_logger = p.m_logger ++ [.unclosed_blocks es] := by
  by_cases hc : p.m_file_count = 1
  · by_cases hst : p.m_block_stack = []
    · by_cases he : p.m_parse_error = true
      · rw [process_eof_latched p _ _ hc hst he]; exact Or.inl rfl
      · rw [process_eof_clean p _ _ hc hst (by simpa using he), process_file_return_logger]
        exact Or.inl rfl
    · rw [process_eof_unclosed p _ _ hc hst]; exact Or.inr ⟨_, rfl⟩
  · rw [process_eof_nested p _ _ hc, process_file_return_logger]
    exact Or.inl rfl

theorem process_assignment_log (env : environment) (m : machine) (rel_path : Bool)
    (t : token_t) (p : priv) (str skipped : istream) (raw : std_string)
    (hs : same_session m.members p) (hl : statement_line m p str skipped raw)
    (hst : t.type = .TK_LHS → p.m_token_state ≠ 0) :
    log_step m (process_assignment env m.current m.callers rel_path t p str) := by
  unfold process_assignment
  split
  · exact log_step_invalid hs hl
  · rename_i hty
    have hst1 : p.m_token_state ≠ 0 := hst (by simpa using hty)
    cases h2 : get_token p str with
    | error r =>
      obtain ⟨e, q⟩ := r
      obtain ⟨_, hq⟩ := get_token_error h2
      exact Or.inl (by simp only [status.state]; rw [hq.2.2.2.2.2.2, hs.2.2.2.2.2.2])
    | ok r =>
      obtain ⟨t2, p2, s2⟩ := r
      have hs2 := same_session_trans hs (get_token_session h2)
      have hl2 := next_token_line hl hst1 h2
      simp only []
      split
      · exact log_step_invalid hs2 hl2
      · rename_i hty2
        have hst2 : p2.m_token_state ≠ 0 := by
          rw [get_token_assign_state h2 (by simpa using hty2)]; decide
        cases h3 : get_token p2 s2 with
        | error r =>
          obtain ⟨e, q⟩ := r
          obtain ⟨_, hq⟩ := get_token_error h3
          exact Or.inl (by simp only [status.state]; rw [hq.2.2.2.2.2.2, hs2.2.2.2.2.2.2])
        | ok r =>
          obtain ⟨t3, p3, s3⟩ := r
          have hs3 := same_session_trans hs2 (get_token_session h3)
          have hl3 := next_token_line hl2 hst2 h3
          simp only []
          split
          · exact log_step_invalid hs3 hl3
          · refine Or.inl ?_
            simp only [status.state]
            unfold process_entry
            split
            · exact hs3.2.2.2.2.2.2
            · split <;> exact hs3.2.2.2.2.2.2

/-- One loop iteration, begun with the tokenizer in its initial state, changes
the log as `log_step` says. -/
theorem process_statement_log (env : environment) (m : machine)
    (h0 : m.members.m_token_state = 0) : log_step m (process_statement env m) := by
  unfold process_statement
  simp only []
  cases h1 : get_token m.members m.current.in_stream with
  | error r =>
    obtain ⟨e, q⟩ := r
    obtain ⟨_, hq⟩ := get_token_error h1
    exact Or.inl hq.2.2.2.2.2.2
  | ok r =>
    obtain ⟨t1, p1, s1⟩ := r
    have hs1 := get_token_session h1
    simp only []
    split
    · rcases process_eof_logger p1 m.current.file_path m.callers with h | ⟨es, h⟩
      · exact Or.inl (h.trans hs1.2.2.2.2.2.2)
      · exact Or.inr (Or.inl ⟨es, by rw [h, hs1.2.2.2.2.2.2]⟩)
    · rename_i hne
      obtain ⟨hty1, hst1, skipped, raw, hl1⟩ := first_token_line h0 h1 hne
      split
      · refine Or.inl ?_
        unfold process_file_enter
        simp only []
        split <;> exact hs1.2.2.2.2.2.2
      · split
        · cases h2 : get_token p1 s1 with
          | error r =>
            obtain ⟨e, q⟩ := r
            obtain ⟨_, hq⟩ := get_token_error h2
            exact Or.inl (by simp only [status.state]; rw [hq.2.2.2.2.2.2, hs1.2.2.2.2.2.2])
          | ok r =>
            obtain ⟨t2, p2, s2⟩ := r
            have hs2 := same_session_trans hs1 (get_token_session h2)
            simp only []
            split
            · exact log_step_invalid hs2 (next_token_line hl1 hst1 h2)
            · exact Or.inl hs2.2.2.2.2.2.2
        · split
          · cases hb : (flush_line p1).m_block_stack.getLast? with
            | none => exact Or.inl hs1.2.2.2.2.2.2
            | some back => exact Or.inl hs1.2.2.2.2.2.2
          · split
            · cases h2 : get_token p1 s1 with
              | error r =>
                obtain ⟨e, q⟩ := r
                obtain ⟨_, hq⟩ := get_token_error h2
                exact Or.inl (by simp only [status.state]; rw [hq.2.2.2.2.2.2, hs1.2.2.2.2.2.2])
              | ok r =>
                obtain ⟨t2, p2, s2⟩ := r
                exact process_assignment_log env m true t2 p2 s2 skipped raw
                  (same_session_trans hs1 (get_token_session h2)) (next_token_line hl1 hst1 h2)
                  (fun hty => get_token_lhs_state h2 hty)
            · exact process_assignment_log env m false t1 p1 s1 skipped raw hs1 hl1
                (fun _ => hst1)

/-- The line on which a statement began is a line of the running file, and its
number, counted from 1, is what the line counter says. -/
theorem statement_line_index {env : environment} {m : machine} (hl : lines_inv env m)
    {skipped : istream} {raw : std_string} {rest : istream}
    (hstream : m.current.in_stream = skipped ++ raw :: rest) :
    ∃ lines, env.ifstream m.current.file_path = some lines ∧
      1 ≤ m.members.m_line_number + skipped.length + 1 ∧
      lines[(m.members.m_line_number + skipped.length + 1 - 1).toNat]? = some raw := by
  obtain ⟨consumed, hfile, hcount⟩ := hl.1
  refine ⟨_, hfile, by omega, ?_⟩
  have hidx : (m.members.m_line_number + skipped.length + 1 - 1).toNat =
      (consumed ++ skipped).length := by
    rw [← hcount]
    simp only [List.length_append]
    omega
  rw [hidx, hstream, ← List.append_assoc]
  exact getElem?_after_prefix _ _ _

/-- In a parse by a new parser every message on a malformed statement in the
log is located. -/
theorem log_located_parse_config (env : environment) (fuel : Nat) (path : std_string) :
    log_located env (parse_config env fuel path).state := by
  induction fuel with
  | zero =>
    intro l f n hmem
    have : (parse_config env 0 path).state.m_logger = [] := by
      simp only [parse_config, process_file, run, process_file_enter]
      split <;> rfl
    rw [this] at hmem
    cases hmem
  | succ fuel ih =>
    have hnext : parse_config env (fuel + 1) path = step env (parse_config env fuel path) := by
      unfold parse_config process_file
      rw [run_add]
      rfl
    obtain ⟨hinv, hlines⟩ := invariants_parse_config env fuel path
    rw [hnext]
    cases hs : parse_config env fuel path with
    | running m =>
      rw [hs] at ih hinv hlines
      simp only [step]
      intro l f n hmem
      rcases process_statement_log env m hinv.2.2.2.1 with h | ⟨es, h⟩ |
          ⟨m1, skipped, raw, h, b1, _, _, b4, _⟩
      · rw [h] at hmem
        exact ih l f n hmem
      · rw [h] at hmem
        rcases List.mem_append.mp hmem with hmem | hmem
        · exact ih l f n hmem
        · simp at hmem
      · rw [h] at hmem
        simp only [status.state] at hmem
        rw [b4] at hmem
        rcases List.mem_append.mp hmem with hmem | hmem
        · exact ih l f n hmem
        · simp only [List.mem_singleton, log_entry.invalid_line.injEq] at hmem
          obtain ⟨rfl, rfl, rfl⟩ := hmem
          exact statement_line_index hlines b1
    | returned p => rw [hs] at ih; exact ih
    | thrown e p => rw [hs] at ih; exact ih

/-! ## A parser that is used again -/

theorem status_latched_effect {env : environment} {m : machine} {s : status}
    (hm : status_latched (.running m)) (heff : statement_effect env m s) : status_latched s := by
  obtain ⟨hcount, hlatch⟩ := hm
  cases heff with
  | tokenizer_failure p hp => exact hp.2.2.2.1.trans hlatch
  | eof p hp h0 _ =>
    have hpe : p.m_parse_error = true := hp.2.2.2.1.trans hlatch
    have hpc : p.m_file_count = m.callers.length + 1 := hp.2.2.1.trans hcount
    by_cases hc : p.m_file_count = 1
    · by_cases hst : p.m_block_stack = []
      · rw [process_eof_latched p _ _ hc hst hpe]
        exact hpe
      · rw [process_eof_unclosed p _ _ hc hst]
        rfl
    · rw [process_eof_nested p _ _ hc]
      unfold process_file_return
      split
      · rename_i hnil
        rw [hnil] at hpc
        exact hc (by simpa using hpc)
      · rename_i caller line rest hcons
        rw [hcons] at hpc
        refine ⟨?_, hpe⟩
        simp only [List.length_cons, Nat.cast_add, Nat.cast_one] at hpc ⊢
        omega
  | include_file p str filename hp _ =>
    have hpe : p.m_parse_error = true := hp.2.2.2.1.trans hlatch
    have hpc : p.m_file_count = m.callers.length + 1 := hp.2.2.1.trans hcount
    unfold process_file_enter
    simp only []
    split
    · exact hpe
    · refine ⟨?_, hpe⟩
      simp only [flush_line, List.length_cons, Nat.cast_add, Nat.cast_one]
      omega
  | invalid p str hp _ => exact ⟨hp.2.2.1.trans hcount, rfl⟩
  | block p str name hp _ _ => exact ⟨hp.2.2.1.trans hcount, hp.2.2.2.1.trans hlatch⟩
  | endblock_unmatched p hp he => exact hp.2.2.2.1.trans hlatch
  | endblock p str below back hp he _ =>
    exact ⟨hp.2.2.1.trans hcount, hp.2.2.2.1.trans hlatch⟩
  | entry p str rel_path lhs op rhs hp h0 _ =>
    have hpe : p.m_parse_error = true := hp.2.2.2.1.trans hlatch
    have hpc : p.m_file_count = m.callers.length + 1 := hp.2.2.1.trans hcount
    simp only [status_latched]
    unfold process_entry
    split
    · exact ⟨hpc, hpe⟩
    · split <;> exact ⟨hpc, hpe⟩

theorem status_latched_run (env : environment) (n : Nat) (s : status) (h : status_latched s) :
    status_latched (run env n s) := by
  induction n generalizing s with
  | zero => exact h
  | succ n ih =>
    apply ih
    cases s with
    | running m => exact status_latched_effect h (process_statement_effect env m)
    | returned p => exact h
    | thrown e p => exact h

/-- A parser whose error latch is set and whose file count is 0 never returns
normally from `parse_config`, whatever the input. -/
theorem latched_parser_never_returns (env : environment) (fuel : Nat) (p : priv)
    (path : std_string) (hlatch : p.m_parse_error = true) (hcount : p.m_file_count = 0) :
    status_latched (parse_config_again env fuel p path) := by
  unfold parse_config_again process_file
  apply status_latched_run
  unfold process_file_enter
  simp only []
  split
  · exact hlatch
  · refine ⟨?_, hlatch⟩
    simp only [List.length_nil, Nat.cast_zero]
    omega

/-! ## Camera intrinsics without distortion -/

theorem distortion_scale_offset_nil {T : Type} [Field T] (pt : T × T) :
    distortion_scale_offset pt [] = (1, (0, 0)) := by
  simp [distortion_scale_offset, radial_distortion_scale]

theorem distort_nil {T : Type} [Field T] (k : camera_intrinsics_ T) (hd : k.dist_coeffs_ = [])
    (p : T × T) : k.distort p = p := by
  simp [camera_intrinsics_.distort, hd, distortion_scale_offset_nil]

/-- Without coefficients the loop of `undistort` stops in its first iteration,
where the residual is zero. -/
theorem undistort_loop_nil {T : Type} [LinearOrderedField T]
    (ldlt_solve : (Fin 2 → Fin 2 → T) → T × T → T × T) (p : T × T) (n : Nat) :
    undistort_loop ldlt_solve [] p (n + 1) p = p := by
  have hpos : (0 : T) < 1 / 1000000000000 := by positivity
  simp [undistort_loop, distortion_scale_offset_nil, hpos]

/-! ## The tokens of an assignment -/

theorem trim_of_no_outer_space {s : std_string}
    (hh : ∀ c, s.head? = some c → isspace c = false)
    (hl : ∀ c, s.getLast? = some c → isspace c = false) : trim s = s := by
  rcases List.eq_nil_or_concat s with rfl | ⟨a, c, rfl⟩
  · rfl
  · rw [List.concat_eq_append] at hh hl ⊢
    have hc : isspace c = false := hl c (by simp)
    have hr : rtrim (a ++ [c]) = a ++ [c] := by
      have := rtrim_append_stop a c [] hc
      simpa [rtrim] using this
    unfold trim
    rw [hr]
    cases a with
    | nil => simp [ltrim, List.dropWhile, hc]
    | cons x a1 =>
      have hx : isspace x = false := hh x (by simp)
      simp [ltrim, List.dropWhile, hx]

/-- The LHS state on a buffer whose boundary is the end of `k`. -/
theorem get_token_lhs_key (p : priv) (str : istream) (k tail : std_string)
    (hline : p.m_token_line = k ++ tail) (hb : lhs_boundary (k ++ tail) = k.length) :
    get_token_lhs p str = .ok (⟨.TK_LHS, k⟩,
      { p with
        m_token_line := ltrim tail
        m_token_state := if ¬ isalnum (char_at (ltrim tail) 0) then 2 else 1 }, str) := by
  rw [get_token_lhs_eq, hline, hb]
  simp

/-- The operator state on a buffer that starts with "=" or ":=". -/
theorem get_token_assign (p : priv) (str : istream) (op r : std_string)
    (hst : p.m_token_state = 2) (hline : p.m_token_line = op ++ r)
    (hop : op = op_assign ∨ op = op_define) :
    get_token p str = .ok (⟨.TK_ASSIGN, op⟩,
      { p with m_token_line := ltrim r, m_token_state := 3 }, str) := by
  unfold get_token
  have hne : ¬ (p.m_token_line.length = 0 ∧ p.m_token_state ≠ 0) := by
    rintro ⟨h, _⟩
    rw [hline] at h
    rcases hop with rfl | rfl <;> simp [op_assign, op_define] at h
  rw [if_neg hne, hst]
  simp only []
  rcases hop with rfl | rfl
  · simp [get_token_op, get_token_op_finish, hline, op_assign, char_at, substr]
  · have hlen : ¬ (r.length + 1 + 1 < 2) := by omega
    simp [get_token_op, get_token_op_finish, hline, op_define, char_at, substr, hlen]

/-- The RHS state on a buffer that is not empty. -/
theorem get_token_rhs (p : priv) (str : istream) (hst : p.m_token_state = 3)
    (hne : p.m_token_line ≠ []) :
    get_token p str = .ok (⟨.TK_RHS, p.m_token_line⟩,
      { p with m_token_line := [], m_token_state := 0 }, str) := by
  unfold get_token
  have hc : ¬ (p.m_token_line.length = 0 ∧ p.m_token_state ≠ 0) := by
    rintro ⟨h, _⟩
    exact hne (List.length_eq_zero.mp h)
  rw [if_neg hc, hst]

theorem char_at_last (a : std_string) (c : Char) (r : std_string) :
    char_at (a ++ [c] ++ r) a.length = c := by
  rw [List.append_assoc]
  exact char_at_append_length a c r

/-- The boundary of a buffer that starts with a key followed by a space, a tab
or '=': the end of the key, when the key does not end in ':'. -/
theorem lhs_boundary_key (k : std_string) (d : Char) (r : std_string)
    (hk : ∀ c ∈ k, c ≠ ' ' ∧ c ≠ '\t' ∧ c ≠ '=') (hlast : k.getLast? ≠ some ':')
    (hd : d = ' ' ∨ d = '\t' ∨ d = '=') : lhs_boundary (k ++ d :: r) = k.length := by
  have hf : find_first_of (k ++ d :: r) [' ', '\t', '='] = some k.length := by
    apply find_first_of_append
    · intro c hc
      obtain ⟨h1, h2, h3⟩ := hk c hc
      simp [h1, h2, h3]
    · rcases hd with rfl | rfl | rfl <;> simp
  unfold lhs_boundary
  simp only [hf]
  rw [if_neg]
  rintro ⟨h1, h2, _⟩
  rcases List.eq_nil_or_concat k with rfl | ⟨a, c, rfl⟩
  · simp at h1
  · rw [List.concat_eq_append] at h2 hlast
    have hc : c ≠ ':' := by
      intro hc
      apply hlast
      simp [hc]
    apply hc
    have := char_at_last a c (d :: r)
    simp only [List.length_append, List.length_singleton, Nat.add_sub_cancel] at h2
    rw [this] at h2
    exact h2

/-- The boundary of a buffer that starts with a key directly followed by ":=":
the end of the key. -/
theorem lhs_boundary_define (k : std_string) (r : std_string) (hne : k ≠ [])
    (hk : ∀ c ∈ k, c ≠ ' ' ∧ c ≠ '\t' ∧ c ≠ '=') :
    lhs_boundary (k ++ ':' :: '=' :: r) = k.length := by
  have hf : find_first_of (k ++ ':' :: '=' :: r) [' ', '\t', '='] = some (k.length + 1) := by
    have h := @find_first_of_append (k ++ [':']) [' ', '\t', '='] '=' r
      (by
        intro c hc
        rcases List.mem_append.mp hc with hc | hc
        · obtain ⟨h1, h2, h3⟩ := hk c hc
          simp [h1, h2, h3]
        · have : c = ':' := by simpa using hc
          subst this
          decide)
      (by simp)
    simpa using h
  have h1 : char_at (k ++ ':' :: '=' :: r) k.length = ':' := char_at_append_length k ':' _
  have h2 : char_at (k ++ ':' :: '=' :: r) (k.length + 1) = '=' := by
    have := char_at_append_length (k ++ [':']) '=' r
    simpa using this
  have hlen : 0 < k.length := List.length_pos.mpr hne
  unfold lhs_boundary
  simp only [hf, Nat.add_sub_cancel, h1, h2]
  rw [if_pos ⟨by simpa using hlen, trivial, trivial⟩]

/-- The three tokens of a well-formed assignment line `k sp1 op sp2 v`, read by
a tokenizer in its initial state, and the states in between. -/
theorem assignment_line_tokens (p : priv) (k sp1 op sp2 v : std_string) (rest : istream)
    (h0 : p.m_token_state = 0)
    (hk1 : k ≠ []) (hk2 : ∀ c ∈ k, isspace c = false ∧ c ≠ '=' ∧ c ≠ '#')
    (hk3 : k.getLast? ≠ some ':') (hop : op = op_assign ∨ op = op_define)
    (hsp1 : ∀ c ∈ sp1, c = ' ' ∨ c = '\t') (hsp2 : ∀ c ∈ sp2, c = ' ' ∨ c = '\t')
    (hv1 : v ≠ []) (hv2 : '#' ∉ v) (hv3 : ∀ c, v.head? = some c → isspace c = false)
    (hv4 : ∀ c, v.getLast? = some c → isspace c = false) :
    get_token p ((k ++ sp1 ++ op ++ sp2 ++ v) :: rest) = .ok (⟨.TK_LHS, k⟩,
      { p with
        m_line_number := p.m_line_number + 1
        m_last_line := k ++ sp1 ++ op ++ sp2 ++ v
        m_token_line := op ++ (sp2 ++ v)
        m_token_state := 2 }, rest) ∧
    get_token
      { p with
        m_line_number := p.m_line_number + 1
        m_last_line := k ++ sp1 ++ op ++ sp2 ++ v
        m_token_line := op ++ (sp2 ++ v)
        m_token_state := 2 } rest = .ok (⟨.TK_ASSIGN, op⟩,
      { p with
        m_line_number := p.m_line_number + 1
        m_last_line := k ++ sp1 ++ op ++ sp2 ++ v
        m_token_line := v
        m_token_state := 3 }, rest) ∧
    get_token
      { p with
        m_line_number := p.m_line_number + 1
        m_last_line := k ++ sp1 ++ op ++ sp2 ++ v
        m_token_line := v
        m_token_state := 3 } rest = .ok (⟨.TK_RHS, v⟩,
      { p with
        m_line_number := p.m_line_number + 1
        m_last_line := k ++ sp1 ++ op ++ sp2 ++ v
        m_token_line := []
        m_token_state := 0 }, rest) := by
  obtain ⟨line, hline⟩ : ∃ line, line = k ++ sp1 ++ op ++ sp2 ++ v := ⟨_, rfl⟩
  rw [← hline]
  have hform : line = k ++ (sp1 ++ (op ++ (sp2 ++ v))) := by
    rw [hline]; simp [List.append_assoc]
  have hspace : ∀ (sp : std_string), (∀ c ∈ sp, c = ' ' ∨ c = '\t') →
      ∀ x ∈ sp, isspace x = true := by
    intro sp h x hx
    rcases h x hx with rfl | rfl <;> decide
  obtain ⟨oc, opr, hoc, hoc1, hoc2⟩ : ∃ oc opr, op = oc :: opr ∧ isspace oc = false ∧
      isalnum oc = false := by
    rcases hop with rfl | rfl
    · exact ⟨'=', [], rfl, by decide, by decide⟩
    · exact ⟨':', ['='], rfl, by decide, by decide⟩
  obtain ⟨vc, vr, hvc⟩ := List.exists_cons_of_ne_nil hv1
  have hvc1 : isspace vc = false := hv3 vc (by rw [hvc]; rfl)
  -- the line reader returns the line as it is
  have hhash : '#' ∉ line := by
    rw [hline]
    simp only [List.mem_append, not_or]
    refine ⟨⟨⟨⟨fun h => (hk2 _ h).2.2 rfl, ?_⟩, ?_⟩, ?_⟩, hv2⟩
    · intro h; rcases hsp1 _ h with h | h <;> revert h <;> decide
    · intro h; rcases hop with rfl | rfl <;> revert h <;> decide
    · intro h; rcases hsp2 _ h with h | h <;> revert h <;> decide
  have hnorm : norm_line line = line := by
    rw [norm_line_plain _ hhash]
    apply trim_of_no_outer_space
    · intro c hc
      obtain ⟨kc, kr, hkc⟩ := List.exists_cons_of_ne_nil hk1
      rw [hform, hkc] at hc
      simp only [List.cons_append, List.head?_cons, Option.some.injEq] at hc
      subst hc
      exact (hk2 kc (by rw [hkc]; simp)).1
    · intro c hc
      apply hv4 c
      rw [hline, List.getLast?_append_of_ne_nil _ hv1] at hc
      exact hc
  have hne : norm_line line ≠ [] := by
    rw [hnorm, hform]
    obtain ⟨kc, kr, hkc⟩ := List.exists_cons_of_ne_nil hk1
    rw [hkc]
    simp
  have hgl := get_line_skip p [] line rest (by simp) hne
  simp only [List.nil_append, List.length_nil, Nat.cast_zero, add_zero, hnorm] at hgl
  -- the boundary is the end of the key
  have hkd : ∀ c ∈ k, c ≠ ' ' ∧ c ≠ '\t' ∧ c ≠ '=' := by
    intro c hc
    obtain ⟨h1, h2, _⟩ := hk2 c hc
    refine ⟨?_, ?_, h2⟩
    · rintro rfl; revert h1; decide
    · rintro rfl; revert h1; decide
  have hb : lhs_boundary (k ++ (sp1 ++ (op ++ (sp2 ++ v)))) = k.length := by
    cases sp1 with
    | nil =>
      rcases hop with rfl | rfl
      · exact lhs_boundary_key k '=' _ hkd hk3 (Or.inr (Or.inr rfl))
      · exact lhs_boundary_define k _ hk1 hkd
    | cons d sp1r =>
      have hd := hsp1 d (by simp)
      exact lhs_boundary_key k d _ hkd hk3 (by rcases hd with h | h <;> simp [h])
  have hlt1 : ltrim (sp1 ++ (op ++ (sp2 ++ v))) = op ++ (sp2 ++ v) := by
    rw [hoc]
    exact ltrim_spaces sp1 oc _ (hspace sp1 hsp1) hoc1
  have hlt2 : ltrim (sp2 ++ v) = v := by
    rw [hvc]
    exact ltrim_spaces sp2 vc vr (hspace sp2 hsp2) hvc1
  have hstate : (if ¬ isalnum (char_at (op ++ (sp2 ++ v)) 0) = true then 2 else 1) = 2 := by
    rw [hoc]
    simp [char_at, hoc2]
  have g1 := get_token_init h0 (line :: rest)
  rw [hgl] at g1
  simp only [] at g1
  rw [get_token_lhs_key _ rest k (sp1 ++ (op ++ (sp2 ++ v))) hform hb, hlt1, hstate] at g1
  refine ⟨g1, ?_, ?_⟩
  · rw [get_token_assign _ rest op (sp2 ++ v) rfl rfl hop, hlt2]
  · rw [get_token_rhs _ rest rfl hv1]

/-! ## The boundary of the LHS token -/

/-- What `find_first_of` returns is the index of a character of the set, and no
character before it is in the set. -/
theorem find_first_of_some {s : std_string} {cs : List Char} {i : Nat}
    (h : find_first_of s cs = some i) :
    char_at s i ∈ cs ∧ ∀ c ∈ s.take i, c ∉ cs := by
  induction s generalizing i with
  | nil => simp [find_first_of] at h
  | cons a s ih =>
    unfold find_first_of at h
    split at h
    · rename_i ha
      simp only [Option.some.injEq] at h
      subst h
      exact ⟨by simpa [char_at] using ha, by simp⟩
    · rename_i ha
      split at h
      · cases h
      · rename_i j hj
        simp only [Option.some.injEq] at h
        subst h
        obtain ⟨h1, h2⟩ := ih hj
        refine ⟨by simpa [char_at] using h1, ?_⟩
        intro c hc
        simp only [List.take_succ_cons, List.mem_cons] at hc
        rcases hc with rfl | hc
        · exact ha
        · exact h2 c hc

theorem find_first_of_none_mem {s : std_string} {cs : List Char}
    (h : find_first_of s cs = none) : ∀ c ∈ s, c ∉ cs := by
  induction s with
  | nil => simp
  | cons a s ih =>
    unfold find_first_of at h
    split at h
    · cases h
    · rename_i ha
      split at h
      · rename_i hn
        intro c hc
        rcases List.mem_cons.mp hc with rfl | hc
        · exact ha
        · exact ih hn c hc
      · cases h

theorem char_at_length (s : std_string) : char_at s s.length = nul := by
  simp [char_at, List.getD_eq_default]

/-- The boundary is never behind the first space, tab or '='. -/
theorem lhs_boundary_no_delim (line : std_string) :
    ∀ c ∈ line.take (lhs_boundary line), c ≠ ' ' ∧ c ≠ '\t' ∧ c ≠ '=' := by
  intro c hc
  have hsub : ∀ i, lhs_boundary line ≤ i → (∀ x ∈ line.take i, x ∉ [' ', '\t', '=']) →
      c ≠ ' ' ∧ c ≠ '\t' ∧ c ≠ '=' := by
    intro i hi hx
    have hm : c ∈ line.take i :=
      (List.take_sublist_take_left line hi).subset hc
    have := hx c hm
    simpa using this
  cases hf : find_first_of line [' ', '\t', '='] with
  | none =>
    apply hsub line.length (lhs_boundary_le line)
    intro x hx
    exact find_first_of_none_mem hf x (List.mem_of_mem_take hx)
  | some i =>
    apply hsub i
    · unfold lhs_boundary
      simp only [hf]
      split <;> omega
    · exact (find_first_of_some hf).2

/-! ## A line of one word -/

/-- The two tokens of a line that consists of one word, read by a tokenizer in
its initial state: the word as LHS, and EOL. -/
theorem single_word_tokens (p : priv) (w : std_string) (rest : istream)
    (h0 : p.m_token_state = 0) (hw1 : w ≠ [])
    (hw2 : ∀ c ∈ w, isspace c = false ∧ c ≠ '=' ∧ c ≠ '#') :
    get_token p (w :: rest) = .ok (⟨.TK_LHS, w⟩,
      { p with
        m_line_number := p.m_line_number + 1
        m_last_line := w
        m_token_line := []
        m_token_state := 2 }, rest) ∧
    get_token
      { p with
        m_line_number := p.m_line_number + 1
        m_last_line := w
        m_token_line := []
        m_token_state := 2 } rest = .ok (⟨.TK_EOL, []⟩,
      { p with
        m_line_number := p.m_line_number + 1
        m_last_line := w
        m_token_line := []
        m_token_state := 0 }, rest) := by
  have hhash : '#' ∉ w := fun h => (hw2 _ h).2.2 rfl
  have hnorm : norm_line w = w := by
    rw [norm_line_plain _ hhash]
    apply trim_of_no_outer_space
    · intro c hc
      exact (hw2 c (List.mem_of_mem_head? hc)).1
    · intro c hc
      exact (hw2 c (List.mem_of_mem_getLast? hc)).1
  have hgl := get_line_skip p [] w rest (by simp) (by rw [hnorm]; exact hw1)
  simp only [List.nil_append, List.length_nil, Nat.cast_zero, add_zero, hnorm] at hgl
  have hnone : find_first_of w [' ', '\t', '='] = none := by
    apply find_first_of_none
    intro c hc
    obtain ⟨h1, h2, _⟩ := hw2 c hc
    have h3 : c ≠ ' ' := by rintro rfl; revert h1; decide
    have h4 : c ≠ '\t' := by rintro rfl; revert h1; decide
    simp [h2, h3, h4]
  have hb : lhs_boundary (w ++ []) = w.length := by
    rw [List.append_nil]
    unfold lhs_boundary
    simp only [hnone, char_at_length]
    rw [if_neg]
    rintro ⟨_, _, h⟩
    revert h
    decide
  have g1 := get_token_init h0 (w :: rest)
  rw [hgl] at g1
  simp only [] at g1
  rw [get_token_lhs_key _ rest w [] (by simp) hb] at g1
  have hst : (if ¬ isalnum (char_at (ltrim []) 0) = true then 2 else 1) = 2 := by decide
  rw [hst] at g1
  refine ⟨g1, ?_⟩
  have hne : (2 : Nat) ≠ 0 := by decide
  exact get_token_eol rest rfl hne

/-! ## The line reader and its reference -/

theorem take_find_first_of (s : std_string) (c : Char) :
    (match find_first_of s [c] with
      | some i => s.take i
      | none => s) = s.takeWhile (fun x => x != c) := by
  induction s with
  | nil => rfl
  | cons a s ih =>
    unfold find_first_of
    by_cases ha : a = c
    · subst ha
      simp
    · have hm : a ∉ [c] := by simpa using ha
      rw [if_neg hm]
      have hb : (a != c) = true := by simpa using ha
      rw [List.takeWhile_cons, hb]
      simp only [if_true]
      rw [← ih]
      cases find_first_of s [c] <;> rfl

theorem getLast_dropWhile {p : Char → Bool} {l : std_string} {c : Char}
    (h : (l.dropWhile p).getLast? = some c) : l.getLast? = some c := by
  induction l with
  | nil => simp at h
  | cons a l ih =>
    rw [List.dropWhile_cons] at h
    split at h
    · have h1 := ih h
      cases l with
      | nil => simp at h1
      | cons b l => rw [List.getLast?_cons_cons]; exact h1
    · exact h

theorem rtrim_last_not_space {s : std_string} {c : Char} (h : (rtrim s).getLast? = some c) :
    isspace c = false := by
  unfold rtrim at h
  rw [List.getLast?_reverse] at h
  cases hd : s.reverse.dropWhile isspace with
  | nil => rw [hd] at h; simp at h
  | cons a r =>
    rw [hd] at h
    simp only [List.head?_cons, Option.some.injEq] at h
    subst h
    have := List.head_dropWhile_not isspace s.reverse (by rw [hd]; simp)
    simpa [hd] using this

theorem trim_head_not_space {s : std_string} {c : Char} (h : (trim s).head? = some c) :
    isspace c = false := by
  cases ht : trim s with
  | nil => rw [ht] at h; simp at h
  | cons a r =>
    rw [ht] at h
    simp only [List.head?_cons, Option.some.injEq] at h
    subst h
    exact ltrim_head_not_space ht

theorem trim_last_not_space {s : std_string} {c : Char} (h : (trim s).getLast? = some c) :
    isspace c = false :=
  rtrim_last_not_space (getLast_dropWhile h)

theorem trim_trim (s : std_string) : trim (trim s) = trim s :=
  trim_of_no_outer_space (fun _ h => trim_head_not_space h) (fun _ h => trim_last_not_space h)

theorem norm_line_eq_reference (raw : std_string) : norm_line raw = norm_reference raw := by
  unfold norm_line norm_reference
  rw [← take_find_first_of]
  cases find_first_of (trim raw) ['#'] with
  | none => exact (trim_trim raw).symm
  | some i => rfl

theorem norm_line_no_hash (raw : std_string) : '#' ∉ norm_line raw := by
  unfold norm_line
  cases hf : find_first_of (trim raw) ['#'] with
  | none =>
    intro hm
    exact find_first_of_none_mem hf _ hm (by simp)
  | some i =>
    intro hm
    exact (find_first_of_some hf).2 _ (mem_trim hm) (by simp)

theorem norm_line_head_not_space {raw : std_string} {c : Char}
    (h : (norm_line raw).head? = some c) : isspace c = false := by
  unfold norm_line at h
  cases hf : find_first_of (trim raw) ['#'] with
  | none => rw [hf] at h; exact trim_head_not_space h
  | some i => rw [hf] at h; exact trim_head_not_space h

theorem norm_line_last_not_space {raw : std_string} {c : Char}
    (h : (norm_line raw).getLast? = some c) : isspace c = false := by
  unfold norm_line at h
  cases hf : find_first_of (trim raw) ['#'] with
  | none => rw [hf] at h; exact trim_last_not_space h
  | some i => rw [hf] at h; exact trim_last_not_space h

/-- The line reader computes its reference. -/
theorem get_line_eq_reference (p : priv) (str : istream) :
    match get_line_reference str with
    | none => (get_line p str).1 = false
    | some (line, rest) =>
      (get_line p str).1 = true ∧ (get_line p str).2.1.m_token_line = line ∧
        (get_line p str).2.2 = rest := by
  induction str generalizing p with
  | nil => simp [get_line_reference, get_line]
  | cons raw rest ih =>
    rw [get_line_cons]
    by_cases hn : norm_line raw = []
    · rw [if_pos hn]
      have he : (norm_reference raw).isEmpty = true := by
        rw [← norm_line_eq_reference, hn]; rfl
      have hr : get_line_reference (raw :: rest) = get_line_reference rest := by
        unfold get_line_reference
        rw [List.dropWhile_cons, he]
        rfl
      rw [hr]
      exact ih _
    · rw [if_neg hn]
      have he : (norm_reference raw).isEmpty = false := by
        rw [← norm_line_eq_reference]
        cases h : norm_line raw with
        | nil => exact (hn h).elim
        | cons _ _ => rfl
      have hr : get_line_reference (raw :: rest) = some (norm_reference raw, rest) := by
        unfold get_line_reference
        rw [List.dropWhile_cons, he]
        rfl
      rw [hr]
      exact ⟨rfl, norm_line_eq_reference raw, rfl⟩

theorem get_line_false_iff (p : priv) (str : istream) :
    (get_line p str).1 = false ↔ ∀ l ∈ str, norm_line l = [] := by
  constructor
  · intro h
    induction str generalizing p with
    | nil => simp
    | cons raw rest ih =>
      rw [get_line_cons] at h
      by_cases hn : norm_line raw = []
      · rw [if_pos hn] at h
        intro l hl
        rcases List.mem_cons.mp hl with rfl | hl
        · exact hn
        · exact ih _ h l hl
      · rw [if_neg hn] at h
        cases h
  · exact get_line_all_blank str p

/-! ## The line counter -/

/-- The lines that a call of `get_line` consumes: the counter grows by their
number, and the last line is the latest of them. -/
theorem get_line_consumed (p : priv) (str : istream) :
    ∃ consumed, str = consumed ++ (get_line p str).2.2 ∧
      (get_line p str).2.1.m_line_number = p.m_line_number + consumed.length ∧
      (consumed = [] → (get_line p str).2.1.m_last_line = p.m_last_line) ∧
      (∀ l, consumed.getLast? = some l → (get_line p str).2.1.m_last_line = l) ∧
      ((get_line p str).1 = false → (get_line p str).2.2 = []) := by
  induction str generalizing p with
  | nil => exact ⟨[], by simp [get_line]⟩
  | cons raw rest ih =>
    rw [get_line_cons]
    by_cases hn : norm_line raw = []
    · rw [if_pos hn]
      obtain ⟨consumed, h1, h2, h3, h4, h5⟩ :=
        ih { p with m_line_number := p.m_line_number + 1, m_last_line := raw }
      refine ⟨raw :: consumed, ?_, ?_, ?_, ?_, h5⟩
      · rw [List.cons_append, ← h1]
      · rw [h2]
        simp only [List.length_cons, Nat.cast_add, Nat.cast_one]
        omega
      · intro h
        cases h
      · intro l hl
        cases consumed with
        | nil =>
          simp only [List.getLast?_singleton, Option.some.injEq] at hl
          rw [h3 rfl, ← hl]
        | cons c cs =>
          rw [List.getLast?_cons_cons] at hl
          exact h4 l hl
    · rw [if_neg hn]
      refine ⟨[raw], rfl, by simp, ?_, ?_, ?_⟩
      · intro h
        cases h
      · intro l hl
        simp only [List.getLast?_singleton, Option.some.injEq] at hl
        exact hl
      · intro h
        cases h

/-! ## No '#' reaches a token -/

theorem substr_mem {s r : std_string} {pos : Nat} (h : substr s pos = .ok r) {c : Char}
    (hc : c ∈ r) : c ∈ s := by
  unfold substr at h
  split at h
  · cases h
  · simp only [Except.ok.injEq] at h
    subst h
    exact List.mem_of_mem_drop hc

theorem substr_n_mem {s r : std_string} {pos n : Nat} (h : substr_n s pos n = .ok r) {c : Char}
    (hc : c ∈ r) : c ∈ s := by
  unfold substr_n at h
  split at h
  · cases h
  · simp only [Except.ok.injEq] at h
    subst h
    exact List.mem_of_mem_drop (List.mem_of_mem_take hc)

theorem get_token_lhs_no_hash {p : priv} {str : istream} {t : token_t} {q : priv}
    {str1 : istream} (hb : '#' ∉ p.m_token_line) (h : get_token_lhs p str = .ok (t, q, str1)) :
    '#' ∉ t.value ∧ '#' ∉ q.m_token_line := by
  rw [get_token_lhs_eq] at h
  simp only [Except.ok.injEq, Prod.mk.injEq] at h
  obtain ⟨rfl, rfl, _⟩ := h
  exact ⟨fun hc => hb (List.mem_of_mem_take hc),
    fun hc => hb (List.mem_of_mem_drop (mem_ltrim hc))⟩

theorem get_token_op_finish_no_hash {p : priv} {str : istream} {token t : token_t} {idx : Nat}
    {q : priv} {str1 : istream} (hb : '#' ∉ p.m_token_line) (ht : '#' ∉ token.value)
    (h : get_token_op_finish p str token idx = .ok (t, q, str1)) :
    '#' ∉ t.value ∧ '#' ∉ q.m_token_line := by
  unfold get_token_op_finish at h
  split at h
  · cases h
  · rename_i rest hr
    simp only [Except.ok.injEq, Prod.mk.injEq] at h
    obtain ⟨rfl, rfl, _⟩ := h
    exact ⟨ht, fun hc => hb (substr_mem hr (mem_ltrim hc))⟩

theorem get_token_op_no_hash {p : priv} {str : istream} {t : token_t} {q : priv}
    {str1 : istream} (hb : '#' ∉ p.m_token_line) (h : get_token_op p str = .ok (t, q, str1)) :
    '#' ∉ t.value ∧ '#' ∉ q.m_token_line := by
  unfold get_token_op at h
  split at h
  · exact get_token_op_finish_no_hash hb (by decide) h
  · split at h
    · exact get_token_op_finish_no_hash hb (by decide) h
    · simp only at h
      split at h
      · cases h
      · rename_i value hv
        split at h
        · cases h
        · rename_i rest hr
          have hrest : '#' ∉ rest := fun hc => hb (mem_ltrim (substr_mem hr hc))
          exact get_token_op_finish_no_hash hrest (fun hc => hb (substr_n_mem hv hc)) h

/-- In the model a read that fails leaves the buffer empty. Of the code this
holds whenever the failing call has passed over a line (source lines 417-438
empty the buffer in place) or finds the stream in good state; see `get_line`
for the one case that a list of lines cannot express. -/
theorem get_line_false_buffer {str : istream} {p q : priv} {str1 : istream}
    (h : get_line p str = (false, q, str1)) : q.m_token_line = [] := by
  induction str generalizing p with
  | nil =>
    simp only [get_line, Prod.mk.injEq, true_and] at h
    rw [← h.1]
  | cons raw rest ih =>
    rw [get_line_cons] at h
    split at h
    · exact ih h
    · cases h

/-- No token holds a '#', and none stays in the buffer: the tokenizer takes its
text from the lines that `get_line` returns. -/
theorem get_token_no_hash {p : priv} {str : istream} {t : token_t} {q : priv} {str1 : istream}
    (hb : p.m_token_state = 0 ∨ '#' ∉ p.m_token_line)
    (h : get_token p str = .ok (t, q, str1)) :
    '#' ∉ t.value ∧ '#' ∉ q.m_token_line := by
  by_cases h0 : p.m_token_state = 0
  · rw [get_token_init h0] at h
    cases hl : get_line p str with
    | mk found rr =>
      obtain ⟨pl, sl⟩ := rr
      rw [hl] at h
      cases found with
      | false =>
        simp only [Except.ok.injEq, Prod.mk.injEq] at h
        obtain ⟨rfl, rfl, _⟩ := h
        have hbuf : pl.m_token_line = [] := get_line_false_buffer hl
        exact ⟨by simp, by simp [hbuf]⟩
      | true =>
        simp only at h
        obtain ⟨skipped, raw, _, _, _, hq⟩ := get_line_true hl
        have hbuf : '#' ∉ pl.m_token_line := by
          rw [hq]
          exact norm_line_no_hash raw
        exact get_token_lhs_no_hash hbuf h
  · have hb1 : '#' ∉ p.m_token_line := by
      rcases hb with hb | hb
      · exact (h0 hb).elim
      · exact hb
    unfold get_token at h
    split at h
    · simp only [Except.ok.injEq, Prod.mk.injEq] at h
      obtain ⟨rfl, rfl, _⟩ := h
      exact ⟨by simp, hb1⟩
    · split at h
      · rename_i hs
        exact (h0 hs).elim
      · exact get_token_lhs_no_hash hb1 h
      · exact get_token_op_no_hash hb1 h
      · simp only [Except.ok.injEq, Prod.mk.injEq] at h
        obtain ⟨rfl, rfl, _⟩ := h
        exact ⟨hb1, by simp⟩
      · simp only [Except.ok.injEq, Prod.mk.injEq] at h
        obtain ⟨rfl, rfl, _⟩ := h
        exact ⟨by simp, hb1⟩

/-! ## The derivative of the radial scale -/

/-- The derivative of the cubic `1 + r a + r² b + r³ c`, written as
`radial_distortion_scale` writes it. -/
theorem hasDerivAt_radial_cubic (a b c r2 : ℝ) :
    HasDerivAt (fun r : ℝ => 1 + r * a + r * r * b + r * (r * r) * c)
      (a + 2 * b * r2 + 3 * c * (r2 * r2)) r2 := by
  have hi := hasDerivAt_id' r2
  have h := (((hasDerivAt_const r2 (1 : ℝ)).add (hi.mul_const a)).add
    ((hi.mul hi).mul_const b)).add ((hi.mul (hi.mul hi)).mul_const c)
  convert h using 1
  ring

/-- The derivative of the quotient of two such cubics, written as
`radial_distortion_deriv` writes it. -/
theorem hasDerivAt_radial_quotient (a b c e f g r2 : ℝ)
    (hD : 1 + r2 * e + r2 * r2 * f + r2 * (r2 * r2) * g ≠ 0) :
    HasDerivAt
      (fun r : ℝ => (1 + r * a + r * r * b + r * (r * r) * c) /
        (1 + r * e + r * r * f + r * (r * r) * g))
      ((0 + a + 2 * b * r2 + 3 * c * (r2 * r2) -
          (e + 2 * f * r2 + 3 * g * (r2 * r2)) *
            (1 / (e * r2 + f * (r2 * r2) + g * (r2 * r2 * r2) + 1)) *
            (a * r2 + b * (r2 * r2) + c * (r2 * r2 * r2) + 1)) *
        (1 / (e * r2 + f * (r2 * r2) + g * (r2 * r2 * r2) + 1))) r2 := by
  have h := (hasDerivAt_radial_cubic a b c r2).div (hasDerivAt_radial_cubic e f g r2) hD
  have e1 : e * r2 + f * (r2 * r2) + g * (r2 * r2 * r2) + 1 =
      1 + r2 * e + r2 * r2 * f + r2 * (r2 * r2) * g := by ring
  convert h using 1
  rw [e1]
  field_simp
  ring

/-! ## Text after a directive -/

/-- The first token of a line that is neither blank nor a comment. -/
theorem first_token_of_line (p : priv) (h0 : p.m_token_state = 0) (raw : std_string)
    (rest : istream) (hraw : norm_line raw ≠ []) :
    get_token p (raw :: rest) = .ok (⟨.TK_LHS, first_word raw⟩,
      { p with
        m_line_number := p.m_line_number + 1
        m_last_line := raw
        m_token_line := ltrim ((norm_line raw).drop (lhs_boundary (norm_line raw)))
        m_token_state :=
          if ¬ isalnum (char_at (ltrim ((norm_line raw).drop (lhs_boundary (norm_line raw)))) 0)
          then 2 else 1 }, rest) := by
  have hgl := get_line_skip p [] raw rest (by simp) hraw
  simp only [List.nil_append, List.length_nil, Nat.cast_zero, add_zero] at hgl
  have g1 := get_token_init h0 (raw :: rest)
  rw [hgl] at g1
  simp only [] at g1
  rw [get_token_lhs_eq] at g1
  exact g1

theorem lhs_boundary_blank (k : std_string) (d : Char) (r : std_string)
    (hk : ∀ c ∈ k, c ≠ ' ' ∧ c ≠ '\t' ∧ c ≠ '=') (hd : d = ' ' ∨ d = '\t') :
    lhs_boundary (k ++ d :: r) = k.length := by
  have hf : find_first_of (k ++ d :: r) [' ', '\t', '='] = some k.length := by
    apply find_first_of_append
    · intro c hc
      obtain ⟨h1, h2, h3⟩ := hk c hc
      simp [h1, h2, h3]
    · rcases hd with rfl | rfl <;> simp
  unfold lhs_boundary
  simp only [hf, char_at_append_length]
  have hne : d ≠ '=' := by rcases hd with rfl | rfl <;> decide
  simp [hne]

theorem lhs_boundary_whole (k : std_string) (hk : ∀ c ∈ k, c ≠ ' ' ∧ c ≠ '\t' ∧ c ≠ '=') :
    lhs_boundary k = k.length := by
  have hf : find_first_of k [' ', '\t', '='] = none :=
    find_first_of_none (fun c hc => by
      obtain ⟨h1, h2, h3⟩ := hk c hc
      simp [h1, h2, h3])
  unfold lhs_boundary
  simp only [hf, char_at_length]
  rw [if_neg]
  rintro ⟨_, _, h⟩
  revert h
  decide

/-- The boundary of a buffer that starts with a word which ends the line or is
followed by a space or a tab. -/
theorem lhs_boundary_word_end (k tail : std_string)
    (hk : ∀ c ∈ k, c ≠ ' ' ∧ c ≠ '\t' ∧ c ≠ '=') (ht : word_end tail) :
    lhs_boundary (k ++ tail) = k.length := by
  rcases ht with rfl | ⟨d, extra, rfl, hd⟩
  · rw [List.append_nil]
    exact lhs_boundary_whole k hk
  · exact lhs_boundary_blank k d extra hk hd

theorem not_space_not_blank {c : Char} (h : isspace c = false) : c ≠ ' ' ∧ c ≠ '\t' := by
  constructor
  · rintro rfl; revert h; decide
  · rintro rfl; revert h; decide

theorem find_blank_word_end (k tail : std_string) (hk : ∀ c ∈ k, isspace c = false)
    (ht : word_end tail) :
    (match find_first_of (k ++ tail) [' ', '\t'] with
      | none => (k ++ tail).length
      | some i => i) = k.length := by
  rcases ht with rfl | ⟨d, extra, rfl, hd⟩
  · have hf : find_first_of (k ++ []) [' ', '\t'] = none :=
      find_first_of_none (fun c hc => by
        rw [List.append_nil] at hc
        obtain ⟨h1, h2⟩ := not_space_not_blank (hk c hc)
        simp [h1, h2])
    rw [hf]
    simp
  · have hf : find_first_of (k ++ d :: extra) [' ', '\t'] = some k.length := by
      apply find_first_of_append
      · intro c hc
        obtain ⟨h1, h2⟩ := not_space_not_blank (hk c hc)
        simp [h1, h2]
      · rcases hd with rfl | rfl <;> simp
    rw [hf]

/-- The token that follows a directive word: when the buffer starts with a
word, the LHS state and the operator state (through its fallback) both return
that word as an LHS token. -/
theorem get_token_second_word (p : priv) (str : istream) (name tail : std_string)
    (hbuf : p.m_token_line = name ++ tail)
    (hst : p.m_token_state = if ¬ isalnum (char_at (name ++ tail) 0) then 2 else 1)
    (hne : name ≠ []) (hname : ∀ c ∈ name, isspace c = false ∧ c ≠ '=')
    (hhead : name.head? ≠ some ':') (ht : word_end tail) :
    ∃ q, get_token p str = .ok (⟨.TK_LHS, name⟩, q, str) := by
  obtain ⟨c, r, rfl⟩ := List.exists_cons_of_ne_nil hne
  have hc := hname c (by simp)
  have hk : ∀ x ∈ c :: r, x ≠ ' ' ∧ x ≠ '\t' ∧ x ≠ '=' := fun x hx =>
    ⟨(not_space_not_blank (hname x hx).1).1, (not_space_not_blank (hname x hx).1).2,
      (hname x hx).2⟩
  have hlen : ¬ (p.m_token_line.length = 0 ∧ p.m_token_state ≠ 0) := by
    rw [hbuf]
    simp
  have hch : char_at (c :: r ++ tail) 0 = c := rfl
  rw [hch] at hst
  by_cases ha : isalnum c = true
  · have hs1 : p.m_token_state = 1 := by rw [hst]; simp [ha]
    have hg := get_token_lhs_key p str (c :: r) tail hbuf (lhs_boundary_word_end _ _ hk ht)
    have hgt : get_token p str = get_token_lhs p str := by
      unfold get_token
      rw [if_neg hlen, hs1]
    exact ⟨_, hgt.trans hg⟩
  · have hs2 : p.m_token_state = 2 := by rw [hst]; simp [ha]
    have hc1 : c ≠ ':' := by
      intro h
      apply hhead
      rw [h]
      rfl
    have hidx := find_blank_word_end (c :: r) tail (fun x hx => (hname x hx).1) ht
    have hlt : ltrim (c :: r ++ tail) = c :: r ++ tail := by
      simp [ltrim, List.dropWhile, hc.1]
    have hle : ¬ (c :: r).length > (c :: r ++ tail).length := by
      simp
    refine ⟨{ p with m_token_line := ltrim tail, m_token_state := 3 }, ?_⟩
    unfold get_token
    rw [if_neg hlen, hs2]
    simp only []
    unfold get_token_op
    rw [hbuf, hch, if_neg hc1, if_neg hc.2]
    simp only [hidx]
    simp only [substr_n, substr, get_token_op_finish, hlt, if_neg hle]
    simp

/-! ## Progress of the tokenizer -/

theorem lhs_boundary_eq_zero {line : std_string} (h : lhs_boundary line = 0) :
    line = [] ∨ char_at line 0 = ' ' ∨ char_at line 0 = '\t' ∨ char_at line 0 = '=' := by
  unfold lhs_boundary at h
  cases hf : find_first_of line [' ', '\t', '='] with
  | none =>
    rw [hf] at h
    simp only [] at h
    split at h
    · omega
    · exact Or.inl (List.length_eq_zero.mp h)
  | some i =>
    rw [hf] at h
    simp only [] at h
    have hi : i = 0 := by
      split at h
      · omega
      · exact h
    subst hi
    have := (find_first_of_some hf).1
    right
    simpa using this

theorem isalnum_nul : isalnum nul = false := by decide

/-- A buffer that starts with an alphanumeric character has its boundary
behind that character. -/
theorem lhs_boundary_pos {line : std_string} (h : isalnum (char_at line 0) = true) :
    1 ≤ lhs_boundary line ∧ line ≠ [] := by
  have hne : line ≠ [] := by
    rintro rfl
    have : isalnum nul = true := h
    rw [isalnum_nul] at this
    cases this
  refine ⟨?_, hne⟩
  by_contra hlt
  have hz : lhs_boundary line = 0 := by omega
  obtain ⟨h1, h2, h3, _⟩ := isalnum_not_delim h
  rcases lhs_boundary_eq_zero hz with h4 | h4 | h4 | h4
  · exact hne h4
  · exact h1 h4
  · exact h2 h4
  · exact h3 h4

theorem ltrim_length_le (s : std_string) : (ltrim s).length ≤ s.length := by
  unfold ltrim
  exact (List.dropWhile_sublist isspace).length_le

theorem get_token_op_state {p : priv} {str : istream} {t : token_t} {q : priv} {str1 : istream}
    (h : get_token_op p str = .ok (t, q, str1)) : q.m_token_state = 3 := by
  unfold get_token_op at h
  split at h
  · exact (get_token_op_finish_ok h).2.1
  · split at h
    · exact (get_token_op_finish_ok h).2.1
    · simp only [] at h
      split at h
      · cases h
      · split at h
        · cases h
        · exact (get_token_op_finish_ok h).2.1

/-- The state and the buffer after a token of the LHS state. -/
theorem get_token_lhs_after {p : priv} {str : istream} {t : token_t} {q : priv} {str1 : istream}
    (h : get_token_lhs p str = .ok (t, q, str1)) :
    t = ⟨.TK_LHS, p.m_token_line.take (lhs_boundary p.m_token_line)⟩ ∧
    q.m_token_line = ltrim (p.m_token_line.drop (lhs_boundary p.m_token_line)) ∧
    q.m_token_state = (if ¬ isalnum (char_at q.m_token_line 0) then 2 else 1) ∧
    str1 = str := by
  rw [get_token_lhs_eq] at h
  simp only [Except.ok.injEq, Prod.mk.injEq] at h
  obtain ⟨rfl, rfl, rfl⟩ := h
  exact ⟨rfl, rfl, rfl, rfl⟩

theorem get_token_lhs_ok {p : priv} {str : istream} {t : token_t} {q : priv} {str1 : istream}
    (h : get_token_lhs p str = .ok (t, q, str1)) : tokenizer_ok q := by
  obtain ⟨_, _, hs, _⟩ := get_token_lhs_after h
  constructor
  · rw [hs]
    split <;> decide
  · intro h1
    rw [hs] at h1
    by_contra hn
    rw [if_pos hn] at h1
    cases h1

/-- An LHS token after which the tokenizer is in the LHS state is not empty,
when the buffer it was cut from does not start with white space. -/
theorem lhs_reentry {p : priv} {str : istream} {t : token_t} {q : priv} {str1 : istream}
    (h : get_token_lhs p str = .ok (t, q, str1)) (h1 : q.m_token_state = 1)
    (hhead : ∀ c, p.m_token_line.head? = some c → isspace c = false) :
    t.type = .TK_LHS ∧ t.value ≠ [] := by
  obtain ⟨ht, hb, hs, _⟩ := get_token_lhs_after h
  have ha : isalnum (char_at q.m_token_line 0) = true := by
    by_contra hn
    rw [hs, if_pos hn] at h1
    cases h1
  rw [ht]
  refine ⟨rfl, ?_⟩
  intro he
  simp only [List.take_eq_nil_iff] at he
  rcases he with he | he
  · cases hl : p.m_token_line with
    | nil =>
      rw [hb, hl] at ha
      revert ha
      decide
    | cons c r =>
      have hc := hhead c (by rw [hl]; rfl)
      have hlt : ltrim (c :: r) = c :: r := by simp [ltrim, List.dropWhile, hc]
      rw [hb, he, hl, List.drop_zero, hlt] at ha
      have hca : isalnum c = true := ha
      obtain ⟨g1, g2, g3, _⟩ := isalnum_not_delim hca
      rcases lhs_boundary_eq_zero he with h4 | h4 | h4 | h4
      · rw [hl] at h4; cases h4
      · rw [hl] at h4; exact g1 h4
      · rw [hl] at h4; exact g2 h4
      · rw [hl] at h4; exact g3 h4
  · rw [hb, he] at ha
    revert ha
    simp [ltrim, char_at, isalnum_nul]

/-- Every call of `get_token` that returns keeps the tokenizer well formed and,
unless it returns EOF from a stream that was already at its end, makes
progress: lines are taken off the stream, or the buffer gets shorter, or the
state moves forward. -/
theorem get_token_progress {p : priv} {str : istream} {t : token_t} {q : priv} {str1 : istream}
    (hp : tokenizer_ok p) (h : get_token p str = .ok (t, q, str1)) :
    tokenizer_ok q ∧
    (t.type ≠ .TK_EOF ∨ str ≠ [] →
      str1.length < str.length ∨ q.m_token_line.length < p.m_token_line.length ∨
        state_rank p.m_token_state < state_rank q.m_token_state) := by
  by_cases h0 : p.m_token_state = 0
  · rw [get_token_init h0] at h
    cases hl : get_line p str with
    | mk found rr =>
      obtain ⟨pl, sl⟩ := rr
      rw [hl] at h
      cases found with
      | false =>
        simp only [Except.ok.injEq, Prod.mk.injEq] at h
        obtain ⟨rfl, rfl, rfl⟩ := h
        obtain ⟨e1, _⟩ := get_line_false_count hl
        refine ⟨⟨by simp, by simp⟩, ?_⟩
        intro hne
        left
        rcases hne with hne | hne
        · exact absurd rfl hne
        · rw [e1]
          exact List.length_pos.mpr hne
      | true =>
        simp only [] at h
        obtain ⟨skipped, raw, e1, _⟩ := get_line_true hl
        obtain ⟨_, _, _, e2⟩ := get_token_lhs_after h
        refine ⟨get_token_lhs_ok h, fun _ => Or.inl ?_⟩
        rw [e2, e1]
        simp only [List.length_append, List.length_cons]
        omega
  · obtain ⟨hle, halnum⟩ := hp
    unfold get_token at h
    split at h
    · simp only [Except.ok.injEq, Prod.mk.injEq] at h
      obtain ⟨rfl, rfl, rfl⟩ := h
      refine ⟨⟨by simp, by simp⟩, fun _ => Or.inr (Or.inr ?_)⟩
      simp only [state_rank, if_neg h0, if_pos]
      omega
    · split at h
      · rename_i hs
        exact absurd hs h0
      · rename_i hs
        have ha := halnum hs
        obtain ⟨hb1, hne⟩ := lhs_boundary_pos ha
        obtain ⟨_, hb, _, _⟩ := get_token_lhs_after h
        refine ⟨get_token_lhs_ok h, fun _ => Or.inr (Or.inl ?_)⟩
        rw [hb]
        have h1 := ltrim_length_le (p.m_token_line.drop (lhs_boundary p.m_token_line))
        have h2 : (p.m_token_line.drop (lhs_boundary p.m_token_line)).length =
            p.m_token_line.length - lhs_boundary p.m_token_line := List.length_drop _ _
        have h3 : 0 < p.m_token_line.length := List.length_pos.mpr hne
        omega
      · rename_i hs
        have h3 := get_token_op_state h
        refine ⟨⟨by omega, fun h1 => by omega⟩, fun _ => Or.inr (Or.inr ?_)⟩
        rw [hs, h3]
        decide
      · rename_i hs
        simp only [Except.ok.injEq, Prod.mk.injEq] at h
        obtain ⟨rfl, rfl, rfl⟩ := h
        refine ⟨⟨by simp, by simp⟩, fun _ => Or.inr (Or.inr ?_)⟩
        simp [state_rank, hs]
      · rename_i hs1 hs2 hs3 hs4
        exfalso
        have hcases : p.m_token_state = 0 ∨ p.m_token_state = 1 ∨ p.m_token_state = 2 ∨
            p.m_token_state = 3 := by omega
        rcases hcases with hc | hc | hc | hc
        · exact hs1 hc
        · exact hs2 hc
        · exact hs3 hc
        · exact hs4 hc

/-- The LHS state is entered only after a non-empty LHS token. -/
theorem get_token_enters_lhs {p : priv} {str : istream} {t : token_t} {q : priv}
    {str1 : istream} (hp : tokenizer_ok p) (h : get_token p str = .ok (t, q, str1))
    (h1 : q.m_token_state = 1) :
    (p.m_token_state = 0 ∨ p.m_token_state = 1) ∧ t.type = .TK_LHS ∧ t.value ≠ [] ∧
      isalnum (char_at q.m_token_line 0) = true := by
  have hq := (get_token_progress hp h).1
  by_cases h0 : p.m_token_state = 0
  · rw [get_token_init h0] at h
    cases hl : get_line p str with
    | mk found rr =>
      obtain ⟨pl, sl⟩ := rr
      rw [hl] at h
      cases found with
      | false =>
        simp only [Except.ok.injEq, Prod.mk.injEq] at h
        obtain ⟨_, rfl, _⟩ := h
        cases h1
      | true =>
        simp only [] at h
        obtain ⟨skipped, raw, _, _, _, e4⟩ := get_line_true hl
        have hbuf : pl.m_token_line = norm_line raw := by rw [e4]
        obtain ⟨g1, g2⟩ := lhs_reentry h h1 (fun c hc => by
          rw [hbuf] at hc
          exact norm_line_head_not_space hc)
        exact ⟨Or.inl h0, g1, g2, hq.2 h1⟩
  · obtain ⟨hle, halnum⟩ := hp
    unfold get_token at h
    split at h
    · simp only [Except.ok.injEq, Prod.mk.injEq] at h
      obtain ⟨_, rfl, _⟩ := h
      cases h1
    · split at h
      · rename_i hs
        exact absurd hs h0
      · rename_i hs
        have ha := halnum hs
        obtain ⟨g1, g2⟩ := lhs_reentry h h1 (fun c hc => by
          have hcc : char_at p.m_token_line 0 = c := by
            cases hl : p.m_token_line with
            | nil => rw [hl] at hc; cases hc
            | cons a r =>
              rw [hl] at hc
              simp only [List.head?_cons, Option.some.injEq] at hc
              rw [← hc]
              rfl
          rw [hcc] at ha
          exact (isalnum_not_delim ha).2.2.2.2.2)
        exact ⟨Or.inr hs, g1, g2, hq.2 h1⟩
      · have h3 := get_token_op_state h
        omega
      · simp only [Except.ok.injEq, Prod.mk.injEq] at h
        obtain ⟨_, rfl, _⟩ := h
        cases h1
      · rename_i hs1 hs2 hs3 hs4
        exfalso
        have hcases : p.m_token_state = 0 ∨ p.m_token_state = 1 ∨ p.m_token_state = 2 ∨
            p.m_token_state = 3 := by omega
        rcases hcases with hc | hc | hc | hc
        · exact hs1 hc
        · exact hs2 hc
        · exact hs3 hc
        · exact hs4 hc

/-! ## Progress of the driver -/

theorem process_entry_token_state (env : environment) (p : priv) (dir : std_string)
    (rel_path : Bool) (lhs op rhs : std_string) :
    (process_entry env p dir rel_path lhs op rhs).m_token_state = p.m_token_state := by
  unfold process_entry
  split
  · rfl
  · split <;> rfl

/-- The rest of a statement is read from the line of its first token: an
iteration that goes through `process_assignment` continues with the same
stream and the same callers, and with the tokenizer in its initial state. -/
theorem process_assignment_stream {env : environment} {a : activation}
    {callers : List (activation × Int)} {rel_path : Bool} {token : token_t} {p : priv}
    {str : istream} {m1 : machine}
    (hst : token.type = .TK_LHS → p.m_token_state ≠ 0)
    (h : process_assignment env a callers rel_path token p str = .running m1) :
    m1.callers = callers ∧ m1.current.in_stream = str ∧ m1.members.m_token_state = 0 := by
  unfold process_assignment at h
  split at h
  · simp only [status.running.injEq] at h
    subst h
    exact ⟨rfl, rfl, rfl⟩
  · rename_i ht
    have ht1 : token.type = .TK_LHS := by simpa using ht
    simp only [] at h
    cases hg2 : get_token p str with
    | error r =>
      rw [hg2] at h
      cases h
    | ok r2 =>
      obtain ⟨t2, p2, s2⟩ := r2
      rw [hg2] at h
      simp only [] at h
      obtain ⟨e2, _, _⟩ := get_token_no_read hg2 (hst ht1)
      split at h
      · simp only [status.running.injEq] at h
        subst h
        exact ⟨rfl, e2, rfl⟩
      · rename_i ha
        have ha1 : t2.type = .TK_ASSIGN := by simpa using ha
        have hs2 : p2.m_token_state ≠ 0 := by
          rw [get_token_assign_state hg2 ha1]
          decide
        cases hg3 : get_token p2 s2 with
        | error r =>
          rw [hg3] at h
          cases h
        | ok r3 =>
          obtain ⟨t3, p3, s3⟩ := r3
          rw [hg3] at h
          simp only [] at h
          obtain ⟨e3, _, _⟩ := get_token_no_read hg3 hs2
          split at h
          · simp only [status.running.injEq] at h
            subst h
            exact ⟨rfl, e3.trans e2, rfl⟩
          · rename_i hr
            have hr1 : t3.type = .TK_RHS := by simpa using hr
            simp only [status.running.injEq] at h
            subst h
            refine ⟨rfl, e3.trans e2, ?_⟩
            simp only []
            rw [process_entry_token_state]
            exact get_token_rhs_state hg3 hr1

/-- The first token of a statement, unless it is EOF, is the first word of the
first line that is neither blank nor a comment. -/
theorem first_token_word {p : priv} {str : istream} {t : token_t} {q : priv} {str1 : istream}
    (h0 : p.m_token_state = 0) (h : get_token p str = .ok (t, q, str1))
    (ht : t.type ≠ .TK_EOF) :
    ∃ skipped raw, str = skipped ++ raw :: str1 ∧ (∀ l ∈ skipped, norm_line l = []) ∧
      norm_line raw ≠ [] ∧ t = ⟨.TK_LHS, first_word raw⟩ ∧ q.m_token_state ≠ 0 := by
  have hq := get_token_lhs_state h
  rw [get_token_init h0] at h
  cases hl : get_line p str with
  | mk found rr =>
    obtain ⟨pl, sl⟩ := rr
    rw [hl] at h
    cases found with
    | false =>
      simp only [Except.ok.injEq, Prod.mk.injEq] at h
      obtain ⟨rfl, _, _⟩ := h
      exact absurd rfl ht
    | true =>
      simp only [] at h
      obtain ⟨skipped, raw, e1, e2, e3, e4⟩ := get_line_true hl
      have hbuf : pl.m_token_line = norm_line raw := by rw [e4]
      obtain ⟨g1, _, _, g4⟩ := get_token_lhs_after h
      rw [hbuf] at g1
      subst g4
      refine ⟨skipped, raw, e1, e2, e3, g1, hq ?_⟩
      rw [g1]

theorem process_file_enter_running {env : environment} {p : priv} {path : std_string}
    {callers : List (activation × Int)} {m1 : machine}
    (h : process_file_enter env p path callers = .running m1) :
    m1.callers = callers ∧ m1.members.m_token_state = 0 ∧
      env.ifstream path = some m1.current.in_stream := by
  unfold process_file_enter at h
  split at h
  · cases h
  · rename_i lines hopen
    simp only [status.running.injEq] at h
    subst h
    exact ⟨rfl, rfl, hopen⟩

theorem process_file_return_token_state {p : priv} {callers : List (activation × Int)}
    {m1 : machine} (h : process_file_return p callers = .running m1) :
    m1.members.m_token_state = p.m_token_state := by
  unfold process_file_return at h
  split at h
  · cases h
  · simp only [status.running.injEq] at h
    subst h
    rfl

theorem process_eof_token_state {p : priv} {f : std_string} {callers : List (activation × Int)}
    {m1 : machine} (h : process_eof p f callers = .running m1) :
    m1.members.m_token_state = p.m_token_state := by
  by_cases hc : p.m_file_count = 1
  · by_cases hst : p.m_block_stack = []
    · by_cases he : p.m_parse_error = true
      · rw [process_eof_latched p _ _ hc hst he] at h; cases h
      · rw [process_eof_clean p _ _ hc hst (by simpa using he)] at h
        exact (process_file_return_token_state h).trans rfl
    · rw [process_eof_unclosed p _ _ hc hst] at h; cases h
  · rw [process_eof_nested p _ _ hc] at h
    exact (process_file_return_token_state h).trans rfl

/-- What an iteration of the loop that continues the loop has done: it has
taken at least one physical line off the stream of the running activation and
continues in that activation; or it has returned into the innermost suspended
caller; or its first token was the word `include` and it has suspended the
running activation. The tokenizer is in its initial state again. -/
theorem process_statement_progress {env : environment} {m m1 : machine}
    (h0 : m.members.m_token_state = 0) (h : process_statement env m = .running m1) :
    m1.members.m_token_state = 0 ∧
    ((m1.callers = m.callers ∧
        ∃ c, c ≠ [] ∧ m.current.in_stream = c ++ m1.current.in_stream) ∨
      (∃ g, m.callers = g :: m1.callers) ∨
      (∃ raw g, raw ∈ m.current.in_stream ∧ first_word raw = kw_include ∧
        m1.callers = g :: m.callers)) := by
  cases hg : get_token m.members m.current.in_stream with
  | error r =>
    simp only [process_statement, hg] at h
    cases h
  | ok r =>
    obtain ⟨t1, p1, s1⟩ := r
    simp only [process_statement, hg] at h
    by_cases hte : t1.type = .TK_EOF
    · rw [if_pos hte] at h
      refine ⟨?_, Or.inr (Or.inl ?_)⟩
      · rw [process_eof_token_state h]
        exact get_token_eof_state hg hte
      · obtain ⟨g, hgc, _⟩ := process_eof_resumes h
        exact ⟨g, hgc⟩
    · rw [if_neg hte] at h
      obtain ⟨skipped, raw, e1, _, _, e4, e5⟩ := first_token_word h0 hg hte
      have hv : t1.value = first_word raw := by rw [e4]
      have hty : t1.type = .TK_LHS := by rw [e4]
      have hc : ∃ c, c ≠ [] ∧ m.current.in_stream = c ++ s1 :=
        ⟨skipped ++ [raw], by simp, by rw [e1]; simp⟩
      by_cases hinc : t1.value = kw_include
      · rw [if_pos hinc] at h
        obtain ⟨k1, k2, _⟩ := process_file_enter_running h
        refine ⟨k2, Or.inr (Or.inr ⟨raw, _, ?_, hv ▸ hinc, k1⟩)⟩
        rw [e1]
        simp
      · rw [if_neg hinc] at h
        by_cases hbl : t1.value = kw_block
        · rw [if_pos hbl] at h
          cases hg2 : get_token p1 s1 with
          | error r =>
            rw [hg2] at h
            cases h
          | ok r2 =>
            obtain ⟨t2, p2, s2⟩ := r2
            rw [hg2] at h
            simp only [] at h
            obtain ⟨e2, _, _⟩ := get_token_no_read hg2 e5
            subst e2
            split at h
            · simp only [status.running.injEq] at h
              subst h
              exact ⟨rfl, Or.inl ⟨rfl, hc⟩⟩
            · simp only [status.running.injEq] at h
              subst h
              exact ⟨rfl, Or.inl ⟨rfl, hc⟩⟩
        · rw [if_neg hbl] at h
          by_cases heb : t1.value = kw_endblock
          · rw [if_pos heb] at h
            split at h
            · cases h
            · simp only [status.running.injEq] at h
              subst h
              exact ⟨rfl, Or.inl ⟨rfl, hc⟩⟩
          · rw [if_neg heb] at h
            by_cases hrp : t1.value = kw_relativepath
            · rw [if_pos hrp] at h
              cases hg2 : get_token p1 s1 with
              | error r =>
                rw [hg2] at h
                cases h
              | ok r2 =>
                obtain ⟨t2, p2, s2⟩ := r2
                rw [hg2] at h
                simp only [] at h
                obtain ⟨e2, _, _⟩ := get_token_no_read hg2 e5
                subst e2
                obtain ⟨k1, k2, k3⟩ := process_assignment_stream
                  (fun ht2 => get_token_lhs_state hg2 ht2) h
                refine ⟨k3, Or.inl ⟨k1, ?_⟩⟩
                rw [k2]
                exact hc
            · rw [if_neg hrp] at h
              obtain ⟨k1, k2, k3⟩ := process_assignment_stream (fun _ => e5) h
              refine ⟨k3, Or.inl ⟨k1, ?_⟩⟩
              rw [k2]
              exact hc

/-- A file without `include` statements is processed in at most one loop
iteration for each of its lines, and one more for the end of the file. -/
theorem run_without_include (env : environment) (n : Nat) (m : machine)
    (hc : m.callers = []) (h0 : m.members.m_token_state = 0)
    (hni : ∀ l ∈ m.current.in_stream, first_word l ≠ kw_include)
    (hlen : m.current.in_stream.length ≤ n) :
    (run env (n + 1) (.running m)).outcome ≠ .unfinished := by
  induction n generalizing m with
  | zero =>
    show (run env 0 (process_statement env m)).outcome ≠ .unfinished
    cases hs : process_statement env m with
    | running m1 =>
      obtain ⟨_, hcase⟩ := process_statement_progress h0 hs
      have hnil : m.current.in_stream = [] := List.length_eq_zero.mp (by omega)
      rcases hcase with ⟨_, c, hcne, hcs⟩ | ⟨g, hg⟩ | ⟨raw, g, hraw, _⟩
      · rw [hnil] at hcs
        have := congrArg List.length hcs
        simp only [List.length_nil, List.length_append] at this
        have hpos := List.length_pos.mpr hcne
        omega
      · rw [hc] at hg
        cases hg
      · rw [hnil] at hraw
        cases hraw
    | returned p => simp [run, status.outcome]
    | thrown e p => simp [run, status.outcome]
  | succ n ih =>
    show (run env (n + 1) (process_statement env m)).outcome ≠ .unfinished
    cases hs : process_statement env m with
    | running m1 =>
      obtain ⟨h1, hcase⟩ := process_statement_progress h0 hs
      rcases hcase with ⟨hcal, c, hcne, hcs⟩ | ⟨g, hg⟩ | ⟨raw, g, hraw, hinc, _⟩
      · apply ih m1 (by rw [hcal, hc]) h1
        · intro l hl
          apply hni l
          rw [hcs]
          exact List.mem_append_right c hl
        · have := congrArg List.length hcs
          simp only [List.length_append] at this
          have hpos := List.length_pos.mpr hcne
          omega
      · rw [hc] at hg
        cases hg
      · exact absurd hinc (hni raw hraw)
    | returned p =>
      rw [run_returned]
      simp [status.outcome]
    | thrown e p =>
      rw [run_thrown]
      simp [status.outcome]

/-! ## A line with the `relativepath` modifier -/

/-- The `relativepath` modifier at the level of tokens, in a parse by a new
parser. A statement
that tokenizes as the word `relativepath`, LHS `k`, ASSIGN "=", RHS `v` writes
to the configuration block, under the current context followed by `k`, the
path `D / expand( v )`, where `D` is the parent path of the running file: the
directory is put in front of the expanded value. A statement that tokenizes as
LHS `k`, ASSIGN "=", RHS `v` where `k` is no directive word (an assignment without
the modifier) writes `expand( v )` itself. In both cases the symbol table and
the error latch are as before and the loop continues. The same on the branch
for "=" alone (source lines 369-383), for every key: with `rel_path` set the
value written is `config_file_dir / expand( v )`, and `expand( v )` without. -/
theorem relativepath_prepends_the_directory (env : environment) (fuel : Nat)
    (path : std_string) (m : machine) (hreach : parse_config env fuel path = .running m) :
    (∀ k v, (read_tokens 4 m.members m.current.in_stream).1 =
        [⟨.TK_LHS, kw_relativepath⟩, ⟨.TK_LHS, k⟩, ⟨.TK_ASSIGN, op_assign⟩, ⟨.TK_RHS, v⟩] →
      (process_statement env m).outcome = .unfinished ∧
      (process_statement env m).state.m_config_block = m.members.m_config_block ++
        [(m.members.m_current_context ++ k,
          env.path_append (env.parent_path m.current.file_path)
            (env.expand_token m.members.m_config_block m.members.m_symtab v))] ∧
      (process_statement env m).state.m_symtab = m.members.m_symtab ∧
      (process_statement env m).state.m_parse_error = m.members.m_parse_error) ∧
    (∀ k v, (read_tokens 3 m.members m.current.in_stream).1 =
        [⟨.TK_LHS, k⟩, ⟨.TK_ASSIGN, op_assign⟩, ⟨.TK_RHS, v⟩] → ¬ is_directive k →
      (process_statement env m).outcome = .unfinished ∧
      (process_statement env m).state.m_config_block = m.members.m_config_block ++
        [(m.members.m_current_context ++ k,
          env.expand_token m.members.m_config_block m.members.m_symtab v)] ∧
      (process_statement env m).state.m_symtab = m.members.m_symtab ∧
      (process_statement env m).state.m_parse_error = m.members.m_parse_error) ∧
    (∀ (p : priv) (dir k v : std_string),
      (process_entry env p dir true k op_assign v).m_config_block = p.m_config_block ++
        [(p.m_current_context ++ k,
          env.path_append dir (env.expand_token p.m_config_block p.m_symtab v))] ∧
      (process_entry env p dir false k op_assign v).m_config_block = p.m_config_block ++
        [(p.m_current_context ++ k, env.expand_token p.m_config_block p.m_symtab v)]) := by
  have hdir := dirs_inv_parse_config env fuel path
  rw [hreach] at hdir
  have hne : op_assign ≠ op_define := by decide
  refine ⟨?_, ?_, fun p dir k v => by simp [process_entry, hne]⟩
  · intro k v htok
    obtain ⟨p1, s1, p2, s2, p3, s3, p4, s4, h1, h2, h3, h4, _⟩ := read_tokens_four htok
    have hs : same_session m.members p4 :=
      same_session_trans (same_session_trans (same_session_trans (get_token_session h1)
        (get_token_session h2)) (get_token_session h3)) (get_token_session h4)
    rw [process_statement_relativepath_entry env m k op_assign v p1 p2 p3 p4 s1 s2 s3 s4
      h1 h2 h3 h4]
    obtain ⟨_, c2, _, c4, c5, c6, _⟩ := hs
    simp [process_entry, hne, c2, c4, c5, c6, status.outcome, status.state, hdir.1]
  · intro k v htok hk
    obtain ⟨p1, s1, p2, s2, p3, s3, h1, h2, h3, _⟩ := read_tokens_three htok
    have hs : same_session m.members p3 :=
      same_session_trans (same_session_trans (get_token_session h1) (get_token_session h2))
        (get_token_session h3)
    rw [process_statement_entry env m k op_assign v p1 p2 p3 s1 s2 s3 h1 h2 h3 hk]
    obtain ⟨_, c2, _, c4, c5, c6, _⟩ := hs
    simp [process_entry, hne, c2, c4, c5, c6, status.outcome, status.state]

/-- The tokens of a buffer `k sp1 op sp2 v` in the LHS state, as it is left
after a directive word when the key `k` starts with an alphanumeric character:
LHS `k`, ASSIGN `op`, RHS `v`. -/
theorem assignment_buffer_tokens (q : priv) (str : istream) (k sp1 op sp2 v : std_string)
    (hst : q.m_token_state = 1) (hbuf : q.m_token_line = k ++ (sp1 ++ (op ++ (sp2 ++ v))))
    (hk1 : k ≠ []) (hk2 : ∀ c ∈ k, isspace c = false ∧ c ≠ '=')
    (hk3 : k.getLast? ≠ some ':') (hop : op = op_assign ∨ op = op_define)
    (hsp1 : ∀ c ∈ sp1, c = ' ' ∨ c = '\t') (hsp2 : ∀ c ∈ sp2, c = ' ' ∨ c = '\t')
    (hv1 : v ≠ []) (hv3 : ∀ c, v.head? = some c → isspace c = false) :
    get_token q str = .ok (⟨.TK_LHS, k⟩,
      { q with m_token_line := op ++ (sp2 ++ v), m_token_state := 2 }, str) ∧
    get_token { q with m_token_line := op ++ (sp2 ++ v), m_token_state := 2 } str =
      .ok (⟨.TK_ASSIGN, op⟩, { q with m_token_line := v, m_token_state := 3 }, str) ∧
    get_token { q with m_token_line := v, m_token_state := 3 } str =
      .ok (⟨.TK_RHS, v⟩, { q with m_token_line := [], m_token_state := 0 }, str) := by
  have hspace : ∀ (sp : std_string), (∀ c ∈ sp, c = ' ' ∨ c = '\t') →
      ∀ x ∈ sp, isspace x = true := by
    intro sp h x hx
    rcases h x hx with rfl | rfl <;> decide
  obtain ⟨oc, opr, hoc, hoc1, hoc2⟩ : ∃ oc opr, op = oc :: opr ∧ isspace oc = false ∧
      isalnum oc = false := by
    rcases hop with rfl | rfl
    · exact ⟨'=', [], rfl, by decide, by decide⟩
    · exact ⟨':', ['='], rfl, by decide, by decide⟩
  obtain ⟨vc, vr, hvc⟩ := List.exists_cons_of_ne_nil hv1
  have hvc1 : isspace vc = false := hv3 vc (by rw [hvc]; rfl)
  have hkd : ∀ c ∈ k, c ≠ ' ' ∧ c ≠ '\t' ∧ c ≠ '=' := by
    intro c hc
    obtain ⟨h1, h2⟩ := hk2 c hc
    exact ⟨(not_space_not_blank h1).1, (not_space_not_blank h1).2, h2⟩
  have hb : lhs_boundary (k ++ (sp1 ++ (op ++ (sp2 ++ v)))) = k.length := by
    cases sp1 with
    | nil =>
      rcases hop with rfl | rfl
      · exact lhs_boundary_key k '=' _ hkd hk3 (Or.inr (Or.inr rfl))
      · exact lhs_boundary_define k _ hk1 hkd
    | cons d sp1r =>
      have hd := hsp1 d (by simp)
      exact lhs_boundary_key k d _ hkd hk3 (by rcases hd with h | h <;> simp [h])
  have hlt1 : ltrim (sp1 ++ (op ++ (sp2 ++ v))) = op ++ (sp2 ++ v) := by
    rw [hoc]
    exact ltrim_spaces sp1 oc _ (hspace sp1 hsp1) hoc1
  have hlt2 : ltrim (sp2 ++ v) = v := by
    rw [hvc]
    exact ltrim_spaces sp2 vc vr (hspace sp2 hsp2) hvc1
  have hstate : (if ¬ isalnum (char_at (op ++ (sp2 ++ v)) 0) = true then 2 else 1) = 2 := by
    rw [hoc]
    simp [char_at, hoc2]
  have hlen : ¬ (q.m_token_line.length = 0 ∧ q.m_token_state ≠ 0) := by
    rintro ⟨h, _⟩
    rw [hbuf] at h
    obtain ⟨kc, kr, hkc⟩ := List.exists_cons_of_ne_nil hk1
    rw [hkc] at h
    simp at h
  have hgt : get_token q str = get_token_lhs q str := by
    unfold get_token
    rw [if_neg hlen, hst]
  have g1 := get_token_lhs_key q str k (sp1 ++ (op ++ (sp2 ++ v))) hbuf hb
  rw [hlt1, hstate] at g1
  refine ⟨hgt.trans g1, ?_, ?_⟩
  · rw [get_token_assign _ str op (sp2 ++ v) rfl rfl hop, hlt2]
  · rw [get_token_rhs _ str rfl hv1]

/-- The `relativepath` modifier at the level of lines. Let the physical line
`raw`, read at the head of a loop iteration, hold, after its comment and the
white space around it are removed, the word `relativepath`, white space, a key
`k`, the operator "=" with any spaces and tabs around it, and a value `v`. If
`k` starts with an alphanumeric character (and holds no white space and no '='
and does not end in ':'), the statement is complete and the driver takes the
branch for "=" with `rel_path` set: the loop continues with the next line in
the state that `process_entry` makes of the state after the four tokens. -/
theorem relativepath_line_step (env : environment) (m : machine) (raw : std_string)
    (rest : istream) (s : Char) (sp0 k sp1 sp2 v : std_string)
    (h0 : m.members.m_token_state = 0) (hstream : m.current.in_stream = raw :: rest)
    (hs : s = ' ' ∨ s = '\t') (hsp0 : ∀ c ∈ sp0, isspace c = true)
    (hk1 : k ≠ []) (hka : ∀ c, k.head? = some c → isalnum c = true)
    (hk2 : ∀ c ∈ k, isspace c = false ∧ c ≠ '=') (hk3 : k.getLast? ≠ some ':')
    (hsp1 : ∀ c ∈ sp1, c = ' ' ∨ c = '\t') (hsp2 : ∀ c ∈ sp2, c = ' ' ∨ c = '\t')
    (hv1 : v ≠ []) (hv3 : ∀ c, v.head? = some c → isspace c = false)
    (hraw : norm_line raw =
      kw_relativepath ++ s :: (sp0 ++ (k ++ (sp1 ++ (op_assign ++ (sp2 ++ v)))))) :
    process_statement env m = .running
      ⟨process_entry env
          { m.members with
            m_line_number := m.members.m_line_number + 1
            m_last_line := raw
            m_token_line := []
            m_token_state := 0 } m.current.config_file_dir true k op_assign v,
        { m.current with in_stream := rest }, m.callers⟩ := by
  have hnn : norm_line raw ≠ [] := by rw [hraw]; simp [kw_relativepath]
  have g1 := first_token_of_line m.members h0 raw rest hnn
  have hb : lhs_boundary (norm_line raw) = kw_relativepath.length := by
    rw [hraw]
    exact lhs_boundary_blank kw_relativepath s _ (by decide) hs
  have hfw : first_word raw = kw_relativepath := by
    unfold first_word
    rw [hb, hraw]
    exact List.take_left' rfl
  obtain ⟨c, r, hkc⟩ := List.exists_cons_of_ne_nil hk1
  have hca : isalnum c = true := hka c (by rw [hkc]; rfl)
  have hss : isspace s = true := by rcases hs with rfl | rfl <;> decide
  have hdrop : ltrim ((norm_line raw).drop (lhs_boundary (norm_line raw))) =
      k ++ (sp1 ++ (op_assign ++ (sp2 ++ v))) := by
    rw [hb, hraw, List.drop_left' rfl, hkc]
    have := ltrim_spaces (s :: sp0) c (r ++ (sp1 ++ (op_assign ++ (sp2 ++ v))))
      (fun x hx => by
        rcases List.mem_cons.mp hx with rfl | hx
        · exact hss
        · exact hsp0 x hx)
      (isalnum_not_delim hca).2.2.2.2.2
    simpa using this
  have hstate : (if ¬ isalnum (char_at (k ++ (sp1 ++ (op_assign ++ (sp2 ++ v)))) 0) = true
      then 2 else 1) = 1 := by
    rw [hkc]
    simp [char_at, hca]
  rw [hfw, hdrop, hstate] at g1
  obtain ⟨q1, hq1⟩ : ∃ q1 : priv, q1 =
      { m.members with
        m_line_number := m.members.m_line_number + 1
        m_last_line := raw
        m_token_line := k ++ (sp1 ++ (op_assign ++ (sp2 ++ v)))
        m_token_state := 1 } := ⟨_, rfl⟩
  rw [← hq1] at g1
  have hq1t : q1.m_token_state = 1 := by rw [hq1]
  have hq1b : q1.m_token_line = k ++ (sp1 ++ (op_assign ++ (sp2 ++ v))) := by rw [hq1]
  obtain ⟨g2, g3, g4⟩ := assignment_buffer_tokens q1 rest k sp1 op_assign sp2 v hq1t hq1b hk1
    hk2 hk3 (Or.inl rfl) hsp1 hsp2 hv1 hv3
  rw [← hstream] at g1
  rw [process_statement_relativepath_entry env m k op_assign v _ _ _ _ _ _ _ _ g1 g2 g3 g4]
  rw [hq1]

/-- The value that a line with the `relativepath` modifier stores, in a parse by
a new parser: for a key that starts with an alphanumeric character the entry
written is the current context followed by `k`, with the value
`D / expand( v )`, where `D` is the parent path of the running file; the symbol
table and the error latch stay as they are. -/
theorem relativepath_line_value (env : environment) (fuel : Nat) (path : std_string)
    (m : machine) (hreach : parse_config env fuel path = .running m)
    (raw : std_string) (rest : istream) (s : Char) (sp0 k sp1 sp2 v : std_string)
    (hstream : m.current.in_stream = raw :: rest)
    (hs : s = ' ' ∨ s = '\t') (hsp0 : ∀ c ∈ sp0, isspace c = true)
    (hk1 : k ≠ []) (hka : ∀ c, k.head? = some c → isalnum c = true)
    (hk2 : ∀ c ∈ k, isspace c = false ∧ c ≠ '=') (hk3 : k.getLast? ≠ some ':')
    (hsp1 : ∀ c ∈ sp1, c = ' ' ∨ c = '\t') (hsp2 : ∀ c ∈ sp2, c = ' ' ∨ c = '\t')
    (hv1 : v ≠ []) (hv3 : ∀ c, v.head? = some c → isspace c = false)
    (hraw : norm_line raw =
      kw_relativepath ++ s :: (sp0 ++ (k ++ (sp1 ++ (op_assign ++ (sp2 ++ v)))))) :
    (process_statement env m).outcome = .unfinished ∧
    (process_statement env m).state.m_config_block = m.members.m_config_block ++
      [(m.members.m_current_context ++ k,
        env.path_append (env.parent_path m.current.file_path)
          (env.expand_token m.members.m_config_block m.members.m_symtab v))] ∧
    (process_statement env m).state.m_symtab = m.members.m_symtab ∧
    (process_statement env m).state.m_parse_error = m.members.m_parse_error ∧
    (process_statement env m).machine.current.in_stream = rest := by
  have hinv := status_inv_parse_config env fuel path
  have hdir := dirs_inv_parse_config env fuel path
  rw [hreach] at hinv hdir
  have h0 := hinv.2.2.2.1
  rw [relativepath_line_step env m raw rest s sp0 k sp1 sp2 v h0 hstream hs hsp0 hk1 hka hk2 hk3
    hsp1 hsp2 hv1 hv3 hraw]
  have hne : op_assign ≠ op_define := by decide
  simp [process_entry, hne, status.outcome, status.state, status.machine, hdir.1]


/-! ## Invocations after a failure -/

/-- The error latch is tested only when the file count comes back to 0 (source
lines 183-212). On one parser: a first invocation on `block X` raises "Errors in
config file"; a second one on `endblock` raises the failure for an `endblock`
without a block and leaves the file count at 1; in a third one, on `k = v`, the
count goes from 2 back to 1 at the end of the file, the latch is not tested, and
the invocation returns normally, with the latch still set and the key stored
as `X:k`. -/
theorem latch_test_skipped_after_unmatched_endblock :
    (parse_config (env_one_file ["block X"]) 2 "a.cfg".toList).outcome =
      .raised (.config_file_not_parsed "a.cfg".toList .errors_in_config_file) ∧
    (parse_config_again (env_one_file ["endblock"]) 2
      (parse_config (env_one_file ["block X"]) 2 "a.cfg".toList).state "a.cfg".toList).outcome =
      .raised (.config_file_not_parsed "a.cfg".toList
        (.endblock_without_block "a.cfg".toList 1)) ∧
    (parse_config_again (env_one_file ["endblock"]) 2
      (parse_config (env_one_file ["block X"]) 2
        "a.cfg".toList).state "a.cfg".toList).state.m_file_count = 1 ∧
    (parse_config_again (env_one_file ["k = v"]) 2
      (parse_config_again (env_one_file ["endblock"]) 2
        (parse_config (env_one_file ["block X"]) 2 "a.cfg".toList).state
        "a.cfg".toList).state "a.cfg".toList).outcome = .normal ∧
    (parse_config_again (env_one_file ["k = v"]) 2
      (parse_config_again (env_one_file ["endblock"]) 2
        (parse_config (env_one_file ["block X"]) 2 "a.cfg".toList).state
        "a.cfg".toList).state "a.cfg".toList).state.m_parse_error = true ∧
    (parse_config_again (env_one_file ["k = v"]) 2
      (parse_config_again (env_one_file ["endblock"]) 2
        (parse_config (env_one_file ["block X"]) 2 "a.cfg".toList).state
        "a.cfg".toList).state "a.cfg".toList).state.m_file_count = 1 ∧
    (parse_config_again (env_one_file ["k = v"]) 2
      (parse_config_again (env_one_file ["endblock"]) 2
        (parse_config (env_one_file ["block X"]) 2 "a.cfg".toList).state
        "a.cfg".toList).state "a.cfg".toList).state.m_config_block =
      [("X:k".toList, "v".toList)] := by
  decide

/-! ## The claims -/

/-- C1 (amended): a line that tokenizes as LHS `k`, ASSIGN "=", RHS `v`, where `k`
is none of the directive words, processed while no block is open (the current
context is empty, as it is whenever the block stack is): the loop continues,
the configuration block has received exactly the one write
`set_value( k, expand( v ) )`, with the bare key `k`, and the symbol table, the
block stack, the context, the error latch and the log are as before. -/
theorem C1_assignment_outside_block (env : environment) (m : machine) (k v : std_string)
    (hctx : m.members.m_current_context = [])
    (htok : (read_tokens 3 m.members m.current.in_stream).1 =
      [⟨.TK_LHS, k⟩, ⟨.TK_ASSIGN, op_assign⟩, ⟨.TK_RHS, v⟩])
    (hk : ¬ is_directive k) :
    process_statement env m =
      .running ⟨{ (read_tokens 3 m.members m.current.in_stream).2.1 with
          m_config_block := m.members.m_config_block ++
            [(k, env.expand_token m.members.m_config_block m.members.m_symtab v)] },
        { m.current with in_stream := (read_tokens 3 m.members m.current.in_stream).2.2 },
        m.callers⟩ ∧
    same_session m.members (read_tokens 3 m.members m.current.in_stream).2.1 := by
  obtain ⟨p1, s1, p2, s2, p3, s3, h1, h2, h3, he⟩ := read_tokens_three htok
  have hs : same_session m.members p3 :=
    same_session_trans (same_session_trans (get_token_session h1) (get_token_session h2))
      (get_token_session h3)
  rw [process_statement_entry env m k op_assign v p1 p2 p3 s1 s2 s3 h1 h2 h3 hk, he]
  refine ⟨?_, hs⟩
  obtain ⟨_, c2, _, _, c5, c6, _⟩ := hs
  have hne : op_assign ≠ op_define := by decide
  simp [process_entry, hne, c2, c5, c6, hctx]

/-- C1 as stated fails for a key that is a directive word: the line `block = 5`
tokenizes as LHS "block", ASSIGN "=", RHS "5" with no block open, yet the driver
takes the `block` branch, latches an error and writes nothing. -/
theorem C1_counterexample :
    (machine_at_start ["block = 5"]).members.m_block_stack = [] ∧
    (machine_at_start ["block = 5"]).members.m_current_context = [] ∧
    (read_tokens 3 (machine_at_start ["block = 5"]).members
        (machine_at_start ["block = 5"]).current.in_stream).1 =
      [⟨.TK_LHS, "block".toList⟩, ⟨.TK_ASSIGN, "=".toList⟩, ⟨.TK_RHS, "5".toList⟩] ∧
    (process_statement (env_one_file ["block = 5"]) (machine_at_start ["block = 5"])).state.m_config_block
      = [] ∧
    (process_statement (env_one_file ["block = 5"]) (machine_at_start ["block = 5"])).state.m_parse_error
      = true := by
  decide

theorem C1_assignment_outside_block_witness :
    (process_statement (env_one_file ["key = some value"]) (machine_at_start ["key = some value"])).state.m_config_block
      = [("key".toList, "some value".toList)] := by
  have h := (C1_assignment_outside_block (env_one_file ["key = some value"])
    (machine_at_start ["key = some value"]) "key".toList "some value".toList
    (by decide) (by decide) (by decide)).1
  rw [h]
  rfl

/-- C2: in a parse by a new parser, at any loop iteration at which the open
blocks are `A` and then `B` (the block stack holds exactly these two frames,
bottom to top), a valid `key = v` line (it tokenizes as LHS `key`, ASSIGN "=",
RHS `v`, and `key` is no directive word) writes `set_value( A:B:key, expand( v ) )`:
the key is `A ++ block_sep ++ B ++ block_sep ++ key`. -/
theorem C2_assignment_in_nested_blocks (env : environment) (fuel : Nat) (path : std_string)
    (m : machine) (A B key v : std_string)
    (hreach : parse_config env fuel path = .running m)
    (hopen : m.members.m_block_stack.map (fun b => b.m_block_name) = [A, B])
    (htok : (read_tokens 3 m.members m.current.in_stream).1 =
      [⟨.TK_LHS, key⟩, ⟨.TK_ASSIGN, op_assign⟩, ⟨.TK_RHS, v⟩])
    (hk : ¬ is_directive key) :
    (process_statement env m).outcome = .unfinished ∧
    (process_statement env m).state.m_config_block = m.members.m_config_block ++
      [(A ++ block_sep ++ B ++ block_sep ++ key,
        env.expand_token m.members.m_config_block m.members.m_symtab v)] := by
  have hinv := status_inv_parse_config env fuel path
  rw [hreach] at hinv
  have hctx : m.members.m_current_context = A ++ block_sep ++ B ++ block_sep := by
    rw [hinv.1.1]
    match hst : m.members.m_block_stack, hopen with
    | [a, b], hopen =>
      simp only [List.map_cons, List.map_nil, List.cons.injEq, and_true] at hopen
      simp [context_of, hopen.1, hopen.2]
  obtain ⟨p1, s1, p2, s2, p3, s3, h1, h2, h3, _⟩ := read_tokens_three htok
  have hs : same_session m.members p3 :=
    same_session_trans (same_session_trans (get_token_session h1) (get_token_session h2))
      (get_token_session h3)
  rw [process_statement_entry env m key op_assign v p1 p2 p3 s1 s2 s3 h1 h2 h3 hk]
  obtain ⟨_, c2, _, _, c5, c6, _⟩ := hs
  have hne : op_assign ≠ op_define := by decide
  simp [process_entry, hne, c2, c5, c6, hctx, status.outcome, status.state]

theorem C2_assignment_in_nested_blocks_witness :
    (parse_config (env_one_file ["block a", "block b", "k = v"]) 3 "a.cfg".toList).state.m_config_block
      = [("a:b:k".toList, "v".toList)] := by
  have h := (C2_assignment_in_nested_blocks (env_one_file ["block a", "block b", "k = v"]) 2
    "a.cfg".toList
    (parse_config (env_one_file ["block a", "block b", "k = v"]) 2 "a.cfg".toList).machine
    "a".toList "b".toList "k".toList "v".toList
    (by decide) (by decide) (by decide) (by decide)).2
  exact h

/-- C3 (amended): for a new parser and any input on which the parse runs to the
end of the outermost file, that is, it ends by a normal return or by the
exception "Errors in config file": the exception is raised if and only if a
malformed statement was logged in some processed file or blocks were left
unclosed at the end of the outermost file; otherwise `parse_config` returns
normally; either way the block stack is empty, and more fuel does not change
the result. The exception names the outermost file, and it leaves a loop
iteration only when that iteration belongs to the outermost file (no caller is
suspended) and has read EOF with the stream used up. -/
theorem C3_parse_failed_iff_error_reported (env : environment) (fuel : Nat) (path : std_string) :
    (((parse_config env fuel path).outcome = .normal ∨
        (parse_config env fuel path).outcome =
          .raised (.config_file_not_parsed path .errors_in_config_file)) →
      ((parse_config env fuel path).outcome =
          .raised (.config_file_not_parsed path .errors_in_config_file) ↔
        error_reported (parse_config env fuel path).state) ∧
      ((parse_config env fuel path).outcome = .normal ↔
        (parse_config env fuel path).state.m_parse_error = false) ∧
      (parse_config env fuel path).state.m_block_stack = [] ∧
      ∀ k, parse_config env (fuel + k) path = parse_config env fuel path) ∧
    (∀ f, (parse_config env fuel path).outcome =
        .raised (.config_file_not_parsed f .errors_in_config_file) → f = path) ∧
    (∀ m f q, parse_config env fuel path = .running m →
      process_statement env m = .thrown (.config_file_not_parsed f .errors_in_config_file) q →
      m.callers = [] ∧ (read_tokens 1 m.members m.current.in_stream).1 = [⟨.TK_EOF, []⟩] ∧
        (read_tokens 1 m.members m.current.in_stream).2.2 = []) := by
  have hinv := status_inv_parse_config env fuel path
  refine ⟨?_, ?_, ?_⟩
  · intro hfin
    have hstable : ∀ k, parse_config env (fuel + k) path = parse_config env fuel path := by
      intro k
      apply run_finished
      rcases hfin with h | h
      · show (parse_config env fuel path).outcome ≠ _
        rw [h]; intro hc; cases hc
      · show (parse_config env fuel path).outcome ≠ _
        rw [h]; intro hc; cases hc
    cases hs : parse_config env fuel path with
    | running m => rw [hs] at hfin; rcases hfin with h | h <;> cases h
    | returned p =>
      rw [hs] at hinv hstable
      obtain ⟨_, hlog, hpe, hst, _⟩ := hinv
      refine ⟨⟨fun h => (by cases h), ?_⟩, ⟨fun _ => hpe, fun _ => rfl⟩, hst, hstable⟩
      rintro (⟨l, f, n, hmem⟩ | ⟨es, _, hmem⟩)
      · simp only [status.state] at hmem; rw [hlog] at hmem; cases hmem
      · simp only [status.state] at hmem; rw [hlog] at hmem; cases hmem
    | thrown e p =>
      rw [hs] at hinv hfin hstable
      rcases hfin with h | h
      · cases h
      · have he : e = .config_file_not_parsed path .errors_in_config_file := by
          simpa [status.outcome] using h
        obtain ⟨_, hrep, hpe, hst, _⟩ := hinv.1 path he
        refine ⟨⟨fun _ => hrep, fun _ => h⟩, ⟨fun hc => ?_, fun hc => ?_⟩, hst, hstable⟩
        · rw [h] at hc; cases hc
        · simp only [status.state] at hc; rw [hpe] at hc; cases hc
  · intro f hf
    cases hs : parse_config env fuel path with
    | running m => rw [hs] at hf; cases hf
    | returned p => rw [hs] at hf; cases hf
    | thrown e p =>
      rw [hs] at hinv hf
      have he : e = .config_file_not_parsed f .errors_in_config_file := by
        simpa [status.outcome] using hf
      exact (hinv.1 f he).1
  · intro m f q hs hthrow
    rw [hs] at hinv
    exact errors_raised_at_outermost_eof hinv (process_statement_effect env m) hthrow

/-- C3 as stated fails for an input in which every file can be opened and that
has no `endblock`: a file that includes itself after a malformed statement. A
syntax error is latched by the first statement, but the parse never comes to
the end of the outermost file: it neither raises nor returns. -/
theorem C3_counterexample :
    (∀ f, (env_self_include.ifstream f).isSome = true) ∧
    (parse_config env_self_include 1 "a.cfg".toList).state.m_parse_error = true ∧
    log_entry.invalid_line line_foo "a.cfg".toList 1 ∈
      (parse_config env_self_include 1 "a.cfg".toList).state.m_logger ∧
    ¬ ∃ fuel, (parse_config env_self_include fuel "a.cfg".toList).outcome ≠ .unfinished := by
  refine ⟨fun _ => rfl, by decide, by decide, ?_⟩
  rintro ⟨fuel, h⟩
  exact h (self_include_runs_on fuel _ rfl (Or.inl rfl))

theorem C3_parse_failed_iff_error_reported_witness :
    error_reported (parse_config (env_one_file ["foo", "k = v"]) 3 "a.cfg".toList).state ∧
    (parse_config (env_one_file ["foo", "k = v"]) 3 "a.cfg".toList).state.m_config_block =
      [("k".toList, "v".toList)] := by
  have h := ((C3_parse_failed_iff_error_reported (env_one_file ["foo", "k = v"]) 3
    "a.cfg".toList).1 (Or.inr (by decide))).1
  exact ⟨h.1 (by decide), by decide⟩

/-- C4 (code defect): the one-line file `foo :` makes `process_file` fail with
`std::out_of_range`, which is none of the documented conditions. After the LHS
token `foo` the buffer is the single character ':' and the tokenizer is in the
operator state; source line 524 takes the operator to be ":=" and source line
547 calls `substr( 2 )` on that one-character buffer. -/
theorem C4_trailing_colon_raises_out_of_range :
    (read_tokens 1 (machine_at_start ["foo :"]).members
        (machine_at_start ["foo :"]).current.in_stream).1 = [⟨.TK_LHS, "foo".toList⟩] ∧
    (read_tokens 1 (machine_at_start ["foo :"]).members
        (machine_at_start ["foo :"]).current.in_stream).2.1.m_token_line = [':'] ∧
    (read_tokens 1 (machine_at_start ["foo :"]).members
        (machine_at_start ["foo :"]).current.in_stream).2.1.m_token_state = 2 ∧
    substr [':'] 2 = .error .out_of_range ∧
    (parse_config (env_one_file ["foo :"]) 1 "a.cfg".toList).outcome = .raised .out_of_range := by
  decide

/-- C5 (amended): an assignment with nothing after the operator is rejected. When
the first two tokens of a statement are an LHS `k` that is no directive word
and an ASSIGN "=", and the buffer is empty after the operator, the next token is
an EOL with empty text (not an RHS), the driver latches a syntax error, and
nothing is written to the configuration block or the symbol table. -/
theorem C5_empty_rhs_is_rejected (env : environment) (m : machine) (k : std_string)
    (htok : (read_tokens 2 m.members m.current.in_stream).1 =
      [⟨.TK_LHS, k⟩, ⟨.TK_ASSIGN, op_assign⟩])
    (hempty : (read_tokens 2 m.members m.current.in_stream).2.1.m_token_line = [])
    (hk : ¬ is_directive k) :
    (read_tokens 3 m.members m.current.in_stream).1 =
      [⟨.TK_LHS, k⟩, ⟨.TK_ASSIGN, op_assign⟩, ⟨.TK_EOL, []⟩] ∧
    (process_statement env m).outcome = .unfinished ∧
    (process_statement env m).state.m_parse_error = true ∧
    (process_statement env m).state.m_logger = m.members.m_logger ++
      [.invalid_line (read_tokens 2 m.members m.current.in_stream).2.1.m_last_line
        m.current.file_path (read_tokens 2 m.members m.current.in_stream).2.1.m_line_number] ∧
    (process_statement env m).state.m_config_block = m.members.m_config_block ∧
    (process_statement env m).state.m_symtab = m.members.m_symtab := by
  obtain ⟨p1, s1, p2, s2, h1, h2, he⟩ := read_tokens_two htok
  rw [he] at hempty ⊢
  simp only [] at hempty ⊢
  have hst : p2.m_token_state = 3 := get_token_assign_state h2 rfl
  have h3 : get_token p2 s2 = .ok (⟨.TK_EOL, []⟩, { p2 with m_token_state := 0 }, s2) := by
    unfold get_token
    rw [if_pos ⟨by rw [hempty]; rfl, by rw [hst]; decide⟩]
  have hs : same_session m.members p2 :=
    same_session_trans (get_token_session h1) (get_token_session h2)
  obtain ⟨_, _, _, _, c5, c6, c7⟩ := hs
  obtain ⟨k1, k2, k3, k4⟩ := not_directive hk
  refine ⟨?_, ?_⟩
  · simp [read_tokens, h1, h2, h3]
  · simp [process_statement, process_assignment, h1, h2, h3, k1, k2, k3, k4, status.outcome,
      status.state, invalid_statement, flush_line, c5, c6, c7]

/-- C5 as stated fails: the line `key =` is tokenized as LHS, ASSIGN, EOL; the
driver latches a syntax error and the store receives nothing. -/
theorem C5_counterexample :
    (read_tokens 3 (machine_at_start ["key ="]).members
        (machine_at_start ["key ="]).current.in_stream).1 =
      [⟨.TK_LHS, "key".toList⟩, ⟨.TK_ASSIGN, "=".toList⟩, ⟨.TK_EOL, []⟩] ∧
    (process_statement (env_one_file ["key ="]) (machine_at_start ["key ="])).state.m_parse_error
      = true ∧
    (process_statement (env_one_file ["key ="]) (machine_at_start ["key ="])).state.m_config_block
      = [] ∧
    (parse_config (env_one_file ["key ="]) 2 "a.cfg".toList).outcome =
      .raised (.config_file_not_parsed "a.cfg".toList .errors_in_config_file) := by
  decide

theorem C5_empty_rhs_is_rejected_witness :
    (process_statement (env_one_file ["block a", "k =   "])
        (parse_config (env_one_file ["block a", "k =   "]) 1 "a.cfg".toList).machine).state.m_logger =
      [.invalid_line "k =   ".toList "a.cfg".toList 2] := by
  have h := (C5_empty_rhs_is_rejected (env_one_file ["block a", "k =   "])
    (parse_config (env_one_file ["block a", "k =   "]) 1 "a.cfg".toList).machine "k".toList
    (by decide) (by decide) (by decide)).2.2.2.1
  rw [h]
  decide

/-- C6: `endblock` with a non-empty block stack pops the top frame and sets the
context to the string that frame saved, and the frame pushed by `block X` saves
the context as it was before that statement. Consequently a stretch of the
parse during which the stack stays higher than at its start and after which it
is back at that height (a `block`, a balanced sequence of statements, the
matching `endblock`) leaves the block stack and the context as they were; and
for the siblings `block A`, `endblock`, `block B` opened under context `P`, a
key `k` assigned inside `B` is stored as `P ++ B ++ block_sep ++ k`. -/
theorem C6_endblock_restores_context (env : environment) :
    (∀ (m : machine) (below : List block_context_t) (back : block_context_t),
      (read_tokens 1 m.members m.current.in_stream).1 = [⟨.TK_LHS, kw_endblock⟩] →
      m.members.m_block_stack = below ++ [back] →
      (process_statement env m).outcome = .unfinished ∧
      (process_statement env m).state.m_block_stack = below ∧
      (process_statement env m).state.m_current_context = back.m_previous_context) ∧
    (∀ (m : machine) (X : std_string),
      (read_tokens 2 m.members m.current.in_stream).1 = [⟨.TK_LHS, kw_block⟩, ⟨.TK_LHS, X⟩] →
      (process_statement env m).outcome = .unfinished ∧
      (process_statement env m).state.m_current_context =
        m.members.m_current_context ++ (X ++ block_sep) ∧
      ∃ f, (process_statement env m).state.m_block_stack = m.members.m_block_stack ++ [f] ∧
        f.m_block_name = X ∧ f.m_previous_context = m.members.m_current_context) ∧
    (∀ (m0 : machine) (n : Nat),
      (∀ i, 1 ≤ i → i ≤ n → (run env i (.running m0)).outcome = .unfinished ∧
        m0.members.m_block_stack.length < (run env i (.running m0)).state.m_block_stack.length) →
      (run env (n + 1) (.running m0)).outcome = .unfinished →
      (run env (n + 1) (.running m0)).state.m_block_stack.length =
        m0.members.m_block_stack.length →
      (run env (n + 1) (.running m0)).state.m_block_stack = m0.members.m_block_stack ∧
      (run env (n + 1) (.running m0)).state.m_current_context = m0.members.m_current_context) ∧
    (∀ (m0 : machine) (A B k v : std_string),
      (read_tokens 2 m0.members m0.current.in_stream).1 = [⟨.TK_LHS, kw_block⟩, ⟨.TK_LHS, A⟩] →
      (read_tokens 1 (run env 1 (.running m0)).machine.members
        (run env 1 (.running m0)).machine.current.in_stream).1 = [⟨.TK_LHS, kw_endblock⟩] →
      (read_tokens 2 (run env 2 (.running m0)).machine.members
        (run env 2 (.running m0)).machine.current.in_stream).1 =
          [⟨.TK_LHS, kw_block⟩, ⟨.TK_LHS, B⟩] →
      (read_tokens 3 (run env 3 (.running m0)).machine.members
        (run env 3 (.running m0)).machine.current.in_stream).1 =
          [⟨.TK_LHS, k⟩, ⟨.TK_ASSIGN, op_assign⟩, ⟨.TK_RHS, v⟩] →
      ¬ is_directive k →
      (run env 4 (.running m0)).outcome = .unfinished ∧
      (run env 4 (.running m0)).state.m_config_block = m0.members.m_config_block ++
        [(m0.members.m_current_context ++ B ++ block_sep ++ k,
          env.expand_token m0.members.m_config_block m0.members.m_symtab v)]) := by
  refine ⟨?_, ?_, ?_, ?_⟩
  · intro m below back htok hst
    obtain ⟨m1, hs, h1, h2, _⟩ := endblock_step env m below back htok hst
    rw [hs]
    exact ⟨rfl, h2, h1⟩
  · intro m X htok
    obtain ⟨m1, hs, h1, h2, _⟩ := block_step env m X htok
    rw [hs]
    exact ⟨rfl, h1, _, h2, rfl, rfl⟩
  · intro m0 n hin hrun hlen
    exact balanced_run_restores env m0 n hin hrun hlen
  · intro m0 A B k v t0 t1 t2 t3 hk
    exact sibling_blocks env m0 A B k v t0 t1 t2 t3 hk

theorem C6_endblock_restores_context_witness :
    (parse_config (env_one_file ["block p", "block a", "x = 1", "endblock", "block b", "k = v"]) 6
      "a.cfg".toList).state.m_config_block =
      [("p:a:x".toList, "1".toList), ("p:b:k".toList, "v".toList)] ∧
    (run (env_one_file ["block p", "block a", "x = 1", "endblock", "block b", "k = v"]) (2 + 1)
      (.running (parse_config (env_one_file ["block p", "block a", "x = 1", "endblock",
        "block b", "k = v"]) 1 "a.cfg".toList).machine)).state.m_current_context = "p:".toList := by
  have h := C6_endblock_restores_context
    (env_one_file ["block p", "block a", "x = 1", "endblock", "block b", "k = v"])
  refine ⟨by decide, ?_⟩
  have h3 := (h.2.2.1
    (parse_config (env_one_file ["block p", "block a", "x = 1", "endblock", "block b", "k = v"]) 1
      "a.cfg".toList).machine 2
    (by
      intro i h1 h2
      have hi : i = 1 ∨ i = 2 := by omega
      rcases hi with rfl | rfl <;> decide)
    (by decide) (by decide)).2
  rw [h3]
  decide

/-- C7: in every state of a parse by a new parser (at the head of every loop
iteration, whatever statements, includes and errors came before, and also
after a normal return or an exception other than the final "Errors in config
file"), `m_current_context` is the concatenation, from the bottom of
`m_block_stack` to its top, of each frame's block name followed by the
separator, and every frame's `m_previous_context` is that concatenation over
the frames below it. -/
theorem C7_context_matches_block_stack (env : environment) (fuel : Nat) (path : std_string)
    (hne : (parse_config env fuel path).outcome ≠
      .raised (.config_file_not_parsed path .errors_in_config_file)) :
    (parse_config env fuel path).state.m_current_context =
      context_of (parse_config env fuel path).state.m_block_stack ∧
    ∀ below b above, (parse_config env fuel path).state.m_block_stack = below ++ b :: above →
      b.m_previous_context = context_of below := by
  have hinv := status_inv_parse_config env fuel path
  cases hs : parse_config env fuel path with
  | running m => rw [hs] at hinv; exact hinv.1
  | returned p => rw [hs] at hinv; exact hinv.1
  | thrown e p =>
    rw [hs] at hinv hne
    refine hinv.2 (fun f hf => hne ?_)
    rw [hf, (hinv.1 f hf).1]
    rfl

theorem C7_context_matches_block_stack_witness :
    (parse_config (env_one_file ["block a", "x = 1", "block b", "oops"]) 4 "a.cfg".toList).state.m_current_context
      = "a:b:".toList := by
  have h := (C7_context_matches_block_stack (env_one_file ["block a", "x = 1", "block b", "oops"]) 4
    "a.cfg".toList (by decide)).1
  rw [h]
  decide

/-- C8: an `endblock` statement read while the block stack is empty makes
`process_file` raise `config_file_not_parsed_exception` at that statement. With
`c` the lines that reading the word `endblock` consumes: whatever lines `rest`
follow them, and however long the parse is run, the result is this exception,
naming the file and the line of the `endblock`; the parser state it leaves does
not depend on `rest`, and its configuration block, symbol table and error
latch are those from before the statement. -/
theorem C8_unmatched_endblock_raises_at_once (env : environment) (m : machine)
    (htok : (read_tokens 1 m.members m.current.in_stream).1 = [⟨.TK_LHS, kw_endblock⟩])
    (hstack : m.members.m_block_stack = []) :
    ∃ c, m.current.in_stream = c ++ (read_tokens 1 m.members m.current.in_stream).2.2 ∧
      (∀ (rest : istream) (n : Nat),
        run env (n + 1) (.running ⟨m.members, { m.current with in_stream := c ++ rest }, m.callers⟩) =
          .thrown (.config_file_not_parsed m.current.file_path
              (.endblock_without_block m.current.file_path (m.members.m_line_number + c.length)))
            (flush_line (read_tokens 1 m.members m.current.in_stream).2.1)) ∧
      (flush_line (read_tokens 1 m.members m.current.in_stream).2.1).m_config_block =
        m.members.m_config_block ∧
      (flush_line (read_tokens 1 m.members m.current.in_stream).2.1).m_symtab =
        m.members.m_symtab ∧
      (flush_line (read_tokens 1 m.members m.current.in_stream).2.1).m_parse_error =
        m.members.m_parse_error := by
  obtain ⟨p1, s1, h1, _, he⟩ := read_tokens_one htok
  have he1 : (read_tokens 1 m.members m.current.in_stream).2 = (p1, s1) := he
  rw [he1]
  obtain ⟨c, hc, hl, hrest⟩ := get_token_rest h1 (by simp)
  obtain ⟨c1, _, _, c4, c5, c6, _⟩ := get_token_session h1
  refine ⟨c, hc, ?_, c6, c5, c4⟩
  intro rest n
  have hstep : process_statement env ⟨m.members, { m.current with in_stream := c ++ rest },
      m.callers⟩ =
      .thrown (.config_file_not_parsed m.current.file_path
        (.endblock_without_block m.current.file_path (m.members.m_line_number + c.length)))
        (flush_line p1) := by
    have e1 : kw_endblock ≠ kw_include := by decide
    have e2 : kw_endblock ≠ kw_block := by decide
    simp [process_statement, hrest rest, e1, e2, flush_line, c1, hstack, hl]
  simp only [run, step, hstep]
  exact run_thrown env n _ _

theorem C8_unmatched_endblock_raises_at_once_witness :
    (parse_config (env_one_file ["x = 1", "", "endblock", "y = 2", "z := 3"]) 9
      "a.cfg".toList).outcome =
      .raised (.config_file_not_parsed "a.cfg".toList
        (.endblock_without_block "a.cfg".toList 3)) ∧
    (parse_config (env_one_file ["x = 1", "", "endblock", "y = 2", "z := 3"]) 9
      "a.cfg".toList).state.m_config_block = [("x".toList, "1".toList)] := by
  obtain ⟨c, hc, h, _⟩ := C8_unmatched_endblock_raises_at_once
    (env_one_file ["x = 1", "", "endblock", "y = 2", "z := 3"])
    (parse_config (env_one_file ["x = 1", "", "endblock", "y = 2", "z := 3"]) 1
      "a.cfg".toList).machine
    (by decide) (by decide)
  have hc1 : c = ["".toList, "endblock".toList] := by
    have e : c ++ ["y = 2".toList, "z := 3".toList] =
        ["".toList, "endblock".toList] ++ ["y = 2".toList, "z := 3".toList] :=
      hc.symm.trans (by decide)
    exact List.append_cancel_right e
  subst hc1
  have h2 := h ["y = 2".toList, "z := 3".toList] 7
  have e2 : parse_config (env_one_file ["x = 1", "", "endblock", "y = 2", "z := 3"]) 9
      "a.cfg".toList = _ := Eq.trans (by decide) h2
  rw [e2]
  exact ⟨by decide, by decide⟩

/-- C9: in a parse by a new parser, when EOF of the outermost file is read while
the block stack is not empty, `process_file` latches the error and raises
"Errors in config file" for that file, and the message it logs has one entry
for every frame still open, innermost first, giving the block name, the file
name and the start line of the frame. Every such frame is located: its file can
be opened, and its start line, counted from 1, is a line of that file that is a
`block` statement for the block name. -/
theorem C9_unclosed_blocks_reported (env : environment) (fuel : Nat) (path : std_string)
    (m : machine) (hreach : parse_config env fuel path = .running m)
    (houter : m.callers = [])
    (heof : (read_tokens 1 m.members m.current.in_stream).1 = [⟨.TK_EOF, []⟩])
    (hopen : m.members.m_block_stack ≠ []) :
    (process_statement env m).outcome =
      .raised (.config_file_not_parsed path .errors_in_config_file) ∧
    (process_statement env m).state.m_parse_error = true ∧
    (process_statement env m).state.m_logger = m.members.m_logger ++
      [.unclosed_blocks (m.members.m_block_stack.reverse.map
        fun b => (b.m_block_name, b.m_file_name, b.m_start_line))] ∧
    (∀ b ∈ m.members.m_block_stack, ∃ lines raw,
      env.ifstream b.m_file_name = some lines ∧ 1 ≤ b.m_start_line ∧
      lines[(b.m_start_line - 1).toNat]? = some raw ∧ is_block_statement raw b.m_block_name) := by
  obtain ⟨hinv, hlines⟩ := invariants_parse_config env fuel path
  rw [hreach] at hinv hlines
  obtain ⟨_, _, hcount, _, hout⟩ := hinv
  obtain ⟨p1, s1, h1, _, _⟩ := read_tokens_one heof
  obtain ⟨c1, _, c3, _, _, _, c7⟩ := get_token_session h1
  have hfile : m.current.file_path = path := by
    simpa [outermost_file, houter] using hout
  have hc : p1.m_file_count = 1 := by rw [c3, hcount, houter]; rfl
  have hst : p1.m_block_stack ≠ [] := by rw [c1]; exact hopen
  have hstep : process_statement env m = process_eof p1 m.current.file_path m.callers := by
    simp [process_statement, h1]
  rw [hstep, process_eof_unclosed p1 _ _ hc hst, hfile]
  refine ⟨rfl, rfl, ?_, hlines.2.2⟩
  simp only [status.state, unclosed_entries, c1, c7]

theorem C9_unclosed_blocks_reported_witness :
    (parse_config (env_one_file ["", "# comment", "block X", "k = v"]) 3 "a.cfg".toList).state.m_logger
      = [.unclosed_blocks [("X".toList, "a.cfg".toList, 3)]] := by
  have h := (C9_unclosed_blocks_reported (env_one_file ["", "# comment", "block X", "k = v"]) 2
    "a.cfg".toList
    (parse_config (env_one_file ["", "# comment", "block X", "k = v"]) 2 "a.cfg".toList).machine
    (by decide) (by decide) (by decide) (by decide)).2.2.1
  have h2 : parse_config (env_one_file ["", "# comment", "block X", "k = v"]) 3 "a.cfg".toList =
      process_statement (env_one_file ["", "# comment", "block X", "k = v"])
        (parse_config (env_one_file ["", "# comment", "block X", "k = v"]) 2
          "a.cfg".toList).machine := by
    decide
  rw [h2, h]
  decide

/-- C10 (amended): a line whose text (comment removed, trimmed) starts with two
identifier-like words separated by spaces or tabs (such as `foo bar = 1`), the
first of which is none of the directive words, latches a syntax error, logs the
line with its file and line number, and writes nothing to the configuration
block or the symbol table. Blank and comment-only lines `skipped` may precede
it. Parsing is not aborted: the loop continues with the lines after this one,
the tokenizer is back in its initial state, in which the unread remainder of
the line is never tokenized: when a physical line is left, the next call of
`get_token` reads it exactly as it does with an empty buffer, and when the
stream is at its end it returns EOF; a following `k = v` statement is stored;
and in a parse by a new parser the failure cannot be a normal return any more
(it is raised as "Errors in config file", which by C3 happens only at EOF of
the outermost file). -/
theorem C10_two_words_latch_and_continue (env : environment) (m : machine)
    (skipped : istream) (raw : std_string) (s1 : istream)
    (w1 sp : std_string) (c2 : Char) (tail : std_string)
    (h0 : m.members.m_token_state = 0)
    (hstream : m.current.in_stream = skipped ++ raw :: s1)
    (hskip : ∀ l ∈ skipped, norm_line l = [])
    (hraw : norm_line raw = w1 ++ sp ++ c2 :: tail)
    (hw1 : ∀ c ∈ w1, identifier_char c) (hdir : ¬ is_directive w1)
    (hsp : sp ≠ [] ∧ ∀ c ∈ sp, c = ' ' ∨ c = '\t')
    (hc2 : identifier_char c2) :
    (process_statement env m).outcome = .unfinished ∧
    (process_statement env m).state.m_parse_error = true ∧
    (process_statement env m).state.m_logger = m.members.m_logger ++
      [.invalid_line raw m.current.file_path (m.members.m_line_number + skipped.length + 1)] ∧
    (process_statement env m).state.m_config_block = m.members.m_config_block ∧
    (process_statement env m).state.m_symtab = m.members.m_symtab ∧
    (process_statement env m).machine.current.in_stream = s1 ∧
    (process_statement env m).state.m_token_state = 0 ∧
    ((∀ (l : std_string) (rest : istream), s1 = l :: rest →
        get_token (process_statement env m).state s1 =
          get_token { (process_statement env m).state with m_token_line := [] } s1) ∧
      (s1 = [] → ∃ q, get_token (process_statement env m).state s1 =
          .ok (⟨.TK_EOF, []⟩, q, []) ∧
        same_session (process_statement env m).state q ∧ q.m_token_state = 0 ∧
        q.m_line_number = (process_statement env m).state.m_line_number ∧
        q.m_last_line = (process_statement env m).state.m_last_line)) ∧
    (∀ k v, (read_tokens 3 (process_statement env m).state s1).1 =
        [⟨.TK_LHS, k⟩, ⟨.TK_ASSIGN, op_assign⟩, ⟨.TK_RHS, v⟩] → ¬ is_directive k →
      (run env 2 (.running m)).outcome = .unfinished ∧
      (run env 2 (.running m)).state.m_config_block = m.members.m_config_block ++
        [(m.members.m_current_context ++ k,
          env.expand_token m.members.m_config_block m.members.m_symtab v)]) ∧
    (∀ fuel path, parse_config env fuel path = .running m →
      ∀ j, (parse_config env (fuel + 1 + j) path).outcome ≠ .normal) := by
  have hne : norm_line raw ≠ [] := by rw [hraw]; simp
  have hline := get_line_skip m.members skipped raw s1 hskip hne
  rw [← hstream] at hline
  obtain ⟨q, hs, hstep⟩ := two_words_step env m w1 sp c2 tail _ s1 h0 hline hraw hw1 hdir hsp hc2
  obtain ⟨_, c2', _, _, c5, c6, c7⟩ := hs
  rw [hstep]
  simp only [status.outcome, status.state, status.machine]
  refine ⟨trivial, trivial, by rw [c7], c6, c5, trivial, trivial, ?_, ?_, ?_⟩
  · exact initial_state_discards_buffer _ rfl s1
  · intro k v htok hk
    obtain ⟨m2, hs2, d1, _⟩ :=
      entry_step env ⟨_, { m.current with in_stream := s1 }, m.callers⟩ k v htok hk
    have r2 : run env 2 (.running m) = .running m2 := by
      show run env 1 (step env (.running m)) = _
      simp only [step, hstep]
      exact hs2
    rw [r2]
    refine ⟨rfl, ?_⟩
    simp only [d1, c2', c5, c6]
  · intro fuel path hreach j hnormal
    have hrun : parse_config env (fuel + 1 + j) path = run env j (process_statement env m) := by
      unfold parse_config process_file at hreach ⊢
      rw [Nat.add_assoc, run_add, hreach]
      show run env (1 + j) (.running m) = _
      rw [run_add]
      rfl
    have hlatch : (run env j (process_statement env m)).state.m_parse_error = true := by
      apply latch_stays_set_run
      rw [hstep]
      rfl
    have hinv := status_inv_parse_config env (fuel + 1 + j) path
    rw [hrun] at hinv hnormal
    cases hr : run env j (process_statement env m) with
    | running m3 => rw [hr] at hnormal; cases hnormal
    | returned p =>
      rw [hr] at hinv hlatch
      have := hinv.2.2.1
      simp only [status.state] at hlatch
      rw [this] at hlatch
      cases hlatch
    | thrown e p => rw [hr] at hnormal; cases hnormal

/-- C10 as stated fails for lines whose first word is a directive: the line
`relativepath bar = 1` has two identifier-like words before the operator, yet
no syntax error is latched and the store is written; `block bar = 1` opens the
block `bar` without an error. -/
theorem C10_counterexample :
    (process_statement (env_one_file ["relativepath bar = 1"])
      (machine_at_start ["relativepath bar = 1"])).state.m_parse_error = false ∧
    (process_statement (env_one_file ["relativepath bar = 1"])
      (machine_at_start ["relativepath bar = 1"])).state.m_config_block =
        [("bar".toList, "1".toList)] ∧
    (process_statement (env_one_file ["block bar = 1"])
      (machine_at_start ["block bar = 1"])).state.m_parse_error = false ∧
    (process_statement (env_one_file ["block bar = 1"])
      (machine_at_start ["block bar = 1"])).state.m_current_context = "bar:".toList := by
  decide

theorem C10_two_words_latch_and_continue_witness :
    (parse_config (env_one_file ["# note", "foo bar = 1", "k = v"]) 1 "a.cfg".toList).state.m_logger =
      [.invalid_line "foo bar = 1".toList "a.cfg".toList 2] ∧
    (parse_config (env_one_file ["# note", "foo bar = 1", "k = v"]) 2
      "a.cfg".toList).state.m_config_block = [("k".toList, "v".toList)] ∧
    (parse_config (env_one_file ["# note", "foo bar = 1", "k = v"]) 3 "a.cfg".toList).outcome =
      .raised (.config_file_not_parsed "a.cfg".toList .errors_in_config_file) := by
  have h := C10_two_words_latch_and_continue (env_one_file ["# note", "foo bar = 1", "k = v"])
    (parse_config (env_one_file ["# note", "foo bar = 1", "k = v"]) 0 "a.cfg".toList).machine
    ["# note".toList] "foo bar = 1".toList ["k = v".toList]
    "foo".toList " ".toList 'b' "ar = 1".toList
    (by decide) (by decide) (by decide) (by decide) (by decide) (by decide) (by decide) (by decide)
  exact ⟨h.2.2.1, (h.2.2.2.2.2.2.2.2.1 "k".toList "v".toList (by decide) (by decide)).2, by decide⟩

/-- C11: a statement that takes one of the syntax-error branches of
`process_file` (its tokens are `block` and a token that is no LHS;
`relativepath` and a token that is no LHS; an LHS and a token that is no ASSIGN;
an LHS, an ASSIGN and a token that is no RHS; the last two also after
`relativepath`), read at the head of a loop iteration, where the tokenizer is in
its initial state. The statement stands on one physical line `raw`, after blank
and comment-only lines `skipped`. The loop continues in the same activation
with the lines after `raw`; the error latch is set and one message, with the
raw line, the file and the line number, goes to the log; the configuration
block, the symbol table, the context, the block stack and the file count are
as before; the line counter and the last line are those of `raw`; and the
tokenizer is back in its initial state, in which what is left of the line in
its buffer is discarded: when a physical line is left, the next call of
`get_token` reads it exactly as it does with an empty buffer, and when the
stream is at its end it returns EOF and leaves the session as it is. -/
theorem C11_syntax_error_sets_only_the_latch (env : environment) (m : machine) (n : Nat)
    (h0 : m.members.m_token_state = 0)
    (hlen : (read_tokens n m.members m.current.in_stream).1.length = n)
    (herr : syntax_error_tokens (read_tokens n m.members m.current.in_stream).1) :
    ∃ skipped raw,
      m.current.in_stream = skipped ++ raw :: (read_tokens n m.members m.current.in_stream).2.2 ∧
      (∀ l ∈ skipped, norm_line l = []) ∧ norm_line raw ≠ [] ∧
      (process_statement env m).outcome = .unfinished ∧
      (process_statement env m).machine.current =
        { m.current with in_stream := (read_tokens n m.members m.current.in_stream).2.2 } ∧
      (process_statement env m).machine.callers = m.callers ∧
      (process_statement env m).state.m_parse_error = true ∧
      (process_statement env m).state.m_logger = m.members.m_logger ++
        [.invalid_line raw m.current.file_path (m.members.m_line_number + skipped.length + 1)] ∧
      (process_statement env m).state.m_config_block = m.members.m_config_block ∧
      (process_statement env m).state.m_symtab = m.members.m_symtab ∧
      (process_statement env m).state.m_current_context = m.members.m_current_context ∧
      (process_statement env m).state.m_block_stack = m.members.m_block_stack ∧
      (process_statement env m).state.m_file_count = m.members.m_file_count ∧
      (process_statement env m).state.m_line_number =
        m.members.m_line_number + skipped.length + 1 ∧
      (process_statement env m).state.m_last_line = raw ∧
      (process_statement env m).state.m_token_state = 0 ∧
      (∀ (l : std_string) (rest : istream),
        (read_tokens n m.members m.current.in_stream).2.2 = l :: rest →
        get_token (process_statement env m).state
            (read_tokens n m.members m.current.in_stream).2.2 =
          get_token { (process_statement env m).state with m_token_line := [] }
            (read_tokens n m.members m.current.in_stream).2.2) ∧
      ((read_tokens n m.members m.current.in_stream).2.2 = [] →
        ∃ q, get_token (process_statement env m).state
            (read_tokens n m.members m.current.in_stream).2.2 = .ok (⟨.TK_EOF, []⟩, q, []) ∧
          same_session (process_statement env m).state q ∧ q.m_token_state = 0 ∧
          q.m_line_number = (process_statement env m).state.m_line_number ∧
          q.m_last_line = (process_statement env m).state.m_last_line) := by
  obtain ⟨skipped, raw, hl, hs, hstep⟩ := syntax_error_step env m n h0 hlen herr
  obtain ⟨b1, b2, b3, b4, b5⟩ := hl
  obtain ⟨c1, c2, c3, c4, c5, c6, c7⟩ := hs
  refine ⟨skipped, raw, b1, b2, b3, ?_⟩
  rw [hstep]
  simp only [status.outcome, status.state, status.machine, invalid_statement, flush_line]
  refine ⟨trivial, trivial, trivial, trivial, ?_, c6, c5, c2, c1, c3, b4, b5, trivial, ?_⟩
  · rw [c7, b4, b5]
  · exact initial_state_discards_buffer _ rfl _

theorem C11_syntax_error_sets_only_the_latch_witness :
    (parse_config (env_one_file ["block a", "x = 1", "", "  relativepath y =  # no value", "z = 2"])
      3 "a.cfg".toList).state.m_logger =
      [.invalid_line "  relativepath y =  # no value".toList "a.cfg".toList 4] ∧
    (parse_config (env_one_file ["block a", "x = 1", "", "  relativepath y =  # no value", "z = 2"])
      4 "a.cfg".toList).state.m_config_block =
      [("a:x".toList, "1".toList), ("a:z".toList, "2".toList)] := by
  obtain ⟨skipped, raw, h1, _, _, _, _, _, _, h8, _⟩ := C11_syntax_error_sets_only_the_latch
    (env_one_file ["block a", "x = 1", "", "  relativepath y =  # no value", "z = 2"])
    (parse_config (env_one_file ["block a", "x = 1", "", "  relativepath y =  # no value", "z = 2"])
      2 "a.cfg".toList).machine 4
    (by decide) (by decide) (by decide)
  exact ⟨by decide, by decide⟩

/-- C12: comments and blank lines. (1) The line `key = value # trailing comment`,
read at the head of a loop iteration, stores `expand( "value" )` under the
current context followed by `key`; the symbol table and the error latch stay
as they are and the loop continues with the next line. (2) In general the line
reader hands to the tokenizer the text before the first '#' without the white
space around it: for a line `body # comment` with no '#' in `body` and `body`
not blank, the buffer is `trim body`. (3) A physical line that holds only
white space and/or a comment yields no token: the tokenizer and the driver
pass over it and go on as from the state in which the line counter and the
last line record it and the buffer, in which the line was trimmed and cut, is
empty. (4) A file that holds only such lines parses to a normal return with
nothing written, nothing logged and the error latch clear. -/
theorem C12_comments_and_blank_lines (env : environment) :
    (∀ (m : machine) (rest : istream), m.members.m_token_state = 0 →
      m.current.in_stream = "key = value # trailing comment".toList :: rest →
      (process_statement env m).outcome = .unfinished ∧
      (process_statement env m).state.m_config_block = m.members.m_config_block ++
        [(m.members.m_current_context ++ "key".toList,
          env.expand_token m.members.m_config_block m.members.m_symtab "value".toList)] ∧
      (process_statement env m).state.m_symtab = m.members.m_symtab ∧
      (process_statement env m).state.m_parse_error = m.members.m_parse_error ∧
      (process_statement env m).state.m_logger = m.members.m_logger ∧
      (process_statement env m).machine.current.in_stream = rest) ∧
    (∀ (p : priv) (body comment : std_string) (rest : istream), '#' ∉ body → trim body ≠ [] →
      get_line p ((body ++ '#' :: comment) :: rest) =
        (true, { p with m_line_number := p.m_line_number + 1,
                        m_last_line := body ++ '#' :: comment,
                        m_token_line := trim body }, rest)) ∧
    (∀ (m : machine) (raw : std_string) (rest : istream), m.members.m_token_state = 0 →
      m.current.in_stream = raw :: rest → blank_or_comment raw →
      get_token m.members (raw :: rest) =
        get_token { m.members with m_line_number := m.members.m_line_number + 1,
                                   m_last_line := raw, m_token_line := [] } rest ∧
      process_statement env m =
        process_statement env
          ⟨{ m.members with m_line_number := m.members.m_line_number + 1, m_last_line := raw,
                            m_token_line := [] },
            { m.current with in_stream := rest }, m.callers⟩) ∧
    (∀ (path : std_string) (lines : istream) (k : Nat), env.ifstream path = some lines →
      (∀ l ∈ lines, blank_or_comment l) →
      (parse_config env (k + 1) path).outcome = .normal ∧
      (parse_config env (k + 1) path).state.m_config_block = [] ∧
      (parse_config env (k + 1) path).state.m_symtab = [] ∧
      (parse_config env (k + 1) path).state.m_parse_error = false ∧
      (parse_config env (k + 1) path).state.m_logger = [] ∧
      (parse_config env (k + 1) path).state.m_line_number = lines.length) := by
  refine ⟨?_, ?_, ?_, ?_⟩
  · intro m rest h0 hstream
    have hline : (read_tokens 3 priv_new ["key = value # trailing comment".toList]).1 =
        [⟨.TK_LHS, "key".toList⟩, ⟨.TK_ASSIGN, op_assign⟩, ⟨.TK_RHS, "value".toList⟩] := by
      decide
    obtain ⟨htok, hrest⟩ := assignment_tokens_of_line hline m.members h0 rest
    rw [← hstream] at htok hrest
    obtain ⟨p1, s1, p2, s2, p3, s3, h1, h2, h3, he⟩ := read_tokens_three htok
    rw [he] at hrest
    simp only [] at hrest
    subst hrest
    have hs : same_session m.members p3 :=
      same_session_trans (same_session_trans (get_token_session h1) (get_token_session h2))
        (get_token_session h3)
    rw [process_statement_entry env m _ op_assign _ p1 p2 p3 s1 s2 s3 h1 h2 h3 (by decide)]
    obtain ⟨_, c2, _, c4, c5, c6, c7⟩ := hs
    have hne : op_assign ≠ op_define := by decide
    simp [process_entry, hne, c2, c4, c5, c6, c7, status.outcome, status.state, status.machine]
  · intro p body comment rest hb hne
    have hn := norm_line_comment body comment hb
    have h := get_line_skip p [] (body ++ '#' :: comment) rest (by simp) (by rw [hn]; exact hne)
    rw [hn] at h
    simpa using h
  · intro m raw rest h0 hstream hblank
    have hn := norm_line_blank hblank
    have hg := get_token_blank m.members h0 raw rest hn
    refine ⟨hg, ?_⟩
    simp only [process_statement]
    rw [hstream, hg]
    rfl
  · intro path lines k hopen hblank
    have hall : ∀ l ∈ lines, norm_line l = [] := fun l hl => norm_line_blank (hblank l hl)
    obtain ⟨p0, hp0⟩ : ∃ p0 : priv, p0 = { priv_new with m_file_count := 1 } := ⟨_, rfl⟩
    have f0 : p0.m_token_state = 0 := by rw [hp0]; rfl
    have f1 : p0.m_block_stack = [] := by rw [hp0]; rfl
    have f3 : p0.m_file_count = 1 := by rw [hp0]
    have f4 : p0.m_parse_error = false := by rw [hp0]; rfl
    have f5 : p0.m_symtab = [] := by rw [hp0]; rfl
    have f6 : p0.m_config_block = [] := by rw [hp0]; rfl
    have f7 : p0.m_logger = [] := by rw [hp0]; rfl
    have f8 : p0.m_line_number = 0 := by rw [hp0]; rfl
    have henter : process_file_enter env priv_new path [] =
        .running ⟨p0, ⟨path, env.parent_path path, lines⟩, []⟩ := by
      rw [hp0]
      simp [process_file_enter, hopen, priv_new]
    obtain ⟨q, hq, hs, hq0, hqn⟩ := get_token_all_blank lines p0 f0 hall
    obtain ⟨c1, _, c3, c4, c5, c6, c7⟩ := hs
    rw [f1] at c1
    rw [f3] at c3
    rw [f4] at c4
    rw [f5] at c5
    rw [f6] at c6
    rw [f7] at c7
    rw [f8] at hqn
    have hstep : parse_config env 1 path = .returned { q with m_file_count := q.m_file_count - 1 } := by
      show run env 1 (process_file_enter env priv_new path []) = _
      rw [henter]
      simp only [run, step, process_statement, hq]
      exact process_eof_clean q path [] c3 c1 c4
    have hrun : parse_config env (k + 1) path = parse_config env 1 path := by
      have := run_finished env 1 k (process_file_enter env priv_new path [])
        (by
          show (parse_config env 1 path).outcome ≠ _
          rw [hstep]
          intro hc; cases hc)
      rw [Nat.add_comm k 1]
      exact this
    rw [hrun, hstep]
    simp only [status.outcome, status.state]
    refine ⟨trivial, c6, c5, c4, c7, ?_⟩
    rw [hqn]
    simp

theorem C12_comments_and_blank_lines_witness :
    (parse_config (env_one_file ["  # settings", "", "key = value # trailing comment"]) 1
      "a.cfg".toList).state.m_config_block = [("key".toList, "value".toList)] ∧
    (parse_config (env_one_file ["# only a comment", "   ", "\t# another"]) 1
      "a.cfg".toList).outcome = .normal := by
  have h := C12_comments_and_blank_lines (env_one_file ["# only a comment", "   ", "\t# another"])
  exact ⟨by decide,
    (h.2.2.2 "a.cfg".toList ["# only a comment".toList, "   ".toList, "\t# another".toList] 0 rfl
      (by decide)).1⟩

/-- C13 (amended): a statement that tokenizes as LHS `name`, ASSIGN ":=", RHS `v`,
where `name` is none of the directive words, adds the entry
`( name, expand( v ) )` to the symbol table, `v` being expanded with the
configuration block and the symbol table as they are at that statement. The
entry name is the bare LHS text, whatever the current context is. The loop
continues, and the configuration block, the context, the block stack, the error
latch and the log are as before. -/
theorem C13_symbol_definition (env : environment) (m : machine) (name v : std_string)
    (htok : (read_tokens 3 m.members m.current.in_stream).1 =
      [⟨.TK_LHS, name⟩, ⟨.TK_ASSIGN, op_define⟩, ⟨.TK_RHS, v⟩])
    (hk : ¬ is_directive name) :
    process_statement env m =
      .running ⟨{ (read_tokens 3 m.members m.current.in_stream).2.1 with
          m_symtab := m.members.m_symtab ++
            [(name, env.expand_token m.members.m_config_block m.members.m_symtab v)] },
        { m.current with in_stream := (read_tokens 3 m.members m.current.in_stream).2.2 },
        m.callers⟩ ∧
    (process_statement env m).state.m_symtab = m.members.m_symtab ++
      [(name, env.expand_token m.members.m_config_block m.members.m_symtab v)] ∧
    (process_statement env m).state.m_config_block = m.members.m_config_block ∧
    (process_statement env m).state.m_current_context = m.members.m_current_context ∧
    (process_statement env m).state.m_block_stack = m.members.m_block_stack ∧
    (process_statement env m).state.m_parse_error = m.members.m_parse_error ∧
    (process_statement env m).state.m_logger = m.members.m_logger := by
  obtain ⟨p1, s1, p2, s2, p3, s3, h1, h2, h3, he⟩ := read_tokens_three htok
  have hs : same_session m.members p3 :=
    same_session_trans (same_session_trans (get_token_session h1) (get_token_session h2))
      (get_token_session h3)
  rw [process_statement_entry env m name op_define v p1 p2 p3 s1 s2 s3 h1 h2 h3 hk, he]
  obtain ⟨c1, c2, _, c4, c5, c6, c7⟩ := hs
  simp [process_entry, c1, c2, c4, c5, c6, c7, status.state]

/-- C13 as stated fails for a name that is a directive word: the line
`block := 5` tokenizes as LHS "block", ASSIGN ":=", RHS "5", yet the driver takes
the `block` branch, latches a syntax error and adds nothing to the symbol
table. -/
theorem C13_counterexample :
    (read_tokens 3 (machine_at_start ["block := 5"]).members
        (machine_at_start ["block := 5"]).current.in_stream).1 =
      [⟨.TK_LHS, "block".toList⟩, ⟨.TK_ASSIGN, ":=".toList⟩, ⟨.TK_RHS, "5".toList⟩] ∧
    (process_statement (env_one_file ["block := 5"]) (machine_at_start ["block := 5"])).state.m_symtab
      = [] ∧
    (process_statement (env_one_file ["block := 5"])
      (machine_at_start ["block := 5"])).state.m_parse_error = true := by
  decide

theorem C13_symbol_definition_witness :
    (parse_config (env_one_file ["block a", "x := 5"]) 2 "a.cfg".toList).state.m_symtab =
      [("x".toList, "5".toList)] ∧
    (parse_config (env_one_file ["block a", "x := 5"]) 2 "a.cfg".toList).state.m_config_block =
      [] := by
  have h := C13_symbol_definition (env_one_file ["block a", "x := 5"])
    (parse_config (env_one_file ["block a", "x := 5"]) 1 "a.cfg".toList).machine
    "x".toList "5".toList (by decide) (by decide)
  exact ⟨h.2.1, h.2.2.1⟩

/-- C14: symbol definitions are last-write-wins, with the symbol table read as
a map (`symtab_lookup`). After a statement `x := v` (tokens LHS `x`, ASSIGN ":=",
RHS `v`, with `x` no directive word) the value of `x` is `expand( v )`, whatever
entries for `x` the table held before, and the values of the other names are
as before. From then on the table only grows: however far the parse runs,
the value of `x` stays `expand( v )` as long as no entry for `x` is added; and
at every later assignment the expander is given the symbol table as it is at
that statement. Applied to a later `x := w`, the first part says that the
value is then `expand( w )` and the earlier one is no longer looked up. -/
theorem C14_symbol_last_write_wins (env : environment) (m : machine) (x v : std_string)
    (htok : (read_tokens 3 m.members m.current.in_stream).1 =
      [⟨.TK_LHS, x⟩, ⟨.TK_ASSIGN, op_define⟩, ⟨.TK_RHS, v⟩])
    (hx : ¬ is_directive x) :
    symtab_lookup (process_statement env m).state.m_symtab x =
      some (env.expand_token m.members.m_config_block m.members.m_symtab v) ∧
    (∀ y, y ≠ x → symtab_lookup (process_statement env m).state.m_symtab y =
      symtab_lookup m.members.m_symtab y) ∧
    (∀ n, ∃ added,
      (run env n (process_statement env m)).state.m_symtab =
        (process_statement env m).state.m_symtab ++ added ∧
      ((∀ e ∈ added, e.1 ≠ x) →
        symtab_lookup (run env n (process_statement env m)).state.m_symtab x =
          some (env.expand_token m.members.m_config_block m.members.m_symtab v))) ∧
    (∀ n m2 k rhs, run env n (process_statement env m) = .running m2 →
      (read_tokens 3 m2.members m2.current.in_stream).1 =
        [⟨.TK_LHS, k⟩, ⟨.TK_ASSIGN, op_assign⟩, ⟨.TK_RHS, rhs⟩] → ¬ is_directive k →
      (process_statement env m2).state.m_config_block = m2.members.m_config_block ++
        [(m2.members.m_current_context ++ k,
          env.expand_token m2.members.m_config_block m2.members.m_symtab rhs)]) := by
  obtain ⟨p1, s1, p2, s2, p3, s3, h1, h2, h3, he⟩ := read_tokens_three htok
  have hs : same_session m.members p3 :=
    same_session_trans (same_session_trans (get_token_session h1) (get_token_session h2))
      (get_token_session h3)
  have hsym : (process_statement env m).state.m_symtab = m.members.m_symtab ++
      [(x, env.expand_token m.members.m_config_block m.members.m_symtab v)] := by
    rw [process_statement_entry env m x op_define v p1 p2 p3 s1 s2 s3 h1 h2 h3 hx]
    obtain ⟨_, _, _, _, c5, c6, _⟩ := hs
    simp [process_entry, c5, c6, status.state]
  have hlook : symtab_lookup (process_statement env m).state.m_symtab x =
      some (env.expand_token m.members.m_config_block m.members.m_symtab v) := by
    rw [hsym, symtab_lookup_append, if_pos rfl]
  refine ⟨hlook, ?_, ?_, ?_⟩
  · intro y hy
    rw [hsym, symtab_lookup_append, if_neg (fun h => hy h.symm)]
  · intro n
    obtain ⟨added, ha⟩ := symtab_grows_run env n (process_statement env m)
    refine ⟨added, ha, fun hno => ?_⟩
    rw [ha, symtab_lookup_append_other _ _ _ hno, hlook]
  · intro n m2 k rhs _ htok2 hk
    obtain ⟨m3, hs3, hc, _⟩ := entry_step env m2 k rhs htok2 hk
    rw [hs3]
    exact hc

theorem C14_symbol_last_write_wins_witness :
    symtab_lookup (parse_config (env_one_file ["x := 5", "a = 1", "x := 6"]) 1
      "a.cfg".toList).state.m_symtab "x".toList = some "5".toList ∧
    symtab_lookup (parse_config (env_one_file ["x := 5", "a = 1", "x := 6"]) 2
      "a.cfg".toList).state.m_symtab "x".toList = some "5".toList ∧
    symtab_lookup (parse_config (env_one_file ["x := 5", "a = 1", "x := 6"]) 3
      "a.cfg".toList).state.m_symtab "x".toList = some "6".toList := by
  have h := C14_symbol_last_write_wins (env_one_file ["x := 5", "a = 1", "x := 6"])
    (parse_config (env_one_file ["x := 5", "a = 1", "x := 6"]) 0 "a.cfg".toList).machine
    "x".toList "5".toList (by decide) (by decide)
  have h6 := C14_symbol_last_write_wins (env_one_file ["x := 5", "a = 1", "x := 6"])
    (parse_config (env_one_file ["x := 5", "a = 1", "x := 6"]) 2 "a.cfg".toList).machine
    "x".toList "6".toList (by decide) (by decide)
  exact ⟨h.1, by decide, h6.1⟩

/-- C15: an `include` statement in a parse by a new parser. The statement stands
on the line `raw`, whose text is the word `include`, a space or a tab, and `r`;
the path `P` is `r` without its leading white space. The file that is processed
is `target`: `P` itself if `P` is absolute, and otherwise `D / P`, where `D` is
the parent path of the running file. If `target` cannot be opened,
`config_file_not_found_exception` is raised for it; otherwise the loop goes on
in an activation for `target`, with the lines of `target` as its stream, and the
including activation is suspended behind it. -/
theorem C15_include_resolves_against_the_including_file (env : environment) (fuel : Nat)
    (path : std_string) (m : machine) (skipped : istream) (raw : std_string) (rest : istream)
    (d : Char) (r target : std_string)
    (hreach : parse_config env fuel path = .running m)
    (hstream : m.current.in_stream = skipped ++ raw :: rest)
    (hskip : ∀ l ∈ skipped, norm_line l = [])
    (hraw : norm_line raw = kw_include ++ d :: r) (hd : d = ' ' ∨ d = '\t')
    (htarget : target = if env.is_absolute (ltrim r) then ltrim r
      else env.path_append (env.parent_path m.current.file_path) (ltrim r)) :
    (env.ifstream target = none →
      (process_statement env m).outcome = .raised (.config_file_not_found target)) ∧
    (∀ lines, env.ifstream target = some lines →
      (process_statement env m).outcome = .unfinished ∧
      (process_statement env m).machine.current = ⟨target, env.parent_path target, lines⟩ ∧
      (process_statement env m).machine.callers =
        ({ m.current with in_stream := rest }, m.members.m_line_number + skipped.length + 1) ::
          m.callers) := by
  have hinv := status_inv_parse_config env fuel path
  have hdir := dirs_inv_parse_config env fuel path
  rw [hreach] at hinv hdir
  obtain ⟨q, _, hstep⟩ := include_step env m hinv.2.2.2.1 skipped raw rest d r hstream hskip hraw hd
  rw [hdir.1, ← htarget] at hstep
  rw [hstep]
  refine ⟨fun hnone => ?_, fun lines hsome => ?_⟩
  · simp [process_file_enter, hnone, status.outcome]
  · simp [process_file_enter, hsome, status.outcome, status.machine]

theorem C15_include_resolves_against_the_including_file_witness :
    (parse_config (env_files [("/a/b/c.cfg", ["include relative/path.cfg", "include /etc/x.cfg"]),
        ("/a/b/relative/path.cfg", ["k = v"]), ("/etc/x.cfg", [])]) 1
      "/a/b/c.cfg".toList).machine.current.file_path = "/a/b/relative/path.cfg".toList ∧
    (parse_config (env_files [("/a/b/c.cfg", ["include relative/path.cfg", "include /etc/x.cfg"]),
        ("/a/b/relative/path.cfg", ["k = v"]), ("/etc/x.cfg", [])]) 4
      "/a/b/c.cfg".toList).machine.current.file_path = "/etc/x.cfg".toList := by
  have h := (C15_include_resolves_against_the_including_file
    (env_files [("/a/b/c.cfg", ["include relative/path.cfg", "include /etc/x.cfg"]),
        ("/a/b/relative/path.cfg", ["k = v"]), ("/etc/x.cfg", [])]) 0 "/a/b/c.cfg".toList
    (parse_config (env_files [("/a/b/c.cfg", ["include relative/path.cfg", "include /etc/x.cfg"]),
        ("/a/b/relative/path.cfg", ["k = v"]), ("/etc/x.cfg", [])]) 0 "/a/b/c.cfg".toList).machine
    [] "include relative/path.cfg".toList ["include /etc/x.cfg".toList] ' '
    "relative/path.cfg".toList "/a/b/relative/path.cfg".toList
    (by decide) (by decide) (by decide) (by decide) (by decide) (by decide)).2
    ["k = v".toList] (by decide)
  exact ⟨by decide, by decide⟩

/-- C16: the line number of the including file is restored. In a parse by a new
parser let the `include` statement stand on the line `raw` of the running file,
after blank and comment-only lines `skipped`; this is physical line
`n = m_line_number + skipped.length + 1` of that file. Let the included file be
entered and processed in the iterations 1 to `k + 1` (during which more
activations are suspended than before, whatever the included file holds and
includes itself), and let iteration `k + 2` return into the including file.
Then `m_line_number` is `n` again, the running activation is the including one
with the lines after `raw` as its stream, and the suspended callers are as
before; so the next line that the line reader returns is numbered `n + 1`. -/
theorem C16_include_restores_line_number (env : environment) (fuel : Nat) (path : std_string)
    (m : machine) (skipped : istream) (raw : std_string) (rest : istream) (d : Char)
    (r : std_string) (k : Nat)
    (hreach : parse_config env fuel path = .running m)
    (hstream : m.current.in_stream = skipped ++ raw :: rest)
    (hskip : ∀ l ∈ skipped, norm_line l = [])
    (hraw : norm_line raw = kw_include ++ d :: r) (hd : d = ' ' ∨ d = '\t')
    (hin : ∀ i, 1 ≤ i → i ≤ k + 1 → (run env i (.running m)).outcome = .unfinished ∧
      m.callers.length < (run env i (.running m)).machine.callers.length)
    (hrun : (run env (k + 2) (.running m)).outcome = .unfinished)
    (hback : (run env (k + 2) (.running m)).machine.callers.length = m.callers.length) :
    (∃ before, env.ifstream m.current.file_path = some (before ++ skipped ++ raw :: rest) ∧
      (before.length : Int) = m.members.m_line_number) ∧
    (run env (k + 2) (.running m)).state.m_line_number =
      m.members.m_line_number + skipped.length + 1 ∧
    (run env (k + 2) (.running m)).machine.current = { m.current with in_stream := rest } ∧
    (run env (k + 2) (.running m)).machine.callers = m.callers ∧
    (∀ raw2 rest2, rest = raw2 :: rest2 → norm_line raw2 ≠ [] →
      (get_line (run env (k + 2) (.running m)).state rest).1 = true ∧
      (get_line (run env (k + 2) (.running m)).state rest).2.1.m_line_number =
        m.members.m_line_number + skipped.length + 2 ∧
      (get_line (run env (k + 2) (.running m)).state rest).2.1.m_last_line = raw2 ∧
      (get_line (run env (k + 2) (.running m)).state rest).2.2 = rest2) := by
  obtain ⟨hinv, hlines⟩ := invariants_parse_config env fuel path
  rw [hreach] at hinv hlines
  obtain ⟨consumed, hfile, hcount⟩ := hlines.1
  obtain ⟨q, _, hstep⟩ := include_step env m hinv.2.2.2.1 skipped raw rest d r hstream hskip hraw hd
  obtain ⟨h1, _⟩ := hin 1 (by omega) (by omega)
  have hrun1 : run env 1 (.running m) = process_statement env m := rfl
  rw [hrun1] at h1
  have hm1 : (process_statement env m).machine.callers =
      ({ m.current with in_stream := rest }, m.members.m_line_number + skipped.length + 1) ::
        m.callers := by
    rw [hstep] at h1 ⊢
    unfold process_file_enter at h1 ⊢
    simp only [] at h1 ⊢
    split
    · rename_i hnone
      rw [hnone] at h1
      cases h1
    · rfl
  have hin1 : ∀ i, i ≤ k →
      (run env i (.running (process_statement env m).machine)).outcome = .unfinished ∧
      m.callers.length <
        (run env i (.running (process_statement env m).machine)).machine.callers.length := by
    intro i hi
    rw [← run_shift env m h1 i]
    exact hin (i + 1) (by omega) (by omega)
  have hshift := run_shift env m h1 (k + 1)
  rw [show k + 1 + 1 = k + 2 from rfl] at hshift
  rw [hshift] at hrun hback ⊢
  obtain ⟨r1, r2, r3⟩ := suspended_caller_resumes env _ _ m.callers k hm1 hin1 hrun hback
  refine ⟨⟨consumed, ?_, hcount⟩, r2, r1, r3, ?_⟩
  · rw [hfile, hstream, List.append_assoc]
  · intro raw2 rest2 hrest hne
    have hg := get_line_skip (run env (k + 1) (.running (process_statement env m).machine)).state
      [] raw2 rest2 (by simp) hne
    simp only [List.nil_append, List.length_nil, Nat.cast_zero, add_zero] at hg
    rw [hrest, hg]
    refine ⟨rfl, ?_, rfl, rfl⟩
    simp only []
    rw [r2]
    omega

theorem C16_include_restores_line_number_witness :
    (parse_config (env_files [("/a/b/c.cfg", ["x = 1", "", "include inc.cfg", "oops"]),
        ("/a/b/inc.cfg", ["a = 1", "b = 2", "c = 3", "d = 4", "e = 5"])]) 8
      "/a/b/c.cfg".toList).state.m_line_number = 3 ∧
    (parse_config (env_files [("/a/b/c.cfg", ["x = 1", "", "include inc.cfg", "oops"]),
        ("/a/b/inc.cfg", ["a = 1", "b = 2", "c = 3", "d = 4", "e = 5"])]) 9
      "/a/b/c.cfg".toList).state.m_logger =
      [.invalid_line "oops".toList "/a/b/c.cfg".toList 4] := by
  have h := (C16_include_restores_line_number
    (env_files [("/a/b/c.cfg", ["x = 1", "", "include inc.cfg", "oops"]),
        ("/a/b/inc.cfg", ["a = 1", "b = 2", "c = 3", "d = 4", "e = 5"])]) 1 "/a/b/c.cfg".toList
    (parse_config (env_files [("/a/b/c.cfg", ["x = 1", "", "include inc.cfg", "oops"]),
        ("/a/b/inc.cfg", ["a = 1", "b = 2", "c = 3", "d = 4", "e = 5"])]) 1
      "/a/b/c.cfg".toList).machine
    ["".toList] "include inc.cfg".toList ["oops".toList] ' ' "inc.cfg".toList 5
    (by decide) (by decide) (by decide) (by decide) (by decide)
    (by
      intro i h1 h2
      have hi : i = 1 ∨ i = 2 ∨ i = 3 ∨ i = 4 ∨ i = 5 ∨ i = 6 := by omega
      rcases hi with rfl | rfl | rfl | rfl | rfl | rfl <;> decide)
    (by decide) (by decide)).2.1
  exact ⟨by decide, by decide⟩

/-- C17 (code defect): the `relativepath` modifier does not work for every key.
In the file `/x/y/cfg.txt` the line `relativepath img = photo.png` stores
`/x/y/photo.png` under `img`, and `img = photo.png` stores `photo.png`: the
directory is put in front of the expanded value (`relativepath_line_value`
proves this for every key that starts with an alphanumeric character, and
`relativepath_prepends_the_directory` for every statement that tokenizes as
the modifier, a key, "=" and a value). But the key `_img`, which is accepted
without the modifier, is rejected with it: for `relativepath _img = photo.png`
the tokenizer goes to the operator state after the word `relativepath`
(source lines 505-513), the third token is RHS `= photo.png` where the driver
expects ASSIGN (source line 327), a syntax error is latched, nothing is
stored under `_img`, and the parse ends with "Errors in config file". -/
theorem C17_relativepath_value_and_the_rejected_key :
    (parse_config (env_files [("/x/y/cfg.txt", ["relativepath img = photo.png"])]) 1
      "/x/y/cfg.txt".toList).state.m_config_block =
        [("img".toList, "/x/y/photo.png".toList)] ∧
    (parse_config (env_files [("/x/y/cfg.txt", ["img = photo.png"])]) 1
      "/x/y/cfg.txt".toList).state.m_config_block = [("img".toList, "photo.png".toList)] ∧
    (parse_config (env_files [("/x/y/cfg.txt", ["_img = photo.png"])]) 1
      "/x/y/cfg.txt".toList).state.m_config_block = [("_img".toList, "photo.png".toList)] ∧
    (parse_config (env_files [("/x/y/cfg.txt", ["_img = photo.png"])]) 2
      "/x/y/cfg.txt".toList).outcome = .normal ∧
    (read_tokens 4 priv_new ["relativepath _img = photo.png".toList]).1 =
      [⟨.TK_LHS, "relativepath".toList⟩, ⟨.TK_LHS, "_img".toList⟩,
        ⟨.TK_RHS, "= photo.png".toList⟩, ⟨.TK_EOF, []⟩] ∧
    (parse_config (env_files [("/x/y/cfg.txt", ["relativepath _img = photo.png"])]) 1
      "/x/y/cfg.txt".toList).state.m_config_block = [] ∧
    (parse_config (env_files [("/x/y/cfg.txt", ["relativepath _img = photo.png"])]) 1
      "/x/y/cfg.txt".toList).state.m_parse_error = true ∧
    (parse_config (env_files [("/x/y/cfg.txt", ["relativepath _img = photo.png"])]) 1
      "/x/y/cfg.txt".toList).state.m_logger =
        [.invalid_line "relativepath _img = photo.png".toList "/x/y/cfg.txt".toList 1] ∧
    (parse_config (env_files [("/x/y/cfg.txt", ["relativepath _img = photo.png"])]) 2
      "/x/y/cfg.txt".toList).outcome =
        .raised (.config_file_not_parsed "/x/y/cfg.txt".toList .errors_in_config_file) ∧
    (parse_config (env_files [("/x/y/cfg.txt", ["relativepath _img = photo.png"])]) 2
      "/x/y/cfg.txt".toList).state.m_config_block = [] := by
  decide

/-- C18: where a syntax error is reported, in a parse by a new parser. (1) At
every point of the parse, every "Invalid syntax" message in the log names a
file that can be opened and a line number `n`, counted from 1, and carries the
raw text of line `n` of that file. (2) A loop iteration that continues the loop
and has changed the log has appended exactly one such message: the statement
began on the physical line `raw` of the running file, after blank and
comment-only lines `skipped`; no further line was read before the error was
found (the stream is left at the line after `raw`); the message carries `raw`,
the running file and the number of `raw`; and `m_last_line` and `m_line_number`
are those of `raw` when the error is latched. -/
theorem C18_syntax_errors_name_file_line_and_text (env : environment) (fuel : Nat)
    (path : std_string) :
    (∀ l f n, log_entry.invalid_line l f n ∈ (parse_config env fuel path).state.m_logger →
      ∃ lines, env.ifstream f = some lines ∧ 1 ≤ n ∧ lines[(n - 1).toNat]? = some l) ∧
    (∀ m m1, parse_config env fuel path = .running m → process_statement env m = .running m1 →
      m1.members.m_logger ≠ m.members.m_logger →
      ∃ skipped raw lines,
        m.current.in_stream = skipped ++ raw :: m1.current.in_stream ∧
        (∀ l ∈ skipped, norm_line l = []) ∧ norm_line raw ≠ [] ∧
        m1.members.m_logger = m.members.m_logger ++
          [.invalid_line raw m.current.file_path (m.members.m_line_number + skipped.length + 1)] ∧
        m1.members.m_parse_error = true ∧
        m1.members.m_line_number = m.members.m_line_number + skipped.length + 1 ∧
        m1.members.m_last_line = raw ∧
        env.ifstream m.current.file_path = some lines ∧
        1 ≤ m.members.m_line_number + skipped.length + 1 ∧
        lines[(m.members.m_line_number + skipped.length + 1 - 1).toNat]? = some raw) := by
  refine ⟨log_located_parse_config env fuel path, ?_⟩
  intro m m1 hreach hstep hlog
  obtain ⟨hinv, hlines⟩ := invariants_parse_config env fuel path
  rw [hreach] at hinv hlines
  have h := process_statement_log env m hinv.2.2.2.1
  rw [hstep] at h
  rcases h with h | ⟨es, h⟩ | ⟨m2, skipped, raw, h, b1, b2, b3, b4, b5, b6, b7⟩
  · exact absurd h hlog
  · exfalso
    have hinv1 := status_inv_step env path _ (by
      have := status_inv_parse_config env fuel path
      rw [hreach] at this
      exact this)
    simp only [step, hstep] at hinv1
    obtain ⟨l, f, n, he⟩ := hinv1.2.1.2 (.unclosed_blocks es) (by
      simp only [status.state] at h
      rw [h]
      simp)
    cases he
  · simp only [status.running.injEq] at h
    subst h
    obtain ⟨lines, c1, c2, c3⟩ := statement_line_index hlines b1
    exact ⟨skipped, raw, lines, b1, b2, b3, b4, b5, b6, b7, c1, c2, c3⟩

theorem C18_syntax_errors_name_file_line_and_text_witness :
    (parse_config (env_files [("/a/b/c.cfg", ["", "include inc.cfg", "  oops  # here"]),
        ("/a/b/inc.cfg", ["a = 1", "b = 2", "c"])]) 7 "/a/b/c.cfg".toList).state.m_logger =
      [.invalid_line "c".toList "/a/b/inc.cfg".toList 3,
        .invalid_line "  oops  # here".toList "/a/b/c.cfg".toList 3] := by
  obtain ⟨skipped, raw, lines, _, _, _, h4, _⟩ := (C18_syntax_errors_name_file_line_and_text
    (env_files [("/a/b/c.cfg", ["", "include inc.cfg", "  oops  # here"]),
        ("/a/b/inc.cfg", ["a = 1", "b = 2", "c"])]) 5 "/a/b/c.cfg".toList).2
    (parse_config (env_files [("/a/b/c.cfg", ["", "include inc.cfg", "  oops  # here"]),
        ("/a/b/inc.cfg", ["a = 1", "b = 2", "c"])]) 5 "/a/b/c.cfg".toList).machine
    (parse_config (env_files [("/a/b/c.cfg", ["", "include inc.cfg", "  oops  # here"]),
        ("/a/b/inc.cfg", ["a = 1", "b = 2", "c"])]) 6 "/a/b/c.cfg".toList).machine
    (by decide) (by decide) (by decide)
  decide

/-- C19 (amended): the member data of the parser are created by the constructor
and kept between invocations; `process_file` resets the tokenizer and the line
number only. (1) After a `parse_config` of a new parser that returned normally,
the context and the block stack are empty, the error latch is clear and the
file count is 0, and a further invocation, on any input, proceeds exactly as
on a new parser that already holds the configuration block and the symbol
table of the first one. (2) After a `parse_config` of a new parser that raised
"Errors in config file", the block stack is empty and the file count is 0 but
the error latch is still set; it stays set in the next invocation on that
parser, and that invocation does not return normally, whatever its input. (A
later one can: see `latch_test_skipped_after_unmatched_endblock`.) -/
theorem C19_state_kept_between_invocations (env : environment) (fuel : Nat) (path : std_string) :
    ((parse_config env fuel path).outcome = .normal →
      (parse_config env fuel path).state.m_current_context = [] ∧
      (parse_config env fuel path).state.m_block_stack = [] ∧
      (parse_config env fuel path).state.m_parse_error = false ∧
      (parse_config env fuel path).state.m_file_count = 0 ∧
      ∀ env2 fuel2 path2,
        parse_config_again env2 fuel2 (parse_config env fuel path).state path2 =
          parse_config_again env2 fuel2
            { priv_new with
              m_symtab := (parse_config env fuel path).state.m_symtab
              m_config_block := (parse_config env fuel path).state.m_config_block
              m_last_line := (parse_config env fuel path).state.m_last_line } path2) ∧
    ((parse_config env fuel path).outcome =
        .raised (.config_file_not_parsed path .errors_in_config_file) →
      (parse_config env fuel path).state.m_block_stack = [] ∧
      (parse_config env fuel path).state.m_file_count = 0 ∧
      (parse_config env fuel path).state.m_parse_error = true ∧
      ∀ env2 fuel2 path2,
        (parse_config_again env2 fuel2 (parse_config env fuel path).state path2).outcome ≠
          .normal ∧
        (parse_config_again env2 fuel2
          (parse_config env fuel path).state path2).state.m_parse_error = true) := by
  have hinv := status_inv_parse_config env fuel path
  refine ⟨?_, ?_⟩
  · intro hnormal
    cases hs : parse_config env fuel path with
    | running m => rw [hs] at hnormal; cases hnormal
    | thrown e p => rw [hs] at hnormal; cases hnormal
    | returned p =>
      rw [hs] at hinv
      obtain ⟨hctx, hlog, hpe, hst, hcount⟩ := hinv
      have hc : p.m_current_context = [] := by rw [hctx.1, hst]; rfl
      refine ⟨hc, hst, hpe, hcount, ?_⟩
      intro env2 fuel2 path2
      simp only [status.state]
      unfold parse_config_again process_file
      congr 1
      unfold process_file_enter
      cases p
      simp only [] at hc hlog hpe hst hcount
      subst hc hlog hpe hst hcount
      rfl
  · intro hraised
    cases hs : parse_config env fuel path with
    | running m => rw [hs] at hraised; cases hraised
    | returned p => rw [hs] at hraised; cases hraised
    | thrown e p =>
      rw [hs] at hinv hraised
      have he : e = .config_file_not_parsed path .errors_in_config_file := by
        simpa [status.outcome] using hraised
      obtain ⟨_, _, hpe, hst, hcount⟩ := hinv.1 path he
      refine ⟨hst, hcount, hpe, ?_⟩
      intro env2 fuel2 path2
      have hl := latched_parser_never_returns env2 fuel2 p path2 hpe hcount
      simp only [status.state]
      cases h2 : parse_config_again env2 fuel2 p path2 with
      | running m2 =>
        rw [h2] at hl
        exact ⟨by simp [status.outcome], hl.2⟩
      | returned p2 => rw [h2] at hl; exact hl.elim
      | thrown e2 p2 =>
        rw [h2] at hl
        exact ⟨by simp [status.outcome], hl⟩

/-- C19 as stated fails. A parser whose first `parse_config` raised "Errors in
config file" for an unclosed `block X` keeps the context `X:` and the set
latch: a further invocation on the error-free input `k = v`, which a new parser
parses with success, stores the key as `X:k` and raises again. A parser whose
first invocation raised for an `endblock` without a block keeps the file count
1. -/
theorem C19_counterexample :
    (parse_config (env_one_file ["block X"]) 2 "a.cfg".toList).outcome =
      .raised (.config_file_not_parsed "a.cfg".toList .errors_in_config_file) ∧
    (parse_config (env_one_file ["block X"]) 2 "a.cfg".toList).state.m_current_context =
      "X:".toList ∧
    (parse_config (env_one_file ["block X"]) 2 "a.cfg".toList).state.m_parse_error = true ∧
    (parse_config (env_one_file ["k = v"]) 2 "a.cfg".toList).outcome = .normal ∧
    (parse_config (env_one_file ["k = v"]) 2 "a.cfg".toList).state.m_config_block =
      [("k".toList, "v".toList)] ∧
    (parse_config_again (env_one_file ["k = v"]) 2
      (parse_config (env_one_file ["block X"]) 2 "a.cfg".toList).state "a.cfg".toList).outcome =
      .raised (.config_file_not_parsed "a.cfg".toList .errors_in_config_file) ∧
    (parse_config_again (env_one_file ["k = v"]) 2
      (parse_config (env_one_file ["block X"]) 2
        "a.cfg".toList).state "a.cfg".toList).state.m_config_block =
      [("X:k".toList, "v".toList)] ∧
    (parse_config (env_one_file ["endblock"]) 1 "a.cfg".toList).outcome =
      .raised (.config_file_not_parsed "a.cfg".toList
        (.endblock_without_block "a.cfg".toList 1)) ∧
    (parse_config (env_one_file ["endblock"]) 1 "a.cfg".toList).state.m_file_count = 1 := by
  decide

theorem C19_state_kept_between_invocations_witness :
    (parse_config_again (env_one_file ["b = 2"]) 2
      (parse_config (env_one_file ["a = 1"]) 2 "a.cfg".toList).state "a.cfg".toList).outcome =
      .normal ∧
    (parse_config_again (env_one_file ["b = 2"]) 2
      (parse_config (env_one_file ["a = 1"]) 2
        "a.cfg".toList).state "a.cfg".toList).state.m_config_block =
      [("a".toList, "1".toList), ("b".toList, "2".toList)] ∧
    (parse_config_again (env_one_file ["b = 2"]) 2
      (parse_config (env_one_file ["oops"]) 2 "a.cfg".toList).state "a.cfg".toList).outcome ≠
      .normal := by
  have h := (C19_state_kept_between_invocations (env_one_file ["a = 1"]) 2 "a.cfg".toList).1
    (by decide)
  have h2 := ((C19_state_kept_between_invocations (env_one_file ["oops"]) 2 "a.cfg".toList).2
    (by decide)).2.2.2 (env_one_file ["b = 2"]) 2 "a.cfg".toList
  exact ⟨by decide, by decide, h2.1⟩

/-- C20: the calibration matrix round trip, in the arithmetic of a field. For a
3x3 matrix `K` that is upper triangular with `K(2,2) = 1`, `K(0,0) ≠ 0` and
`K(1,1) ≠ 0`, and any distortion vector `d`, converting
`camera_intrinsics_( K, d )` back to a matrix gives `K`; the focal length is
`K(0,0)`, the skew `K(0,1)`, the principal point `(K(0,2), K(1,2))`, the focal
length divided by the aspect ratio is `K(1,1)`, and the distortion vector is
`d`. The aspect ratio is not zero, so that neither division is by zero. -/
theorem C20_calibration_matrix_round_trip {T : Type} [Field T] (K : Fin 3 → Fin 3 → T)
    (d : List T) (h10 : K 1 0 = 0) (h20 : K 2 0 = 0) (h21 : K 2 1 = 0) (h22 : K 2 2 = 1)
    (h00 : K 0 0 ≠ 0) (h11 : K 1 1 ≠ 0) :
    (camera_intrinsics_.of_K_d K d).operator_Matrix_3_3 = K ∧
    (camera_intrinsics_.of_K_d K d).focal_length_ = K 0 0 ∧
    (camera_intrinsics_.of_K_d K d).skew_ = K 0 1 ∧
    (camera_intrinsics_.of_K_d K d).principal_point_ = (K 0 2, K 1 2) ∧
    (camera_intrinsics_.of_K_d K d).focal_length_ /
      (camera_intrinsics_.of_K_d K d).aspect_ratio_ = K 1 1 ∧
    (camera_intrinsics_.of_K_d K d).dist_coeffs_ = d ∧
    (camera_intrinsics_.of_K_d K d).aspect_ratio_ ≠ 0 := by
  have hdiv : K 0 0 / (K 0 0 / K 1 1) = K 1 1 := by
    field_simp
  refine ⟨?_, rfl, rfl, rfl, hdiv, rfl, div_ne_zero h00 h11⟩
  funext i j
  fin_cases i <;> fin_cases j <;>
    simp [camera_intrinsics_.operator_Matrix_3_3, camera_intrinsics_.of_K_d,
      h10, h20, h21, h22, hdiv, Matrix.vecHead, Matrix.vecTail]

theorem C20_calibration_matrix_round_trip_witness :
    (camera_intrinsics_.of_K_d fixture_K [1 / 10, 0]).operator_Matrix_3_3 =
      fixture_K ∧
    (camera_intrinsics_.of_K_d fixture_K [1 / 10, 0]).focal_length_ /
      (camera_intrinsics_.of_K_d fixture_K [1 / 10, 0]).aspect_ratio_ = 4 :=
  ⟨(C20_calibration_matrix_round_trip fixture_K [1 / 10, 0] (by decide) (by decide) (by decide)
    (by decide) (by decide) (by decide)).1,
   (C20_calibration_matrix_round_trip fixture_K [1 / 10, 0] (by decide) (by decide) (by decide)
    (by decide) (by decide) (by decide)).2.2.2.2.1⟩

/-- C21: `unmap` inverts `map` when there is no distortion, in the arithmetic of
an ordered field. For intrinsics with an empty vector of distortion
coefficients, a focal length and an aspect ratio that are not zero, and any
skew and principal point, `unmap( map( p ) ) = p` for every 2D point `p`,
whatever `ldlt().solve` computes. `distort` and `undistort` are the identity:
the scale is 1 and the offset zero, and `undistort` leaves its loop in the
first iteration, where both components of the residual are zero. -/
theorem C21_unmap_inverts_map_without_distortion {T : Type} [LinearOrderedField T]
    (ldlt_solve : (Fin 2 → Fin 2 → T) → T × T → T × T) (k : camera_intrinsics_ T)
    (hd : k.dist_coeffs_ = []) (hf : k.focal_length_ ≠ 0) (ha : k.aspect_ratio_ ≠ 0) :
    (∀ p, k.unmap ldlt_solve (k.map p) = p) ∧
    (∀ p, k.distort p = p) ∧
    (∀ p, k.undistort ldlt_solve p = p) ∧
    (∀ p, distortion_scale_offset p k.dist_coeffs_ = (1, (0, 0))) ∧
    (∀ p : T × T,
      (p.1 * (distortion_scale_offset p k.dist_coeffs_).1 +
          (distortion_scale_offset p k.dist_coeffs_).2.1 - p.1,
        p.2 * (distortion_scale_offset p k.dist_coeffs_).1 +
          (distortion_scale_offset p k.dist_coeffs_).2.2 - p.2) = (0, 0)) ∧
    (∀ p n, undistort_loop ldlt_solve k.dist_coeffs_ p (n + 1) p = p) := by
  have hund : ∀ p, k.undistort ldlt_solve p = p := by
    intro p
    unfold camera_intrinsics_.undistort
    rw [hd]
    exact undistort_loop_nil ldlt_solve p 4
  refine ⟨?_, distort_nil k hd, hund, ?_, ?_, ?_⟩
  · intro p
    unfold camera_intrinsics_.unmap
    simp only []
    rw [hund]
    simp only [camera_intrinsics_.map, distort_nil k hd]
    obtain ⟨x, y⟩ := p
    have hy : (y * k.focal_length_ / k.aspect_ratio_ + k.principal_point_.2 -
        k.principal_point_.2) * k.aspect_ratio_ / k.focal_length_ = y := by
      field_simp
      ring
    simp only [hy]
    congr 1
    field_simp
  · intro p
    rw [hd]
    exact distortion_scale_offset_nil p
  · intro p
    rw [hd, distortion_scale_offset_nil]
    simp
  · intro p n
    rw [hd]
    exact undistort_loop_nil ldlt_solve p n

theorem C21_unmap_inverts_map_without_distortion_witness :
    (⟨2, (3, 5), 4, 1, []⟩ : camera_intrinsics_ ℚ).unmap (fun _ r => r)
      ((⟨2, (3, 5), 4, 1, []⟩ : camera_intrinsics_ ℚ).map (7, -1)) = (7, -1) :=
  (C21_unmap_inverts_map_without_distortion (fun _ r => r)
    (⟨2, (3, 5), 4, 1, []⟩ : camera_intrinsics_ ℚ) rfl (by decide) (by decide)).1 (7, -1)

/-- C22: the tokens of a well-formed assignment. Let the key `k` be non-empty,
without white space, '=' and '#', and not ending in ':'; let `op` be "=" or ":=";
let the value `v` be non-empty, without '#' and without white space at its
ends; and let `sp1` and `sp2` be any strings of spaces and tabs, also empty
ones. For a tokenizer in its initial state that reads the physical line
`k sp1 op sp2 v`, three calls of `get_token` in a row return LHS `k`, ASSIGN
`op` and RHS `v`, the latter verbatim; no EOL token comes between them, only
this one line is taken off the stream, and the tokenizer is then in its
initial state with an empty buffer, the line counted and kept as last line. -/
theorem C22_tokens_of_a_well_formed_assignment (p : priv) (k sp1 op sp2 v : std_string)
    (rest : istream) (h0 : p.m_token_state = 0)
    (hk1 : k ≠ []) (hk2 : ∀ c ∈ k, isspace c = false ∧ c ≠ '=' ∧ c ≠ '#')
    (hk3 : k.getLast? ≠ some ':') (hop : op = op_assign ∨ op = op_define)
    (hsp1 : ∀ c ∈ sp1, c = ' ' ∨ c = '\t') (hsp2 : ∀ c ∈ sp2, c = ' ' ∨ c = '\t')
    (hv1 : v ≠ []) (hv2 : '#' ∉ v) (hv3 : ∀ c, v.head? = some c → isspace c = false)
    (hv4 : ∀ c, v.getLast? = some c → isspace c = false) :
    read_tokens 3 p ((k ++ sp1 ++ op ++ sp2 ++ v) :: rest) =
      ([⟨.TK_LHS, k⟩, ⟨.TK_ASSIGN, op⟩, ⟨.TK_RHS, v⟩],
        { p with
          m_line_number := p.m_line_number + 1
          m_last_line := k ++ sp1 ++ op ++ sp2 ++ v
          m_token_line := []
          m_token_state := 0 }, rest) ∧
    (read_tokens 3 p ((k ++ sp1 ++ op ++ sp2 ++ v) :: rest)).2.1.m_token_state = 0 ∧
    (read_tokens 3 p ((k ++ sp1 ++ op ++ sp2 ++ v) :: rest)).2.1.m_token_line = [] ∧
    (read_tokens 1 p ((k ++ sp1 ++ op ++ sp2 ++ v) :: rest)).1 = [⟨.TK_LHS, k⟩] ∧
    (read_tokens 2 p ((k ++ sp1 ++ op ++ sp2 ++ v) :: rest)).1 =
      [⟨.TK_LHS, k⟩, ⟨.TK_ASSIGN, op⟩] := by
  obtain ⟨g1, g2, g3⟩ := assignment_line_tokens p k sp1 op sp2 v rest h0 hk1 hk2 hk3 hop hsp1 hsp2
    hv1 hv2 hv3 hv4
  have h3 : read_tokens 3 p ((k ++ sp1 ++ op ++ sp2 ++ v) :: rest) =
      ([⟨.TK_LHS, k⟩, ⟨.TK_ASSIGN, op⟩, ⟨.TK_RHS, v⟩],
        { p with
          m_line_number := p.m_line_number + 1
          m_last_line := k ++ sp1 ++ op ++ sp2 ++ v
          m_token_line := []
          m_token_state := 0 }, rest) := by
    simp only [read_tokens, g1, g2, g3]
  refine ⟨h3, ?_, ?_, ?_, ?_⟩
  · rw [h3]
  · rw [h3]
  · simp only [read_tokens, g1]
  · simp only [read_tokens, g1, g2]

theorem C22_tokens_of_a_well_formed_assignment_witness :
    (read_tokens 3 priv_new ["a:b\t:=  x = y z".toList, "next".toList]).1 =
      [⟨.TK_LHS, "a:b".toList⟩, ⟨.TK_ASSIGN, ":=".toList⟩, ⟨.TK_RHS, "x = y z".toList⟩] ∧
    (read_tokens 3 priv_new ["k=v".toList]).1 =
      [⟨.TK_LHS, "k".toList⟩, ⟨.TK_ASSIGN, "=".toList⟩, ⟨.TK_RHS, "v".toList⟩] := by
  have h := (C22_tokens_of_a_well_formed_assignment priv_new "a:b".toList "\t".toList ":=".toList
    "  ".toList "x = y z".toList ["next".toList] (by decide) (by decide) (by decide) (by decide)
    (by decide) (by decide) (by decide) (by decide) (by decide) (by decide) (by decide)).1
  have h2 := (C22_tokens_of_a_well_formed_assignment priv_new "k".toList [] "=".toList
    [] "v".toList [] (by decide) (by decide) (by decide) (by decide)
    (by decide) (by decide) (by decide) (by decide) (by decide) (by decide) (by decide)).1
  exact ⟨congrArg Prod.fst h, congrArg Prod.fst h2⟩

/-- C23 (amended): the boundary of the LHS token and the operator ":=". In the LHS
state the boundary is the index `i` of the first space, tab or '=' of the
buffer, or the length of the buffer if there is none; it is moved back by one
exactly when `i > 1`, the character before `i` is ':' and the character at `i`
is '='. So for a buffer `k:=r` with `k` non-empty and free of spaces, tabs and
'=' the LHS token is `k`, the buffer left is `:=r` in the operator state, and
the next token is ASSIGN ":=". The LHS token of the LHS state never contains a
space, a tab or '='. -/
theorem C23_lhs_boundary_and_define_operator :
    (∀ (line : std_string) (i : Nat), find_first_of line [' ', '\t', '='] = some i →
      (∀ c ∈ line.take i, c ∉ [' ', '\t', '=']) ∧ char_at line i ∈ [' ', '\t', '='] ∧
      lhs_boundary line =
        if i > 1 ∧ char_at line (i - 1) = ':' ∧ char_at line i = '=' then i - 1 else i) ∧
    (∀ (line : std_string), find_first_of line [' ', '\t', '='] = none →
      (∀ c ∈ line, c ∉ [' ', '\t', '=']) ∧ lhs_boundary line = line.length) ∧
    (∀ (p : priv) (str : istream) (k r : std_string), k ≠ [] →
      (∀ c ∈ k, c ≠ ' ' ∧ c ≠ '\t' ∧ c ≠ '=') → p.m_token_line = k ++ ':' :: '=' :: r →
      get_token_lhs p str = .ok (⟨.TK_LHS, k⟩,
        { p with m_token_line := ':' :: '=' :: r, m_token_state := 2 }, str) ∧
      get_token { p with m_token_line := ':' :: '=' :: r, m_token_state := 2 } str =
        .ok (⟨.TK_ASSIGN, op_define⟩, { p with m_token_line := ltrim r, m_token_state := 3 },
          str)) ∧
    (∀ (p : priv) (str : istream) (t : token_t) (q : priv) (str1 : istream),
      get_token_lhs p str = .ok (t, q, str1) →
      t.type = .TK_LHS ∧ ∀ c ∈ t.value, c ≠ ' ' ∧ c ≠ '\t' ∧ c ≠ '=') := by
  refine ⟨?_, ?_, ?_, ?_⟩
  · intro line i hf
    obtain ⟨h1, h2⟩ := find_first_of_some hf
    refine ⟨h2, h1, ?_⟩
    unfold lhs_boundary
    simp only [hf]
  · intro line hf
    refine ⟨find_first_of_none_mem hf, ?_⟩
    unfold lhs_boundary
    simp only [hf, char_at_length]
    rw [if_neg]
    rintro ⟨_, _, h⟩
    revert h
    decide
  · intro p str k r hne hk hline
    have hb := lhs_boundary_define k r hne hk
    have hlt : ltrim (':' :: '=' :: r) = ':' :: '=' :: r := by
      simp [ltrim, List.dropWhile, show isspace ':' = false by decide]
    have h1 := get_token_lhs_key p str k (':' :: '=' :: r) hline hb
    rw [hlt] at h1
    have hst : (if ¬ isalnum (char_at (':' :: '=' :: r) 0) = true then 2 else 1) = 2 := by
      simp [char_at, show isalnum ':' = false by decide]
    rw [hst] at h1
    refine ⟨h1, ?_⟩
    exact get_token_assign _ str op_define r rfl rfl (Or.inr rfl)
  · intro p str t q str1 h
    rw [get_token_lhs_eq] at h
    simp only [Except.ok.injEq, Prod.mk.injEq] at h
    obtain ⟨rfl, _, _⟩ := h
    exact ⟨rfl, lhs_boundary_no_delim p.m_token_line⟩

/-- C23 as stated fails for a buffer that starts with ":=": in `:=5` the first
delimiter is the '=' at index 1, directly after a ':', yet the boundary is not
moved back (the test on source line 494 asks for an index above 1): the LHS
token is ":" and the next token is ASSIGN "=". And an LHS token that comes from
the fallback of the operator state can contain '=': the line `a _b=c` yields
LHS `a`, then LHS `_b=c`. -/
theorem C23_counterexample :
    find_first_of ":=5".toList [' ', '\t', '='] = some 1 ∧
    char_at ":=5".toList 0 = ':' ∧
    lhs_boundary ":=5".toList = 1 ∧
    (read_tokens 3 priv_new [":=5".toList]).1 =
      [⟨.TK_LHS, ":".toList⟩, ⟨.TK_ASSIGN, "=".toList⟩, ⟨.TK_RHS, "5".toList⟩] ∧
    (read_tokens 2 priv_new ["a _b=c".toList]).1 =
      [⟨.TK_LHS, "a".toList⟩, ⟨.TK_LHS, "_b=c".toList⟩] := by
  decide

theorem C23_lhs_boundary_and_define_operator_witness :
    (read_tokens 3 priv_new ["a:=5".toList]).1 =
      [⟨.TK_LHS, "a".toList⟩, ⟨.TK_ASSIGN, ":=".toList⟩, ⟨.TK_RHS, "5".toList⟩] ∧
    lhs_boundary "a:=5".toList = 1 := by
  have h := (C23_lhs_boundary_and_define_operator.1 "a:=5".toList 2 (by decide)).2.2
  have h3 := C23_lhs_boundary_and_define_operator.2.2.1
    { priv_new with m_token_line := "a:=5".toList } [] "a".toList "5".toList (by decide)
    (by decide) rfl
  exact ⟨by decide, by rw [h]; decide⟩

/-- C24 (amended): a line of one word. Let the physical line be a single word
`w` (non-empty, no white space, no '=', no '#'), read at the head of a loop
iteration. Two calls of `get_token` return LHS `w` and then EOL with empty
text (no ASSIGN, no RHS) and leave the tokenizer in its initial state with an
empty buffer, so that the call after that reads a new physical line or returns
EOF. Unless `w` is `endblock` or `include`, the driver latches a syntax error
for the line, logs it with the line and its number, and continues with the
next line. For `endblock` and for `include` the latch and the log stay as they
are: `include` enters the file whose name is the empty rest of the line. -/
theorem C24_line_of_one_word (env : environment) (m : machine) (w : std_string) (rest : istream)
    (h0 : m.members.m_token_state = 0) (hw1 : w ≠ [])
    (hw2 : ∀ c ∈ w, isspace c = false ∧ c ≠ '=' ∧ c ≠ '#')
    (hstream : m.current.in_stream = w :: rest) :
    read_tokens 2 m.members (w :: rest) =
      ([⟨.TK_LHS, w⟩, ⟨.TK_EOL, []⟩],
        { m.members with
          m_line_number := m.members.m_line_number + 1
          m_last_line := w
          m_token_line := []
          m_token_state := 0 }, rest) ∧
    get_token
        { m.members with
          m_line_number := m.members.m_line_number + 1
          m_last_line := w
          m_token_line := []
          m_token_state := 0 } rest =
      (match get_line
        { m.members with
          m_line_number := m.members.m_line_number + 1
          m_last_line := w
          m_token_line := []
          m_token_state := 0 } rest with
      | (false, p1, str1) => .ok (⟨.TK_EOF, []⟩, { p1 with m_token_state := 0 }, str1)
      | (true, p1, str1) => get_token_lhs p1 str1) ∧
    (w ≠ kw_include → w ≠ kw_endblock →
      process_statement env m = .running
        ⟨{ m.members with
            m_line_number := m.members.m_line_number + 1
            m_last_line := w
            m_token_line := []
            m_token_state := 0
            m_logger := m.members.m_logger ++
              [.invalid_line w m.current.file_path (m.members.m_line_number + 1)]
            m_parse_error := true },
          { m.current with in_stream := rest }, m.callers⟩) ∧
    (w = kw_endblock →
      (process_statement env m).state.m_parse_error = m.members.m_parse_error ∧
      (process_statement env m).state.m_logger = m.members.m_logger) ∧
    (w = kw_include →
      process_statement env m =
        process_file_enter env
          { m.members with
            m_line_number := m.members.m_line_number + 1
            m_last_line := w
            m_token_line := []
            m_token_state := 0 }
          (if env.is_absolute [] then [] else env.path_append m.current.config_file_dir [])
          (({ m.current with in_stream := rest }, m.members.m_line_number + 1) :: m.callers) ∧
      (process_statement env m).state.m_parse_error = m.members.m_parse_error ∧
      (process_statement env m).state.m_logger = m.members.m_logger) := by
  obtain ⟨g1, g2⟩ := single_word_tokens m.members w rest h0 hw1 hw2
  have hrt : read_tokens 2 m.members (w :: rest) =
      ([⟨.TK_LHS, w⟩, ⟨.TK_EOL, []⟩],
        { m.members with
          m_line_number := m.members.m_line_number + 1
          m_last_line := w
          m_token_line := []
          m_token_state := 0 }, rest) := by
    simp only [read_tokens, g1, g2]
  refine ⟨hrt, get_token_init rfl rest, ?_, ?_, ?_⟩
  · intro hi he
    have htok : (read_tokens 2 m.members m.current.in_stream).1 =
        [⟨.TK_LHS, w⟩, ⟨.TK_EOL, []⟩] := by rw [hstream, hrt]
    have herr : syntax_error_tokens [⟨.TK_LHS, w⟩, ⟨.TK_EOL, []⟩] := by
      unfold syntax_error_tokens
      by_cases hb : w = kw_block
      · exact Or.inl ⟨hb, by decide⟩
      · by_cases hr : w = kw_relativepath
        · exact Or.inr (Or.inl ⟨hr, by decide⟩)
        · refine Or.inr (Or.inr ⟨?_, rfl, by decide⟩)
          unfold is_directive
          simp [hi, he, hb, hr]
    obtain ⟨_, _, _, _, hstep⟩ := syntax_error_step_two env m _ _ h0 htok herr
    rw [hstep, hstream, hrt]
    simp [invalid_statement, flush_line]
  · intro he
    subst he
    have e0 : (⟨.TK_LHS, kw_endblock⟩ : token_t).type ≠ .TK_EOF := by decide
    have e1 : kw_endblock ≠ kw_include := by decide
    have e2 : kw_endblock ≠ kw_block := by decide
    simp only [process_statement, hstream, g1]
    rw [if_neg e0, if_neg e1, if_neg e2, if_pos trivial]
    simp only [flush_line]
    split <;> exact ⟨rfl, rfl⟩
  · intro hi
    subst hi
    simp only [process_statement, hstream, g1]
    have hne : (⟨.TK_LHS, kw_include⟩ : token_t).type ≠ .TK_EOF := by decide
    rw [if_neg hne, if_pos trivial]
    simp only [flush_line]
    refine ⟨?_, ?_, ?_⟩
    · by_cases ha : env.is_absolute [] = true
      · simp [ha]
      · simp [ha]
    · unfold process_file_enter
      split <;> rfl
    · unfold process_file_enter
      split <;> rfl

/-- C24 as stated fails for the word `include`: a file whose only line is
`include` yields the tokens LHS `include` and EOL, and the driver takes the
`include` branch with an empty file name: it enters that file (which this
environment opens) and neither sets the error latch nor logs anything. -/
theorem C24_counterexample :
    (read_tokens 2 priv_new ["include".toList]).1 =
      [⟨.TK_LHS, "include".toList⟩, ⟨.TK_EOL, []⟩] ∧
    (process_statement (env_one_file ["include"]) (machine_at_start ["include"])).outcome =
      .unfinished ∧
    (process_statement (env_one_file ["include"])
      (machine_at_start ["include"])).state.m_parse_error = false ∧
    (process_statement (env_one_file ["include"])
      (machine_at_start ["include"])).state.m_logger = [] ∧
    (process_statement (env_one_file ["include"])
      (machine_at_start ["include"])).machine.callers.length = 1 := by
  decide

theorem C24_line_of_one_word_witness :
    (parse_config (env_one_file ["foo", "x = 1"]) 1 "a.cfg".toList).state.m_logger =
      [.invalid_line "foo".toList "a.cfg".toList 1] ∧
    (parse_config (env_one_file ["foo", "x = 1"]) 1 "a.cfg".toList).state.m_parse_error = true ∧
    (parse_config (env_one_file ["foo", "x = 1"]) 2 "a.cfg".toList).state.m_config_block =
      [("x".toList, "1".toList)] := by
  have h := (C24_line_of_one_word (env_one_file ["foo", "x = 1"])
    (machine_at_start ["foo", "x = 1"]) "foo".toList ["x = 1".toList]
    (by decide) (by decide) (by decide) (by decide)).2.2.1 (by decide) (by decide)
  have e : parse_config (env_one_file ["foo", "x = 1"]) 1 "a.cfg".toList =
      process_statement (env_one_file ["foo", "x = 1"]) (machine_at_start ["foo", "x = 1"]) := by
    decide
  rw [e, h]
  exact ⟨by decide, by decide, by decide⟩

/-- C25: the line reader against its reference. With `norm_reference l` the
line `l` trimmed, cut at its first '#' and trimmed again, `get_line` consumes
the physical lines up to and including the first remaining line `raw` whose
`norm_reference` is not empty and returns `true` with the line
`norm_reference raw` (this is `get_line_reference`); it returns `false` if and
only if no remaining physical line has a non-empty `norm_reference`. Every
returned line is non-empty, has no white space at its start or its end, and
contains no '#'. -/
theorem C25_get_line_computes_its_reference (p : priv) (str : istream) :
    (match get_line_reference str with
      | none => (get_line p str).1 = false
      | some (line, rest) =>
        (get_line p str).1 = true ∧ (get_line p str).2.1.m_token_line = line ∧
          (get_line p str).2.2 = rest) ∧
    ((get_line p str).1 = false ↔ ∀ l ∈ str, norm_reference l = []) ∧
    ((get_line p str).1 = true →
      ∃ skipped raw, str = skipped ++ raw :: (get_line p str).2.2 ∧
        (∀ l ∈ skipped, norm_reference l = []) ∧ norm_reference raw ≠ [] ∧
        (get_line p str).2.1.m_token_line = norm_reference raw ∧
        (get_line p str).2.1.m_token_line ≠ [] ∧
        (∀ c, (get_line p str).2.1.m_token_line.head? = some c → isspace c = false) ∧
        (∀ c, (get_line p str).2.1.m_token_line.getLast? = some c → isspace c = false) ∧
        '#' ∉ (get_line p str).2.1.m_token_line) := by
  refine ⟨get_line_eq_reference p str, ?_, ?_⟩
  · rw [get_line_false_iff]
    constructor
    · intro h l hl
      rw [← norm_line_eq_reference]
      exact h l hl
    · intro h l hl
      rw [norm_line_eq_reference]
      exact h l hl
  · intro h
    have e : get_line p str = (true, (get_line p str).2.1, (get_line p str).2.2) := by
      rw [← h]
    obtain ⟨skipped, raw, h1, h2, h3, h4⟩ := get_line_true e
    have hl : (get_line p str).2.1.m_token_line = norm_line raw := by rw [h4]
    refine ⟨skipped, raw, h1, ?_, ?_, ?_, ?_, ?_, ?_, ?_⟩
    · intro l hl
      rw [← norm_line_eq_reference]
      exact h2 l hl
    · rw [← norm_line_eq_reference]
      exact h3
    · rw [hl, norm_line_eq_reference]
    · rw [hl]
      exact h3
    · intro c hc
      rw [hl] at hc
      exact norm_line_head_not_space hc
    · intro c hc
      rw [hl] at hc
      exact norm_line_last_not_space hc
    · rw [hl]
      exact norm_line_no_hash raw

theorem C25_get_line_computes_its_reference_witness :
    (get_line priv_new ["".toList, " # note".toList, "\t a = 1  # x ".toList, "b".toList]).2.1.m_token_line =
      "a = 1".toList ∧
    ∃ skipped raw,
      ["".toList, " # note".toList, "\t a = 1  # x ".toList, "b".toList] = skipped ++ raw ::
        (get_line priv_new
          ["".toList, " # note".toList, "\t a = 1  # x ".toList, "b".toList]).2.2 ∧
      (∀ l ∈ skipped, norm_reference l = []) ∧ norm_reference raw ≠ [] ∧
      (get_line priv_new
        ["".toList, " # note".toList, "\t a = 1  # x ".toList, "b".toList]).2.1.m_token_line =
          norm_reference raw := by
  refine ⟨by decide, ?_⟩
  obtain ⟨skipped, raw, h1, h2, h3, h4, _⟩ := (C25_get_line_computes_its_reference priv_new
    ["".toList, " # note".toList, "\t a = 1  # x ".toList, "b".toList]).2.2 (by decide)
  exact ⟨skipped, raw, h1, h2, h3, h4⟩

/-- C26: line numbering. (1) A call of `get_line` takes a number of physical
lines off the stream, the skipped blank and comment-only lines among them; it
adds exactly that number to `m_line_number` and sets `m_last_line` to the raw
text of the latest of them (both stay as they are if the stream was at its
end). (2) `process_file` starts every file with the counter at 0. (3) So in a
parse by a new parser, whenever `get_line`, called at the head of a loop
iteration, returns a line, `m_line_number` is the index, counted from 1, of
that physical line in the running file, `m_last_line` is its raw text, and the
line returned is what is left of it. -/
theorem C26_line_numbering (env : environment) :
    (∀ (p : priv) (str : istream),
      ∃ consumed, str = consumed ++ (get_line p str).2.2 ∧
        (get_line p str).2.1.m_line_number = p.m_line_number + consumed.length ∧
        (consumed = [] → (get_line p str).2.1.m_last_line = p.m_last_line) ∧
        (∀ l, consumed.getLast? = some l → (get_line p str).2.1.m_last_line = l) ∧
        ((get_line p str).1 = true → ∃ skipped raw, consumed = skipped ++ [raw] ∧
          (∀ l ∈ skipped, norm_line l = []) ∧ norm_line raw ≠ [])) ∧
    (∀ (p : priv) (path : std_string) (callers : List (activation × Int)) (m : machine),
      process_file_enter env p path callers = .running m → m.members.m_line_number = 0) ∧
    (∀ (fuel : Nat) (path : std_string) (m : machine),
      parse_config env fuel path = .running m →
      (get_line m.members m.current.in_stream).1 = true →
      ∃ lines, env.ifstream m.current.file_path = some lines ∧
        1 ≤ (get_line m.members m.current.in_stream).2.1.m_line_number ∧
        lines[((get_line m.members m.current.in_stream).2.1.m_line_number - 1).toNat]? =
          some (get_line m.members m.current.in_stream).2.1.m_last_line ∧
        (get_line m.members m.current.in_stream).2.1.m_token_line =
          norm_line (get_line m.members m.current.in_stream).2.1.m_last_line) := by
  refine ⟨?_, ?_, ?_⟩
  · intro p str
    obtain ⟨consumed, h1, h2, h3, h4, _⟩ := get_line_consumed p str
    refine ⟨consumed, h1, h2, h3, h4, ?_⟩
    intro ht
    have e : get_line p str = (true, (get_line p str).2.1, (get_line p str).2.2) := by
      rw [← ht]
    obtain ⟨skipped, raw, g1, g2, g3, _⟩ := get_line_true e
    refine ⟨skipped, raw, ?_, g2, g3⟩
    have h5 : consumed ++ (get_line p str).2.2 = (skipped ++ [raw]) ++ (get_line p str).2.2 := by
      rw [← h1, List.append_assoc]
      exact g1
    exact List.append_cancel_right h5
  · intro p path callers m h
    unfold process_file_enter at h
    split at h
    · cases h
    · simp only [status.running.injEq] at h
      rw [← h]
  · intro fuel path m hm ht
    have hinv := (invariants_parse_config env fuel path).2
    rw [hm] at hinv
    have e : get_line m.members m.current.in_stream =
        (true, (get_line m.members m.current.in_stream).2.1,
          (get_line m.members m.current.in_stream).2.2) := by
      rw [← ht]
    obtain ⟨skipped, raw, g1, _, _, g4⟩ := get_line_true e
    obtain ⟨lines, k1, k2, k3⟩ := statement_line_index hinv g1
    have hn : (get_line m.members m.current.in_stream).2.1.m_line_number =
        m.members.m_line_number + skipped.length + 1 := by rw [g4]
    have hl : (get_line m.members m.current.in_stream).2.1.m_last_line = raw := by rw [g4]
    have hb : (get_line m.members m.current.in_stream).2.1.m_token_line = norm_line raw := by
      rw [g4]
    exact ⟨lines, k1, by rw [hn]; exact k2, by rw [hn, hl]; exact k3, by rw [hb, hl]⟩

theorem C26_line_numbering_witness :
    (get_line (machine_at_start ["a = 1", "", " # note", "b = 2"]).members
      (machine_at_start ["a = 1", "", " # note", "b = 2"]).current.in_stream).2.1.m_line_number = 1 ∧
    (get_line (parse_config (env_one_file ["a = 1", "", " # note", "b = 2"]) 1
        "a.cfg".toList).machine.members
      (parse_config (env_one_file ["a = 1", "", " # note", "b = 2"]) 1
        "a.cfg".toList).machine.current.in_stream).2.1.m_line_number = 4 ∧
    ∃ lines, (env_one_file ["a = 1", "", " # note", "b = 2"]).ifstream
        (parse_config (env_one_file ["a = 1", "", " # note", "b = 2"]) 1
          "a.cfg".toList).machine.current.file_path = some lines ∧
      1 ≤ (get_line (parse_config (env_one_file ["a = 1", "", " # note", "b = 2"]) 1
          "a.cfg".toList).machine.members
        (parse_config (env_one_file ["a = 1", "", " # note", "b = 2"]) 1
          "a.cfg".toList).machine.current.in_stream).2.1.m_line_number ∧
      lines[((get_line (parse_config (env_one_file ["a = 1", "", " # note", "b = 2"]) 1
          "a.cfg".toList).machine.members
        (parse_config (env_one_file ["a = 1", "", " # note", "b = 2"]) 1
          "a.cfg".toList).machine.current.in_stream).2.1.m_line_number - 1).toNat]? =
        some (get_line (parse_config (env_one_file ["a = 1", "", " # note", "b = 2"]) 1
            "a.cfg".toList).machine.members
          (parse_config (env_one_file ["a = 1", "", " # note", "b = 2"]) 1
            "a.cfg".toList).machine.current.in_stream).2.1.m_last_line ∧
      (get_line (parse_config (env_one_file ["a = 1", "", " # note", "b = 2"]) 1
          "a.cfg".toList).machine.members
        (parse_config (env_one_file ["a = 1", "", " # note", "b = 2"]) 1
          "a.cfg".toList).machine.current.in_stream).2.1.m_token_line =
        norm_line (get_line (parse_config (env_one_file ["a = 1", "", " # note", "b = 2"]) 1
            "a.cfg".toList).machine.members
          (parse_config (env_one_file ["a = 1", "", " # note", "b = 2"]) 1
            "a.cfg".toList).machine.current.in_stream).2.1.m_last_line :=
  ⟨by decide, by decide,
    (C26_line_numbering (env_one_file ["a = 1", "", " # note", "b = 2"])).2.2 1 "a.cfg".toList
      (parse_config (env_one_file ["a = 1", "", " # note", "b = 2"]) 1 "a.cfg".toList).machine
      (by decide) (by decide)⟩

/-- C27 (amended): the line reader cuts a line at its first '#', whatever
stands before it; there is no escape character. (1) For a line
`body # comment` with no '#' in `body` the text handed on is `trim body`. (2) A
backslash before the '#' changes nothing: the '#' starts the comment and the
backslash is the last character of what is kept. (3) No line that `get_line`
returns contains a '#'. (4) No token, and so no value, contains a '#': this
holds for every call of `get_token` in the initial state, and in the other
states whenever the buffer holds no '#', as it then does again afterwards.
(5) The line `k = a\#b` stores, under the key `k`, the expansion of `a\`. -/
theorem C27_comment_starts_at_the_first_hash (env : environment) :
    (∀ (body comment : std_string), '#' ∉ body →
      norm_line (body ++ '#' :: comment) = trim body) ∧
    (∀ (body comment : std_string), '#' ∉ body →
      norm_line (body ++ '\\' :: '#' :: comment) = ltrim body ++ ['\\']) ∧
    (∀ (p : priv) (str : istream), (get_line p str).1 = true →
      '#' ∉ (get_line p str).2.1.m_token_line) ∧
    (∀ (p : priv) (str : istream) (t : token_t) (q : priv) (str1 : istream),
      p.m_token_state = 0 ∨ '#' ∉ p.m_token_line → get_token p str = .ok (t, q, str1) →
      '#' ∉ t.value ∧ '#' ∉ q.m_token_line) ∧
    (∀ (m : machine) (rest : istream), m.members.m_token_state = 0 →
      m.current.in_stream = "k = a\\#b".toList :: rest →
      (process_statement env m).outcome = .unfinished ∧
      (process_statement env m).state.m_config_block = m.members.m_config_block ++
        [(m.members.m_current_context ++ "k".toList,
          env.expand_token m.members.m_config_block m.members.m_symtab "a\\".toList)] ∧
      (process_statement env m).state.m_parse_error = m.members.m_parse_error ∧
      (process_statement env m).machine.current.in_stream = rest) := by
  refine ⟨norm_line_comment, ?_, ?_, ?_, ?_⟩
  · intro body comment hb
    have hb1 : '#' ∉ body ++ ['\\'] := by
      intro h
      rcases List.mem_append.mp h with h | h
      · exact hb h
      · simp at h
    have h := norm_line_comment (body ++ ['\\']) comment hb1
    rw [List.append_assoc] at h
    rw [show ['\\'] ++ '#' :: comment = '\\' :: '#' :: comment from rfl] at h
    rw [h]
    unfold trim
    have hs : isspace '\\' = false := by decide
    have hr := rtrim_append_stop body '\\' [] hs
    rw [show rtrim [] = [] from rfl] at hr
    rw [hr]
    have hl := ltrim_append_stop body '\\' [] hs
    exact hl
  · intro p str ht
    have e : get_line p str = (true, (get_line p str).2.1, (get_line p str).2.2) := by
      rw [← ht]
    obtain ⟨skipped, raw, _, _, _, hq⟩ := get_line_true e
    have hl : (get_line p str).2.1.m_token_line = norm_line raw := by rw [hq]
    rw [hl]
    exact norm_line_no_hash raw
  · intro p str t q str1 hb h
    exact get_token_no_hash hb h
  · intro m rest h0 hstream
    have hline : (read_tokens 3 priv_new ["k = a\\#b".toList]).1 =
        [⟨.TK_LHS, "k".toList⟩, ⟨.TK_ASSIGN, op_assign⟩, ⟨.TK_RHS, "a\\".toList⟩] := by
      decide
    obtain ⟨htok, hrest⟩ := assignment_tokens_of_line hline m.members h0 rest
    rw [← hstream] at htok hrest
    obtain ⟨p1, s1, p2, s2, p3, s3, h1, h2, h3, he⟩ := read_tokens_three htok
    rw [he] at hrest
    simp only [] at hrest
    subst hrest
    have hs : same_session m.members p3 :=
      same_session_trans (same_session_trans (get_token_session h1) (get_token_session h2))
        (get_token_session h3)
    rw [process_statement_entry env m _ op_assign _ p1 p2 p3 s1 s2 s3 h1 h2 h3 (by decide)]
    obtain ⟨_, c2, _, c4, c5, c6, c7⟩ := hs
    have hne : op_assign ≠ op_define := by decide
    simp [process_entry, hne, c2, c4, c5, c6, c7, status.outcome, status.state, status.machine]

/-- C27 as stated fails: a backslash does not keep a '#' from starting a
comment. The line `k = a\#b` is cut before the '#': its tokens are LHS `k`,
ASSIGN `=` and RHS `a\`, and the value stored under `k` is `a\`, not `a#b` nor
`a\#b`. -/
theorem C27_counterexample :
    norm_line "k = a\\#b".toList = "k = a\\".toList ∧
    (get_line priv_new ["k = a\\#b".toList]).2.1.m_token_line = "k = a\\".toList ∧
    (read_tokens 3 priv_new ["k = a\\#b".toList]).1 =
      [⟨.TK_LHS, "k".toList⟩, ⟨.TK_ASSIGN, "=".toList⟩, ⟨.TK_RHS, "a\\".toList⟩] ∧
    (parse_config (env_one_file ["k = a\\#b"]) 1 "a.cfg".toList).state.m_config_block =
      [("k".toList, "a\\".toList)] := by
  decide

theorem C27_comment_starts_at_the_first_hash_witness :
    norm_line ("path = C:".toList ++ '\\' :: '#' :: " note".toList) =
      ltrim "path = C:".toList ++ ['\\'] ∧
    '#' ∉ (get_line priv_new ["x = 1 \\# y".toList]).2.1.m_token_line :=
  ⟨(C27_comment_starts_at_the_first_hash (env_one_file [])).2.1 "path = C:".toList
      " note".toList (by decide),
    (C27_comment_starts_at_the_first_hash (env_one_file [])).2.2.1 priv_new
      ["x = 1 \\# y".toList] (by decide)⟩

/-- C28 (code defect): the `relativepath` modifier is not accepted in front of
every assignment. The line `_img = x` is accepted and stored under `_img`.
For the line `relativepath _img = x` the LHS state, after the word
`relativepath`, finds that the buffer `_img = x` does not start with an
alphanumeric character and goes to the operator state (source lines 505-513);
the operator state emits LHS `_img` through its fallback and goes to the RHS
state (source lines 533-550), so the third token is RHS `= x` where the driver
expects ASSIGN (source line 327): a syntax error is latched, nothing is stored,
and the parse ends with ParseFailed. With the key `img` the modifier works. -/
theorem C28_relativepath_rejects_a_key_that_is_accepted_alone :
    (read_tokens 3 priv_new ["_img = x".toList]).1 =
      [⟨.TK_LHS, "_img".toList⟩, ⟨.TK_ASSIGN, "=".toList⟩, ⟨.TK_RHS, "x".toList⟩] ∧
    (parse_config (env_files [("/d/a.cfg", ["_img = x"])]) 1 "/d/a.cfg".toList).state.m_config_block =
      [("_img".toList, "x".toList)] ∧
    (parse_config (env_files [("/d/a.cfg", ["_img = x"])]) 1 "/d/a.cfg".toList).state.m_parse_error =
      false ∧
    (parse_config (env_files [("/d/a.cfg", ["_img = x"])]) 2 "/d/a.cfg".toList).outcome = .normal ∧
    (read_tokens 3 priv_new ["relativepath _img = x".toList]).1 =
      [⟨.TK_LHS, "relativepath".toList⟩, ⟨.TK_LHS, "_img".toList⟩, ⟨.TK_RHS, "= x".toList⟩] ∧
    (parse_config (env_files [("/d/a.cfg", ["relativepath _img = x"])]) 1
      "/d/a.cfg".toList).state.m_config_block = [] ∧
    (parse_config (env_files [("/d/a.cfg", ["relativepath _img = x"])]) 1
      "/d/a.cfg".toList).state.m_parse_error = true ∧
    (parse_config (env_files [("/d/a.cfg", ["relativepath _img = x"])]) 1
      "/d/a.cfg".toList).state.m_logger =
        [.invalid_line "relativepath _img = x".toList "/d/a.cfg".toList 1] ∧
    (parse_config (env_files [("/d/a.cfg", ["relativepath _img = x"])]) 2
      "/d/a.cfg".toList).outcome =
        .raised (.config_file_not_parsed "/d/a.cfg".toList .errors_in_config_file) ∧
    (parse_config (env_files [("/d/a.cfg", ["relativepath img = x"])]) 1
      "/d/a.cfg".toList).state.m_config_block = [("img".toList, "/d/x".toList)] ∧
    (parse_config (env_files [("/d/a.cfg", ["relativepath img = x"])]) 2
      "/d/a.cfg".toList).outcome = .normal := by
  decide

/-- C29 (code defect): the tangential part of `distortion_jacobian` adds the
term `3 * ay + ax`, which is the derivative of the second component of the
offset by `y`, to `J( 0, 0 )` instead of `J( 1, 1 )` (source line 170). For the
coefficients `d = (0, 0, 0, 1)` the distortion is
`(x, y) ↦ (x + 3 x² + y², y + 2 x y)`; at the point `(1, 0)` its partial
derivatives are 7 for the first component by `x` and 3 for the second
component by `y`, and the function returns 9 in `J( 0, 0 )` and 1 in
`J( 1, 1 )`. -/
theorem C29_distortion_jacobian_misplaces_a_tangential_term :
    distortion_jacobian ((1 : ℝ), (0 : ℝ)) [0, 0, 0, 1] 0 0 = 9 ∧
    distortion_jacobian ((1 : ℝ), (0 : ℝ)) [0, 0, 0, 1] 1 1 = 1 ∧
    distortion_jacobian ((1 : ℝ), (0 : ℝ)) [0, 0, 0, 1] 0 1 = 0 ∧
    distortion_jacobian ((1 : ℝ), (0 : ℝ)) [0, 0, 0, 1] 1 0 = 0 ∧
    HasDerivAt (fun x : ℝ =>
      (camera_intrinsics_.distort (⟨1, (0, 0), 1, 0, [0, 0, 0, 1]⟩ : camera_intrinsics_ ℝ)
        (x, 0)).1) 7 1 ∧
    HasDerivAt (fun y : ℝ =>
      (camera_intrinsics_.distort (⟨1, (0, 0), 1, 0, [0, 0, 0, 1]⟩ : camera_intrinsics_ ℝ)
        (1, y)).2) 3 0 ∧
    ¬ HasDerivAt (fun x : ℝ =>
      (camera_intrinsics_.distort (⟨1, (0, 0), 1, 0, [0, 0, 0, 1]⟩ : camera_intrinsics_ ℝ)
        (x, 0)).1) (distortion_jacobian ((1 : ℝ), (0 : ℝ)) [0, 0, 0, 1] 0 0) 1 ∧
    ¬ HasDerivAt (fun y : ℝ =>
      (camera_intrinsics_.distort (⟨1, (0, 0), 1, 0, [0, 0, 0, 1]⟩ : camera_intrinsics_ ℝ)
        (1, y)).2) (distortion_jacobian ((1 : ℝ), (0 : ℝ)) [0, 0, 0, 1] 1 1) 0 := by
  have j00 : distortion_jacobian ((1 : ℝ), (0 : ℝ)) [0, 0, 0, 1] 0 0 = 9 := by
    simp [distortion_jacobian, radial_distortion_deriv, radial_distortion_scale]
    norm_num
  have j11 : distortion_jacobian ((1 : ℝ), (0 : ℝ)) [0, 0, 0, 1] 1 1 = 1 := by
    simp [distortion_jacobian, radial_distortion_deriv, radial_distortion_scale]
  have j01 : distortion_jacobian ((1 : ℝ), (0 : ℝ)) [0, 0, 0, 1] 0 1 = 0 := by
    simp [distortion_jacobian, radial_distortion_deriv, radial_distortion_scale]
  have j10 : distortion_jacobian ((1 : ℝ), (0 : ℝ)) [0, 0, 0, 1] 1 0 = 0 := by
    simp [distortion_jacobian, radial_distortion_deriv, radial_distortion_scale]
  have fx : (fun x : ℝ =>
      (camera_intrinsics_.distort (⟨1, (0, 0), 1, 0, [0, 0, 0, 1]⟩ : camera_intrinsics_ ℝ)
        (x, 0)).1) = fun x : ℝ => x + 3 * x ^ 2 := by
    funext x
    simp [camera_intrinsics_.distort, distortion_scale_offset, radial_distortion_scale]
    ring
  have fy : (fun y : ℝ =>
      (camera_intrinsics_.distort (⟨1, (0, 0), 1, 0, [0, 0, 0, 1]⟩ : camera_intrinsics_ ℝ)
        (1, y)).2) = fun y : ℝ => y + 2 * y := by
    funext y
    simp [camera_intrinsics_.distort, distortion_scale_offset, radial_distortion_scale]
  have dx : HasDerivAt (fun x : ℝ => x + 3 * x ^ 2) 7 1 := by
    have h := (hasDerivAt_id (1 : ℝ)).add (((hasDerivAt_pow 2 (1 : ℝ))).const_mul 3)
    convert h using 1
    norm_num
  have dy : HasDerivAt (fun y : ℝ => y + 2 * y) 3 0 := by
    have h := (hasDerivAt_id (0 : ℝ)).add ((hasDerivAt_id (0 : ℝ)).const_mul 2)
    convert h using 1
    norm_num
  refine ⟨j00, j11, j01, j10, ?_, ?_, ?_, ?_⟩
  · rw [fx]; exact dx
  · rw [fy]; exact dy
  · rw [fx, j00]
    intro h
    have := h.unique dx
    norm_num at this
  · rw [fy, j11]
    intro h
    have := h.unique dy
    norm_num at this

/-- C30: `radial_distortion_deriv` is the derivative of
`radial_distortion_scale` by `r2`, over the reals: for every coefficient vector
`d`, of any length, and every `r2`, provided that
`1 + d[5] r2 + d[6] r2² + d[7] r2³` is not zero when `d` has more than 7
entries. Both functions use `d[0]` from length 1, `d[1]` from length 2, `d[4]`
from length 5 and `d[5]`, `d[6]`, `d[7]` from length 8 on. -/
theorem C30_radial_distortion_deriv_is_the_derivative (d : List ℝ) (r2 : ℝ)
    (hden : d.length > 7 →
      1 + d.getD 5 0 * r2 + d.getD 6 0 * r2 ^ 2 + d.getD 7 0 * r2 ^ 3 ≠ 0) :
    HasDerivAt (fun r : ℝ => radial_distortion_scale r d) (radial_distortion_deriv r2 d) r2 := by
  by_cases h0 : d.length > 0
  · by_cases h1 : d.length > 1
    · by_cases h4 : d.length > 4
      · by_cases h7 : d.length > 7
        · have e1 : 1 + r2 * d.getD 5 0 + r2 * r2 * d.getD 6 0 + r2 * (r2 * r2) * d.getD 7 0 =
              1 + d.getD 5 0 * r2 + d.getD 6 0 * r2 ^ 2 + d.getD 7 0 * r2 ^ 3 := by ring
          have hD : 1 + r2 * d.getD 5 0 + r2 * r2 * d.getD 6 0 + r2 * (r2 * r2) * d.getD 7 0 ≠ 0 := by
            rw [e1]
            exact hden h7
          have h := hasDerivAt_radial_quotient (d.getD 0 0) (d.getD 1 0) (d.getD 4 0)
            (d.getD 5 0) (d.getD 6 0) (d.getD 7 0) r2 hD
          simp only [radial_distortion_scale, radial_distortion_deriv, h0, h1, h4, h7, if_true]
          exact h
        · have hN := hasDerivAt_radial_cubic (d.getD 0 0) (d.getD 1 0) (d.getD 4 0) r2
          simp only [radial_distortion_scale, radial_distortion_deriv, h0, h1, h4, h7, if_true,
            if_false]
          convert hN using 1
          ring
      · have hN := hasDerivAt_radial_cubic (d.getD 0 0) (d.getD 1 0) 0 r2
        simp only [radial_distortion_scale, radial_distortion_deriv, h0, h1, h4, if_true,
          if_false]
        convert hN using 1
        · funext r
          ring
        · ring
    · have hN := hasDerivAt_radial_cubic (d.getD 0 0) 0 0 r2
      simp only [radial_distortion_scale, radial_distortion_deriv, h0, h1, if_true, if_false]
      convert hN using 1
      · funext r
        ring
      · ring
  · simp only [radial_distortion_scale, radial_distortion_deriv, h0, if_false]
    exact hasDerivAt_const r2 (1 : ℝ)

theorem C30_radial_distortion_deriv_is_the_derivative_witness :
    HasDerivAt (fun r : ℝ => radial_distortion_scale r [1, 2, 0, 0, 3, 1, 0, 0])
      (radial_distortion_deriv 1 [1, 2, 0, 0, 3, 1, 0, 0]) 1 ∧
    radial_distortion_scale (1 : ℝ) [1, 2, 0, 0, 3, 1, 0, 0] = 7 / 2 ∧
    radial_distortion_deriv (1 : ℝ) [1, 2, 0, 0, 3, 1, 0, 0] = 21 / 4 := by
  refine ⟨C30_radial_distortion_deriv_is_the_derivative [1, 2, 0, 0, 3, 1, 0, 0] 1
    (fun _ => by norm_num), ?_, ?_⟩
  · simp [radial_distortion_scale]
    norm_num
  · simp [radial_distortion_deriv]
    norm_num

/-- C31 (code defect): a statement with nothing before the operator is
accepted. For the line `= 5` the LHS state finds the delimiter '=' at index 0
and emits an LHS token with empty text (source lines 487-500); the driver
tests only the type of the token (source line 312), so the statement is
complete and the value is stored under the key `m_current_context + ""`, the
bare block prefix: inside `block A` that is the key `A:`. No syntax error is
latched and the parse returns normally. With the modifier, `relativepath = 5`,
the same text is rejected as a syntax error. -/
theorem C31_empty_key_is_accepted :
    lhs_boundary "= 5".toList = 0 ∧
    (read_tokens 3 priv_new ["= 5".toList]).1 =
      [⟨.TK_LHS, []⟩, ⟨.TK_ASSIGN, "=".toList⟩, ⟨.TK_RHS, "5".toList⟩] ∧
    (parse_config (env_one_file ["block A", "= 5", "endblock"]) 2
      "a.cfg".toList).state.m_config_block = [("A:".toList, "5".toList)] ∧
    (parse_config (env_one_file ["block A", "= 5", "endblock"]) 2
      "a.cfg".toList).state.m_parse_error = false ∧
    (parse_config (env_one_file ["block A", "= 5", "endblock"]) 2
      "a.cfg".toList).state.m_logger = [] ∧
    (parse_config (env_one_file ["block A", "= 5", "endblock"]) 4
      "a.cfg".toList).outcome = .normal ∧
    (parse_config (env_one_file ["block A", "= 5", "endblock"]) 4
      "a.cfg".toList).state.m_config_block = [("A:".toList, "5".toList)] ∧
    (parse_config (env_one_file ["= 5"]) 2 "a.cfg".toList).outcome = .normal ∧
    (parse_config (env_one_file ["= 5"]) 2 "a.cfg".toList).state.m_config_block =
      [([], "5".toList)] ∧
    (parse_config (env_one_file ["relativepath = 5"]) 1 "a.cfg".toList).state.m_parse_error =
      true ∧
    (parse_config (env_one_file ["relativepath = 5"]) 1 "a.cfg".toList).state.m_config_block =
      [] := by
  decide

/-- C32: text after a directive is discarded without a report. Let the physical
line `raw` be read at the head of a loop iteration. (1) If what `get_line`
leaves of it is the word `block`, white space, a block name and then either
nothing or a space or a tab and any further text, the driver opens the block
with that name: it appends the name and the separator to the context and
pushes a frame with the name, the file, the line number and the old context;
the error latch, the log, the store and the symbol table stay as they are and
the loop continues with the next line. The result does not depend on the text
after the name (the case of no text is the line `block name`), except that
`m_last_line` holds `raw`. (2) If the first token of the line is `endblock`,
as for `endblock`, `endblock = 5`, `endblock some text`, the driver pops the
innermost block and restores its context, or raises the unmatched-endblock
failure when no block is open, whatever follows the word; again nothing else
changes. (3) In both cases the tokenizer is left in its initial state, in which
the rest of the line in its buffer is never tokenized: when a physical line is
left, the next call of `get_token` reads it exactly as it does with an empty
buffer, and when the stream is at its end it returns EOF. -/
theorem C32_text_after_a_directive_is_discarded (env : environment) (m : machine)
    (raw : std_string) (rest : istream) (h0 : m.members.m_token_state = 0)
    (hstream : m.current.in_stream = raw :: rest) :
    (∀ (s : Char) (sp name tail : std_string), (s = ' ' ∨ s = '\t') →
      (∀ c ∈ sp, isspace c = true) → name ≠ [] → (∀ c ∈ name, isspace c = false ∧ c ≠ '=') →
      name.head? ≠ some ':' → word_end tail →
      norm_line raw = kw_block ++ s :: (sp ++ (name ++ tail)) →
      (process_statement env m).outcome = .unfinished ∧
      (process_statement env m).state.m_current_context =
        m.members.m_current_context ++ (name ++ block_sep) ∧
      (process_statement env m).state.m_block_stack = m.members.m_block_stack ++
        [⟨name, m.current.file_path, m.members.m_line_number + 1,
          m.members.m_current_context⟩] ∧
      (process_statement env m).state.m_parse_error = m.members.m_parse_error ∧
      (process_statement env m).state.m_logger = m.members.m_logger ∧
      (process_statement env m).state.m_config_block = m.members.m_config_block ∧
      (process_statement env m).state.m_symtab = m.members.m_symtab ∧
      (process_statement env m).state.m_file_count = m.members.m_file_count ∧
      (process_statement env m).state.m_line_number = m.members.m_line_number + 1 ∧
      (process_statement env m).state.m_last_line = raw ∧
      (process_statement env m).state.m_token_state = 0 ∧
      (process_statement env m).machine.current = { m.current with in_stream := rest } ∧
      (process_statement env m).machine.callers = m.callers) ∧
    (∀ (tail : std_string),
      (tail = [] ∨ ∃ d extra, tail = d :: extra ∧ (d = ' ' ∨ d = '\t' ∨ d = '=')) →
      norm_line raw = kw_endblock ++ tail → norm_line raw ≠ [] ∧ first_word raw = kw_endblock) ∧
    (norm_line raw ≠ [] → first_word raw = kw_endblock →
      (m.members.m_block_stack = [] →
        (process_statement env m).outcome = .raised (.config_file_not_parsed m.current.file_path
          (.endblock_without_block m.current.file_path (m.members.m_line_number + 1))) ∧
        (process_statement env m).state.m_parse_error = m.members.m_parse_error ∧
        (process_statement env m).state.m_logger = m.members.m_logger ∧
        (process_statement env m).state.m_config_block = m.members.m_config_block ∧
        (process_statement env m).state.m_symtab = m.members.m_symtab) ∧
      (∀ (below : List block_context_t) (back : block_context_t),
        m.members.m_block_stack = below ++ [back] →
        (process_statement env m).outcome = .unfinished ∧
        (process_statement env m).state.m_current_context = back.m_previous_context ∧
        (process_statement env m).state.m_block_stack = below ∧
        (process_statement env m).state.m_parse_error = m.members.m_parse_error ∧
        (process_statement env m).state.m_logger = m.members.m_logger ∧
        (process_statement env m).state.m_config_block = m.members.m_config_block ∧
        (process_statement env m).state.m_symtab = m.members.m_symtab ∧
        (process_statement env m).state.m_file_count = m.members.m_file_count ∧
        (process_statement env m).state.m_line_number = m.members.m_line_number + 1 ∧
        (process_statement env m).state.m_last_line = raw ∧
        (process_statement env m).state.m_token_state = 0 ∧
        (process_statement env m).machine.current = { m.current with in_stream := rest } ∧
        (process_statement env m).machine.callers = m.callers)) ∧
    (∀ (m1 : machine) (str : istream), m1.members.m_token_state = 0 →
      (∀ (l : std_string) (rest1 : istream), str = l :: rest1 →
        get_token m1.members str = get_token { m1.members with m_token_line := [] } str) ∧
      (str = [] → ∃ q, get_token m1.members str = .ok (⟨.TK_EOF, []⟩, q, []) ∧
        same_session m1.members q ∧ q.m_token_state = 0 ∧
        q.m_line_number = m1.members.m_line_number ∧
        q.m_last_line = m1.members.m_last_line)) := by
  refine ⟨?_, ?_, ?_, ?_⟩
  · intro s sp name tail hs hsp hne hname hhead htail hraw
    have hnn : norm_line raw ≠ [] := by rw [hraw]; simp [kw_block]
    have g1 := first_token_of_line m.members h0 raw rest hnn
    have hb : lhs_boundary (norm_line raw) = kw_block.length := by
      rw [hraw]
      exact lhs_boundary_blank kw_block s _ (by decide) hs
    have hfw : first_word raw = kw_block := by
      unfold first_word
      rw [hb, hraw]
      exact List.take_left' rfl
    obtain ⟨c, r, rfl⟩ := List.exists_cons_of_ne_nil hne
    have hss : isspace s = true := by rcases hs with rfl | rfl <;> decide
    have hdrop : ltrim ((norm_line raw).drop (lhs_boundary (norm_line raw))) =
        (c :: r) ++ tail := by
      rw [hb, hraw, List.drop_left' rfl]
      have := ltrim_spaces (s :: sp) c (r ++ tail)
        (fun x hx => by
          rcases List.mem_cons.mp hx with rfl | hx
          · exact hss
          · exact hsp x hx)
        (hname c (by simp)).1
      simpa using this
    rw [hfw, hdrop] at g1
    obtain ⟨q1, hq1⟩ : ∃ q1 : priv, q1 =
        { m.members with
          m_line_number := m.members.m_line_number + 1
          m_last_line := raw
          m_token_line := (c :: r) ++ tail
          m_token_state := if ¬ isalnum (char_at ((c :: r) ++ tail) 0) then 2 else 1 } :=
      ⟨_, rfl⟩
    rw [← hq1] at g1
    have hq1s : same_session m.members q1 := by rw [hq1]; simp [same_session]
    have hq1b : q1.m_token_line = (c :: r) ++ tail := by rw [hq1]
    have hq1t : q1.m_token_state =
        if ¬ isalnum (char_at ((c :: r) ++ tail) 0) then 2 else 1 := by rw [hq1]
    have hq1l : q1.m_line_number = m.members.m_line_number + 1 := by rw [hq1]
    have hq1r : q1.m_last_line = raw := by rw [hq1]
    have hq1n : q1.m_token_state ≠ 0 := by
      rw [hq1t]
      split <;> decide
    obtain ⟨q2, g2⟩ := get_token_second_word q1 rest (c :: r) tail hq1b hq1t hne hname hhead
      htail
    obtain ⟨_, n2, n3⟩ := get_token_no_read g2 hq1n
    obtain ⟨c1, c2, c3, c4, c5, c6, c7⟩ := same_session_trans hq1s (get_token_session g2)
    have e0 : (⟨.TK_LHS, kw_block⟩ : token_t).type ≠ .TK_EOF := by decide
    have e1 : kw_block ≠ kw_include := by decide
    have hstep : process_statement env m = .running
        ⟨flush_line { q2 with
            m_current_context := q2.m_current_context ++ ((c :: r) ++ block_sep),
            m_block_stack := q2.m_block_stack ++
              [⟨c :: r, m.current.file_path, q2.m_line_number, q2.m_current_context⟩] },
          { m.current with in_stream := rest }, m.callers⟩ := by
      simp only [process_statement, hstream, g1]
      rw [if_neg e0, if_neg e1, if_pos trivial]
      simp only [g2]
      simp
    rw [hstep]
    simp only [status.outcome, status.state, status.machine, flush_line]
    rw [c1, c2, c3, c4, c5, c6, c7, n2, n3, hq1l, hq1r]
    refine ⟨?_, ?_, ?_, ?_, ?_, ?_, ?_, ?_, ?_, ?_, ?_, ?_, ?_⟩ <;> trivial
  · intro tail htail hraw
    have hnn : norm_line raw ≠ [] := by rw [hraw]; simp [kw_endblock]
    refine ⟨hnn, ?_⟩
    unfold first_word
    rw [hraw]
    rcases htail with rfl | ⟨d, extra, rfl, hd⟩
    · decide
    · rw [lhs_boundary_key kw_endblock d extra (by decide) (by decide) hd]
      exact List.take_left' rfl
  · intro hnn hfw
    have g1 := first_token_of_line m.members h0 raw rest hnn
    rw [hfw] at g1
    have e0 : (⟨.TK_LHS, kw_endblock⟩ : token_t).type ≠ .TK_EOF := by decide
    have e1 : kw_endblock ≠ kw_include := by decide
    have e2 : kw_endblock ≠ kw_block := by decide
    constructor
    · intro hst
      simp only [process_statement, hstream, g1]
      rw [if_neg e0, if_neg e1, if_neg e2, if_pos trivial]
      simp only [flush_line, hst, List.getLast?_nil]
      exact ⟨rfl, rfl, rfl, rfl, rfl⟩
    · intro below back hst
      simp only [process_statement, hstream, g1]
      rw [if_neg e0, if_neg e1, if_neg e2, if_pos trivial]
      simp only [flush_line, hst]
      simp [status.outcome, status.state, status.machine]
  · intro m1 str h1
    exact initial_state_discards_buffer m1.members h1 str

theorem C32_text_after_a_directive_is_discarded_witness :
    (process_statement (env_one_file ["block A b = c", "x = 1", "endblock = 5"])
      (machine_at_start ["block A b = c", "x = 1", "endblock = 5"])).state.m_current_context =
        "A:".toList ∧
    (process_statement (env_one_file ["block A b = c", "x = 1", "endblock = 5"])
      (parse_config (env_one_file ["block A b = c", "x = 1", "endblock = 5"]) 2
        "a.cfg".toList).machine).state.m_block_stack = [] ∧
    (parse_config (env_one_file ["block A b = c", "x = 1", "endblock = 5"]) 4
      "a.cfg".toList).outcome = .normal ∧
    (parse_config (env_one_file ["block A b = c", "x = 1", "endblock = 5"]) 4
      "a.cfg".toList).state.m_config_block = [("A:x".toList, "1".toList)] ∧
    (parse_config (env_one_file ["block A", "x = 1", "endblock"]) 4
      "a.cfg".toList).state.m_config_block = [("A:x".toList, "1".toList)] := by
  have h1 := ((C32_text_after_a_directive_is_discarded
    (env_one_file ["block A b = c", "x = 1", "endblock = 5"])
    (machine_at_start ["block A b = c", "x = 1", "endblock = 5"])
    "block A b = c".toList ["x = 1".toList, "endblock = 5".toList] (by decide) (by decide)).1
    ' ' [] "A".toList " b = c".toList (Or.inl rfl) (by decide) (by decide) (by decide)
    (by decide) (Or.inr ⟨' ', "b = c".toList, rfl, Or.inl rfl⟩) (by decide)).2.1
  have h2 := (((C32_text_after_a_directive_is_discarded
    (env_one_file ["block A b = c", "x = 1", "endblock = 5"])
    (parse_config (env_one_file ["block A b = c", "x = 1", "endblock = 5"]) 2
      "a.cfg".toList).machine
    "endblock = 5".toList [] (by decide) (by decide)).2.2.1 (by decide) (by decide)).2
    [] ⟨"A".toList, "a.cfg".toList, 1, []⟩ (by decide)).2.2.1
  exact ⟨h1, h2, by decide, by decide, by decide⟩

/-- C33: the block context is shared across `include` boundaries. At every
loop head of a parse by a new parser: (1) an `include` statement leaves the
context and the block stack as they are, whether the file is entered or cannot
be opened; (2) the end of an included file (an activation with a suspended
caller) resumes the caller with the context and the block stack as they are,
and reports nothing: blocks left open are not examined there; (3) an
assignment `k = v` is stored under the current context followed by `k`,
whatever activation opened the blocks; (4) an `endblock` pops the innermost
frame and restores its context whenever the stack is not empty, whatever file
the frame names. So a block that the including file opened prefixes the keys
of the included file and can be closed there, and a block that the included
file leaves open stays open in the including file. -/
theorem C33_block_context_is_shared_across_includes (env : environment) (fuel : Nat)
    (path : std_string) (m : machine) (hreach : parse_config env fuel path = .running m) :
    (∀ (skipped : istream) (raw : std_string) (rest : istream) (d : Char) (r : std_string),
      m.current.in_stream = skipped ++ raw :: rest → (∀ l ∈ skipped, norm_line l = []) →
      norm_line raw = kw_include ++ d :: r → (d = ' ' ∨ d = '\t') →
      (process_statement env m).state.m_current_context = m.members.m_current_context ∧
      (process_statement env m).state.m_block_stack = m.members.m_block_stack) ∧
    (∀ (g : activation × Int) (cs : List (activation × Int)), m.callers = g :: cs →
      (∀ l ∈ m.current.in_stream, norm_line l = []) →
      (process_statement env m).outcome = .unfinished ∧
      (process_statement env m).machine.current = g.1 ∧
      (process_statement env m).machine.callers = cs ∧
      (process_statement env m).state.m_current_context = m.members.m_current_context ∧
      (process_statement env m).state.m_block_stack = m.members.m_block_stack ∧
      (process_statement env m).state.m_parse_error = m.members.m_parse_error ∧
      (process_statement env m).state.m_logger = m.members.m_logger) ∧
    (∀ (k v : std_string),
      (read_tokens 3 m.members m.current.in_stream).1 =
        [⟨.TK_LHS, k⟩, ⟨.TK_ASSIGN, op_assign⟩, ⟨.TK_RHS, v⟩] → ¬ is_directive k →
      (process_statement env m).outcome = .unfinished ∧
      (process_statement env m).state.m_config_block = m.members.m_config_block ++
        [(m.members.m_current_context ++ k,
          env.expand_token m.members.m_config_block m.members.m_symtab v)]) ∧
    (∀ (below : List block_context_t) (back : block_context_t),
      (read_tokens 1 m.members m.current.in_stream).1 = [⟨.TK_LHS, kw_endblock⟩] →
      m.members.m_block_stack = below ++ [back] →
      (process_statement env m).outcome = .unfinished ∧
      (process_statement env m).state.m_current_context = back.m_previous_context ∧
      (process_statement env m).state.m_block_stack = below) := by
  have hinv := status_inv_parse_config env fuel path
  rw [hreach] at hinv
  obtain ⟨_, _, hcount, h0, _⟩ := hinv
  refine ⟨?_, ?_, ?_, ?_⟩
  · intro skipped raw rest d r hstream hskip hraw hd
    obtain ⟨q, hs, hstep⟩ := include_step env m h0 skipped raw rest d r hstream hskip hraw hd
    obtain ⟨c1, c2, _⟩ := hs
    rw [hstep]
    unfold process_file_enter
    split
    · exact ⟨c2, c1⟩
    · exact ⟨c2, c1⟩
  · intro g cs hcallers hblank
    obtain ⟨q, hq, hs, _, _⟩ := get_token_all_blank m.current.in_stream m.members h0 hblank
    obtain ⟨c1, c2, c3, c4, _, _, c7⟩ := hs
    have hne : q.m_file_count ≠ 1 := by
      rw [c3, hcount, hcallers]
      simp only [List.length_cons, Nat.cast_add, Nat.cast_one]
      omega
    have hstep : process_statement env m =
        process_file_return { q with m_file_count := q.m_file_count - 1 } m.callers := by
      simp only [process_statement, hq]
      rw [if_pos trivial]
      exact process_eof_nested q _ _ hne
    rw [hstep, hcallers]
    simp only [process_file_return, status.outcome, status.machine, status.state]
    exact ⟨trivial, trivial, trivial, c2, c1, c4, c7⟩
  · intro k v htok hk
    obtain ⟨m1, hstep, hcfg, _⟩ := entry_step env m k v htok hk
    rw [hstep]
    exact ⟨rfl, hcfg⟩
  · intro below back htok hst
    obtain ⟨m1, hstep, hctx, hstack, _⟩ := endblock_step env m below back htok hst
    rw [hstep]
    exact ⟨rfl, hctx, hstack⟩

theorem C33_block_context_is_shared_across_includes_witness :
    (parse_config (env_files [("/d/a.cfg", ["block A", "include b.cfg", "y = 2"]),
        ("/d/b.cfg", ["x = 1", "endblock", "block B"])]) 3
      "/d/a.cfg".toList).state.m_config_block = [("A:x".toList, "1".toList)] ∧
    (parse_config (env_files [("/d/a.cfg", ["block A", "include b.cfg", "y = 2"]),
        ("/d/b.cfg", ["x = 1", "endblock", "block B"])]) 4
      "/d/a.cfg".toList).outcome = .unfinished ∧
    (parse_config (env_files [("/d/a.cfg", ["block A", "include b.cfg", "y = 2"]),
        ("/d/b.cfg", ["x = 1", "endblock", "block B"])]) 4
      "/d/a.cfg".toList).state.m_block_stack = [] ∧
    (parse_config (env_files [("/d/a.cfg", ["block A", "include b.cfg", "y = 2"]),
        ("/d/b.cfg", ["x = 1", "endblock", "block B"])]) 7
      "/d/a.cfg".toList).state.m_config_block =
        [("A:x".toList, "1".toList), ("B:y".toList, "2".toList)] ∧
    (parse_config (env_files [("/d/a.cfg", ["block A", "include b.cfg", "y = 2"]),
        ("/d/b.cfg", ["x = 1", "endblock", "block B"])]) 8
      "/d/a.cfg".toList).state.m_logger =
        [.unclosed_blocks [("B".toList, "/d/b.cfg".toList, 3)]] ∧
    (process_statement (env_files [("/d/a.cfg", ["block A", "include b.cfg", "y = 2"]),
        ("/d/b.cfg", ["x = 1", "endblock", "block B"])])
      (parse_config (env_files [("/d/a.cfg", ["block A", "include b.cfg", "y = 2"]),
        ("/d/b.cfg", ["x = 1", "endblock", "block B"])]) 5
        "/d/a.cfg".toList).machine).state.m_current_context =
      (parse_config (env_files [("/d/a.cfg", ["block A", "include b.cfg", "y = 2"]),
        ("/d/b.cfg", ["x = 1", "endblock", "block B"])]) 5
        "/d/a.cfg".toList).machine.members.m_current_context := by
  have h := ((C33_block_context_is_shared_across_includes
    (env_files [("/d/a.cfg", ["block A", "include b.cfg", "y = 2"]),
        ("/d/b.cfg", ["x = 1", "endblock", "block B"])]) 5 "/d/a.cfg".toList
    (parse_config (env_files [("/d/a.cfg", ["block A", "include b.cfg", "y = 2"]),
        ("/d/b.cfg", ["x = 1", "endblock", "block B"])]) 5 "/d/a.cfg".toList).machine
    (by decide)).2.1
    (⟨"/d/a.cfg".toList, "/d".toList, ["y = 2".toList]⟩, 2) [] (by decide) (by decide)).2.2.2.1
  exact ⟨by decide, by decide, by decide, by decide, by decide, h⟩

/-- C34 (amended): termination and progress. (1) `process_file` on a path that
cannot be opened raises at once. (2) On a file of `n` physical lines none of
which has `include` as its first token, `process_file` ends, by returning or
raising, within `n + 1` iterations of its loop, whatever the state of the
parser it is called on. (3) Between calls the tokenizer is in one of its four
states and, in the LHS state, its buffer starts with an alphanumeric
character. Every call of `get_token` that returns keeps this and, unless it
returns EOF from a stream that was already at its end, makes progress: it
takes at least one physical line off the stream, or leaves the buffer shorter,
or moves the state forward in the order LHS, OPERATOR, RHS, INIT. (4) The LHS
state is entered only from the initial state or the LHS state, and only by a
call that has cut a non-empty LHS token off the buffer. (5) Every iteration of
the loop starts with a call of `get_token`: if that call raises, so does the
iteration; and an iteration that continues the loop has taken at least one
physical line off the stream of the running activation, or returned into a
suspended caller, or suspended the running activation at an `include`; the
tokenizer is then in its initial state again. -/
theorem C34_termination_and_progress (env : environment) :
    (∀ (p : priv) (path : std_string), env.ifstream path = none →
      (process_file env 0 p path).outcome = .raised (.config_file_not_found path)) ∧
    (∀ (p : priv) (path : std_string) (lines : istream) (fuel : Nat),
      env.ifstream path = some lines → (∀ l ∈ lines, first_word l ≠ kw_include) →
      lines.length + 1 ≤ fuel →
      (process_file env fuel p path).outcome ≠ .unfinished ∧
      process_file env fuel p path = process_file env (lines.length + 1) p path) ∧
    (∀ (p : priv) (str : istream) (t : token_t) (q : priv) (str1 : istream),
      tokenizer_ok p → get_token p str = .ok (t, q, str1) →
      tokenizer_ok q ∧
      (t.type ≠ .TK_EOF ∨ str ≠ [] →
        str1.length < str.length ∨ q.m_token_line.length < p.m_token_line.length ∨
          state_rank p.m_token_state < state_rank q.m_token_state)) ∧
    (∀ (p : priv) (str : istream) (t : token_t) (q : priv) (str1 : istream),
      tokenizer_ok p → get_token p str = .ok (t, q, str1) → q.m_token_state = 1 →
      (p.m_token_state = 0 ∨ p.m_token_state = 1) ∧ t.type = .TK_LHS ∧ t.value ≠ [] ∧
        isalnum (char_at q.m_token_line 0) = true) ∧
    (∀ (m : machine) (e : exception) (p1 : priv),
      get_token m.members m.current.in_stream = .error (e, p1) →
      process_statement env m = .thrown e p1) ∧
    (∀ (m m1 : machine), m.members.m_token_state = 0 →
      process_statement env m = .running m1 →
      m1.members.m_token_state = 0 ∧
      ((m1.callers = m.callers ∧
          ∃ c, c ≠ [] ∧ m.current.in_stream = c ++ m1.current.in_stream) ∨
        (∃ g, m.callers = g :: m1.callers) ∨
        (∃ raw g, raw ∈ m.current.in_stream ∧ first_word raw = kw_include ∧
          m1.callers = g :: m.callers))) := by
  refine ⟨?_, ?_, ?_, ?_, ?_, ?_⟩
  · intro p path hnone
    simp [process_file, run, process_file_enter, hnone, status.outcome]
  · intro p path lines fuel hopen hni hfuel
    obtain ⟨m0, hm0⟩ : ∃ m0 : machine, m0 =
        ⟨{ p with m_token_state := 0, m_token_line := [], m_line_number := 0,
                  m_file_count := p.m_file_count + 1 },
          ⟨path, env.parent_path path, lines⟩, []⟩ := ⟨_, rfl⟩
    have henter : process_file_enter env p path [] = .running m0 := by
      rw [hm0]
      simp [process_file_enter, hopen]
    have f1 : m0.callers = [] := by rw [hm0]
    have f2 : m0.members.m_token_state = 0 := by rw [hm0]
    have f3 : m0.current.in_stream = lines := by rw [hm0]
    have hend := run_without_include env lines.length m0 f1 f2 (by rw [f3]; exact hni)
      (by rw [f3])
    rw [← henter] at hend
    obtain ⟨k, rfl⟩ := Nat.exists_eq_add_of_le hfuel
    have heq := run_finished env (lines.length + 1) k _ hend
    unfold process_file
    rw [heq]
    exact ⟨hend, rfl⟩
  · intro p str t q str1 hp h
    exact get_token_progress hp h
  · intro p str t q str1 hp h h1
    exact get_token_enters_lhs hp h h1
  · intro m e p1 h
    simp only [process_statement, h]
  · intro m m1 h0 h
    exact process_statement_progress h0 h

/-- C34 as stated fails for a call of `get_token` on a stream that is at its
end: on the empty file the first call returns EOF and leaves the parser as it
was. No physical line is consumed (there is none), the buffer is empty before
and after, and the state is the initial one before and after. The loop ends at
that token. -/
theorem C34_counterexample :
    get_token priv_new [] = .ok (⟨.TK_EOF, []⟩, priv_new, []) ∧
    (machine_at_start []).current.in_stream = [] ∧
    get_token (machine_at_start []).members (machine_at_start []).current.in_stream =
      .ok (⟨.TK_EOF, []⟩, (machine_at_start []).members, []) ∧
    state_rank (machine_at_start []).members.m_token_state = 4 ∧
    (parse_config (env_one_file []) 1 "a.cfg".toList).outcome = .normal := by
  decide

theorem C34_termination_and_progress_witness :
    (parse_config (env_one_file ["a = 1", "foo", "block b", "", "c := 2 # note"]) 6
      "a.cfg".toList).outcome ≠ .unfinished ∧
    (parse_config (env_one_file ["a = 1", "foo", "block b", "", "c := 2 # note"]) 6
      "a.cfg".toList).outcome =
        .raised (.config_file_not_parsed "a.cfg".toList .errors_in_config_file) ∧
    (parse_config (env_one_file ["a = 1", "foo", "block b", "", "c := 2 # note"]) 4
      "a.cfg".toList).outcome = .unfinished :=
  ⟨((C34_termination_and_progress
      (env_one_file ["a = 1", "foo", "block b", "", "c := 2 # note"])).2.1 priv_new
      "a.cfg".toList
      ["a = 1".toList, "foo".toList, "block b".toList, "".toList, "c := 2 # note".toList] 6
      (by decide) (by decide) (by decide)).1,
    by decide, by decide⟩

end kwiver.vital
